import Mathlib

/-!
# Fiwix page cache and page-frame allocator (`mm/page.c`)

A shallow embedding of `mm/page.c`: the frame table, the circular free list,
the chained hash index and the operations on them, followed by the properties
proved about them.

Memory model.  A `struct page *` is the index of the frame in `page_table`
(`NULL` is `none`); the descriptor fields are kept one map per field, so
`pg->count` reads `s.count pg`.  A `struct inode *` is an address into the map
`inodes`.  Routines that can stop without a result (`PANIC`, a `NULL`
dereference, a division by zero, a loop that outruns its bound in the model)
return in `Except Fault`.

The blocking operations of the UNIX-domain sockets (`net/unix.c`:
`unix_connect`, `unix_read`, `unix_write`) are embedded in a section of their
own, over a memory `Net` of sockets.
-/

namespace Fiwix

/-! ## Constants declared outside `mm/page.c` -/

/-- Modelled from the spec: the page size in bytes (`PAGE_SIZE`, declared in a
header that is not part of the sources; "typically 4 KiB"). -/
def PAGE_SIZE : Nat := 4096

/-- Modelled from the spec: `PAGE_SHIFT`, the base-2 logarithm of `PAGE_SIZE`
(declared in a header that is not part of the sources). -/
def PAGE_SHIFT : Nat := 12

/-- Modelled from the spec: `PAGE_MASK`, the mask that clears the in-page bits
of a 32-bit offset (declared in a header that is not part of the sources). -/
def PAGE_MASK : Nat := 2 ^ 32 - PAGE_SIZE

/-- Modelled from the spec: the value of the reservation flag `PAGE_RESERVED`
(declared in a header that is not part of the sources); only its being
non-zero is used. -/
def PAGE_RESERVED : Nat := 0x100

/-- Modelled from the spec: `PROT_WRITE` of `fiwix/mman.h` (not part of the
sources). -/
def PROT_WRITE : Nat := 2

/-- Modelled from the spec: `MAP_SHARED` of `fiwix/mman.h` (not part of the
sources). -/
def MAP_SHARED : Nat := 1

/-- The value of `sizeof(unsigned int)` on the 32-bit target. -/
def sizeof_uint : Nat := 4

/-- Ways in which a routine ends without returning. -/
inductive Fault where
  /-- `PANIC(...)` was reached. -/
  | halted
  /-- a `NULL` pointer was dereferenced. -/
  | null_deref
  /-- the right operand of `%` was zero. -/
  | div_zero
  /-- a loop ran longer than the bound given to the model. -/
  | out_of_fuel
  deriving DecidableEq, Repr

/-- The fields of `struct inode` that `mm/page.c` reads. -/
structure Inode where
  /-- `i->inode`, the inode number -/
  inode : Nat
  /-- `i->dev` -/
  dev : Nat
  /-- `i->i_size` -/
  i_size : Nat
  /-- `i->sb->s_blocksize` -/
  s_blocksize : Nat
  deriving DecidableEq, Repr

/-- The counters of `kstat` that `mm/page.c` maintains. -/
structure Kstat where
  free_pages : Int
  cached : Int
  kernel_reserved : Int
  physical_reserved : Int
  total_mem_pages : Int
  deriving DecidableEq, Repr

/-- The memory `mm/page.c` works on: the frame table (one map per field of
`struct page`), the free-list head, the hash table, their byte sizes, the
counters, the inode objects and the bytes of RAM. -/
@[ext] structure State where
  /-- `page_table[n].page` -/
  page : Nat → Nat
  /-- `page_table[n].count` -/
  count : Nat → Int
  /-- `page_table[n].flags` -/
  flags : Nat → Nat
  /-- `page_table[n].inode` -/
  inode : Nat → Option Nat
  /-- `page_table[n].offset` -/
  offset : Nat → Nat
  /-- `page_table[n].data`, a kernel-virtual address -/
  data : Nat → Nat
  /-- `page_table[n].locked` -/
  locked : Nat → Nat
  /-- `page_table[n].prev_hash` -/
  prev_hash : Nat → Option Nat
  /-- `page_table[n].next_hash` -/
  next_hash : Nat → Option Nat
  /-- `page_table[n].prev_free` -/
  prev_free : Nat → Option Nat
  /-- `page_table[n].next_free` -/
  next_free : Nat → Option Nat
  page_head : Option Nat
  page_hash_table : Nat → Option Nat
  /-- size of `page_table` in bytes -/
  page_table_size : Nat
  /-- size of `page_hash_table` in bytes -/
  page_hash_table_size : Nat
  kstat : Kstat
  /-- the inode objects, by address -/
  inodes : Nat → Inode
  /-- the bytes of memory, by address -/
  mem : Nat → Nat

/-- What the platform and the rest of the kernel fix for `mm/page.c`. -/
structure Machine where
  /-- `sizeof(struct page)` -/
  sizeof_page : Nat
  KERNEL_ENTRY_ADDR : Nat
  /-- `V2P(_last_data_addr)` -/
  last_data_addr : Nat
  /-- `P2V(addr)` is `addr + PAGE_OFFSET` -/
  PAGE_OFFSET : Nat
  addr_in_bios_map : Nat → Bool

/-- Store `v` at index `a` of a field map or table. -/
def upd {β : Type} (f : Nat → β) (a : Nat) (v : β) : Nat → β :=
  fun x => if x = a then v else f x

/-- Follow a pointer that the code dereferences. -/
def deref (p : Option Nat) : Except Fault Nat :=
  match p with
  | some f => .ok f
  | none => .error .null_deref

/-! ## The macros -/

/-- `NR_PAGES`: `page_table_size / sizeof(struct page)`. -/
def NR_PAGES (m : Machine) (s : State) : Nat := s.page_table_size / m.sizeof_page

/-- `NR_PAGE_HASH` on its own: `page_hash_table_size / sizeof(unsigned int)`,
the number of buckets. -/
def NR_PAGE_HASH (s : State) : Nat := s.page_hash_table_size / sizeof_uint

/-- `PAGE_HASH(inode, offset)`.  The body of `NR_PAGE_HASH` carries no
parentheses, so the macro expands to
`((inode ^ offset) % page_hash_table_size / sizeof(unsigned int))`, in which
`%` and `/` associate to the left. -/
def PAGE_HASH (s : State) (inode offset : Nat) : Except Fault Nat :=
  if s.page_hash_table_size = 0 then .error .div_zero
  else .ok ((inode ^^^ offset) % s.page_hash_table_size / sizeof_uint)

/-! ## Hash index -/

/-- `insert_to_hash(pg)`. -/
def insert_to_hash (pg : Nat) (s : State) : Except Fault State := do
  let ino ← deref (s.inode pg)
  let i ← PAGE_HASH s (s.inodes ino).inode (s.offset pg)
  let s4 ← match s.page_hash_table i with
    | none =>
      let s1 := { s with page_hash_table := upd s.page_hash_table i (some pg) }
      let s2 := { s1 with next_hash := upd s1.next_hash pg none }
      pure { s2 with prev_hash := upd s2.prev_hash pg none }
    | some h =>
      let s1 := { s with prev_hash := upd s.prev_hash pg none }
      let s2 := { s1 with next_hash := upd s1.next_hash pg (some h) }
      let s3 := { s2 with prev_hash := upd s2.prev_hash h (some pg) }
      pure { s3 with page_hash_table := upd s3.page_hash_table i (some pg) }
  pure { s4 with kstat := { s4.kstat with cached := s4.kstat.cached + ((PAGE_SIZE / 1024 : Nat) : Int) } }

/-- The statements of `remove_from_hash` under `if(*h == pg)`: unlink `pg`
from its neighbours on the chain, and from the bucket `i` when `at_head`
(that is, when `h == &page_hash_table[i]`). -/
def remove_from_hash_unlink (pg i : Nat) (at_head : Bool) (s : State) : State :=
  let s1 := { s with prev_hash := match s.next_hash pg with
                | some n => upd s.prev_hash n (s.prev_hash pg)
                | none => s.prev_hash }
  let s2 := { s1 with next_hash := match s1.prev_hash pg with
                | some p => upd s1.next_hash p (s1.next_hash pg)
                | none => s1.next_hash }
  let s3 := { s2 with page_hash_table :=
                if at_head then upd s2.page_hash_table i (s2.next_hash pg)
                else s2.page_hash_table }
  { s3 with kstat := { s3.kstat with cached := s3.kstat.cached - ((PAGE_SIZE / 1024 : Nat) : Int) } }

/-- The `while(*h)` loop of `remove_from_hash`: `cur` is `*h`, and `at_head`
tells whether `h` is still `&page_hash_table[i]`. -/
def remove_from_hash_loop (pg i : Nat) : Nat → Option Nat → Bool → State → Except Fault State
  | _, none, _, s => .ok s
  | 0, some _, _, _ => .error .out_of_fuel
  | fuel + 1, some c, at_head, s =>
    if c = pg then .ok (remove_from_hash_unlink pg i at_head s)
    else remove_from_hash_loop pg i fuel (s.next_hash c) false s

/-- `remove_from_hash(pg)`; `fuel` bounds the walk along the chain. -/
def remove_from_hash (fuel : Nat) (pg : Nat) (s : State) : Except Fault State :=
  match s.inode pg with
  | none => .ok s
  | some ino => do
    let i ← PAGE_HASH s (s.inodes ino).inode (s.offset pg)
    remove_from_hash_loop pg i fuel (s.page_hash_table i) true s

/-! ## Free list -/

/-- `remove_from_free_list(pg)`. -/
def remove_from_free_list (pg : Nat) (s : State) : Except Fault State := do
  let p ← deref (s.prev_free pg)
  let s1 := { s with next_free := upd s.next_free p (s.next_free pg) }
  let n ← deref (s1.next_free pg)
  let s2 := { s1 with prev_free := upd s1.prev_free n (s1.prev_free pg) }
  let s3 := { s2 with kstat := { s2.kstat with free_pages := s2.kstat.free_pages - 1 } }
  pure { s3 with page_head := if s3.page_head = some pg then s3.next_free pg else s3.page_head }

/-- The test `page_head == page_head->next_free` of `get_free_page`. -/
def free_list_empty (s : State) : Except Fault Bool := do
  let h ← deref s.page_head
  pure (decide (s.next_free h = some h))

/-- The part of `get_free_page` after the wait loop: take `page_head`. -/
def get_free_page_take (fuel : Nat) (s : State) : Except Fault (Option Nat × State) := do
  let pg ← deref s.page_head
  let s1 ← remove_from_free_list pg s
  let s2 ← remove_from_hash fuel pg s1
  let s3 := { s2 with count := upd s2.count pg 1 }
  let s4 := { s3 with inode := upd s3.inode pg none }
  let s5 := { s4 with offset := upd s4.offset pg 0 }
  pure (some pg, s5)

/-- `get_free_page()`.  `sleep` gives the memory found on return from
`sleep(&get_free_page, PROC_UNINTERRUPTIBLE)`, after the other processes ran;
the loop body runs at most once, since its second test is the loop test. -/
def get_free_page (sleep : State → State) (fuel : Nat) (s : State) :
    Except Fault (Option Nat × State) := do
  if ← free_list_empty s then
    let s1 := sleep s
    if ← free_list_empty s1 then
      pure (none, s1)
    else
      get_free_page_take fuel s1
  else
    get_free_page_take fuel s

/-- The statements of `search_page_hash` under the match test: take `pg` off
the free list if nobody holds it, count the new holder, return `pg`. -/
def search_page_hash_hit (pg : Nat) (s : State) : Except Fault (Option Nat × State) := do
  let s1 ← if s.count pg = 0 then remove_from_free_list pg s else pure s
  pure (some pg, { s1 with count := upd s1.count pg (s1.count pg + 1) })

/-- The `while(pg)` loop of `search_page_hash`. -/
def search_page_hash_loop (inode offset : Nat) :
    Nat → Option Nat → State → Except Fault (Option Nat × State)
  | _, none, s => .ok (none, s)
  | 0, some _, _ => .error .out_of_fuel
  | fuel + 1, some pg, s =>
    if s.inode pg = some inode ∧ s.offset pg = offset then
      search_page_hash_hit pg s
    else search_page_hash_loop inode offset fuel (s.next_hash pg) s

/-- `search_page_hash(inode, offset)`; `fuel` bounds the walk along the chain. -/
def search_page_hash (fuel : Nat) (inode offset : Nat) (s : State) :
    Except Fault (Option Nat × State) := do
  let i ← PAGE_HASH s (s.inodes inode).inode offset
  search_page_hash_loop inode offset fuel (s.page_hash_table i) s

/-- `valid_page(page)`; `page` is unsigned, so `page >= 0` always holds. -/
def valid_page (m : Machine) (s : State) (page : Nat) : Bool :=
  decide (0 ≤ page ∧ page < NR_PAGES m s)

/-- The block `if(!page_head) { ... } else { ... }` that `release_page` and
`page_init` both contain, word for word: link `pg` in front of `page_head`,
that is at the tail of the circular list. -/
def link_before_head (pg : Nat) (s : State) : Except Fault State :=
  match s.page_head with
  | none =>
    let a := { s with next_free := upd s.next_free pg (some pg) }
    let b := { a with prev_free := upd a.prev_free pg (some pg) }
    .ok { b with page_head := some pg }
  | some h =>
    let a := { s with next_free := upd s.next_free pg (some h) }
    let b := { a with prev_free := upd a.prev_free pg (a.prev_free h) }
    match b.prev_free h with
    | none => .error .null_deref
    | some t =>
      let c := { b with next_free := upd b.next_free t (some pg) }
      .ok { c with prev_free := upd c.prev_free h (some pg) }

/-- `release_page(page)`. -/
def release_page (m : Machine) (page : Nat) (s : State) : Except Fault State :=
  if !valid_page m s page then .error .halted
  else
    let pg := page
    let s1 := { s with count := upd s.count pg (s.count pg - 1) }
    if s1.count pg > 0 then .ok s1
    else
      match link_before_head pg s1 with
      | .error e => .error e
      | .ok s2 =>
        let s3 := { s2 with page_head := if s2.inode pg = none then some pg else s2.page_head }
        .ok { s3 with kstat := { s3.kstat with free_pages := s3.kstat.free_pages + 1 } }

/-! ## Filling a frame -/

/-- A block-device driver as `bread_page` sees it: the result of
`get_device(BLK_DEV, dev)`. -/
structure Device where
  /-- `d->fsop` is not `NULL` -/
  has_fsop : Bool
  /-- `d->fsop->read_block` is not `NULL` -/
  has_read_block : Bool

/-- The collaborators of `bread_page`, which are not part of `mm/page.c`:
the device table, the block mapping of the inode layer and the buffer cache.
A buffer is given by its bytes (`buf->data[k]`). -/
structure Env where
  /-- `get_device(BLK_DEV, dev)` -/
  get_device : Nat → Option Device
  /-- `bmap(i, offset, FOR_READING)` -/
  bmap : Nat → Nat → Int
  /-- `get_dirty_buffer(dev, block, blksize)` -/
  get_dirty_buffer : Nat → Int → Nat → Option (Nat → Nat)
  /-- `d->fsop->read_block(dev, block, dst, blksize)`: its return value and the
  bytes it stores at `dst` -/
  read_block : Nat → Int → Nat → Int × (Nat → Nat)
  /-- `bread(dev, block, blksize)` -/
  bread : Nat → Int → Nat → Option (Nat → Nat)

/-- `memcpy_b(dst, src, n)` with the source given by its bytes. -/
def memcpy_b (s : State) (dst : Nat) (src : Nat → Nat) (n : Nat) : State :=
  { s with mem := fun a => if dst ≤ a ∧ a < dst + n then src (a - dst) else s.mem a }

/-- `memset_b(dst, c, n)`. -/
def memset_b (s : State) (dst : Nat) (c : Nat) (n : Nat) : State :=
  { s with mem := fun a => if dst ≤ a ∧ a < dst + n then c else s.mem a }

/-- The first `while(size_read < PAGE_SIZE)` loop of `bread_page` (read-only or
shared mapping).  The Boolean tells whether the loop ran to its end (`true`)
or left through `return 1` (`false`). -/
def bread_page_loop_cached (e : Env) (pg i blksize : Nat) :
    Nat → Nat → Nat → State → Except Fault (Bool × State)
  | fuel, size_read, offset, s =>
    if size_read < PAGE_SIZE then
      match fuel with
      | 0 => .error .out_of_fuel
      | fuel + 1 =>
        let block := e.bmap i offset
        if block < 0 then .ok (false, s)
        else if block ≠ 0 then
          match e.get_dirty_buffer (s.inodes i).dev block blksize with
          | none =>
            let r := e.read_block (s.inodes i).dev block blksize
            let s1 := memcpy_b s (s.data pg + size_read) r.2 blksize
            if r.1 < 0 then .ok (false, s1)
            else bread_page_loop_cached e pg i blksize fuel (size_read + blksize) (offset + blksize) s1
          | some buf =>
            let s1 := memcpy_b s (s.data pg + size_read) buf blksize
            bread_page_loop_cached e pg i blksize fuel (size_read + blksize) (offset + blksize) s1
        else
          let s1 := memset_b s (s.data pg + size_read) 0 blksize
          bread_page_loop_cached e pg i blksize fuel (size_read + blksize) (offset + blksize) s1
    else .ok (true, s)

/-- The second `while(size_read < PAGE_SIZE)` loop of `bread_page` (private
writable mapping). -/
def bread_page_loop_private (e : Env) (pg i blksize : Nat) :
    Nat → Nat → Nat → State → Except Fault (Bool × State)
  | fuel, size_read, offset, s =>
    if size_read < PAGE_SIZE then
      match fuel with
      | 0 => .error .out_of_fuel
      | fuel + 1 =>
        let block := e.bmap i offset
        if block < 0 then .ok (false, s)
        else if block ≠ 0 then
          match e.bread (s.inodes i).dev block blksize with
          | none => .ok (false, s)
          | some buf =>
            let s1 := memcpy_b s (s.data pg + size_read) buf blksize
            bread_page_loop_private e pg i blksize fuel (size_read + blksize) (offset + blksize) s1
        else
          bread_page_loop_private e pg i blksize fuel (size_read + blksize) (offset + blksize) s
    else .ok (true, s)

/-- `bread_page(pg, i, offset, prot, flags)`; the result is the value returned
(0 or 1) and the memory it leaves. -/
def bread_page (e : Env) (fuel : Nat) (pg i offset prot flags : Nat) (s : State) :
    Except Fault (Nat × State) :=
  let blksize := (s.inodes i).s_blocksize
  match e.get_device (s.inodes i).dev with
  | none => .ok (1, s)
  | some d =>
    if !d.has_fsop || !d.has_read_block then .ok (1, s)
    else
      let s1 := { s with inode := upd s.inode pg (some i) }
      let s2 := { s1 with offset := upd s1.offset pg offset }
      if prot &&& PROT_WRITE = 0 ∨ flags &&& MAP_SHARED ≠ 0 then do
        let r ← bread_page_loop_cached e pg i blksize fuel 0 offset s2
        if r.1 then
          let s3 ← insert_to_hash pg r.2
          pure (0, s3)
        else pure (1, r.2)
      else do
        let r ← bread_page_loop_private e pg i blksize fuel 0 offset s2
        if r.1 then
          let s3 := { r.2 with inode := upd r.2.inode pg none }
          pure (0, { s3 with offset := upd s3.offset pg 0 })
        else pure (1, r.2)

/-! ## Initialisation -/

/-- One turn of the `for` loop of `page_init`, for frame `n`. -/
def page_init_frame (m : Machine) (s : State) (n : Nat) : Except Fault State :=
  let s0 := { s with page := upd s.page n n }
  let addr := (n <<< PAGE_SHIFT) % 2 ^ 32
  if m.KERNEL_ENTRY_ADDR ≤ addr ∧ addr < m.last_data_addr then
    let s1 := { s0 with flags := upd s0.flags n PAGE_RESERVED }
    pure { s1 with kstat := { s1.kstat with kernel_reserved := s1.kstat.kernel_reserved + 1 } }
  else if !m.addr_in_bios_map addr then
    let s1 := { s0 with flags := upd s0.flags n PAGE_RESERVED }
    pure { s1 with kstat := { s1.kstat with physical_reserved := s1.kstat.physical_reserved + 1 } }
  else do
    let s1 := { s0 with data := upd s0.data n ((addr + m.PAGE_OFFSET) % 2 ^ 32) }
    let s2 ← link_before_head n s1
    pure { s2 with kstat := { s2.kstat with free_pages := s2.kstat.free_pages + 1 } }

/-- The two `memset_b` calls that open `page_init`: every descriptor of
`page_table` and every bucket of `page_hash_table` is zeroed.  The tables
hold `NR_PAGES` descriptors and `NR_PAGE_HASH` buckets; what lies beyond them
is not part of the tables and is left as it was. -/
def page_init_clear (m : Machine) (s : State) : State :=
  { s with
    page := fun n => if n < NR_PAGES m s then 0 else s.page n
    count := fun n => if n < NR_PAGES m s then 0 else s.count n
    flags := fun n => if n < NR_PAGES m s then 0 else s.flags n
    inode := fun n => if n < NR_PAGES m s then none else s.inode n
    offset := fun n => if n < NR_PAGES m s then 0 else s.offset n
    data := fun n => if n < NR_PAGES m s then 0 else s.data n
    locked := fun n => if n < NR_PAGES m s then 0 else s.locked n
    prev_hash := fun n => if n < NR_PAGES m s then none else s.prev_hash n
    next_hash := fun n => if n < NR_PAGES m s then none else s.next_hash n
    prev_free := fun n => if n < NR_PAGES m s then none else s.prev_free n
    next_free := fun n => if n < NR_PAGES m s then none else s.next_free n
    page_hash_table := fun b => if b < NR_PAGE_HASH s then none else s.page_hash_table b }

/-- `page_init(pages)`. -/
def page_init (m : Machine) (pages : Nat) (s : State) : Except Fault State := do
  let s1 := page_init_clear m s
  let s2 ← (List.range pages).foldlM (page_init_frame m) s1
  let s3 := { s2 with kstat := { s2.kstat with total_mem_pages := s2.kstat.free_pages } }
  let s4 := { s3 with kstat := { s3.kstat with kernel_reserved := s3.kstat.kernel_reserved * 4 } }
  pure { s4 with kstat := { s4.kstat with physical_reserved := s4.kstat.physical_reserved * 4 } }

/-! ## Reading and updating files through the cache -/

/-- Modelled from the spec: the error number `ENOMEM` of `fiwix/errno.h` (not
part of the sources). -/
def ENOMEM : Int := 12

/-- Modelled from the spec: the error number `EIO` of `fiwix/errno.h` (not part
of the sources). -/
def EIO : Int := 5

/-- Modelled from the spec: `V2P(addr)`, the physical address behind the
kernel-virtual address `addr`, that is `addr - PAGE_OFFSET` in 32 bits (the
macro is declared in a header that is not part of the sources). -/
def V2P (m : Machine) (addr : Nat) : Nat :=
  (addr + (2 ^ 32 - m.PAGE_OFFSET % 2 ^ 32)) % 2 ^ 32

/-- `page_lock(pg)`.  `sleep` gives the memory found on return from
`sleep(&pg, PROC_UNINTERRUPTIBLE)`; `fuel` bounds the number of sleeps. -/
def page_lock (sleep : State → State) : Nat → Nat → State → Except Fault State
  | fuel, pg, s =>
    if s.locked pg ≠ 0 then
      match fuel with
      | 0 => .error .out_of_fuel
      | fuel + 1 => page_lock sleep fuel pg (sleep s)
    else .ok { s with locked := upd s.locked pg 1 }

/-- `page_unlock(pg)`. -/
def page_unlock (pg : Nat) (s : State) : State :=
  { s with locked := upd s.locked pg 0 }

/-- Modelled from the spec: `kmalloc()`, which is not part of the sources.  It
allocates a frame with `get_free_page` and returns the kernel-virtual address
of its backing page, or 0 when no frame is to be had. -/
def kmalloc (sleep : State → State) (fuel : Nat) (s : State) : Except Fault (Nat × State) := do
  let r ← get_free_page sleep fuel s
  match r.1 with
  | none => pure (0, r.2)
  | some pg => pure (r.2.data pg, r.2)

/-- Modelled from the spec: `kfree(addr)`, which is not part of the sources.
It releases the frame behind the kernel-virtual address `addr` with
`release_page`. -/
def kfree (m : Machine) (addr : Nat) (s : State) : Except Fault State :=
  release_page m (V2P m addr >>> PAGE_SHIFT) s

/-- `update_page_cache(i, offset, buf, count)`, the source buffer given by its
bytes; `fuel` bounds the walk along the chain and the sleeps of `page_lock`. -/
def update_page_cache (m : Machine) (sleep : State → State) (fuel : Nat)
    (i offset : Nat) (buf : Nat → Nat) (count : Nat) (s : State) : Except Fault State :=
  let poffset := offset % PAGE_SIZE
  let offset := offset &&& PAGE_MASK
  let bytes := PAGE_SIZE - poffset
  if count ≠ 0 then do
    let bytes := min bytes count
    let r ← search_page_hash fuel i offset s
    match r.1 with
    | some pg =>
      let s1 ← page_lock sleep fuel pg r.2
      let s2 := memcpy_b s1 (s1.data pg + poffset) buf bytes
      let s3 := page_unlock pg s2
      release_page m (s3.page pg) s3
    | none => pure r.2
  else pure s

/-- How the block of `file_read` that finds or fills the page of the current
position ended. -/
inductive Fetch where
  /-- `search_page_hash` returned the frame -/
  | found (pg : Nat)
  /-- `kmalloc` returned the frame and `bread_page` returned 0 -/
  | filled (pg : Nat)
  /-- `kmalloc` returned 0 -/
  | nomem
  /-- `kmalloc` returned the frame and `bread_page` returned non-zero -/
  | ioerr (pg : Nat)
  deriving DecidableEq, Repr

/-- The block of `file_read` that finds or fills the page at the page-aligned
`offset`: `search_page_hash`, and on a miss `kmalloc` and `bread_page`, with
`kfree` when the fill fails. -/
def file_read_fetch (m : Machine) (e : Env) (sleep : State → State) (fuel : Nat)
    (i offset : Nat) (s : State) : Except Fault (Fetch × State) := do
  let r ← search_page_hash fuel i offset s
  match r.1 with
  | some pg => pure (.found pg, r.2)
  | none =>
    let a ← kmalloc sleep fuel r.2
    if a.1 = 0 then pure (.nomem, a.2)
    else
      let page := V2P m a.1
      let pg := page >>> PAGE_SHIFT
      let b ← bread_page e fuel pg i offset 0 MAP_SHARED a.2
      if b.1 ≠ 0 then
        let s3 ← kfree m (b.2.data pg) b.2
        pure (.ioerr pg, s3)
      else pure (.filled pg, b.2)

/-- The block of `file_read` that copies from the frame `pg`: `page_lock`,
`memcpy_b(buffer + total_read, pg->data + poffset, bytes)`, `page_unlock` and
`kfree`. -/
def file_read_copy (m : Machine) (sleep : State → State) (fuel : Nat)
    (pg buffer total_read poffset bytes : Nat) (s : State) : Except Fault State := do
  let s1 ← page_lock sleep fuel pg s
  let s2 := memcpy_b s1 (buffer + total_read) (fun k => s1.mem (s1.data pg + poffset + k)) bytes
  let s3 := page_unlock pg s2
  kfree m (s3.data pg) s3

/-- A record of one pass of the loop of `file_read`, kept beside the result so
that properties can speak of what happened during the call; it is no part of
the memory of the program. -/
structure Pass where
  /-- the memory when the pass began -/
  before : State
  /-- `fd_table->offset` when the pass began -/
  position : Nat
  /-- how finding or filling the page ended -/
  fetch : Fetch
  /-- the number of bytes the pass copied -/
  bytes : Nat
  /-- the memory when the page had been found or filled, before the copy -/
  fetched : State

/-- What `file_read` leaves: the value returned, `fd_table->offset`, the
memory, and the record of the passes of its loop. -/
structure ReadEnd where
  ret : Int
  fd_offset : Nat
  mem : State
  passes : List Pass

/-- The value of the 32-bit pattern `x` read as an `int`. -/
def s32 (x : Nat) : Int :=
  if x % 2 ^ 32 < 2 ^ 31 then ((x % 2 ^ 32 : Nat) : Int) else ((x % 2 ^ 32 : Nat) : Int) - 2 ^ 32

/-- The statement
`count = (fd_table->offset + count > i->i_size) ? i->i_size - fd_table->offset : count;`
of `file_read`.  `__off_t` and `__size_t` are declared outside the sources and
are taken as 32-bit types, `__size_t` unsigned: the sum is formed in 32 bits
and wraps, the comparison is unsigned, and the difference is stored in `count`
as a 32-bit pattern. -/
def file_read_clamp (i_size fd_offset count : Nat) : Nat :=
  if (fd_offset + count) % 2 ^ 32 > i_size then (i_size + (2 ^ 32 - fd_offset % 2 ^ 32)) % 2 ^ 32
  else count

/-- The `for(;;)` loop of `file_read`; `inner` bounds the loops of the routines
called and `fuel` the number of passes.  `fd_table->offset`, `count` and
`total_read` are 32-bit patterns: `fd_table->offset += bytes` and
`total_read += bytes` wrap at `2 ^ 32`, `count -= bytes` cannot since `bytes`
is at most `count`, and `return total_read` hands the pattern back as an
`int`. -/
def file_read_loop (m : Machine) (e : Env) (sleep : State → State) (inner : Nat)
    (i buffer : Nat) : Nat → Nat → Nat → Nat → State → Except Fault ReadEnd
  | fuel, fd_offset, count, total_read, s =>
    let count := file_read_clamp (s.inodes i).i_size fd_offset count
    if count = 0 then .ok ⟨s32 total_read, fd_offset, s, []⟩
    else
      match fuel with
      | 0 => .error .out_of_fuel
      | fuel + 1 =>
        let poffset := fd_offset % PAGE_SIZE
        match file_read_fetch m e sleep inner i (fd_offset &&& PAGE_MASK) s with
        | .error x => .error x
        | .ok (.nomem, s1) => .ok ⟨-ENOMEM, fd_offset, s1, [⟨s, fd_offset, .nomem, 0, s1⟩]⟩
        | .ok (.ioerr pg, s1) => .ok ⟨- EIO, fd_offset, s1, [⟨s, fd_offset, .ioerr pg, 0, s1⟩]⟩
        | .ok (.found pg, s1) =>
          let bytes := min (PAGE_SIZE - poffset) count
          match file_read_copy m sleep inner pg buffer total_read poffset bytes s1 with
          | .error x => .error x
          | .ok s2 =>
            match file_read_loop m e sleep inner i buffer fuel ((fd_offset + bytes) % 2 ^ 32)
                (count - bytes) ((total_read + bytes) % 2 ^ 32) s2 with
            | .error x => .error x
            | .ok r => .ok { r with passes := ⟨s, fd_offset, .found pg, bytes, s1⟩ :: r.passes }
        | .ok (.filled pg, s1) =>
          let bytes := min (PAGE_SIZE - poffset) count
          match file_read_copy m sleep inner pg buffer total_read poffset bytes s1 with
          | .error x => .error x
          | .ok s2 =>
            match file_read_loop m e sleep inner i buffer fuel ((fd_offset + bytes) % 2 ^ 32)
                (count - bytes) ((total_read + bytes) % 2 ^ 32) s2 with
            | .error x => .error x
            | .ok r => .ok { r with passes := ⟨s, fd_offset, .filled pg, bytes, s1⟩ :: r.passes }

/-- `file_read(i, fd_table, buffer, count)`, with `fd_offset` the value of
`fd_table->offset` on entry.  The test `fd_table->offset > i->i_size` compares
two values of type `__off_t`, the file positions they stand for.  The buffer
is given by its address, and `buffer + total_read` is formed without wrapping,
the buffer ending below `2 ^ 32`.  `inode_lock` and `inode_unlock` are not
part of the sources and touch nothing of this memory. -/
def file_read (m : Machine) (e : Env) (sleep : State → State) (inner fuel : Nat)
    (i fd_offset buffer count : Nat) (s : State) : Except Fault ReadEnd :=
  let fd_offset := if fd_offset > (s.inodes i).i_size then (s.inodes i).i_size else fd_offset
  file_read_loop m e sleep inner i buffer fuel fd_offset count 0 s

/-! ## UNIX-domain sockets (`net/unix.c`) -/

/-- Modelled from the spec: the error number `EINTR` of `fiwix/errno.h` (not
part of the sources), the "distinct interruption error"; only its being
non-zero is used. -/
def EINTR : Int := 4

/-- Modelled from the spec: the error number `EAGAIN` of `fiwix/errno.h` (not
part of the sources). -/
def EAGAIN : Int := 11

/-- Modelled from the spec: the error number `EINVAL` of `fiwix/errno.h` (not
part of the sources). -/
def EINVAL : Int := 22

/-- Modelled from the spec: the error number `EPIPE` of `fiwix/errno.h` (not
part of the sources). -/
def EPIPE : Int := 32

/-- Modelled from the spec: the error number `ECONNREFUSED` of `fiwix/errno.h`
(not part of the sources). -/
def ECONNREFUSED : Int := 111

/-- Modelled from the spec: the address family `AF_UNIX` of `fiwix/socket.h`
(not part of the sources). -/
def AF_UNIX : Nat := 1

/-- Modelled from the spec: the socket state `SS_CONNECTED` of `fiwix/net.h`
(not part of the sources). -/
def SS_CONNECTED : Nat := 3

/-- Modelled from the spec: the socket state `SS_DISCONNECTING` of
`fiwix/net.h` (not part of the sources). -/
def SS_DISCONNECTING : Nat := 4

/-- Modelled from the spec: the open flag `O_NONBLOCK` of `fiwix/fcntl.h` (not
part of the sources). -/
def O_NONBLOCK : Nat := 0x800

/-- Modelled from the spec: `PIPE_BUF`, the size of the buffer of a connection
(declared in a header that is not part of the sources). -/
def PIPE_BUF : Int := 4096

/-- Modelled from the spec: `sizeof(struct sockaddr_un)`, a two-byte family
and a path of 108 bytes (the structure is declared in a header that is not
part of the sources). -/
def sizeof_sockaddr_un : Int := 110

/-- The fields of `struct sockaddr_un` that `net/unix.c` reads.  `sun_path` is
given by the bytes before its terminating NUL, so that `strcmp` on two paths
returns 0 iff the two lists are equal. -/
structure sockaddr_un where
  sun_family : Nat
  sun_path : List Nat
  deriving DecidableEq, Repr

/-- The memory `net/unix.c` works on, one map per field.  A `struct socket *`
is an address (`NULL` is `none`); the `struct unix_info` of a socket lies
inside it (`&s->u.unix`), so a `struct unix_info *` is given by the address of
its socket.  The structures are declared in headers that are not part of the
sources; offsets and sizes are taken as exact numbers. -/
structure Net where
  /-- `s->state` -/
  state : Nat → Nat
  /-- `u->socket` -/
  socket : Nat → Option Nat
  /-- `u->peer` -/
  peer : Nat → Option Nat
  /-- `u->data`, the address of the buffer of the connection -/
  data : Nat → Int
  /-- `u->sun`, given by what it points to -/
  sun : Nat → Option sockaddr_un
  /-- `u->readoff` -/
  readoff : Nat → Int
  /-- `u->writeoff` -/
  writeoff : Nat → Int
  /-- `u->size` -/
  size : Nat → Int
  /-- `u->next` -/
  next : Nat → Option Nat
  unix_socket_head : Option Nat
  /-- the bytes of memory, by address -/
  mem : Nat → Nat

/-- What the rest of the kernel does for `unix_connect`, `unix_read` and
`unix_write`.  `iput`, `free_name`, `wakeup` and `send_sig` write nothing of
the memory `Net` and are left out. -/
structure NetEnv where
  /-- `malloc_name(name, &tmp_name)`: the value returned and the bytes of
  `tmp_name` -/
  malloc_name : List Nat → Int × List Nat
  /-- `namei(tmp_name, &i, NULL, FOLLOW_LINKS)`: the value returned -/
  namei : List Nat → Int
  /-- `insert_socket_to_queue(ss, sc)`: the value returned and the memory left -/
  insert_socket_to_queue : Option Nat → Nat → Net → Int × Net
  /-- `sleep(chan, PROC_INTERRUPTIBLE)`: the value returned, which is not zero
  when a signal interrupted the sleep, and the memory found on waking -/
  sleep : Nat → Net → Int × Net

/-- `memcpy_b(dst, src, len)` on the bytes of `Net`. -/
def Net.memcpy_b (n : Net) (dst src len : Int) : Net :=
  { n with mem := fun a =>
      if dst ≤ (a : Int) ∧ (a : Int) < dst + len then n.mem (src + ((a : Int) - dst)).toNat
      else n.mem a }

/-- The `while(u)` loop of `lookup_unix_socket(path)`. -/
def lookup_unix_socket_loop (path : List Nat) : Nat → Option Nat → Net → Except Fault (Option Nat)
  | _, none, _ => .ok none
  | 0, some _, _ => .error .out_of_fuel
  | fuel + 1, some u, n =>
    match n.sun u with
    | some sun =>
      if sun.sun_path = path then .ok (some u)
      else lookup_unix_socket_loop path fuel (n.next u) n
    | none => lookup_unix_socket_loop path fuel (n.next u) n

/-- `lookup_unix_socket(path)`; `fuel` bounds the walk along the list. -/
def lookup_unix_socket (fuel : Nat) (path : List Nat) (n : Net) : Except Fault (Option Nat) :=
  lookup_unix_socket_loop path fuel n.unix_socket_head n

/-- `unix_connect(sc, addr, addrlen)`, with `su` what `addr` points to. -/
def unix_connect (e : NetEnv) (fuel : Nat) (sc : Nat) (su : sockaddr_un) (addrlen : Int)
    (n : Net) : Except Fault (Int × Net) :=
  if su.sun_family ≠ AF_UNIX then .ok (-EINVAL, n)
  else if addrlen < 0 ∨ addrlen > sizeof_sockaddr_un then .ok (-EINVAL, n)
  else
    let r := e.malloc_name su.sun_path
    if r.1 < 0 then .ok (r.1, n)
    else
      let tmp_name := r.2
      let errno := e.namei tmp_name
      if errno ≠ 0 then .ok (errno, n)
      else do
        let up ← lookup_unix_socket fuel tmp_name n
        match up with
        | none => pure (-ECONNREFUSED, n)
        | some up =>
          let q := e.insert_socket_to_queue (n.socket up) sc n
          if q.1 ≠ 0 then pure (q.1, q.2)
          else
            let w := e.sleep sc q.2
            pure (0, w.2)

/-- The statements of `unix_read` after its loop. -/
def unix_read_end (s : Nat) (bytes_read : Int) (n : Net) : Int × Net :=
  if n.size s = 0 then
    (bytes_read, { n with readoff := upd n.readoff s 0, writeoff := upd n.writeoff s 0 })
  else (bytes_read, n)

/-- The `while(count)` loop of `unix_read` and what follows it; `fuel` bounds
the number of passes.  `count` is never written in the loop. -/
def unix_read_loop (e : NetEnv) (s fd_flags : Nat) (buffer : Int) (count : Nat) :
    Nat → Net → Except Fault (Int × Net)
  | fuel, n =>
    if count = 0 then .ok (unix_read_end s 0 n)
    else
      match fuel with
      | 0 => .error .out_of_fuel
      | fuel + 1 =>
        let limit : Int :=
          if n.writeoff s ≠ 0 then
            if n.readoff s ≥ n.writeoff s then PIPE_BUF - n.readoff s
            else n.writeoff s - n.readoff s
          else PIPE_BUF - n.readoff s
        let k : Int := min limit (count : Int)
        if n.size s ≠ 0 ∧ k ≠ 0 then
          let n1 := n.memcpy_b (buffer + 0) (n.data s + n.readoff s) k
          let n2 := { n1 with readoff := upd n1.readoff s (n1.readoff s + k) }
          let n3 := { n2 with size := upd n2.size s (n2.size s - k) }
          let n4 := if n3.writeoff s ≥ PIPE_BUF then { n3 with writeoff := upd n3.writeoff s 0 }
            else n3
          .ok (unix_read_end s (0 + k) n4)
        else if n.state s ≠ SS_CONNECTED then
          if n.state s = SS_DISCONNECTING then
            if n.size s ≠ 0 ∧ n.readoff s ≥ PIPE_BUF then
              unix_read_loop e s fd_flags buffer count fuel { n with readoff := upd n.readoff s 0 }
            else .ok (0, n)
          else .ok (-EINVAL, n)
        else if fd_flags &&& O_NONBLOCK ≠ 0 then .ok (-EAGAIN, n)
        else
          let w := e.sleep s n
          if w.1 ≠ 0 then .ok (-EINTR, w.2)
          else unix_read_loop e s fd_flags buffer count fuel w.2

/-- `unix_read(s, fd_table, buffer, count)`, with `fd_flags` the value of
`fd_table->flags`. -/
def unix_read (e : NetEnv) (fuel : Nat) (s fd_flags : Nat) (buffer : Int) (count : Nat)
    (n : Net) : Except Fault (Int × Net) :=
  unix_read_loop e s fd_flags buffer count fuel n

/-- The `while(bytes_written < count)` loop of `unix_write` and what follows
it, `up` being the value of `s->u.unix.peer` on entry; `fuel` bounds the
number of passes. -/
def unix_write_loop (e : NetEnv) (s fd_flags : Nat) (buffer : Int) (count : Nat)
    (up : Option Nat) : Nat → Int → Net → Except Fault (Int × Net)
  | fuel, bytes_written, n =>
    if ¬ bytes_written < (count : Int) then .ok (bytes_written, n)
    else
      match fuel with
      | 0 => .error .out_of_fuel
      | fuel + 1 =>
        if n.state s ≠ SS_CONNECTED then
          if n.state s = SS_DISCONNECTING then .ok (-EPIPE, n)
          else .ok (-EINVAL, n)
        else
          match up with
          | none => .error .null_deref
          | some p =>
            let limit : Int :=
              if n.readoff p ≠ 0 then
                if n.writeoff p ≤ n.readoff p then n.readoff p
                else PIPE_BUF
              else PIPE_BUF
            let k : Int := min ((count : Int) - bytes_written) (limit - n.writeoff p)
            if k ≠ 0 ∧ k ≤ PIPE_BUF then
              let n1 := n.memcpy_b (n.data p + n.writeoff p) (buffer + bytes_written) k
              let n2 := { n1 with writeoff := upd n1.writeoff p (n1.writeoff p + k) }
              let n3 := { n2 with size := upd n2.size p (n2.size p + k) }
              let n4 := if n3.readoff p ≥ PIPE_BUF then { n3 with readoff := upd n3.readoff p 0 }
                else n3
              unix_write_loop e s fd_flags buffer count up fuel (bytes_written + k) n4
            else if fd_flags &&& O_NONBLOCK = 0 then
              let w := e.sleep s n
              if w.1 ≠ 0 then .ok (-EINTR, w.2)
              else unix_write_loop e s fd_flags buffer count up fuel bytes_written w.2
            else .ok (-EAGAIN, n)

/-- `unix_write(s, fd_table, buffer, count)`, with `fd_flags` the value of
`fd_table->flags`. -/
def unix_write (e : NetEnv) (fuel : Nat) (s fd_flags : Nat) (buffer : Int) (count : Nat)
    (n : Net) : Except Fault (Int × Net) :=
  unix_write_loop e s fd_flags buffer count (n.peer s) fuel 0 n

/-! ## Specification vocabulary -/

/-- Frame `n` is marked reserved. -/
def reserved (s : State) (n : Nat) : Prop := s.flags n &&& PAGE_RESERVED ≠ 0

instance (s : State) : DecidablePred (reserved s) :=
  fun n => inferInstanceAs (Decidable (s.flags n &&& PAGE_RESERVED ≠ 0))

/-- Frame `n` is on the free list: it is reached from `page_head` along
`next_free`. -/
inductive OnFreeList (s : State) : Nat → Prop
  | head {h : Nat} : s.page_head = some h → OnFreeList s h
  | next {a b : Nat} : OnFreeList s a → s.next_free a = some b → OnFreeList s b

/-- Frame `n` is on the chain of bucket `b`: it is reached from
`page_hash_table[b]` along `next_hash`. -/
inductive OnHashChain (s : State) (b : Nat) : Nat → Prop
  | head {f : Nat} : s.page_hash_table b = some f → OnHashChain s b f
  | next {f g : Nat} : OnHashChain s b f → s.next_hash f = some g → OnHashChain s b g

/-- Frame `n` is resident in the hash index: it is on the chain of a bucket. -/
def Resident (s : State) (n : Nat) : Prop := ∃ b, b < NR_PAGE_HASH s ∧ OnHashChain s b n

/-- Frames `a` and `b` are neighbours: `a->next == b` and `b->prev == a`. -/
def Link (nx pv : Nat → Option Nat) (a b : Nat) : Prop := nx a = some b ∧ pv b = some a

/-- The frames `a, l, b` follow one another, each linked to the next. -/
def Path (nx pv : Nat → Option Nat) : Nat → List Nat → Nat → Prop
  | a, [], b => Link nx pv a b
  | a, x :: l, b => Link nx pv a x ∧ Path nx pv x l b

/-- The last of the frames `a, l`. -/
def lastOf : Nat → List Nat → Nat
  | a, [] => a
  | _, x :: l => lastOf x l

/-- The free list is the circular doubly linked list of the frames `l`,
without repetition, and `page_head` is the first of them (the list is empty
when `page_head` is `NULL`). -/
def FreeRing (s : State) : List Nat → Prop
  | [] => s.page_head = none
  | h :: t => s.page_head = some h ∧ (h :: t).Nodup ∧ Path s.next_free s.prev_free h t h

/-- Starting at pointer `c`, whose owner is `p`, the frames `l` follow one
another along `next`, with `prev` pointing back, and the last `next` is
`NULL`. -/
def Seg (nx pv : Nat → Option Nat) : Option Nat → Option Nat → List Nat → Prop
  | _, c, [] => c = none
  | p, c, f :: t => c = some f ∧ pv f = p ∧ Seg nx pv (some f) (nx f) t

/-- The owner of the pointer that ends the frames `l`, `p` being the owner of
the pointer they start at: the last of `l`, or `p` when `l` is empty. -/
def lastOpt : Option Nat → List Nat → Option Nat
  | p, [] => p
  | _, f :: t => lastOpt (some f) t

/-- The chain of bucket `b` is the doubly linked, `NULL`-terminated list of
the frames `l`, without repetition. -/
def HashChain (s : State) (b : Nat) (l : List Nat) : Prop :=
  l.Nodup ∧ Seg s.next_hash s.prev_hash none (s.page_hash_table b) l

/-- The hash index is well formed, with `chains b` the frames of bucket `b` in
chain order: the table is a whole number of buckets, every chain is a proper
doubly linked list, and every frame on the chain of bucket `b` carries a cache
identity that `PAGE_HASH` sends to `b`. -/
structure HashWF (s : State) (chains : Nat → List Nat) : Prop where
  size : sizeof_uint ∣ s.page_hash_table_size
  chain : ∀ b, b < NR_PAGE_HASH s → HashChain s b (chains b)
  ident : ∀ b, b < NR_PAGE_HASH s → ∀ f ∈ chains b, ∃ i, s.inode f = some i ∧
    PAGE_HASH s (s.inodes i).inode (s.offset f) = .ok b

/-- Memory `s2` agrees with `s` on everything the hash index consists of. -/
structure HashSame (s s2 : State) : Prop where
  next_hash : s2.next_hash = s.next_hash
  prev_hash : s2.prev_hash = s.prev_hash
  page_hash_table : s2.page_hash_table = s.page_hash_table
  page_hash_table_size : s2.page_hash_table_size = s.page_hash_table_size
  inode : s2.inode = s.inode
  offset : s2.offset = s.offset
  inodes : s2.inodes = s.inodes
  cached : s2.kstat.cached = s.kstat.cached

/-- A well-formed memory, with `free` the frames of the free list in list
order and `chains b` the frames of bucket `b` in chain order: the free list is
a proper circular list, the hash index is well formed and not of size zero,
and no two frames hold the same cache identity. -/
structure WellFormed (s : State) (free : List Nat) (chains : Nat → List Nat) : Prop where
  ring : FreeRing s free
  hash : HashWF s chains
  hash_size : 0 < s.page_hash_table_size
  unique : ∀ f g i, s.inode f = some i → s.inode g = some i → s.offset f = s.offset g → f = g

/-- The byte that a cacheable fill of the page at `offset` of inode `i` is to
produce at position `k` of the page, the file having blocks of `blksize`
bytes on device `dev`: position `k` lies in the block that starts at
`k / blksize * blksize`; where `bmap` maps that block to a block of the
device, the byte comes from the dirty buffer of that block if there is one
and from `read_block` otherwise; where the block is a hole, the byte is 0. -/
def fill_byte (e : Env) (dev i blksize offset k : Nat) : Nat :=
  let block := e.bmap i (offset + k / blksize * blksize)
  if block ≠ 0 then
    match e.get_dirty_buffer dev block blksize with
    | none => (e.read_block dev block blksize).2 (k % blksize)
    | some buf => buf (k % blksize)
  else 0

/-! ## What `page_init` decides for each frame -/

/-- The physical address of frame `n` as `page_init` computes it:
`n << PAGE_SHIFT` in 32 bits. -/
def frame_addr (n : Nat) : Nat := (n <<< PAGE_SHIFT) % 2 ^ 32

/-- The first test of `page_init` on frame `n`: its address lies in the kernel
image span. -/
def in_kernel (m : Machine) (n : Nat) : Bool :=
  decide (m.KERNEL_ENTRY_ADDR ≤ frame_addr n ∧ frame_addr n < m.last_data_addr)

/-- Frame `n` passes both tests of `page_init`: its address is outside the
kernel image span and listed by the BIOS memory map. -/
def usable (m : Machine) (n : Nat) : Bool :=
  !in_kernel m n && m.addr_in_bios_map (frame_addr n)

/-- The counters with which `page_init` is entered. -/
def Kstat.zero : Kstat :=
  { free_pages := 0, cached := 0, kernel_reserved := 0, physical_reserved := 0,
    total_mem_pages := 0 }

/-- The loop invariant of `page_init` after frames `0 .. k-1`, with `c` the
memory left by the two `memset_b` calls. -/
structure InitInv (m : Machine) (c : State) (k : Nat) (s : State) : Prop where
  ring : FreeRing s ((List.range k).filter (usable m))
  flags : ∀ n, s.flags n = if n < k ∧ usable m n = false then PAGE_RESERVED else c.flags n
  data : ∀ n, s.data n =
    if n < k ∧ usable m n = true then (frame_addr n + m.PAGE_OFFSET) % 2 ^ 32 else c.data n
  page : ∀ n, s.page n = if n < k then n else c.page n
  same : s = { c with page := s.page, flags := s.flags, data := s.data,
                      next_free := s.next_free, prev_free := s.prev_free,
                      page_head := s.page_head, kstat := s.kstat }
  free_pages : s.kstat.free_pages = c.kstat.free_pages + ((List.range k).filter (usable m)).length
  kernel_reserved : s.kstat.kernel_reserved =
    c.kstat.kernel_reserved + ((List.range k).filter (in_kernel m)).length
  physical_reserved : s.kstat.physical_reserved = c.kstat.physical_reserved +
    ((List.range k).filter (fun n => !in_kernel m n && !m.addr_in_bios_map (frame_addr n))).length
  kstat_same : s.kstat = { c.kstat with free_pages := s.kstat.free_pages,
                                        kernel_reserved := s.kstat.kernel_reserved,
                                        physical_reserved := s.kstat.physical_reserved }

/-! ## Reachable memories and what holds of them -/

/-- The memories reached from the one built by `page_init(pages)` through
calls of `get_free_page`, `search_page_hash` and `release_page`, the latter
only on frames whose loan count is at least 1.  `page_init` is entered with
`page_head == NULL`, zero counters, a frame table that holds `pages`
descriptors and a hash table that is a whole number of buckets; what a
sleeping `get_free_page` finds on waking is again such a memory. -/
inductive Reach (m : Machine) (pages : Nat) : State → Prop
  | init {s0 s : State} : s0.page_head = none → s0.kstat = Kstat.zero →
      pages ≤ NR_PAGES m s0 → sizeof_uint ∣ s0.page_hash_table_size →
      page_init m pages s0 = .ok s → Reach m pages s
  | get_free_page {s s2 : State} {sleep : State → State} {fuel : Nat} {r : Option Nat} :
      Reach m pages s → Reach m pages (sleep s) →
      get_free_page sleep fuel s = .ok (r, s2) → Reach m pages s2
  | search_page_hash {s s2 : State} {fuel inode offset : Nat} {r : Option Nat} :
      Reach m pages s → search_page_hash fuel inode offset s = .ok (r, s2) → Reach m pages s2
  | release_page {s s2 : State} {page : Nat} :
      Reach m pages s → 1 ≤ s.count page → release_page m page s = .ok s2 → Reach m pages s2

/-- What holds of every memory of `Reach`, with `free` the frames of the free
list in list order. -/
structure Inv (m : Machine) (pages : Nat) (s : State) (free : List Nat) : Prop where
  ring : FreeRing s free
  lt : ∀ n ∈ free, n < pages
  free_iff : ∀ n < pages, n ∈ free ↔ s.count n = 0 ∧ ¬ reserved s n
  count01 : ∀ n < pages, s.count n = 0 ∨ s.count n = 1
  res_count : ∀ n < pages, reserved s n → s.count n = 0
  beyond : ∀ n, pages ≤ n → n < NR_PAGES m s → s.count n = 0
  no_ident : ∀ n < pages, s.inode n = none
  no_hash : ∀ b < NR_PAGE_HASH s, s.page_hash_table b = none
  hash_size : sizeof_uint ∣ s.page_hash_table_size
  free_pages : s.kstat.free_pages = free.length

/-- The memories reached from the one built by `page_init(pages)` through
calls of `get_free_page`, `search_page_hash`, `release_page` and `bread_page`,
the latter only on a frame just returned by `get_free_page`, with any
collaborators and any outcome.  `page_init` is entered as for `Reach`. -/
inductive ReachCached (m : Machine) (pages : Nat) : State → Prop
  | init {s0 s : State} : s0.page_head = none → s0.kstat = Kstat.zero →
      pages ≤ NR_PAGES m s0 → sizeof_uint ∣ s0.page_hash_table_size →
      page_init m pages s0 = .ok s → ReachCached m pages s
  | get_free_page {s s2 : State} {sleep : State → State} {fuel : Nat} {r : Option Nat} :
      ReachCached m pages s → ReachCached m pages (sleep s) →
      get_free_page sleep fuel s = .ok (r, s2) → ReachCached m pages s2
  | search_page_hash {s s2 : State} {fuel inode offset : Nat} {r : Option Nat} :
      ReachCached m pages s → search_page_hash fuel inode offset s = .ok (r, s2) →
      ReachCached m pages s2
  | release_page {s s2 : State} {page : Nat} :
      ReachCached m pages s → release_page m page s = .ok s2 → ReachCached m pages s2
  | bread_page {s s1 s2 : State} {sleep : State → State} {e : Env}
      {fuel fuel2 pg i offset prot flags ret : Nat} :
      ReachCached m pages s → ReachCached m pages (sleep s) →
      get_free_page sleep fuel s = .ok (some pg, s1) →
      bread_page e fuel2 pg i offset prot flags s1 = .ok (ret, s2) → ReachCached m pages s2

/-- The hash index and its counter, with `chains b` the frames of bucket `b`
and `H` the frames resident in the index, each listed once. -/
structure HashInv (s : State) (chains : Nat → List Nat) (H : List Nat) : Prop where
  wf : HashWF s chains
  nodup : H.Nodup
  mem_iff : ∀ n, n ∈ H ↔ ∃ b, b < NR_PAGE_HASH s ∧ n ∈ chains b
  cached : s.kstat.cached = ((PAGE_SIZE / 1024 : Nat) : Int) * (H.length : Int)

/-! ## Example memories -/

/-- An all-zero memory with the given table sizes, on which examples are built. -/
def blank (page_table_size page_hash_table_size : Nat) : State :=
  { page := fun _ => 0, count := fun _ => 0, flags := fun _ => 0, inode := fun _ => none,
    offset := fun _ => 0, data := fun _ => 0, locked := fun _ => 0,
    prev_hash := fun _ => none, next_hash := fun _ => none,
    prev_free := fun _ => none, next_free := fun _ => none,
    page_head := none, page_hash_table := fun _ => none,
    page_table_size := page_table_size, page_hash_table_size := page_hash_table_size,
    kstat := { free_pages := 0, cached := 0, kernel_reserved := 0, physical_reserved := 0,
               total_mem_pages := 0 },
    inodes := fun a => { inode := a, dev := 0, i_size := 0, s_blocksize := 1024 },
    mem := fun _ => 0 }

/-- A machine with 44-byte descriptors, no kernel image span and every address
usable, on which examples are built. -/
def plain : Machine :=
  { sizeof_page := 44, KERNEL_ENTRY_ADDR := 0, last_data_addr := 0, PAGE_OFFSET := 0xC0000000,
    addr_in_bios_map := fun _ => true }

/-- The result of a routine that returned, or `d` when it did not. -/
def returned {α : Type} (r : Except Fault α) (d : α) : α :=
  match r with
  | .ok a => a
  | .error _ => d

/-- Collaborators for the examples: every device has `read_block`, and `bmap`
fails on every offset. -/
def failing_env : Env :=
  { get_device := fun _ => some { has_fsop := true, has_read_block := true }
    bmap := fun _ _ => -1
    get_dirty_buffer := fun _ _ _ => none
    read_block := fun _ _ _ => (0, fun _ => 0)
    bread := fun _ _ _ => none }

/-- Collaborators for the examples: every device has `read_block`, and every
block of every file is a hole. -/
def hole_env : Env :=
  { get_device := fun _ => some { has_fsop := true, has_read_block := true }
    bmap := fun _ _ => 0
    get_dirty_buffer := fun _ _ _ => none
    read_block := fun _ _ _ => (0, fun _ => 0)
    bread := fun _ _ _ => none }

/-- Example memory for C1: frames 0 and 1 on the free list, frame 0 first and
still cached under inode 7, offset 0, in bucket 1. -/
def take_example : State :=
  { blank 88 4096 with
    page_head := some 0
    next_free := fun n => if n = 0 then some 1 else some 0
    prev_free := fun n => if n = 0 then some 1 else some 0
    inode := fun n => if n = 0 then some 7 else none
    page_hash_table := fun b => if b = 1 then some 0 else none }

/-- The chains of `take_example`. -/
def take_example_chains : Nat → List Nat := fun b => if b = 1 then [0] else []

/-- Example memory: the one `page_init(2)` builds on the machine `plain` from
an all-zero memory with room for two descriptors and 1024 buckets. -/
def init_example : State := returned (page_init plain 2 (blank 88 4096)) (blank 88 4096)

/-- Example for C9, step 0: the memory `page_init(3)` builds on `plain`. -/
def stale0 : State := returned (page_init plain 3 (blank 132 4096)) (blank 132 4096)

/-- Example for C9, step 1: frame 0 is allocated and its fill fails, leaving
the identity (inode 7, offset 0) in the descriptor. -/
def stale1 : State :=
  (returned (bread_page failing_env 1 0 7 0 0 MAP_SHARED
    (returned (get_free_page id 0 stale0) (none, stale0)).2) (0, stale0)).2

/-- Example for C9, step 2: frame 0 is released. -/
def stale2 : State := returned (release_page plain 0 stale1) stale1

/-- Example for C9, step 3: frame 1 is allocated and its fill fails too. -/
def stale3 : State :=
  (returned (bread_page failing_env 1 1 7 4096 0 MAP_SHARED
    (returned (get_free_page id 0 stale2) (none, stale2)).2) (0, stale2)).2

/-- Example for C9, step 4: frame 1 is released. -/
def stale4 : State := returned (release_page plain 1 stale3) stale3

/-- Example for C9, step 5: frame 2 is allocated; the free list is now frame
0, with its stale identity, followed by frame 1. -/
def stale5 : State := (returned (get_free_page id 0 stale4) (none, stale4)).2

/-- Example for C9, step 6: frame 0 is allocated again. -/
def stale6 : State := (returned (get_free_page id 0 stale5) (none, stale5)).2

/-- Example for C3, step 1: from `init_example`, frame 0 is allocated, filled
for (inode 7, offset 0) and published. -/
def lone1 : State :=
  (returned (bread_page hole_env 4 0 7 0 0 MAP_SHARED
    (returned (get_free_page id 0 init_example) (none, init_example)).2) (0, init_example)).2

/-- Example for C3, step 2: frame 0 is released; it stays cached, at the tail
of the free list. -/
def lone2 : State := returned (release_page plain 0 lone1) lone1

/-- Example for C3, step 3: frame 1 is allocated, filled for (inode 7, offset
4096) and published.  Frame 0, cached and unheld, is now the only frame of the
free list. -/
def lone3 : State :=
  (returned (bread_page hole_env 4 1 7 4096 0 MAP_SHARED
    (returned (get_free_page id 0 lone2) (none, lone2)).2) (0, lone2)).2

/-- The chains of `lone3`. -/
def lone3_chains : Nat → List Nat := fun b => if b = 1 then [1, 0] else []

/-- Example for C3, step 4: the search for (inode 7, offset 0) hits frame 0. -/
def lone4 : State := (returned (search_page_hash 2 7 0 lone3) (none, lone3)).2

/-- Example for C3, step 5: frame 1 is released. -/
def lone5 : State := returned (release_page plain 1 lone4) lone4

/-- Example for C3, step 6: the next allocation. -/
def lone6 : State := (returned (get_free_page id 2 lone5) (none, lone5)).2

/-- A machine whose kernel image occupies exactly frame 1, every address being
listed by the BIOS map, on which examples are built. -/
def boot : Machine :=
  { sizeof_page := 44, KERNEL_ENTRY_ADDR := 0x1000, last_data_addr := 0x2000,
    PAGE_OFFSET := 0xC0000000, addr_in_bios_map := fun _ => true }

/-- Example memory: the one `page_init(4)` builds on the machine `boot`; frame
1 is reserved, frames 0, 2 and 3 are free. -/
def boot0 : State := returned (page_init boot 4 (blank 176 4096)) (blank 176 4096)

/-- Example memory: `boot0` after one `get_free_page`, which lends frame 0. -/
def boot1 : State := (returned (get_free_page id 0 boot0) (none, boot0)).2

/-- Example for C14: the memory after `page_init(2)` on `plain`, every byte of
RAM holding 0xAA, and frame 0 allocated. -/
def dirty_example : State :=
  { (returned (get_free_page id 0 init_example) (none, init_example)).2 with mem := fun _ => 0xAA }

/-- Example for C13: `dirty_example` after the fill of frame 0 for (inode 7,
offset 0) in cacheable mode. -/
def published_example : State :=
  (returned (bread_page hole_env 4 0 7 0 0 MAP_SHARED dirty_example) (0, dirty_example)).2

/-- An all-zero memory with room for four descriptors and 1024 buckets, whose
files are all 1 MiB long with 1 KiB blocks. -/
def disk0 : State :=
  { blank 176 4096 with
    inodes := fun a => { inode := a, dev := 0, i_size := 0x100000, s_blocksize := 1024 } }

/-- Example memory: the one `page_init(4)` builds on `plain` from `disk0`. -/
def disk4 : State := returned (page_init plain 4 disk0) disk0

/-- Example for C11, first read: `kmalloc` has lent frame 0. -/
def dup_a : State := (returned (get_free_page id 8 disk4) (none, disk4)).2

/-- Example for C11, first read: the fill of frame 0 for (inode 7, offset 0)
has failed. -/
def dup_b : State :=
  (returned (bread_page failing_env 8 0 7 0 0 MAP_SHARED dup_a) (0, dup_a)).2

/-- Example for C11, first read: `kfree` has released frame 0. -/
def dup_c : State := returned (release_page plain 0 dup_b) dup_b

/-- Example for C11, second read: `kmalloc` has lent frame 1. -/
def dup_d : State := (returned (get_free_page id 8 dup_c) (none, dup_c)).2

/-- Example for C11, second read: frame 1 is filled for (inode 7, offset 0)
and published. -/
def dup_e : State :=
  (returned (bread_page hole_env 8 1 7 0 0 MAP_SHARED dup_d) (0, dup_d)).2

/-- Example for C11, second read: the page is copied to the buffer at
0x10000000 and frame 1 is released. -/
def dup_f : State :=
  returned (release_page plain 1
    (memcpy_b dup_e 0x10000000 (fun k => dup_e.mem (dup_e.data 1 + 0 + k)) 4096)) dup_e

/-- In the pass `p` of `file_read` on inode `i`, the page was not cached and
`kmalloc` returned 0. -/
def AllocFailed (sleep : State → State) (inner i : Nat) (p : Pass) : Prop :=
  ∃ s1 s2, search_page_hash inner i (p.position &&& PAGE_MASK) p.before = .ok (none, s1) ∧
    kmalloc sleep inner s1 = .ok (0, s2)

/-- In the pass `p` of `file_read` on inode `i`, the page was not cached,
`kmalloc` returned a frame and `bread_page` on it returned non-zero. -/
def FillFailed (m : Machine) (e : Env) (sleep : State → State) (inner i : Nat) (p : Pass) :
    Prop :=
  ∃ s1 a s2 ret s3,
    search_page_hash inner i (p.position &&& PAGE_MASK) p.before = .ok (none, s1) ∧
    kmalloc sleep inner s1 = .ok (a, s2) ∧ a ≠ 0 ∧
    bread_page e inner (V2P m a >>> PAGE_SHIFT) i (p.position &&& PAGE_MASK) 0 MAP_SHARED s2
      = .ok (ret, s3) ∧ ret ≠ 0

/-- Frame `n` is one the pool keeps track of: it is on the free list `free` or
on one of the chains `chains`. -/
def Tracked (s : State) (free : List Nat) (chains : Nat → List Nat) (n : Nat) : Prop :=
  n ∈ free ∨ ∃ b, b < NR_PAGE_HASH s ∧ n ∈ chains b

/-- The descriptor of frame `n` is as `page_init` makes the descriptor of a
usable frame: `page` is the frame number, which is valid, `data` is the
kernel-virtual address of the frame and is not 0; and the frame is not
locked. -/
structure FrameOK (m : Machine) (s : State) (n : Nat) : Prop where
  page : s.page n = n
  valid : valid_page m s n = true
  data_ne : s.data n ≠ 0
  addr : V2P m (s.data n) >>> PAGE_SHIFT = n
  unlocked : s.locked n = 0

/-- A well-formed pool between two operations of one process, with `free` the
frames of the free list in list order and `chains b` the frames of bucket `b`
in chain order: the free list is a proper circular list of frames that nobody
holds, the hash index is well formed and not of size zero, no two frames of a
chain hold the same identity, a cached frame that nobody holds is on the free
list, and the descriptors of all these frames are in order. -/
structure PoolWF (m : Machine) (s : State) (free : List Nat) (chains : Nat → List Nat) :
    Prop where
  ring : FreeRing s free
  hash : HashWF s chains
  hash_size : 0 < s.page_hash_table_size
  unique : ∀ b, b < NR_PAGE_HASH s → ∀ f ∈ chains b, ∀ g ∈ chains b,
    s.inode f = s.inode g → s.offset f = s.offset g → f = g
  free_count : ∀ n ∈ free, s.count n = 0
  held : ∀ b, b < NR_PAGE_HASH s → ∀ f ∈ chains b, f ∈ free ∨ 1 ≤ s.count f
  frame : ∀ n, Tracked s free chains n → FrameOK m s n

/-- Frame `f` is cached under `(i, o)`: it is on one of the chains `chains` and
holds that identity. -/
def Cached (s : State) (chains : Nat → List Nat) (f i o : Nat) : Prop :=
  (∃ b, b < NR_PAGE_HASH s ∧ f ∈ chains b) ∧ s.inode f = some i ∧ s.offset f = o

/-- What the loop of `file_read(i, fd, buffer, ...)` relies on from pass to
pass, `len` being the number of bytes the buffer takes: the pool is well
formed, the free list holds at least two frames, the pages of the free frames
(and the block that a fill may write past each) lie outside the buffer, the
block size of the file is not zero, and the bounds given to the inner loops
cover the frame table and a page. -/
structure ReadInv (m : Machine) (inner i buffer len : Nat) (s : State) (free : List Nat)
    (chains : Nat → List Nat) : Prop where
  pool : PoolWF m s free chains
  two : 2 ≤ free.length
  apart : ∀ n ∈ free, ∀ x, s.data n ≤ x →
    x < s.data n + PAGE_SIZE + (s.inodes i).s_blocksize → x < buffer ∨ buffer + len ≤ x
  blk : 0 < (s.inodes i).s_blocksize
  fuel_pages : NR_PAGES m s ≤ inner
  fuel_fill : PAGE_SIZE ≤ inner

/-- Example memory: `dup_a` (frame 0 just allocated in the memory built by
`page_init(4)`) after the fill of frame 0 for (inode 7, offset 0), which
publishes it in bucket 1. -/
def warm_b : State :=
  (returned (bread_page hole_env 8 0 7 0 0 MAP_SHARED dup_a) (0, dup_a)).2

/-- Example memory: `warm_b` after the release of frame 0: the free list is
frames 1, 2, 3, 0 and frame 0 is cached under (inode 7, offset 0). -/
def warm : State := returned (release_page plain 0 warm_b) warm_b

/-- The chains of `warm`. -/
def warm_chains : Nat → List Nat := fun c => if c = 1 then [0] else []

/-- Example for C16: `warm` after the search of `update_page_cache(7, 4095,
buf, 2)`, which comes to frame 0. -/
def cross_a : State := (returned (search_page_hash 8 7 0 warm) (none, warm)).2

/-- Example for C16: the memory `update_page_cache(7, 4095, buf, 2)` leaves
from `warm`, every byte of `buf` being 0x55: one byte is copied and frame 0 is
released. -/
def cross_b : State :=
  returned (release_page plain 0
    (memcpy_b cross_a (cross_a.data 0 + 4095) (fun _ => 0x55) 1)) cross_a

/-- Example for C16: `cross_b` after `search_page_hash(7, 0)`. -/
def cross_c : State := (returned (search_page_hash 8 7 0 cross_b) (none, cross_b)).2

/-- `(i, o)` is the key of a whole page of the file `i` that can be read into
the page-sized buffer at `buffer`: `o` is a page-aligned 32-bit offset, the
file reaches to the end of the page, its block size is not zero, and the
pages of the frames `frames` (with the block that a fill may write past each)
lie outside the buffer. -/
def PageKey (s : State) (frames : List Nat) (buffer i o : Nat) : Prop :=
  o % PAGE_SIZE = 0 ∧ o < 2 ^ 32 ∧ o + PAGE_SIZE ≤ (s.inodes i).i_size ∧
  0 < (s.inodes i).s_blocksize ∧
  ∀ n ∈ frames, ∀ x, s.data n ≤ x →
    x < s.data n + PAGE_SIZE + (s.inodes i).s_blocksize → x < buffer ∨ buffer + PAGE_SIZE ≤ x

/-- Memory `s`, reached from `s0`, is a well-formed pool with free list `free`
in which frame `f` is cached under `(j, o)` exactly when `C f j o`; the
inodes, the `data` fields and the size of the frame table are those of `s0`. -/
def Holds (m : Machine) (s0 s : State) (free : List Nat) (C : Nat → Nat → Nat → Prop) : Prop :=
  ∃ chains, PoolWF m s free chains ∧ s.inodes = s0.inodes ∧ s.data = s0.data ∧
    NR_PAGES m s = NR_PAGES m s0 ∧ ∀ f j o, Cached s chains f j o ↔ C f j o

/-- Example for C20: the memory after `kmalloc` has lent a frame in `s`. -/
def evict_lend (s : State) : State := (returned (get_free_page id 4096 s) (none, s)).2

/-- Example for C20: the memory after the fill of frame `pg` for the first
page of inode `i`, every block being a hole. -/
def evict_fill (pg i : Nat) (s : State) : State :=
  (returned (bread_page hole_env 4096 pg i 0 0 MAP_SHARED s) (0, s)).2

/-- Example for C20: the memory after the page in frame `pg` is copied to the
buffer at 0x10000000 and the frame is released. -/
def evict_copy (pg : Nat) (s : State) : State :=
  returned (release_page plain pg
    (memcpy_b s 0x10000000 (fun k => s.mem (s.data pg + 0 + k)) 4096)) s

/-- Example for C20: `disk4` after the first page of inode 4 is read through
frame 0. -/
def evict1 : State := evict_copy 0 (evict_fill 0 4 (evict_lend disk4))

/-- Example for C20: `evict1` after the first page of inode 8 is read through
frame 1. -/
def evict2 : State := evict_copy 1 (evict_fill 1 8 (evict_lend evict1))

/-- Example for C20: `evict2` after the first page of inode 12 is read through
frame 2. -/
def evict3 : State := evict_copy 2 (evict_fill 2 12 (evict_lend evict2))

/-- Example for C20: `evict3` after the first page of inode 16 is read through
frame 3. -/
def evict4 : State := evict_copy 3 (evict_fill 3 16 (evict_lend evict3))

/-- Example for C20: `evict4` after the first page of inode 20 is read through
frame 0, which is taken from inode 4. -/
def evict5 : State := evict_copy 0 (evict_fill 0 20 (evict_lend evict4))

/-- Example for C21: `init_example` (the memory built by `page_init(2)`, frames
0 and 1 free) after one `get_free_page`, which lends frame 0. -/
def pair_lent : State := (returned (get_free_page id 0 init_example) (none, init_example)).2

/-- A memory of `net/unix.c` with no socket bound or connected, on which
examples are built. -/
def Net.blank : Net :=
  { state := fun _ => 0, socket := fun u => some u, peer := fun _ => none, data := fun _ => 0,
    sun := fun _ => none, readoff := fun _ => 0, writeoff := fun _ => 0, size := fun _ => 0,
    next := fun _ => none, unix_socket_head := none, mem := fun _ => 0 }

/-- Example for C23: socket 1 is bound to the path `/s` and is the only one on
the list of UNIX sockets. -/
def listen_example : Net :=
  { Net.blank with
    sun := fun u => if u = 1 then some { sun_family := AF_UNIX, sun_path := [47, 115] } else none
    unix_socket_head := some 1 }

/-- Example for C23: sockets 0 and 1 are connected to each other, their buffer
at address 0x1000 holding nothing. -/
def pair_example : Net :=
  { Net.blank with
    state := fun _ => SS_CONNECTED
    peer := fun u => if u = 0 then some 1 else some 0
    data := fun _ => 0x1000 }

/-- Example for C23: `pair_example` with the buffer of socket 1 full. -/
def full_example : Net :=
  { pair_example with
    writeoff := fun u => if u = 1 then PIPE_BUF else 0
    size := fun u => if u = 1 then PIPE_BUF else 0 }

/-- Collaborators for the examples of C23: every name resolves, the queue
takes the socket, and every interruptible sleep returns `r` without the memory
having changed. -/
def intr_env (r : Int) : NetEnv :=
  { malloc_name := fun p => (0, p)
    namei := fun _ => 0
    insert_socket_to_queue := fun _ _ n => (0, n)
    sleep := fun _ n => (r, n) }

/-- An all-zero memory with room for four descriptors and 1024 buckets, whose
files are all 0x70002000 bytes long with 1 KiB blocks. -/
def long_disk0 : State :=
  { blank 176 4096 with
    inodes := fun a => { inode := a, dev := 0, i_size := 0x70002000, s_blocksize := 1024 } }

/-- Example memory: the one `page_init(4)` builds on `plain` from `long_disk0`. -/
def long_disk : State := returned (page_init plain 4 long_disk0) long_disk0

/-! ## Properties -/

/-- Linking a frame into the free list can fail on a `NULL` pointer only, never
through `PANIC`. -/
theorem link_before_head_ne_halted (pg : Nat) (s : State) :
    link_before_head pg s ≠ .error Fault.halted := by
  unfold link_before_head
  split
  · simp
  · dsimp only
    split <;> simp

@[simp] theorem upd_same {β : Type} (f : Nat → β) (a : Nat) (v : β) : upd f a v a = v := by
  simp [upd]

theorem upd_ne {β : Type} (f : Nat → β) {a x : Nat} (v : β) (h : x ≠ a) : upd f a v x = f x := by
  simp [upd, h]

theorem lastOf_mem (a : Nat) (l : List Nat) : lastOf a l ∈ a :: l := by
  induction l generalizing a with
  | nil => simp [lastOf]
  | cons x l ih =>
    have := ih x
    simp only [lastOf]
    exact List.mem_cons_of_mem _ this

theorem lastOf_append (a x : Nat) (l : List Nat) : lastOf a (l ++ [x]) = x := by
  induction l generalizing a with
  | nil => rfl
  | cons y l ih => simpa [lastOf] using ih y

/-- A path is kept by any change of the links that leaves alone the `next` of
its frames but the last and the `prev` of its frames but the first. -/
theorem Path.path_congr {nx pv nx2 pv2 : Nat → Option Nat} {a b : Nat} {l : List Nat}
    (hp : Path nx pv a l b) (hn : ∀ y ∈ a :: l, nx2 y = nx y)
    (hpv : ∀ y ∈ l ++ [b], pv2 y = pv y) : Path nx2 pv2 a l b := by
  induction l generalizing a with
  | nil =>
    obtain ⟨h1, h2⟩ := hp
    exact ⟨by rw [hn a (by simp), h1], by rw [hpv b (by simp), h2]⟩
  | cons x l ih =>
    obtain ⟨⟨h1, h2⟩, h3⟩ := hp
    refine ⟨⟨by rw [hn a (by simp), h1], by rw [hpv x (by simp), h2]⟩, ?_⟩
    exact ih h3 (fun y hy => hn y (List.mem_cons_of_mem _ hy))
      (fun y hy => hpv y (by simp at hy ⊢; tauto))

theorem Path.append {nx pv : Nat → Option Nat} {a x b : Nat} {l1 l2 : List Nat} :
    Path nx pv a (l1 ++ x :: l2) b ↔ Path nx pv a l1 x ∧ Path nx pv x l2 b := by
  induction l1 generalizing a with
  | nil => simp [Path]
  | cons y l1 ih => simp [Path, ih, and_assoc]

/-- The last frame of a path points to the end of the path, and back. -/
theorem Path.last {nx pv : Nat → Option Nat} {a b : Nat} {l : List Nat}
    (hp : Path nx pv a l b) : Link nx pv (lastOf a l) b := by
  induction l generalizing a with
  | nil => exact hp
  | cons x l ih => exact ih hp.2

/-- Redirecting the last frame of a path to a new end `b`. -/
theorem Path.redirect {nx pv : Nat → Option Nat} {a c : Nat} (b : Nat) {l : List Nat}
    (hp : Path nx pv a l c) (hb : b ∉ l) (hnd : (a :: l).Nodup) :
    Path (upd nx (lastOf a l) (some b)) (upd pv b (some (lastOf a l))) a l b := by
  induction l generalizing a with
  | nil => exact ⟨by simp [lastOf], by simp [lastOf]⟩
  | cons x l ih =>
    obtain ⟨⟨h1, h2⟩, h3⟩ := hp
    have hax : a ≠ lastOf x l := by
      intro h
      have := lastOf_mem x l
      rw [← h] at this
      exact (List.nodup_cons.1 hnd).1 this
    have hxb : x ≠ b := fun h => hb (by simp [h])
    refine ⟨⟨?_, ?_⟩, ?_⟩
    · simp only [lastOf]; rw [upd_ne _ _ hax, h1]
    · rw [upd_ne _ _ hxb, h2]
    · exact ih h3 (fun h => hb (List.mem_cons_of_mem _ h)) (List.nodup_cons.1 hnd).2

/-- Every frame of a path has its successor on the path. -/
theorem Path.path_next_mem {nx pv : Nat → Option Nat} {a b : Nat} {l : List Nat}
    (hp : Path nx pv a l b) {y z : Nat} (hy : y ∈ a :: l) (hz : nx y = some z) :
    z ∈ l ++ [b] := by
  induction l generalizing a with
  | nil =>
    simp only [List.mem_singleton] at hy
    subst hy
    have := hp.1
    simp_all
  | cons x l ih =>
    rcases List.mem_cons.1 hy with rfl | hy
    · have := hp.1.1
      simp_all
    · have := ih hp.2 hy
      simp at this ⊢
      tauto

/-- Every frame of a path is reached from its start along `next`. -/
theorem Path.path_reach {nx pv : Nat → Option Nat} {a b : Nat} {l : List Nat}
    (hp : Path nx pv a l b) (R : Nat → Prop) (ha : R a)
    (hR : ∀ u v, R u → nx u = some v → R v) : ∀ y ∈ l ++ [b], R y := by
  induction l generalizing a with
  | nil =>
    intro y hy
    simp only [List.nil_append, List.mem_singleton] at hy
    subst hy
    exact hR _ _ ha hp.1
  | cons x l ih =>
    intro y hy
    have hx : R x := hR _ _ ha hp.1.1
    rcases List.mem_cons.1 hy with rfl | hy
    · exact hx
    · exact ih hp.2 hx y hy

/-- On a well-formed free list, the frames reached from `page_head` are the
frames of the list. -/
theorem FreeRing.on_free_iff {s : State} {l : List Nat} (h : FreeRing s l) (n : Nat) :
    OnFreeList s n ↔ n ∈ l := by
  cases l with
  | nil =>
    simp only [FreeRing] at h
    constructor
    · intro hn
      induction hn with
      | head hh => simp [h] at hh
      | next _ _ ih => exact absurd ih (by simp)
    · simp
  | cons a t =>
    obtain ⟨hh, hnd, hp⟩ := h
    constructor
    · intro hn
      induction hn with
      | head h1 =>
        rw [hh] at h1
        simp at h1
        simp [h1]
      | next _ hnx ih =>
        have := hp.path_next_mem ih hnx
        simp at this ⊢
        tauto
    · intro hn
      have h0 : OnFreeList s a := OnFreeList.head hh
      rcases List.mem_cons.1 hn with rfl | hn
      · exact h0
      · exact hp.path_reach (OnFreeList s) h0 (fun u v hu huv => OnFreeList.next hu huv) n (by simp [hn])

theorem upd_self_val {β : Type} (f : Nat → β) (a x : Nat) : upd f a (f x) x = f x := by
  unfold upd; split <;> rfl

/-- What `remove_from_free_list` computes on a frame with both neighbours. -/
theorem remove_from_free_list_eq {s : State} {pg p n : Nat} (hp : s.prev_free pg = some p)
    (hn : s.next_free pg = some n) :
    remove_from_free_list pg s = .ok
      { s with
        next_free := upd s.next_free p (some n)
        prev_free := upd s.prev_free n (some p)
        kstat := { s.kstat with free_pages := s.kstat.free_pages - 1 }
        page_head := if s.page_head = some pg then some n else s.page_head } := by
  have h1 : upd s.next_free p (some n) pg = some n := by
    rw [← hn, upd_self_val]
  simp only [remove_from_free_list, hp, hn, deref, bind, Except.bind, h1, pure, Except.pure]

/-- What `link_before_head` computes on a non-empty list. -/
theorem link_before_head_eq {s : State} {pg h z : Nat} (hh : s.page_head = some h)
    (hz : s.prev_free h = some z) :
    link_before_head pg s = .ok
      { s with
        next_free := upd (upd s.next_free pg (some h)) z (some pg)
        prev_free := upd (upd s.prev_free pg (some z)) h (some pg) } := by
  have h1 : upd s.prev_free pg (some z) h = some z := by
    rw [← hz, upd_self_val]
  simp only [link_before_head, hh, h1, hz]

/-- What `link_before_head` computes on an empty list. -/
theorem link_before_head_nil {s : State} (pg : Nat) (hh : s.page_head = none) :
    link_before_head pg s = .ok
      { s with
        next_free := upd s.next_free pg (some pg)
        prev_free := upd s.prev_free pg (some pg)
        page_head := some pg } := by
  simp only [link_before_head, hh]

/-- Unlinking the head of a free list of at least two frames leaves the free
list of the others, headed by the successor. -/
theorem FreeRing.remove_head {s : State} {h x : Nat} {t : List Nat}
    (hr : FreeRing s (h :: x :: t)) :
    ∃ s2, remove_from_free_list h s = .ok s2 ∧ FreeRing s2 (x :: t) ∧
      s2 = { s with
        next_free := upd s.next_free (lastOf x t) (some x)
        prev_free := upd s.prev_free x (some (lastOf x t))
        kstat := { s.kstat with free_pages := s.kstat.free_pages - 1 }
        page_head := some x } := by
  obtain ⟨hh, hnd, hp⟩ := hr
  have hl := hp.last
  simp only [lastOf] at hl
  have hx := hp.1
  refine ⟨_, ?_, ?_, rfl⟩
  · rw [remove_from_free_list_eq hl.2 hx.1]
    simp [hh]
  · refine ⟨rfl, (List.nodup_cons.1 hnd).2, ?_⟩
    exact Path.redirect x hp.2 (List.nodup_cons.1 (List.nodup_cons.1 hnd).2).1
      (List.nodup_cons.1 hnd).2

/-- The two links made by `link_before_head`: the old frames still follow
one another and end in `pg`, and `pg` points to the old head. -/
theorem Path.link_tail {nx pv : Nat → Option Nat} {h pg : Nat} {t : List Nat}
    (hp : Path nx pv h t h) (hnd : (h :: t).Nodup) (hpg : pg ∉ h :: t) :
    Path (upd (upd nx pg (some h)) (lastOf h t) (some pg))
         (upd (upd pv pg (some (lastOf h t))) h (some pg)) h t pg ∧
    Link (upd (upd nx pg (some h)) (lastOf h t) (some pg))
         (upd (upd pv pg (some (lastOf h t))) h (some pg)) pg h := by
  have hz : lastOf h t ≠ pg := fun e => hpg (e ▸ lastOf_mem h t)
  have hhp : h ≠ pg := fun e => hpg (by simp [e])
  constructor
  · refine (Path.redirect pg hp (fun hm => hpg (List.mem_cons_of_mem _ hm)) hnd).path_congr ?_ ?_
    · intro y hy
      have hyp : y ≠ pg := fun e => hpg (e ▸ hy)
      by_cases hyz : y = lastOf h t
      · subst hyz; simp
      · rw [upd_ne _ _ hyz, upd_ne _ _ hyz, upd_ne _ _ hyp]
    · intro y hy
      have hyh : y ≠ h := by
        intro e
        subst e
        simp only [List.mem_append, List.mem_singleton] at hy
        rcases hy with hy | hy
        · exact (List.nodup_cons.1 hnd).1 hy
        · exact hhp hy
      rw [upd_ne _ _ hyh]
  · constructor
    · rw [upd_ne _ _ hz.symm, upd_same]
    · rw [upd_same]

/-- C2: when the free list is empty by the test of `get_free_page`
(`page_head->next_free == page_head`) both before the sleep and after the
wake, `get_free_page` returns `NULL` and the memory is exactly the one found
on waking: no descriptor, list, hash bucket or counter is written. -/
theorem C2_get_free_page_out_of_memory (sleep : State → State) (fuel : Nat) (s : State)
    (h h1 : Nat) (hs : s.page_head = some h) (he : s.next_free h = some h)
    (hs1 : (sleep s).page_head = some h1) (he1 : (sleep s).next_free h1 = some h1) :
    get_free_page sleep fuel s = .ok (none, sleep s) := by
  simp [get_free_page, free_list_empty, deref, hs, he, hs1, he1, bind, Except.bind, pure,
    Except.pure]

/-- Witness of C2: a memory whose only free frame is frame 0, with no other
process changing it during the sleep. -/
theorem C2_witness :
    get_free_page id 0
      { blank 44 4096 with page_head := some 0, next_free := fun _ => some 0 }
      = .ok (none, { blank 44 4096 with page_head := some 0, next_free := fun _ => some 0 }) :=
  C2_get_free_page_out_of_memory id 0 _ 0 0 rfl rfl rfl rfl

/-- Linking a frame that is not on the free list: the list gains it as its
last frame, and it would be the first if `page_head` were moved to it; no
field other than the free links and `page_head` is written. -/
theorem FreeRing.link {s : State} {free : List Nat} (hr : FreeRing s free) {pg : Nat}
    (hpg : pg ∉ free) :
    ∃ s2, link_before_head pg s = .ok s2 ∧
      s2 = { s with next_free := s2.next_free, prev_free := s2.prev_free,
                    page_head := s2.page_head } ∧
      FreeRing s2 (free ++ [pg]) ∧
      FreeRing { s2 with page_head := some pg } (pg :: free) ∧
      (∃ h, s2.page_head = some h ∧ s2.prev_free h = some pg) ∧
      (free ≠ [] → s2.page_head = s.page_head) := by
  cases free with
  | nil =>
    have hh : s.page_head = none := hr
    refine ⟨_, link_before_head_nil pg hh, rfl, ?_, ?_, ⟨pg, rfl, by simp⟩, fun h => absurd rfl h⟩
    · exact ⟨rfl, by simp, by simp [Path, Link]⟩
    · exact ⟨rfl, by simp, by simp [Path, Link]⟩
  | cons h t =>
    obtain ⟨hh, hnd, hp⟩ := hr
    have hz := hp.last.2
    have hlink := Path.link_tail hp hnd hpg
    refine ⟨_, link_before_head_eq hh hz, rfl, ⟨hh, ?_, ?_⟩, ?_, ⟨h, hh, by simp⟩, fun _ => rfl⟩
    · have : (h :: t ++ [pg]).Nodup := by
        rw [List.nodup_append]
        refine ⟨hnd, by simp, ?_⟩
        intro a ha hb
        simp only [List.mem_singleton] at hb
        exact hpg (hb ▸ ha)
      simpa using this
    · exact Path.append.2 ⟨hlink.1, hlink.2⟩
    · exact ⟨rfl, List.nodup_cons.2 ⟨hpg, hnd⟩, hlink.2, hlink.1⟩

/-- `release_page` when other holders remain. -/
theorem release_page_shared {m : Machine} {s : State} {page : Nat}
    (hv : valid_page m s page = true) (hc : 1 < s.count page) :
    release_page m page s = .ok { s with count := upd s.count page (s.count page - 1) } := by
  have : upd s.count page (s.count page - 1) page > 0 := by simp; omega
  simp only [release_page, hv, Bool.not_true, Bool.false_eq_true, if_false]
  rw [if_pos this]

/-- `release_page` by the last holder. -/
theorem release_page_last {m : Machine} {s s2 : State} {page : Nat}
    (hv : valid_page m s page = true) (hc : s.count page ≤ 1)
    (hl : link_before_head page { s with count := upd s.count page (s.count page - 1) } = .ok s2) :
    release_page m page s = .ok
      { s2 with
        page_head := if s2.inode page = none then some page else s2.page_head
        kstat := { s2.kstat with free_pages := s2.kstat.free_pages + 1 } } := by
  have : ¬ upd s.count page (s.count page - 1) page > 0 := by simp; omega
  simp only [release_page, hv, Bool.not_true, Bool.false_eq_true, if_false]
  rw [if_neg this, hl]

/-- C5: `release_page(page)` reaches `PANIC` exactly when `valid_page(page)` is
false, that is exactly when `page >= page_table_size / sizeof(struct page)`;
for a page in range it never does. -/
theorem C5_release_page_panics_iff_invalid (m : Machine) (page : Nat) (s : State) :
    (release_page m page s = .error Fault.halted ↔ valid_page m s page = false) ∧
    (valid_page m s page = false ↔ s.page_table_size / m.sizeof_page ≤ page) := by
  constructor
  · constructor
    · intro h
      by_contra hv
      simp only [Bool.not_eq_false] at hv
      simp only [release_page, hv, Bool.not_true, Bool.false_eq_true, if_false] at h
      split at h
      · exact absurd h (by simp)
      · split at h
        · rename_i e heq
          rw [Except.error.injEq] at h
          subst h
          exact link_before_head_ne_halted _ _ heq
        · exact absurd h (by simp)
    · intro hv
      simp [release_page, hv]
  · simp [valid_page, NR_PAGES]

/-- C6 (evaluation): with a 4096-byte hash table (1024 buckets), inode number 5
and offset 0, `PAGE_HASH` yields bucket 1, whereas `(5 XOR 0) mod 1024` is 5. -/
theorem C6_page_hash_at_5_0 :
    PAGE_HASH (blank 44 4096) 5 0 = .ok 1 ∧
    (5 ^^^ 0) % NR_PAGE_HASH (blank 44 4096) = 5 ∧
    NR_PAGE_HASH (blank 44 4096) = 1024 := by
  refine ⟨?_, ?_, ?_⟩ <;> rfl


theorem FreeRing.nodup {s : State} {l : List Nat} (h : FreeRing s l) : l.Nodup := by
  cases l with
  | nil => simp
  | cons a t => exact h.2.1

/-- On a well-formed free list the test of `get_free_page` answers whether
the list has a single frame. -/
theorem FreeRing.empty_test {s : State} {h : Nat} {t : List Nat} (hr : FreeRing s (h :: t)) :
    free_list_empty s = .ok (decide (t = [])) := by
  obtain ⟨hh, hnd, hp⟩ := hr
  simp only [free_list_empty, hh, deref, bind, Except.bind, pure, Except.pure]
  congr 1
  cases t with
  | nil => simpa using hp.1
  | cons x t =>
    have hx := hp.1.1
    have : h ≠ x := fun e => (List.nodup_cons.1 hnd).1 (by simp [e])
    simp [hx, this.symm]

theorem free_list_empty_nil {s : State} (hr : FreeRing s []) :
    free_list_empty s = .error Fault.null_deref := by
  have hh : s.page_head = none := hr
  simp [free_list_empty, hh, deref, bind, Except.bind]

/-- The search misses at once in a bucket that is empty. -/
theorem search_page_hash_none {s : State} {fuel inode offset i : Nat}
    (hi : PAGE_HASH s (s.inodes inode).inode offset = .ok i) (hb : s.page_hash_table i = none) :
    search_page_hash fuel inode offset s = .ok (none, s) := by
  simp only [search_page_hash, hi, bind, Except.bind, hb]
  cases fuel <;> rfl

/-- When the hash table is a whole number of buckets, `PAGE_HASH` stays below
their number. -/
theorem PAGE_HASH_lt {s : State} {a b i : Nat} (hd : sizeof_uint ∣ s.page_hash_table_size)
    (hi : PAGE_HASH s a b = .ok i) : i < NR_PAGE_HASH s := by
  unfold PAGE_HASH at hi
  split at hi
  · exact absurd hi (by simp)
  · rename_i h0
    simp only [Except.ok.injEq] at hi
    subst hi
    exact Nat.div_lt_div_of_lt_of_dvd hd (Nat.mod_lt _ (Nat.pos_of_ne_zero h0))

/-- What `get_free_page_take` computes from the results of its two calls. -/
theorem get_free_page_take_eq {s s1 s2 : State} {h fuel : Nat} (hh : s.page_head = some h)
    (h1 : remove_from_free_list h s = .ok s1) (h2 : remove_from_hash fuel h s1 = .ok s2) :
    get_free_page_take fuel s = .ok (some h,
      { s2 with count := upd s2.count h 1, inode := upd s2.inode h none,
                offset := upd s2.offset h 0 }) := by
  simp only [get_free_page_take, hh, deref, bind, Except.bind, h1, h2, pure, Except.pure]

theorem remove_from_hash_no_ident {s : State} {pg : Nat} (fuel : Nat) (h : s.inode pg = none) :
    remove_from_hash fuel pg s = .ok s := by
  simp only [remove_from_hash, h]

/-- Taking the head of the free list in a memory of `Inv`. -/
theorem Inv.take {m : Machine} {pages : Nat} {s : State} {h x : Nat} {t : List Nat}
    (hi : Inv m pages s (h :: x :: t)) (fuel : Nat) :
    ∃ s2, get_free_page_take fuel s = .ok (some h, s2) ∧ Inv m pages s2 (x :: t) ∧
      s.count h = 0 ∧ ¬ reserved s h := by
  obtain ⟨s1, h1, hr1, hs1⟩ := hi.ring.remove_head
  have hh : s.page_head = some h := hi.ring.1
  have hlt : h < pages := hi.lt h (by simp)
  have hnd : (h :: x :: t).Nodup := hi.ring.nodup
  have hin : s1.inode h = none := by rw [hs1]; exact hi.no_ident h hlt
  have hcr := (hi.free_iff h hlt).1 (by simp)
  have hfl : ∀ n, reserved s1 n ↔ reserved s n := by
    intro n; rw [hs1]; rfl
  have hcn : ∀ n, n ≠ h → upd s1.count h 1 n = s.count n := by
    intro n hn; rw [upd_ne _ _ hn, hs1]
  refine ⟨_, get_free_page_take_eq hh h1 (remove_from_hash_no_ident fuel hin), ?_, hcr.1, hcr.2⟩
  constructor
  · exact hr1
  · intro n hn; exact hi.lt n (List.mem_cons_of_mem _ hn)
  · intro n hn
    show n ∈ x :: t ↔ upd s1.count h 1 n = 0 ∧ ¬ reserved s1 n
    rw [hfl]
    by_cases e : n = h
    · subst e
      simp only [upd_same]
      constructor
      · intro hm; exact absurd hm (List.nodup_cons.1 hnd).1
      · intro hc; simp at hc
    · rw [hcn n e, ← hi.free_iff n hn]
      simp [e]
  · intro n hn
    show upd s1.count h 1 n = 0 ∨ upd s1.count h 1 n = 1
    by_cases e : n = h
    · subst e; right; simp
    · rw [hcn n e]; exact hi.count01 n hn
  · intro n hn hres
    have hres2 : reserved s n := (hfl n).1 hres
    show upd s1.count h 1 n = 0
    by_cases e : n = h
    · subst e; exact absurd hres2 hcr.2
    · rw [hcn n e]; exact hi.res_count n hn hres2
  · intro n hn hn2
    have e : n ≠ h := by omega
    show upd s1.count h 1 n = 0
    rw [hcn n e]
    exact hi.beyond n hn (by rw [hs1] at hn2; exact hn2)
  · intro n hn
    show upd s1.inode h none n = none
    by_cases e : n = h
    · subst e; simp
    · rw [upd_ne _ _ e, hs1]; exact hi.no_ident n hn
  · intro b hb
    show s1.page_hash_table b = none
    rw [hs1]; exact hi.no_hash b (by rw [hs1] at hb; exact hb)
  · show sizeof_uint ∣ s1.page_hash_table_size
    rw [hs1]; exact hi.hash_size
  · show s1.kstat.free_pages = _
    rw [hs1]
    have := hi.free_pages
    simp only [List.length_cons] at this ⊢
    push_cast at this ⊢
    simp only [this]
    ring

/-- `get_free_page` keeps `Inv`, and the frame it returns was the head of the
free list, unheld and not reserved, in the memory it was taken from. -/
theorem Inv.get_free_page {m : Machine} {pages : Nat} {s s2 : State} {free free1 : List Nat}
    {sleep : State → State} {fuel : Nat} {r : Option Nat}
    (hi : Inv m pages s free) (hi1 : Inv m pages (sleep s) free1)
    (hg : get_free_page sleep fuel s = .ok (r, s2)) :
    (∃ free2, Inv m pages s2 free2) ∧
    (∀ f, r = some f → ∃ t, (t = s ∨ t = sleep s) ∧ t.page_head = some f ∧ t.count f = 0 ∧
      ¬ reserved t f) := by
  unfold Fiwix.get_free_page at hg
  cases free with
  | nil =>
    rw [free_list_empty_nil hi.ring] at hg
    exact absurd hg (by simp [bind, Except.bind])
  | cons h t =>
    rw [hi.ring.empty_test] at hg
    cases t with
    | cons x t =>
      obtain ⟨s3, h3, hi3, hc, hres⟩ := hi.take fuel
      simp only [List.cons_ne_nil, decide_False, bind, Except.bind, pure, Except.pure,
        Bool.false_eq_true, if_false, h3, Except.ok.injEq, Prod.mk.injEq] at hg
      obtain ⟨rfl, rfl⟩ := hg
      refine ⟨⟨_, hi3⟩, ?_⟩
      intro f hf
      simp only [Option.some.injEq] at hf
      subst hf
      exact ⟨s, Or.inl rfl, hi.ring.1, hc, hres⟩
    | nil =>
      simp only [decide_True, bind, Except.bind, pure, Except.pure, if_true] at hg
      cases free1 with
      | nil =>
        rw [free_list_empty_nil hi1.ring] at hg
        exact absurd hg (by simp)
      | cons h1 t1 =>
        rw [hi1.ring.empty_test] at hg
        cases t1 with
        | nil =>
          simp only [decide_True, if_true, Except.ok.injEq, Prod.mk.injEq] at hg
          obtain ⟨rfl, rfl⟩ := hg
          exact ⟨⟨_, hi1⟩, fun f hf => absurd hf (by simp)⟩
        | cons x t =>
          obtain ⟨s3, h3, hi3, hc, hres⟩ := hi1.take fuel
          simp only [List.cons_ne_nil, decide_False, Bool.false_eq_true, if_false, h3,
            Except.ok.injEq, Prod.mk.injEq] at hg
          obtain ⟨rfl, rfl⟩ := hg
          refine ⟨⟨_, hi3⟩, ?_⟩
          intro f hf
          simp only [Option.some.injEq] at hf
          subst hf
          exact ⟨sleep s, Or.inr rfl, hi1.ring.1, hc, hres⟩

/-- In a memory of `Inv` every search misses and writes nothing. -/
theorem Inv.search_page_hash {m : Machine} {pages : Nat} {s s2 : State} {free : List Nat}
    {fuel inode offset : Nat} {r : Option Nat} (hi : Inv m pages s free)
    (hs : search_page_hash fuel inode offset s = .ok (r, s2)) : r = none ∧ s2 = s := by
  cases hp : PAGE_HASH s (s.inodes inode).inode offset with
  | error e =>
    simp [Fiwix.search_page_hash, hp, bind, Except.bind] at hs
  | ok i =>
    rw [search_page_hash_none hp (hi.no_hash i (PAGE_HASH_lt hi.hash_size hp))] at hs
    simp only [Except.ok.injEq, Prod.mk.injEq] at hs
    exact ⟨hs.1.symm, hs.2.symm⟩

/-- `release_page` of a held frame keeps `Inv`: the frame becomes the head of
the free list. -/
theorem Inv.release_page {m : Machine} {pages : Nat} {s s2 : State} {free : List Nat}
    {page : Nat} (hi : Inv m pages s free) (hc : 1 ≤ s.count page)
    (hr : release_page m page s = .ok s2) : Inv m pages s2 (page :: free) := by
  have hv : valid_page m s page = true := by
    by_contra hv
    simp only [Bool.not_eq_true] at hv
    simp [Fiwix.release_page, hv] at hr
  have hlt0 : page < NR_PAGES m s := by simpa [valid_page] using hv
  have hlt : page < pages := by
    by_contra hge
    have := hi.beyond page (by omega) hlt0
    omega
  have hc1 : s.count page = 1 := by
    rcases hi.count01 page hlt with h | h <;> omega
  have hnres : ¬ reserved s page := fun h => by
    have := hi.res_count page hlt h
    omega
  have hnot : page ∉ free := fun h => by
    have := ((hi.free_iff page hlt).1 h).1
    omega
  have hring1 : FreeRing { s with count := upd s.count page (s.count page - 1) } free := by
    cases free <;> exact hi.ring
  obtain ⟨s3, hl, hsame, -, hB, -, -⟩ := hring1.link hnot
  have hin : s3.inode = s.inode := by rw [hsame]
  have hcn : s3.count = upd s.count page (s.count page - 1) := by rw [hsame]
  have hks : s3.kstat = s.kstat := by rw [hsame]
  have hfl : s3.flags = s.flags := by rw [hsame]
  have hpt : s3.page_hash_table = s.page_hash_table := by rw [hsame]
  have hsz : s3.page_hash_table_size = s.page_hash_table_size := by rw [hsame]
  have htz : s3.page_table_size = s.page_table_size := by rw [hsame]
  rw [release_page_last hv (by omega) hl] at hr
  simp only [Except.ok.injEq] at hr
  have hi3 : s3.inode page = none := by rw [hin]; exact hi.no_ident page hlt
  rw [if_pos hi3] at hr
  subst hr
  have hres : ∀ n, reserved s3 n ↔ reserved s n := by
    intro n; unfold reserved; rw [hfl]
  constructor
  · exact hB
  · intro n hn
    rcases List.mem_cons.1 hn with rfl | hn
    · exact hlt
    · exact hi.lt n hn
  · intro n hn
    show n ∈ page :: free ↔ s3.count n = 0 ∧ ¬ reserved s3 n
    rw [hres, hcn]
    by_cases e : n = page
    · subst e
      simp [hc1, hnres]
    · rw [upd_ne _ _ e, ← hi.free_iff n hn]
      simp [e]
  · intro n hn
    show s3.count n = 0 ∨ s3.count n = 1
    rw [hcn]
    by_cases e : n = page
    · subst e; left; simp [hc1]
    · rw [upd_ne _ _ e]; exact hi.count01 n hn
  · intro n hn hr
    show s3.count n = 0
    rw [hcn]
    by_cases e : n = page
    · subst e; simp [hc1]
    · rw [upd_ne _ _ e]; exact hi.res_count n hn ((hres n).1 hr)
  · intro n hn hn2
    show s3.count n = 0
    rw [hcn, upd_ne _ _ (by omega)]
    exact hi.beyond n hn (by
      have : NR_PAGES m s = s3.page_table_size / m.sizeof_page := by rw [htz]; rfl
      rw [this]; exact hn2)
  · intro n hn
    show s3.inode n = none
    rw [hin]; exact hi.no_ident n hn
  · intro b hb
    show s3.page_hash_table b = none
    rw [hpt]
    exact hi.no_hash b (by
      have : NR_PAGE_HASH s = s3.page_hash_table_size / sizeof_uint := by rw [hsz]; rfl
      rw [this]; exact hb)
  · show sizeof_uint ∣ s3.page_hash_table_size
    rw [hsz]; exact hi.hash_size
  · show s3.kstat.free_pages + 1 = _
    rw [hks, hi.free_pages]
    simp

theorem filter_range_succ (p : Nat → Bool) (k : Nat) :
    (List.range (k + 1)).filter p =
      (List.range k).filter p ++ (if p k then [k] else []) := by
  rw [List.range_succ, List.filter_append]
  congr 1
  by_cases h : p k <;> simp [h]

/-- A turn of the loop of `page_init` on a frame of the kernel image. -/
theorem page_init_frame_kernel {m : Machine} {s : State} {k : Nat} (hk : in_kernel m k = true) :
    page_init_frame m s k = .ok
      { s with page := upd s.page k k, flags := upd s.flags k PAGE_RESERVED,
               kstat := { s.kstat with kernel_reserved := s.kstat.kernel_reserved + 1 } } := by
  have hk2 : m.KERNEL_ENTRY_ADDR ≤ (k <<< PAGE_SHIFT) % 2 ^ 32 ∧
      (k <<< PAGE_SHIFT) % 2 ^ 32 < m.last_data_addr := by
    simpa [in_kernel, frame_addr] using hk
  unfold page_init_frame
  simp only [pure, Except.pure]
  rw [if_pos hk2]

/-- A turn of the loop of `page_init` on a frame that the BIOS map does not
list. -/
theorem page_init_frame_unlisted {m : Machine} {s : State} {k : Nat}
    (hk : in_kernel m k = false) (hb : m.addr_in_bios_map (frame_addr k) = false) :
    page_init_frame m s k = .ok
      { s with page := upd s.page k k, flags := upd s.flags k PAGE_RESERVED,
               kstat := { s.kstat with physical_reserved := s.kstat.physical_reserved + 1 } } := by
  have hk2 : ¬ (m.KERNEL_ENTRY_ADDR ≤ (k <<< PAGE_SHIFT) % 2 ^ 32 ∧
      (k <<< PAGE_SHIFT) % 2 ^ 32 < m.last_data_addr) := by
    simpa [in_kernel, frame_addr] using hk
  have hb2 : m.addr_in_bios_map ((k <<< PAGE_SHIFT) % 2 ^ 32) = false := hb
  unfold page_init_frame
  simp only [pure, Except.pure]
  rw [if_neg hk2]
  simp only [hb2, Bool.not_false, if_true]

/-- A turn of the loop of `page_init` on a usable frame. -/
theorem page_init_frame_usable {m : Machine} {s s3 : State} {k : Nat}
    (hk : in_kernel m k = false) (hb : m.addr_in_bios_map (frame_addr k) = true)
    (hl : link_before_head k { s with page := upd s.page k k,
                                      data := upd s.data k ((frame_addr k + m.PAGE_OFFSET) % 2 ^ 32) }
          = .ok s3) :
    page_init_frame m s k = .ok
      { s3 with kstat := { s3.kstat with free_pages := s3.kstat.free_pages + 1 } } := by
  have hk2 : ¬ (m.KERNEL_ENTRY_ADDR ≤ (k <<< PAGE_SHIFT) % 2 ^ 32 ∧
      (k <<< PAGE_SHIFT) % 2 ^ 32 < m.last_data_addr) := by
    simpa [in_kernel, frame_addr] using hk
  have hb2 : m.addr_in_bios_map ((k <<< PAGE_SHIFT) % 2 ^ 32) = true := hb
  rw [show frame_addr k = (k <<< PAGE_SHIFT) % 2 ^ 32 from rfl] at hl
  unfold page_init_frame
  simp only [pure, Except.pure, bind, Except.bind]
  rw [if_neg hk2]
  simp only [hb2, Bool.not_true, Bool.false_eq_true, if_false]
  rw [hl]

/-- One turn of the loop of `page_init` keeps the loop invariant. -/
theorem InitInv.step {m : Machine} {c s : State} {k : Nat} (hi : InitInv m c k s) :
    ∃ s2, page_init_frame m s k = .ok s2 ∧ InitInv m c (k + 1) s2 := by
  have hsame := hi.same
  have hks := hi.kstat_same
  by_cases hk : in_kernel m k = true
  · have hu : usable m k = false := by simp [usable, hk]
    refine ⟨_, page_init_frame_kernel hk, ?_⟩
    · constructor
      · rw [filter_range_succ, hu]
        simp only [Bool.false_eq_true, if_false, List.append_nil]
        have := hi.ring
        revert this
        cases (List.range k).filter (usable m) <;> exact id
      · intro n
        show upd s.flags k PAGE_RESERVED n = _
        by_cases e : n = k
        · subst e; simp [hu]
        · rw [upd_ne _ _ e, hi.flags n]
          have : n < k + 1 ↔ n < k := by omega
          simp only [this]
      · intro n
        show s.data n = _
        rw [hi.data n]
        by_cases e : n = k
        · subst e; simp [hu]
        · have : n < k + 1 ↔ n < k := by omega
          simp only [this]
      · intro n
        show upd s.page k k n = _
        by_cases e : n = k
        · subst e; simp
        · rw [upd_ne _ _ e, hi.page n]
          have : n < k + 1 ↔ n < k := by omega
          simp only [this]
      · conv_lhs => rw [hsame]
      · show s.kstat.free_pages = _
        rw [hi.free_pages, filter_range_succ, hu]
        simp
      · show s.kstat.kernel_reserved + 1 = _
        rw [hi.kernel_reserved, filter_range_succ, hk]
        simp
        ring
      · show s.kstat.physical_reserved = _
        rw [hi.physical_reserved, filter_range_succ]
        simp [hk]
      · conv_lhs => rw [hks]
  · simp only [Bool.not_eq_true] at hk
    by_cases hb : m.addr_in_bios_map (frame_addr k) = true
    · have hu : usable m k = true := by simp [usable, hk, hb]
      have hnot : k ∉ (List.range k).filter (usable m) := by simp
      have hring1 : FreeRing { s with page := upd s.page k k,
                                      data := upd s.data k ((frame_addr k + m.PAGE_OFFSET) % 2 ^ 32) }
          ((List.range k).filter (usable m)) := by
        have := hi.ring
        revert this
        cases (List.range k).filter (usable m) <;> exact id
      obtain ⟨s3, hl, hsame3, hA, -, -, -⟩ := hring1.link hnot
      have hfl : s3.flags = s.flags := by rw [hsame3]
      have hda : s3.data = upd s.data k ((frame_addr k + m.PAGE_OFFSET) % 2 ^ 32) := by
        rw [hsame3]
      have hpg : s3.page = upd s.page k k := by rw [hsame3]
      have hk3 : s3.kstat = s.kstat := by rw [hsame3]
      refine ⟨_, page_init_frame_usable hk hb hl, ?_⟩
      · constructor
        · rw [filter_range_succ, hu]
          simp only [if_true]
          revert hA
          generalize (List.range k).filter (usable m) ++ [k] = l
          cases l <;> exact id
        · intro n
          show s3.flags n = _
          rw [hfl, hi.flags n]
          by_cases e : n = k
          · subst e; simp [hu]
          · have : n < k + 1 ↔ n < k := by omega
            simp only [this]
        · intro n
          show s3.data n = _
          rw [hda]
          by_cases e : n = k
          · subst e; simp [hu]
          · rw [upd_ne _ _ e, hi.data n]
            have : n < k + 1 ↔ n < k := by omega
            simp only [this]
        · intro n
          show s3.page n = _
          rw [hpg]
          by_cases e : n = k
          · subst e; simp
          · rw [upd_ne _ _ e, hi.page n]
            have : n < k + 1 ↔ n < k := by omega
            simp only [this]
        · apply State.ext <;> first | rfl | (dsimp only; rw [hsame3]; dsimp only; rw [hsame])
        · show s3.kstat.free_pages + 1 = _
          rw [hk3, hi.free_pages, filter_range_succ, hu]
          simp
          ring
        · show s3.kstat.kernel_reserved = _
          rw [hk3, hi.kernel_reserved, filter_range_succ, hk]
          simp
        · show s3.kstat.physical_reserved = _
          rw [hk3, hi.physical_reserved, filter_range_succ]
          simp [hk, hb]
        · show _ = _
          rw [hk3]
          conv_lhs => rw [hks]
    · simp only [Bool.not_eq_true] at hb
      have hu : usable m k = false := by simp [usable, hk, hb]
      refine ⟨_, page_init_frame_unlisted hk hb, ?_⟩
      · constructor
        · rw [filter_range_succ, hu]
          simp only [Bool.false_eq_true, if_false, List.append_nil]
          have := hi.ring
          revert this
          cases (List.range k).filter (usable m) <;> exact id
        · intro n
          show upd s.flags k PAGE_RESERVED n = _
          by_cases e : n = k
          · subst e; simp [hu]
          · rw [upd_ne _ _ e, hi.flags n]
            have : n < k + 1 ↔ n < k := by omega
            simp only [this]
        · intro n
          show s.data n = _
          rw [hi.data n]
          by_cases e : n = k
          · subst e; simp [hu]
          · have : n < k + 1 ↔ n < k := by omega
            simp only [this]
        · intro n
          show upd s.page k k n = _
          by_cases e : n = k
          · subst e; simp
          · rw [upd_ne _ _ e, hi.page n]
            have : n < k + 1 ↔ n < k := by omega
            simp only [this]
        · conv_lhs => rw [hsame]
        · show s.kstat.free_pages = _
          rw [hi.free_pages, filter_range_succ, hu]
          simp
        · show s.kstat.kernel_reserved = _
          rw [hi.kernel_reserved, filter_range_succ, hk]
          simp
        · show s.kstat.physical_reserved + 1 = _
          rw [hi.physical_reserved, filter_range_succ]
          simp [hk, hb]
          ring
        · conv_lhs => rw [hks]

/-- The loop of `page_init` runs to its end and establishes the loop
invariant for all `pages` frames. -/
theorem page_init_loop (m : Machine) (c : State) (hh : c.page_head = none) (pages : Nat) :
    ∃ s2, (List.range pages).foldlM (page_init_frame m) c = .ok s2 ∧ InitInv m c pages s2 := by
  induction pages with
  | zero =>
    refine ⟨c, rfl, ?_⟩
    constructor
    · exact hh
    · intro n; simp
    · intro n; simp
    · intro n; simp
    · rfl
    · simp
    · simp
    · simp
    · rfl
  | succ k ih =>
    obtain ⟨s1, h1, hi1⟩ := ih
    obtain ⟨s2, h2, hi2⟩ := hi1.step
    refine ⟨s2, ?_, hi2⟩
    rw [List.range_succ, List.foldlM_append, h1]
    simp only [bind, Except.bind, List.foldlM_cons, List.foldlM_nil, h2, pure, Except.pure]

/-- What `page_init` computes from the result of its loop. -/
theorem page_init_eq {m : Machine} {pages : Nat} {s0 s2 : State}
    (h : (List.range pages).foldlM (page_init_frame m) (page_init_clear m s0) = .ok s2) :
    page_init m pages s0 = .ok
      { s2 with kstat := { s2.kstat with total_mem_pages := s2.kstat.free_pages,
                                         kernel_reserved := s2.kstat.kernel_reserved * 4,
                                         physical_reserved := s2.kstat.physical_reserved * 4 } } := by
  simp only [page_init, h, bind, Except.bind, pure, Except.pure]

theorem reserved_iff_flags {s : State} {n : Nat} (h : s.flags n = 0 ∨ s.flags n = PAGE_RESERVED) :
    reserved s n ↔ s.flags n = PAGE_RESERVED := by
  unfold reserved
  rcases h with h | h <;> rw [h] <;> decide

/-- `page_init` returns, and the memory it builds satisfies `Inv` with the
usable frames, in ascending order, as free list. -/
theorem page_init_inv {m : Machine} {pages : Nat} {s0 : State} (hh : s0.page_head = none)
    (hk : s0.kstat = Kstat.zero) (hp : pages ≤ NR_PAGES m s0)
    (hd : sizeof_uint ∣ s0.page_hash_table_size) :
    ∃ s, page_init m pages s0 = .ok s ∧ Inv m pages s ((List.range pages).filter (usable m)) := by
  obtain ⟨s2, h2, hi⟩ := page_init_loop m (page_init_clear m s0) hh pages
  refine ⟨_, page_init_eq h2, ?_⟩
  have hsame := hi.same
  have hcount : ∀ n < NR_PAGES m s0, s2.count n = 0 := by
    intro n hn
    rw [hsame]
    show (if n < NR_PAGES m s0 then (0 : Int) else s0.count n) = 0
    rw [if_pos hn]
  have hflags : ∀ n < pages, s2.flags n = if usable m n = false then PAGE_RESERVED else 0 := by
    intro n hn
    rw [hi.flags n]
    have : (if n < NR_PAGES m s0 then 0 else s0.flags n) = 0 := if_pos (by omega)
    by_cases hu : usable m n = false
    · simp [hn, hu]
    · rw [if_neg (fun h => hu h.2), if_neg hu]
      exact this
  have hres : ∀ n < pages, reserved s2 n ↔ usable m n = false := by
    intro n hn
    have hf := hflags n hn
    by_cases hu : usable m n = false
    · rw [if_pos hu] at hf
      rw [reserved_iff_flags (Or.inr hf)]
      simp [hf, hu]
    · rw [if_neg hu] at hf
      rw [reserved_iff_flags (Or.inl hf), hf]
      simp only [hu, iff_false]
      decide
  have hsz : s2.page_hash_table_size = s0.page_hash_table_size := by rw [hsame]; rfl
  have htz : s2.page_table_size = s0.page_table_size := by rw [hsame]; rfl
  constructor
  · have := hi.ring
    revert this
    cases (List.range pages).filter (usable m) <;> exact id
  · intro n hn
    simp only [List.mem_filter, List.mem_range] at hn
    exact hn.1
  · intro n hn
    show _ ↔ s2.count n = 0 ∧ ¬ reserved s2 n
    rw [hres n hn, hcount n (by omega)]
    simp [hn]
  · intro n hn
    left
    exact hcount n (by omega)
  · intro n hn _
    exact hcount n (by omega)
  · intro n _ hn
    exact hcount n (by
      have : NR_PAGES m s0 = s2.page_table_size / m.sizeof_page := by rw [htz]; rfl
      rw [this]; exact hn)
  · intro n hn
    show s2.inode n = none
    rw [hsame]
    show (if n < NR_PAGES m s0 then none else s0.inode n) = none
    rw [if_pos (by omega)]
  · intro b hb
    show s2.page_hash_table b = none
    have hb2 : b < NR_PAGE_HASH s0 := by
      have : NR_PAGE_HASH s0 = s2.page_hash_table_size / sizeof_uint := by rw [hsz]; rfl
      rw [this]; exact hb
    rw [hsame]
    show (if b < NR_PAGE_HASH s0 then none else s0.page_hash_table b) = none
    rw [if_pos hb2]
  · show sizeof_uint ∣ s2.page_hash_table_size
    rw [hsz]; exact hd
  · show s2.kstat.free_pages = _
    rw [hi.free_pages]
    show s0.kstat.free_pages + _ = _
    rw [hk]
    simp [Kstat.zero]

/-- Every memory of `Reach` satisfies `Inv` for some free list. -/
theorem Reach.inv {m : Machine} {pages : Nat} {s : State} (hr : Reach m pages s) :
    ∃ free, Inv m pages s free := by
  induction hr with
  | init hh hk hp hd hinit =>
    obtain ⟨s1, h1, hi⟩ := page_init_inv hh hk hp hd
    rw [h1] at hinit
    simp only [Except.ok.injEq] at hinit
    subst hinit
    exact ⟨_, hi⟩
  | get_free_page _ _ hg ih ih1 =>
    obtain ⟨free, hi⟩ := ih
    obtain ⟨free1, hi1⟩ := ih1
    exact (hi.get_free_page hi1 hg).1
  | search_page_hash _ hs ih =>
    obtain ⟨free, hi⟩ := ih
    rw [(hi.search_page_hash hs).2]
    exact ⟨free, hi⟩
  | release_page _ hc hrel ih =>
    obtain ⟨free, hi⟩ := ih
    exact ⟨_, hi.release_page hc hrel⟩

theorem init_example_eq : page_init plain 2 (blank 88 4096) = .ok init_example := rfl

theorem boot0_reach : Reach boot 4 boot0 :=
  @Reach.init boot 4 (blank 176 4096) boot0 rfl rfl (by decide) (by decide) rfl

theorem boot1_reach : Reach boot 4 boot1 :=
  @Reach.get_free_page boot 4 boot0 boot1 id 0 (some 0) boot0_reach boot0_reach rfl

/-- C7: in every memory reached from `page_init` through `get_free_page`,
`search_page_hash` and `release_page` (the latter on frames with loan count at
least 1), a frame is on the free list, i.e. reached from `page_head` along
`next_free`, exactly when its loan count is zero and it is not reserved; and a
frame that `get_free_page` returns was, in the memory it was taken from (the
one the call started in, or the one found on waking), the head of the free
list with loan count zero and not reserved. -/
theorem C7_free_list_iff_unheld (m : Machine) (pages : Nat) (s : State)
    (hr : Reach m pages s) :
    (∀ n < pages, OnFreeList s n ↔ s.count n = 0 ∧ ¬ reserved s n) ∧
    (∀ (sleep : State → State) (fuel f : Nat) (s2 : State), Reach m pages (sleep s) →
      get_free_page sleep fuel s = .ok (some f, s2) →
      ∃ t, (t = s ∨ t = sleep s) ∧ t.page_head = some f ∧ t.count f = 0 ∧ ¬ reserved t f) := by
  obtain ⟨free, hi⟩ := hr.inv
  constructor
  · intro n hn
    rw [hi.ring.on_free_iff n]
    exact hi.free_iff n hn
  · intro sleep fuel f s2 hr1 hg
    obtain ⟨free1, hi1⟩ := hr1.inv
    exact (hi.get_free_page hi1 hg).2 f rfl

/-- Witness of C7: the memory `boot1`, built by `page_init(4)` with frame 1
reserved, after frame 0 was lent. -/
theorem C7_witness :
    (∀ n < 4, OnFreeList boot1 n ↔ boot1.count n = 0 ∧ ¬ reserved boot1 n) ∧
    (∀ (sleep : State → State) (fuel f : Nat) (s2 : State),
      Reach boot 4 (sleep boot1) →
      get_free_page sleep fuel boot1 = .ok (some f, s2) →
      ∃ t, (t = boot1 ∨ t = sleep boot1) ∧ t.page_head = some f ∧
        t.count f = 0 ∧ ¬ reserved t f) :=
  C7_free_list_iff_unheld boot 4 boot1 boot1_reach

/-- The frames on a well-formed free list are as many as the list is long. -/
theorem FreeRing.ncard {s : State} {l : List Nat} (h : FreeRing s l) :
    Set.ncard {n | OnFreeList s n} = l.length := by
  have : {n | OnFreeList s n} = (↑l.toFinset : Set Nat) := by
    ext n
    simp [h.on_free_iff n]
  rw [this, Set.ncard_coe_Finset, List.toFinset_card_of_nodup h.nodup]

/-- C8: in every memory reached from `page_init` through `get_free_page`,
`search_page_hash` and `release_page` (the latter on frames with loan count at
least 1), `free_pages` is the number of frames on the free list headed by
`page_head`. -/
theorem C8_free_pages_counts_free_list (m : Machine) (pages : Nat) (s : State)
    (hr : Reach m pages s) :
    s.kstat.free_pages = ((Set.ncard {n | OnFreeList s n} : Nat) : Int) := by
  obtain ⟨free, hi⟩ := hr.inv
  rw [hi.ring.ncard, hi.free_pages]

/-- Witness of C8: the memory `boot1`, built by `page_init(4)` with frame 1
reserved, after frame 0 was lent. -/
theorem C8_witness :
    boot1.kstat.free_pages = ((Set.ncard {n | OnFreeList boot1 n} : Nat) : Int) :=
  C8_free_pages_counts_free_list boot 4 boot1 boot1_reach

/-- C10: in every memory reached from `page_init(pages)` through
`get_free_page`, `search_page_hash` and `release_page` (the latter on frames
with loan count at least 1), the loan counts of the `pages` frames, the number
of frames on the free list and the number of reserved frames add up to
`pages`. -/
theorem C10_frames_accounted (m : Machine) (pages : Nat) (s : State) (hr : Reach m pages s) :
    (∑ n in Finset.range pages, s.count n) + ((Set.ncard {n | OnFreeList s n} : Nat) : Int) +
      (((Finset.range pages).filter (reserved s)).card : Int) = (pages : Int) := by
  obtain ⟨free, hi⟩ := hr.inv
  rw [hi.ring.ncard]
  have hfree : free.length = ((Finset.range pages).filter (fun n => n ∈ free)).card := by
    rw [← List.toFinset_card_of_nodup hi.ring.nodup]
    congr 1
    ext n
    simp only [List.mem_toFinset, Finset.mem_filter, Finset.mem_range]
    exact ⟨fun h => ⟨hi.lt n h, h⟩, fun h => h.2⟩
  rw [hfree, Finset.card_filter, Finset.card_filter]
  push_cast
  rw [← Finset.sum_add_distrib, ← Finset.sum_add_distrib]
  have : ∀ n ∈ Finset.range pages,
      s.count n + (if n ∈ free then (1 : Int) else 0) + (if reserved s n then (1 : Int) else 0)
        = 1 := by
    intro n hn
    have hn := Finset.mem_range.1 hn
    have h1 := hi.free_iff n hn
    have h2 := hi.count01 n hn
    have h3 := hi.res_count n hn
    by_cases hf : n ∈ free
    · have := h1.1 hf
      simp [hf, this.1, this.2]
    · by_cases hres : reserved s n
      · simp [hf, hres, h3 hres]
      · have hc : s.count n = 1 := by
          rcases h2 with h | h
          · exact absurd (h1.2 ⟨h, hres⟩) hf
          · exact h
        simp [hf, hres, hc]
  rw [Finset.sum_congr rfl this]
  simp

/-- Witness of C10: the memory `boot1`, built by `page_init(4)` with frame 1
reserved, after frame 0 was lent: one loan, two free frames, one reserved. -/
theorem C10_witness :
    (∑ n in Finset.range 4, boot1.count n) +
      ((Set.ncard {n | OnFreeList boot1 n} : Nat) : Int) +
      (((Finset.range 4).filter (reserved boot1)).card : Int) = ((4 : Nat) : Int) :=
  C10_frames_accounted boot 4 boot1 boot1_reach


/-- A chain segment is kept by any change of the links outside its frames. -/
theorem Seg.seg_congr {nx pv nx2 pv2 : Nat → Option Nat} {p c : Option Nat} {l : List Nat}
    (hs : Seg nx pv p c l) (h : ∀ y ∈ l, nx2 y = nx y ∧ pv2 y = pv y) : Seg nx2 pv2 p c l := by
  induction l generalizing p c with
  | nil => exact hs
  | cons f t ih =>
    obtain ⟨h1, h2, h3⟩ := hs
    have hf := h f (by simp)
    refine ⟨h1, by rw [hf.2, h2], ?_⟩
    rw [hf.1]
    exact ih h3 (fun y hy => h y (List.mem_cons_of_mem _ hy))

/-- The frame after `pg` on a chain segment is what `pg->next` points to. -/
theorem Seg.next_mid {nx pv : Nat → Option Nat} {p c : Option Nat} {l1 l2 : List Nat} {pg : Nat}
    (hs : Seg nx pv p c (l1 ++ pg :: l2)) : nx pg = l2.head? := by
  induction l1 generalizing p c with
  | nil =>
    obtain ⟨-, -, h3⟩ := hs
    cases l2 with
    | nil => exact h3
    | cons n t => exact h3.1
  | cons f t ih => exact ih hs.2.2

theorem lastOpt_some {p : Option Nat} {l : List Nat} {q : Nat} (h : lastOpt p l = some q) :
    (p = some q ∧ l = []) ∨ q ∈ l := by
  induction l generalizing p with
  | nil => exact Or.inl ⟨h, rfl⟩
  | cons f t ih =>
    rcases ih h with ⟨h1, h2⟩ | h1
    · simp only [Option.some.injEq] at h1
      right; simp [h1]
    · right; exact List.mem_cons_of_mem _ h1

/-- The frame before `pg` on a chain segment is what `pg->prev` points to. -/
theorem Seg.prev_mid {nx pv : Nat → Option Nat} {p c : Option Nat} {l1 l2 : List Nat} {pg : Nat}
    (hs : Seg nx pv p c (l1 ++ pg :: l2)) : pv pg = lastOpt p l1 := by
  induction l1 generalizing p c with
  | nil => exact hs.2.1
  | cons f t ih => exact ih hs.2.2

/-- Unlinking `pg` from a chain segment, as `remove_from_hash` does: the
successor's `prev` and the predecessor's `next` skip `pg`. -/
theorem Seg.seg_unlink {nx pv nx2 pv2 : Nat → Option Nat} {pg : Nat}
    (hpv2 : ∀ y, pv2 y = if nx pg = some y then pv pg else pv y)
    (hnx2 : ∀ y, nx2 y = if pv pg = some y then nx pg else nx y)
    {l1 l2 : List Nat} {p c : Option Nat}
    (hs : Seg nx pv p c (l1 ++ pg :: l2)) (hnd : (l1 ++ pg :: l2).Nodup)
    (hp : ∀ q, p = some q → q ∉ l1 ++ pg :: l2) :
    Seg nx2 pv2 p (if l1 = [] then nx pg else c) (l1 ++ l2) := by
  induction l1 generalizing p c with
  | nil =>
    simp only [List.nil_append, if_true] at hs hnd hp ⊢
    obtain ⟨-, h2, h3⟩ := hs
    cases l2 with
    | nil => exact h3
    | cons n t =>
      obtain ⟨g1, g2, g3⟩ := h3
      have hnpg : n ≠ pg := fun e => (List.nodup_cons.1 hnd).1 (by simp [e])
      have hnt : n ∉ t := (List.nodup_cons.1 (List.nodup_cons.1 hnd).2).1
      refine ⟨g1, ?_, ?_⟩
      · rw [hpv2, if_pos g1, h2]
      · have hnn : nx2 n = nx n := by
          rw [hnx2, h2]
          split
          · rename_i hq
            exact absurd (by simp) (hp n hq)
          · rfl
        rw [hnn]
        refine g3.seg_congr ?_
        intro y hy
        constructor
        · rw [hnx2, h2]
          split
          · rename_i hq
            exact absurd (by simp [hy]) (hp y hq)
          · rfl
        · rw [hpv2, g1]
          split
          · rename_i hq
            simp only [Option.some.injEq] at hq
            exact absurd (hq ▸ hy) hnt
          · rfl
  | cons f t ih =>
    have hmid := hs.prev_mid
    have hnext := hs.next_mid
    obtain ⟨h1, h2, h3⟩ := hs
    have hnd2 : (t ++ pg :: l2).Nodup := (List.nodup_cons.1 hnd).2
    have hft : f ∉ t ++ pg :: l2 := (List.nodup_cons.1 hnd).1
    have key := ih h3 hnd2 (fun q hq => by
      simp only [Option.some.injEq] at hq
      exact hq ▸ hft)
    simp only [List.cons_append, List.cons_ne_nil, if_false]
    refine ⟨h1, ?_, ?_⟩
    · rw [hpv2, h2]
      split
      · rename_i hq
        rw [hnext] at hq
        have : f ∈ l2 := List.mem_of_mem_head? hq
        exact absurd (by simp [this]) hft
      · rfl
    · have : nx2 f = if t = [] then nx pg else nx f := by
        rw [hnx2, hmid]
        cases t with
        | nil => simp [lastOpt]
        | cons g t =>
          simp only [List.cons_ne_nil, if_false]
          split
          · rename_i hq
            have hq2 : lastOpt (some g) t = some f := hq
            rcases lastOpt_some hq2 with ⟨h, -⟩ | h
            · simp only [Option.some.injEq] at h
              exact absurd (by simp [h]) hft
            · exact absurd (by simp [h]) hft
          · rfl
      rw [this]
      exact key

theorem Seg.seg_next_mem {nx pv : Nat → Option Nat} {p c : Option Nat} {l : List Nat}
    (hs : Seg nx pv p c l) {f g : Nat} (hf : f ∈ l) (hg : nx f = some g) : g ∈ l := by
  induction l generalizing p c with
  | nil => exact absurd hf (by simp)
  | cons a t ih =>
    obtain ⟨-, -, h3⟩ := hs
    rcases List.mem_cons.1 hf with rfl | hf
    · cases t with
      | nil =>
        have : nx f = none := h3
        rw [this] at hg
        exact absurd hg (by simp)
      | cons b t =>
        have : nx f = some b := h3.1
        rw [this] at hg
        simp only [Option.some.injEq] at hg
        simp [hg]
    · exact List.mem_cons_of_mem _ (ih h3 hf)

theorem Seg.seg_reach {nx pv : Nat → Option Nat} {p c : Option Nat} {l : List Nat}
    (hs : Seg nx pv p c l) (R : Nat → Prop) (hc : ∀ f, c = some f → R f)
    (hR : ∀ u v, R u → nx u = some v → R v) : ∀ y ∈ l, R y := by
  induction l generalizing p c with
  | nil => intro y hy; exact absurd hy (by simp)
  | cons a t ih =>
    obtain ⟨h1, -, h3⟩ := hs
    have ha : R a := hc a h1
    intro y hy
    rcases List.mem_cons.1 hy with rfl | hy
    · exact ha
    · exact ih h3 (fun f hf => hR _ _ ha hf) y hy

/-- On a well-formed chain, the frames reached from the bucket are the frames
of the chain. -/
theorem HashChain.on_chain_iff {s : State} {b : Nat} {l : List Nat} (h : HashChain s b l) (n : Nat) :
    OnHashChain s b n ↔ n ∈ l := by
  obtain ⟨-, hs⟩ := h
  constructor
  · intro hn
    induction hn with
    | head hh =>
      cases l with
      | nil =>
        have : s.page_hash_table b = none := hs
        rw [this] at hh
        exact absurd hh (by simp)
      | cons a t =>
        have : s.page_hash_table b = some a := hs.1
        rw [this] at hh
        simp only [Option.some.injEq] at hh
        simp [hh]
    | next _ hnx ih => exact hs.seg_next_mem ih hnx
  · intro hn
    exact hs.seg_reach (OnHashChain s b) (fun f hf => OnHashChain.head hf)
      (fun u v hu huv => OnHashChain.next hu huv) n hn

/-- The walk of `remove_from_hash` over a chain that does not hold `pg`
writes nothing. -/
theorem remove_from_hash_loop_absent {s s2 : State} {pg i : Nat} {pv : Nat → Option Nat}
    {l : List Nat} {p c : Option Nat} {fuel : Nat} {ah : Bool}
    (hs : Seg s.next_hash pv p c l) (hpg : pg ∉ l)
    (hr : remove_from_hash_loop pg i fuel c ah s = .ok s2) : s2 = s := by
  induction l generalizing p c fuel ah with
  | nil =>
    have hc : c = none := hs
    subst hc
    cases fuel <;> simp only [remove_from_hash_loop, Except.ok.injEq] at hr <;> exact hr.symm
  | cons f t ih =>
    obtain ⟨h1, -, h3⟩ := hs
    subst h1
    have hne : f ≠ pg := fun e => hpg (by simp [e])
    cases fuel with
    | zero => simp [remove_from_hash_loop] at hr
    | succ k =>
      simp only [remove_from_hash_loop, hne, if_false] at hr
      exact ih h3 (fun h => hpg (List.mem_cons_of_mem _ h)) hr

/-- With fuel for the whole chain, the walk of `remove_from_hash` over a chain
that does not hold `pg` returns. -/
theorem remove_from_hash_loop_absent_ok {s : State} {pg i : Nat} {pv : Nat → Option Nat}
    {l : List Nat} {p c : Option Nat} {fuel : Nat} {ah : Bool}
    (hs : Seg s.next_hash pv p c l) (hpg : pg ∉ l) (hf : l.length ≤ fuel) :
    remove_from_hash_loop pg i fuel c ah s = .ok s := by
  induction l generalizing p c fuel ah with
  | nil =>
    have hc : c = none := hs
    subst hc
    cases fuel <;> rfl
  | cons f t ih =>
    obtain ⟨h1, -, h3⟩ := hs
    subst h1
    have hne : f ≠ pg := fun e => hpg (by simp [e])
    cases fuel with
    | zero => simp at hf
    | succ k =>
      simp only [remove_from_hash_loop, hne, if_false]
      exact ih h3 (fun h => hpg (List.mem_cons_of_mem _ h)) (by simpa using hf)

/-- The walk of `remove_from_hash` over a chain that holds `pg`, when it
returns, has unlinked `pg`; the bucket is written when `pg` was first. -/
theorem remove_from_hash_loop_found {s s2 : State} {pg i : Nat} {pv : Nat → Option Nat}
    {l1 l2 : List Nat} {p c : Option Nat} {fuel : Nat} {ah : Bool}
    (hs : Seg s.next_hash pv p c (l1 ++ pg :: l2)) (hpg : pg ∉ l1)
    (hr : remove_from_hash_loop pg i fuel c ah s = .ok s2) :
    s2 = remove_from_hash_unlink pg i (ah && decide (l1 = [])) s := by
  induction l1 generalizing p c fuel ah with
  | nil =>
    obtain ⟨h1, -, -⟩ := hs
    subst h1
    cases fuel with
    | zero => simp [remove_from_hash_loop] at hr
    | succ k =>
      simp only [remove_from_hash_loop, if_true, Except.ok.injEq] at hr
      simp [← hr]
  | cons f t ih =>
    obtain ⟨h1, -, h3⟩ := hs
    subst h1
    have hne : f ≠ pg := fun e => hpg (by simp [e])
    cases fuel with
    | zero => simp [remove_from_hash_loop] at hr
    | succ k =>
      simp only [remove_from_hash_loop, hne, if_false] at hr
      have := ih h3 (fun h => hpg (List.mem_cons_of_mem _ h)) hr
      simpa using this

/-- With fuel up to `pg`, the walk of `remove_from_hash` over a chain that
holds `pg` returns. -/
theorem remove_from_hash_loop_found_ok {s : State} {pg i : Nat} {pv : Nat → Option Nat}
    {l1 l2 : List Nat} {p c : Option Nat} {fuel : Nat} {ah : Bool}
    (hs : Seg s.next_hash pv p c (l1 ++ pg :: l2)) (hpg : pg ∉ l1) (hf : l1.length < fuel) :
    remove_from_hash_loop pg i fuel c ah s =
      .ok (remove_from_hash_unlink pg i (ah && decide (l1 = [])) s) := by
  induction l1 generalizing p c fuel ah with
  | nil =>
    obtain ⟨h1, -, -⟩ := hs
    subst h1
    cases fuel with
    | zero => simp at hf
    | succ k => simp [remove_from_hash_loop]
  | cons f t ih =>
    obtain ⟨h1, -, h3⟩ := hs
    subst h1
    have hne : f ≠ pg := fun e => hpg (by simp [e])
    cases fuel with
    | zero => simp at hf
    | succ k =>
      simp only [remove_from_hash_loop, hne, if_false]
      rw [ih h3 (fun h => hpg (List.mem_cons_of_mem _ h)) (by simpa using hf)]
      simp

/-- The `prev` links after `remove_from_hash_unlink`. -/
theorem unlink_prev_hash (pg i : Nat) (ah : Bool) (s : State) (y : Nat) :
    (remove_from_hash_unlink pg i ah s).prev_hash y =
      if s.next_hash pg = some y then s.prev_hash pg else s.prev_hash y := by
  show (match s.next_hash pg with
    | some n => upd s.prev_hash n (s.prev_hash pg)
    | none => s.prev_hash) y = _
  cases h : s.next_hash pg with
  | none => simp
  | some n =>
    simp only [upd, Option.some.injEq]
    by_cases e : y = n
    · subst e; simp
    · rw [if_neg e, if_neg (fun h => e h.symm)]

theorem unlink_prev_hash_self (pg i : Nat) (ah : Bool) (s : State) :
    (remove_from_hash_unlink pg i ah s).prev_hash pg = s.prev_hash pg := by
  rw [unlink_prev_hash]; split <;> rfl

/-- The `next` links after `remove_from_hash_unlink`. -/
theorem unlink_next_hash (pg i : Nat) (ah : Bool) (s : State) (y : Nat) :
    (remove_from_hash_unlink pg i ah s).next_hash y =
      if s.prev_hash pg = some y then s.next_hash pg else s.next_hash y := by
  have hp := unlink_prev_hash_self pg i ah s
  show (match (remove_from_hash_unlink pg i ah s).prev_hash pg with
    | some q => upd s.next_hash q (s.next_hash pg)
    | none => s.next_hash) y = _
  rw [hp]
  cases h : s.prev_hash pg with
  | none => simp
  | some n =>
    simp only [upd, Option.some.injEq]
    by_cases e : y = n
    · subst e; simp
    · rw [if_neg e, if_neg (fun h => e h.symm)]

theorem unlink_next_hash_self (pg i : Nat) (ah : Bool) (s : State) :
    (remove_from_hash_unlink pg i ah s).next_hash pg = s.next_hash pg := by
  rw [unlink_next_hash]; split <;> rfl

/-- The buckets after `remove_from_hash_unlink`. -/
theorem unlink_page_hash_table (pg i : Nat) (ah : Bool) (s : State) (b : Nat) :
    (remove_from_hash_unlink pg i ah s).page_hash_table b =
      if ah = true ∧ b = i then s.next_hash pg else s.page_hash_table b := by
  have hn := unlink_next_hash_self pg i ah s
  show (if ah = true then upd s.page_hash_table i
      ((remove_from_hash_unlink pg i ah s).next_hash pg) else s.page_hash_table) b = _
  rw [hn]
  cases ah with
  | false => simp
  | true =>
    simp only [if_true, true_and, upd]

theorem HashWF.chains_congr {s : State} {c c2 : Nat → List Nat} (h : HashWF s c)
    (he : ∀ b, b < NR_PAGE_HASH s → c2 b = c b) : HashWF s c2 := by
  refine ⟨h.size, fun b hb => ?_, fun b hb => ?_⟩
  · rw [he b hb]; exact h.chain b hb
  · rw [he b hb]; exact h.ident b hb

/-- A frame is on the chain of one bucket at most. -/
theorem HashWF.bucket_unique {s : State} {c : Nat → List Nat} (h : HashWF s c) {f b b2 : Nat}
    (hb : b < NR_PAGE_HASH s) (hb2 : b2 < NR_PAGE_HASH s) (hf : f ∈ c b) (hf2 : f ∈ c b2) :
    b = b2 := by
  obtain ⟨i, hi, hp⟩ := h.ident b hb f hf
  obtain ⟨i2, hi2, hp2⟩ := h.ident b2 hb2 f hf2
  rw [hi] at hi2
  simp only [Option.some.injEq] at hi2
  subst hi2
  rw [hp] at hp2
  simpa using hp2

/-- A frame without cache identity is on no chain. -/
theorem HashWF.not_mem_of_no_ident {s : State} {c : Nat → List Nat} (h : HashWF s c) {f : Nat}
    (hf : s.inode f = none) : ∀ b, b < NR_PAGE_HASH s → f ∉ c b := by
  intro b hb hm
  obtain ⟨i, hi, -⟩ := h.ident b hb f hm
  rw [hf] at hi
  exact absurd hi (by simp)

/-- A frame is on no chain outside the bucket of its identity. -/
theorem HashWF.not_mem_of_bucket {s : State} {c : Nat → List Nat} (h : HashWF s c) {f ino i : Nat}
    (hf : s.inode f = some ino) (hp : PAGE_HASH s (s.inodes ino).inode (s.offset f) = .ok i) :
    ∀ b, b < NR_PAGE_HASH s → b ≠ i → f ∉ c b := by
  intro b hb hne hm
  obtain ⟨i2, hi2, hp2⟩ := h.ident b hb f hm
  rw [hf] at hi2
  simp only [Option.some.injEq] at hi2
  subst hi2
  rw [hp] at hp2
  simp only [Except.ok.injEq] at hp2
  exact hne hp2.symm

/-- A well-formed hash index stays so in a memory that agrees on it. -/
theorem HashWF.of_same {s s2 : State} {c : Nat → List Nat} (h : HashWF s c) (e : HashSame s s2) :
    HashWF s2 c := by
  have hB : NR_PAGE_HASH s2 = NR_PAGE_HASH s := by
    unfold NR_PAGE_HASH; rw [e.page_hash_table_size]
  refine ⟨?_, fun b hb => ?_, fun b hb f hf => ?_⟩
  · rw [e.page_hash_table_size]; exact h.size
  · rw [hB] at hb
    have := h.chain b hb
    unfold HashChain at this ⊢
    rw [e.next_hash, e.prev_hash, e.page_hash_table]
    exact this
  · rw [hB] at hb
    obtain ⟨i, hi, hp⟩ := h.ident b hb f hf
    refine ⟨i, by rw [e.inode]; exact hi, ?_⟩
    unfold PAGE_HASH at hp ⊢
    rw [e.page_hash_table_size, e.inodes, e.offset]
    exact hp

theorem HashSame.refl (s : State) : HashSame s s := ⟨rfl, rfl, rfl, rfl, rfl, rfl, rfl, rfl⟩

theorem HashSame.trans {a b c : State} (h1 : HashSame a b) (h2 : HashSame b c) : HashSame a c :=
  ⟨h2.next_hash.trans h1.next_hash, h2.prev_hash.trans h1.prev_hash,
   h2.page_hash_table.trans h1.page_hash_table,
   h2.page_hash_table_size.trans h1.page_hash_table_size,
   h2.inode.trans h1.inode, h2.offset.trans h1.offset, h2.inodes.trans h1.inodes,
   h2.cached.trans h1.cached⟩

/-- Unlinking a frame from the chain it is on leaves a well-formed hash index,
with the frame on no chain. -/
theorem HashWF.wf_unlink {s : State} {c : Nat → List Nat} (h : HashWF s c) {pg i : Nat}
    {l1 l2 : List Nat} (hi : i < NR_PAGE_HASH s) (hl : c i = l1 ++ pg :: l2) :
    HashWF (remove_from_hash_unlink pg i (decide (l1 = [])) s) (fun b => (c b).erase pg) := by
  obtain ⟨hnd, hseg⟩ := h.chain i hi
  rw [hl] at hnd hseg
  have hpg1 : pg ∉ l1 := by
    intro hm
    have := (List.nodup_append.1 hnd).2.2 hm (List.mem_cons_self pg l2)
    exact this
  have hprev := hseg.prev_mid
  have hnext := hseg.next_mid
  have hB : NR_PAGE_HASH (remove_from_hash_unlink pg i (decide (l1 = [])) s) = NR_PAGE_HASH s := rfl
  refine ⟨h.size, fun b hb => ?_, fun b hb f hf => ?_⟩
  · rw [hB] at hb
    by_cases e : b = i
    · subst e
      refine ⟨(h.chain b hb).1.erase pg, ?_⟩
      show Seg _ _ none ((remove_from_hash_unlink pg b (decide (l1 = [])) s).page_hash_table b)
        ((c b).erase pg)
      rw [hl, List.erase_append_right _ hpg1, List.erase_cons_head, unlink_page_hash_table]
      have key := Seg.seg_unlink (unlink_prev_hash pg b (decide (l1 = [])) s)
        (unlink_next_hash pg b (decide (l1 = [])) s) hseg hnd (fun q hq => by simp at hq)
      by_cases hl1 : l1 = []
      · simpa [hl1] using key
      · simpa [hl1] using key
    · have hpgb : pg ∉ c b := by
        intro hm
        exact e (h.bucket_unique hb hi hm (by rw [hl]; simp))
      refine ⟨(h.chain b hb).1.erase pg, ?_⟩
      show Seg _ _ none ((remove_from_hash_unlink pg i (decide (l1 = [])) s).page_hash_table b)
        ((c b).erase pg)
      rw [List.erase_of_not_mem hpgb, unlink_page_hash_table, if_neg (fun h => e h.2)]
      refine (h.chain b hb).2.seg_congr ?_
      intro y hy
      constructor
      · rw [unlink_next_hash]
        split
        · rename_i hq
          rw [hprev] at hq
          rcases lastOpt_some hq with ⟨h1, -⟩ | h1
          · exact absurd h1 (by simp)
          · exact absurd (h.bucket_unique hb hi hy (by rw [hl]; simp [h1])) e
        · rfl
      · rw [unlink_prev_hash]
        split
        · rename_i hq
          rw [hnext] at hq
          have : y ∈ l2 := List.mem_of_mem_head? hq
          exact absurd (h.bucket_unique hb hi hy (by rw [hl]; simp [this])) e
        · rfl
  · rw [hB] at hb
    have hf2 : f ∈ c b := List.mem_of_mem_erase hf
    exact h.ident b hb f hf2

theorem unlink_cached (pg i : Nat) (ah : Bool) (s : State) :
    (remove_from_hash_unlink pg i ah s).kstat.cached =
      s.kstat.cached - ((PAGE_SIZE / 1024 : Nat) : Int) := rfl

theorem unlink_frame (pg i : Nat) (ah : Bool) (s : State) :
    remove_from_hash_unlink pg i ah s =
      { s with prev_hash := (remove_from_hash_unlink pg i ah s).prev_hash,
               next_hash := (remove_from_hash_unlink pg i ah s).next_hash,
               page_hash_table := (remove_from_hash_unlink pg i ah s).page_hash_table,
               kstat := { s.kstat with
                          cached := (remove_from_hash_unlink pg i ah s).kstat.cached } } := rfl

/-- What `remove_from_hash` leaves when it returns: the frame is on no chain,
the hash index is well formed, and `cached` went down by one page exactly when
the frame was on a chain; nothing but the hash links, the bucket and `cached`
is written. -/
theorem HashWF.remove {s s2 : State} {c : Nat → List Nat} (h : HashWF s c) {pg fuel : Nat}
    (hr : remove_from_hash fuel pg s = .ok s2) :
    HashWF s2 (fun b => (c b).erase pg) ∧
    s2 = { s with prev_hash := s2.prev_hash, next_hash := s2.next_hash,
                  page_hash_table := s2.page_hash_table,
                  kstat := { s.kstat with cached := s2.kstat.cached } } ∧
    ((∃ b, b < NR_PAGE_HASH s ∧ pg ∈ c b) →
      s2.kstat.cached = s.kstat.cached - ((PAGE_SIZE / 1024 : Nat) : Int)) ∧
    ((∀ b, b < NR_PAGE_HASH s → pg ∉ c b) → s2 = s) := by
  have habs : (∀ b, b < NR_PAGE_HASH s → pg ∉ c b) → s2 = s →
      HashWF s2 (fun b => (c b).erase pg) ∧
      s2 = { s with prev_hash := s2.prev_hash, next_hash := s2.next_hash,
                    page_hash_table := s2.page_hash_table,
                    kstat := { s.kstat with cached := s2.kstat.cached } } ∧
      ((∃ b, b < NR_PAGE_HASH s ∧ pg ∈ c b) →
        s2.kstat.cached = s.kstat.cached - ((PAGE_SIZE / 1024 : Nat) : Int)) ∧
      ((∀ b, b < NR_PAGE_HASH s → pg ∉ c b) → s2 = s) := by
    intro hno he
    subst he
    refine ⟨h.chains_congr (fun b hb => List.erase_of_not_mem (hno b hb)), rfl, ?_, fun _ => rfl⟩
    rintro ⟨b, hb, hm⟩
    exact absurd hm (hno b hb)
  unfold remove_from_hash at hr
  cases hino : s.inode pg with
  | none =>
    simp only [hino, Except.ok.injEq] at hr
    exact habs (h.not_mem_of_no_ident hino) hr.symm
  | some ino =>
    simp only [hino] at hr
    cases hp : PAGE_HASH s (s.inodes ino).inode (s.offset pg) with
    | error e => simp [hp, bind, Except.bind] at hr
    | ok i =>
      simp only [hp, bind, Except.bind] at hr
      have hi : i < NR_PAGE_HASH s := PAGE_HASH_lt h.size hp
      have hother := h.not_mem_of_bucket hino hp
      by_cases hm : pg ∈ c i
      · obtain ⟨l1, l2, hl, hpg1⟩ := List.eq_append_cons_of_mem hm
        have hseg := (h.chain i hi).2
        rw [hl] at hseg
        have hs2 := remove_from_hash_loop_found hseg hpg1 hr
        simp only [Bool.true_and] at hs2
        subst hs2
        exact ⟨h.wf_unlink hi hl, unlink_frame _ _ _ _, fun _ => unlink_cached _ _ _ _,
          fun hno => absurd hm (hno i hi)⟩
      · have hs2 := remove_from_hash_loop_absent (h.chain i hi).2 hm hr
        refine habs ?_ hs2
        intro b hb
        by_cases e : b = i
        · subst e; exact hm
        · exact hother b hb e

/-- With fuel for the longest walk, `remove_from_hash` returns, provided the
hash of the frame's identity can be computed. -/
theorem HashWF.remove_ok {s : State} {c : Nat → List Nat} (h : HashWF s c) {pg fuel : Nat}
    (hsz : 0 < s.page_hash_table_size)
    (hf : ∀ b, b < NR_PAGE_HASH s → (c b).length ≤ fuel) :
    ∃ s2, remove_from_hash fuel pg s = .ok s2 := by
  unfold remove_from_hash
  cases hino : s.inode pg with
  | none => exact ⟨s, rfl⟩
  | some ino =>
    have hp : PAGE_HASH s (s.inodes ino).inode (s.offset pg) =
        .ok (((s.inodes ino).inode ^^^ s.offset pg) % s.page_hash_table_size / sizeof_uint) := by
      unfold PAGE_HASH
      rw [if_neg (by omega)]
    have hi := PAGE_HASH_lt h.size hp
    simp only [hp, bind, Except.bind]
    generalize ((s.inodes ino).inode ^^^ s.offset pg) % s.page_hash_table_size / sizeof_uint = i
      at hi ⊢
    by_cases hm : pg ∈ c i
    · obtain ⟨l1, l2, hl, hpg1⟩ := List.eq_append_cons_of_mem hm
      have hseg := (h.chain i hi).2
      rw [hl] at hseg
      have hlen := hf i hi
      rw [hl] at hlen
      exact ⟨_, remove_from_hash_loop_found_ok hseg hpg1 (by simp at hlen; omega)⟩
    · exact ⟨_, remove_from_hash_loop_absent_ok (h.chain i hi).2 hm (hf i hi)⟩

/-- A well-formed hash index stays so when only the identity of a frame that
is on no chain is rewritten. -/
theorem HashWF.of_same_but {s s2 : State} {c : Nat → List Nat} (h : HashWF s c) {x : Nat}
    (hn : s2.next_hash = s.next_hash) (hp : s2.prev_hash = s.prev_hash)
    (ht : s2.page_hash_table = s.page_hash_table)
    (hsz : s2.page_hash_table_size = s.page_hash_table_size) (hin : s2.inodes = s.inodes)
    (hi : ∀ f, f ≠ x → s2.inode f = s.inode f) (ho : ∀ f, f ≠ x → s2.offset f = s.offset f)
    (hx : ∀ b, b < NR_PAGE_HASH s → x ∉ c b) : HashWF s2 c := by
  have hB : NR_PAGE_HASH s2 = NR_PAGE_HASH s := by
    unfold NR_PAGE_HASH; rw [hsz]
  refine ⟨?_, fun b hb => ?_, fun b hb f hf => ?_⟩
  · rw [hsz]; exact h.size
  · rw [hB] at hb
    have := h.chain b hb
    unfold HashChain at this ⊢
    rw [hn, hp, ht]
    exact this
  · rw [hB] at hb
    obtain ⟨i, hi1, hp1⟩ := h.ident b hb f hf
    have hfx : f ≠ x := fun e => hx b hb (e ▸ hf)
    refine ⟨i, by rw [hi f hfx]; exact hi1, ?_⟩
    unfold PAGE_HASH at hp1 ⊢
    rw [hsz, hin, ho f hfx]
    exact hp1

theorem FreeRing.of_eq {s s2 : State} {l : List Nat} (h : FreeRing s l)
    (hh : s2.page_head = s.page_head) (hn : s2.next_free = s.next_free)
    (hp : s2.prev_free = s.prev_free) : FreeRing s2 l := by
  cases l with
  | nil => exact hh.trans h
  | cons a t =>
    obtain ⟨h1, h2, h3⟩ := h
    exact ⟨hh.trans h1, h2, by rw [hn, hp]; exact h3⟩

/-- The walk of `search_page_hash` over a chain none of whose frames holds the
identity looked for returns `NULL` and writes nothing. -/
theorem search_page_hash_loop_miss {s : State} {inode offset : Nat} {pv : Nat → Option Nat}
    {l : List Nat} {p c : Option Nat} {fuel : Nat}
    (hs : Seg s.next_hash pv p c l)
    (hno : ∀ f ∈ l, ¬ (s.inode f = some inode ∧ s.offset f = offset)) (hf : l.length ≤ fuel) :
    search_page_hash_loop inode offset fuel c s = .ok (none, s) := by
  induction l generalizing p c fuel with
  | nil =>
    have hc : c = none := hs
    subst hc
    cases fuel <;> rfl
  | cons f t ih =>
    obtain ⟨h1, -, h3⟩ := hs
    subst h1
    cases fuel with
    | zero => simp at hf
    | succ k =>
      simp only [search_page_hash_loop, hno f (by simp), if_false]
      exact ih h3 (fun g hg => hno g (List.mem_cons_of_mem _ hg)) (by simpa using hf)

/-- C1: `get_free_page` on a well-formed memory whose free list is not empty
by its own test (`page_head->next_free != page_head`).  With fuel for the
longest hash chain it returns the frame that was `page_head`; afterwards that
frame is not on the free list and on no hash chain, its count is 1, its inode
`NULL` and its offset 0, `free_pages` is one less, `page_head` is the old
head's successor, and a search for the identity the frame carried returns
`NULL`. -/
theorem C1_get_free_page_takes_head (sleep : State → State) (s : State) (free : List Nat)
    (chains : Nat → List Nat) (h : Nat) (hw : WellFormed s free chains)
    (hh : s.page_head = some h) (hne : s.next_free h ≠ some h) :
    ∃ N, ∀ fuel, N ≤ fuel → ∃ s2,
      get_free_page sleep fuel s = .ok (some h, s2) ∧
      ¬ OnFreeList s2 h ∧
      (∀ b, b < NR_PAGE_HASH s2 → ¬ OnHashChain s2 b h) ∧
      s2.count h = 1 ∧ s2.inode h = none ∧ s2.offset h = 0 ∧
      s2.kstat.free_pages = s.kstat.free_pages - 1 ∧
      s2.page_head = s.next_free h ∧
      (∀ i, s.inode h = some i → ∀ fuel2, N ≤ fuel2 →
        search_page_hash fuel2 i (s.offset h) s2 = .ok (none, s2)) := by
  obtain ⟨hring, hhash, hsize, huniq⟩ := hw
  refine ⟨(Finset.range (NR_PAGE_HASH s)).sup (fun b => (chains b).length), ?_⟩
  intro fuel hfuel
  have hbound : ∀ {k : Nat}, (Finset.range (NR_PAGE_HASH s)).sup (fun b => (chains b).length) ≤ k →
      ∀ b, b < NR_PAGE_HASH s → (chains b).length ≤ k := by
    intro k hk b hb
    exact le_trans (Finset.le_sup (f := fun b => (chains b).length) (Finset.mem_range.2 hb)) hk
  -- the free list has at least two frames, the first of which is `h`
  cases free with
  | nil =>
    have : s.page_head = none := hring
    rw [this] at hh
    exact absurd hh (by simp)
  | cons a t =>
    have ha : a = h := by
      have := hring.1
      rw [hh] at this
      simpa using this.symm
    subst ha
    cases t with
    | nil =>
      exact absurd hring.2.2.1 hne
    | cons x t =>
      have hnd : (a :: x :: t).Nodup := hring.nodup
      have hnx : s.next_free a = some x := hring.2.2.1.1
      obtain ⟨s1, h1, hr1, hs1⟩ := hring.remove_head
      have hsame1 : HashSame s s1 := by
        rw [hs1]; exact ⟨rfl, rfl, rfl, rfl, rfl, rfl, rfl, rfl⟩
      have hwf1 : HashWF s1 chains := hhash.of_same hsame1
      have hB1 : NR_PAGE_HASH s1 = NR_PAGE_HASH s := by rw [hs1]; rfl
      obtain ⟨s2, h2⟩ := @HashWF.remove_ok s1 chains hwf1 a fuel (by rw [hs1]; exact hsize)
        (fun b hb => hbound hfuel b (hB1 ▸ hb))
      obtain ⟨hwf2, hfr2, -, -⟩ := hwf1.remove h2
      have hB2 : NR_PAGE_HASH s2 = NR_PAGE_HASH s := by rw [hfr2]; exact hB1
      have hnot : ∀ b, b < NR_PAGE_HASH s2 → a ∉ (chains b).erase a := by
        intro b hb
        exact List.Nodup.not_mem_erase (hhash.chain b (hB2 ▸ hb)).1
      have hwf3 : HashWF { s2 with count := upd s2.count a 1, inode := upd s2.inode a none,
                                   offset := upd s2.offset a 0 }
          (fun b => (chains b).erase a) :=
        hwf2.of_same_but (x := a) rfl rfl rfl rfl rfl (fun f hf => upd_ne _ _ hf)
          (fun f hf => upd_ne _ _ hf) hnot
      have hr3 : FreeRing { s2 with count := upd s2.count a 1, inode := upd s2.inode a none,
                                    offset := upd s2.offset a 0 } (x :: t) := by
        refine hr1.of_eq ?_ ?_ ?_
        · show s2.page_head = _
          rw [hfr2]
        · show s2.next_free = _
          rw [hfr2]
        · show s2.prev_free = _
          rw [hfr2]
      have hg : get_free_page sleep fuel s = .ok (some a,
          { s2 with count := upd s2.count a 1, inode := upd s2.inode a none,
                    offset := upd s2.offset a 0 }) := by
        unfold get_free_page
        rw [hring.empty_test]
        simp only [List.cons_ne_nil, decide_False, bind, Except.bind, pure, Except.pure,
          Bool.false_eq_true, if_false]
        exact get_free_page_take_eq hh h1 h2
      refine ⟨_, hg, ?_, ?_, ?_, ?_, ?_, ?_, ?_, ?_⟩
      · rw [hr3.on_free_iff]
        exact (List.nodup_cons.1 hnd).1
      · intro b hb
        rw [(hwf3.chain b hb).on_chain_iff]
        exact hnot b hb
      · simp
      · simp
      · simp
      · show s2.kstat.free_pages = _
        rw [hfr2, hs1]
      · show s2.page_head = _
        rw [hfr2, hs1, hnx]
      · intro i hi fuel2 hfuel2
        have hp : PAGE_HASH s (s.inodes i).inode (s.offset a) =
            .ok (((s.inodes i).inode ^^^ s.offset a) % s.page_hash_table_size / sizeof_uint) := by
          unfold PAGE_HASH
          rw [if_neg (by omega)]
        have hb0 := PAGE_HASH_lt hhash.size hp
        have hin2 : s2.inodes = s.inodes := by rw [hfr2, hs1]
        have hsz2 : s2.page_hash_table_size = s.page_hash_table_size := by rw [hfr2, hs1]
        have hino2 : s2.inode = s.inode := by rw [hfr2, hs1]
        have hoff2 : s2.offset = s.offset := by rw [hfr2, hs1]
        have hp3 : PAGE_HASH { s2 with count := upd s2.count a 1, inode := upd s2.inode a none,
                                       offset := upd s2.offset a 0 }
            (s2.inodes i).inode (s.offset a) =
            .ok (((s.inodes i).inode ^^^ s.offset a) % s.page_hash_table_size / sizeof_uint) := by
          unfold PAGE_HASH
          show (if s2.page_hash_table_size = 0 then _ else _) = _
          rw [hsz2, hin2, if_neg (by omega)]
        unfold search_page_hash
        show (PAGE_HASH _ (s2.inodes i).inode (s.offset a) >>= _) = _
        rw [hp3]
        simp only [bind, Except.bind]
        generalize ((s.inodes i).inode ^^^ s.offset a) % s.page_hash_table_size / sizeof_uint = b0
          at hb0 ⊢
        refine search_page_hash_loop_miss (hwf3.chain b0 (hB2 ▸ hb0)).2 ?_
          (le_trans (List.erase_sublist a (chains b0)).length_le
            (hbound hfuel2 b0 hb0))
        intro f hf hcontra
        have hfa : f ≠ a := fun e => hnot b0 (hB2 ▸ hb0) (e ▸ hf)
        have e1 : s.inode f = some i := by
          have := hcontra.1
          rw [show ({ s2 with count := upd s2.count a 1, inode := upd s2.inode a none,
                              offset := upd s2.offset a 0 } : State).inode f
                = upd s2.inode a none f from rfl, upd_ne _ _ hfa, hino2] at this
          exact this
        have e2 : s.offset f = s.offset a := by
          have := hcontra.2
          rw [show ({ s2 with count := upd s2.count a 1, inode := upd s2.inode a none,
                              offset := upd s2.offset a 0 } : State).offset f
                = upd s2.offset a 0 f from rfl, upd_ne _ _ hfa, hoff2] at this
          exact this
        exact hfa (huniq f a i e1 hi e2)

theorem take_example_wf : WellFormed take_example [0, 1] take_example_chains := by
  refine ⟨⟨rfl, by decide, ⟨rfl, rfl⟩, ⟨rfl, rfl⟩⟩, ⟨by decide, ?_, ?_⟩, by decide, ?_⟩
  · intro b _
    by_cases e : b = 1
    · subst e
      exact ⟨by decide, rfl, rfl, rfl⟩
    · refine ⟨by simp [take_example_chains, e], ?_⟩
      show Seg _ _ none (if b = 1 then some 0 else none) (if b = 1 then [0] else [])
      rw [if_neg e, if_neg e]
      rfl
  · intro b _ f hf
    by_cases e : b = 1
    · subst e
      have : f = 0 := by simpa [take_example_chains] using hf
      subst this
      exact ⟨7, rfl, rfl⟩
    · simp [take_example_chains, e] at hf
  · intro f g i hf hg _
    have hf0 : f = 0 := by
      by_contra e
      have : take_example.inode f = none := if_neg e
      rw [this] at hf
      exact absurd hf (by simp)
    have hg0 : g = 0 := by
      by_contra e
      have : take_example.inode g = none := if_neg e
      rw [this] at hg
      exact absurd hg (by simp)
    rw [hf0, hg0]

/-- Witness of C1: `get_free_page` on `take_example`, with no sleep. -/
theorem C1_witness :
    ∃ N, ∀ fuel, N ≤ fuel → ∃ s2,
      get_free_page id fuel take_example = .ok (some 0, s2) ∧
      ¬ OnFreeList s2 0 ∧
      (∀ b, b < NR_PAGE_HASH s2 → ¬ OnHashChain s2 b 0) ∧
      s2.count 0 = 1 ∧ s2.inode 0 = none ∧ s2.offset 0 = 0 ∧
      s2.kstat.free_pages = take_example.kstat.free_pages - 1 ∧
      s2.page_head = take_example.next_free 0 ∧
      (∀ i, take_example.inode 0 = some i → ∀ fuel2, N ≤ fuel2 →
        search_page_hash fuel2 i (take_example.offset 0) s2 = .ok (none, s2)) :=
  C1_get_free_page_takes_head id take_example [0, 1] take_example_chains 0 take_example_wf rfl
    (by decide)


/-- What `insert_to_hash` computes on an empty bucket. -/
theorem insert_to_hash_empty {s : State} {pg ino i : Nat} (hino : s.inode pg = some ino)
    (hp : PAGE_HASH s (s.inodes ino).inode (s.offset pg) = .ok i)
    (hb : s.page_hash_table i = none) :
    insert_to_hash pg s = .ok
      { s with page_hash_table := upd s.page_hash_table i (some pg),
               next_hash := upd s.next_hash pg none,
               prev_hash := upd s.prev_hash pg none,
               kstat := { s.kstat with cached := s.kstat.cached + ((PAGE_SIZE / 1024 : Nat) : Int) } } := by
  simp only [insert_to_hash, hino, deref, bind, Except.bind, hp, hb, pure, Except.pure]

/-- What `insert_to_hash` computes on a bucket whose chain starts with `h`. -/
theorem insert_to_hash_front {s : State} {pg ino i h : Nat} (hino : s.inode pg = some ino)
    (hp : PAGE_HASH s (s.inodes ino).inode (s.offset pg) = .ok i)
    (hb : s.page_hash_table i = some h) :
    insert_to_hash pg s = .ok
      { s with prev_hash := upd (upd s.prev_hash pg none) h (some pg),
               next_hash := upd s.next_hash pg (some h),
               page_hash_table := upd s.page_hash_table i (some pg),
               kstat := { s.kstat with cached := s.kstat.cached + ((PAGE_SIZE / 1024 : Nat) : Int) } } := by
  simp only [insert_to_hash, hino, deref, bind, Except.bind, hp, hb, pure, Except.pure]

/-- Inserting a frame that is on no chain: it becomes the first frame of the
chain of its bucket, `cached` grows by one page, and the hash index stays well
formed; nothing but the hash links, the bucket and `cached` is written. -/
theorem HashWF.insert {s : State} {c : Nat → List Nat} (h : HashWF s c) {pg ino i : Nat}
    (hino : s.inode pg = some ino)
    (hp : PAGE_HASH s (s.inodes ino).inode (s.offset pg) = .ok i)
    (hpg : ∀ b, b < NR_PAGE_HASH s → pg ∉ c b) :
    ∃ s2, insert_to_hash pg s = .ok s2 ∧
      HashWF s2 (fun b => if b = i then pg :: c i else c b) ∧
      s2 = { s with prev_hash := s2.prev_hash, next_hash := s2.next_hash,
                    page_hash_table := s2.page_hash_table,
                    kstat := { s.kstat with cached := s2.kstat.cached } } ∧
      s2.kstat.cached = s.kstat.cached + ((PAGE_SIZE / 1024 : Nat) : Int) := by
  have hi : i < NR_PAGE_HASH s := PAGE_HASH_lt h.size hp
  obtain ⟨hnd, hseg⟩ := h.chain i hi
  have hpgi := hpg i hi
  cases hl : c i with
  | nil =>
    rw [hl] at hseg
    have hb : s.page_hash_table i = none := hseg
    refine ⟨_, insert_to_hash_empty hino hp hb, ⟨h.size, fun b hb2 => ?_, fun b hb2 f hf => ?_⟩,
      rfl, rfl⟩
    · by_cases e : b = i
      · subst e
        simp only [if_true]
        refine ⟨by simp, ?_⟩
        show Seg _ _ none (upd s.page_hash_table b (some pg) b) [pg]
        rw [upd_same]
        exact ⟨rfl, upd_same _ _ _, upd_same _ _ _⟩
      · simp only [e, if_false]
        refine ⟨(h.chain b hb2).1, ?_⟩
        show Seg _ _ none (upd s.page_hash_table i (some pg) b) (c b)
        rw [upd_ne _ _ e]
        refine (h.chain b hb2).2.seg_congr ?_
        intro y hy
        have hy2 : y ≠ pg := fun e2 => hpg b hb2 (e2 ▸ hy)
        exact ⟨upd_ne _ _ hy2, upd_ne _ _ hy2⟩
    · by_cases e : b = i
      · subst e
        simp only [if_true, hl, List.mem_singleton] at hf
        subst hf
        exact ⟨ino, hino, hp⟩
      · simp only [e, if_false] at hf
        exact h.ident b hb2 f hf
  | cons a t =>
    rw [hl] at hseg hnd hpgi
    obtain ⟨hb, ha, hrest⟩ := hseg
    have hapg : a ≠ pg := fun e => hpgi (by simp [e])
    refine ⟨_, insert_to_hash_front hino hp hb, ⟨h.size, fun b hb2 => ?_, fun b hb2 f hf => ?_⟩,
      rfl, rfl⟩
    · by_cases e : b = i
      · subst e
        simp only [if_true]
        refine ⟨List.nodup_cons.2 ⟨hpgi, hnd⟩, ?_⟩
        show Seg _ _ none (upd s.page_hash_table b (some pg) b) (pg :: a :: t)
        rw [upd_same]
        refine ⟨rfl, ?_, ?_, ?_, ?_⟩
        · show upd (upd s.prev_hash pg none) a (some pg) pg = none
          rw [upd_ne _ _ hapg.symm, upd_same]
        · show upd s.next_hash pg (some a) pg = some a
          rw [upd_same]
        · show upd (upd s.prev_hash pg none) a (some pg) a = some pg
          rw [upd_same]
        · show Seg _ _ (some a) (upd s.next_hash pg (some a) a) t
          rw [upd_ne _ _ hapg]
          refine hrest.seg_congr ?_
          intro y hy
          have hy2 : y ≠ pg := fun e2 => hpgi (by simp [← e2, hy])
          have hy3 : y ≠ a := fun e2 => (List.nodup_cons.1 hnd).1 (e2 ▸ hy)
          exact ⟨upd_ne _ _ hy2, by
            show upd (upd s.prev_hash pg none) a (some pg) y = _
            rw [upd_ne _ _ hy3, upd_ne _ _ hy2]⟩
      · simp only [e, if_false]
        refine ⟨(h.chain b hb2).1, ?_⟩
        show Seg _ _ none (upd s.page_hash_table i (some pg) b) (c b)
        rw [upd_ne _ _ e]
        refine (h.chain b hb2).2.seg_congr ?_
        intro y hy
        have hy2 : y ≠ pg := fun e2 => hpg b hb2 (e2 ▸ hy)
        have hy3 : y ≠ a := fun e2 =>
          e (h.bucket_unique hb2 hi hy (by rw [hl]; simp [e2]))
        exact ⟨upd_ne _ _ hy2, by
          show upd (upd s.prev_hash pg none) a (some pg) y = _
          rw [upd_ne _ _ hy3, upd_ne _ _ hy2]⟩
    · by_cases e : b = i
      · subst e
        simp only [if_true, hl] at hf
        rcases List.mem_cons.1 hf with rfl | hf
        · exact ⟨ino, hino, hp⟩
        · exact h.ident b hb2 f (by rw [hl]; exact hf)
      · simp only [e, if_false] at hf
        exact h.ident b hb2 f hf

/-- `remove_from_free_list`, when it returns, has written nothing of the hash
index. -/
theorem remove_from_free_list_same {s s2 : State} {pg : Nat}
    (h : remove_from_free_list pg s = .ok s2) : HashSame s s2 := by
  cases hp : s.prev_free pg with
  | none => simp [remove_from_free_list, hp, deref, bind, Except.bind] at h
  | some p =>
    cases hn : s.next_free pg with
    | none =>
      have h1 : upd s.next_free p none pg = none := by
        rw [← hn, upd_self_val]
      simp [remove_from_free_list, hp, hn, h1, deref, bind, Except.bind] at h
    | some n =>
      rw [remove_from_free_list_eq hp hn] at h
      simp only [Except.ok.injEq] at h
      subst h
      exact ⟨rfl, rfl, rfl, rfl, rfl, rfl, rfl, rfl⟩

/-- `link_before_head`, when it returns, has written the free links and
`page_head` only. -/
theorem link_before_head_frame {s s2 : State} {pg : Nat} (h : link_before_head pg s = .ok s2) :
    s2 = { s with next_free := s2.next_free, prev_free := s2.prev_free,
                  page_head := s2.page_head } := by
  cases hh : s.page_head with
  | none =>
    rw [link_before_head_nil pg hh] at h
    simp only [Except.ok.injEq] at h
    subst h
    rfl
  | some a =>
    cases hz : s.prev_free a with
    | none =>
      have h1 : upd s.prev_free pg none a = none := by
        rw [← hz, upd_self_val]
      simp [link_before_head, hh, hz, h1] at h
    | some z =>
      rw [link_before_head_eq hh hz] at h
      simp only [Except.ok.injEq] at h
      subst h
      rfl

/-- `release_page`, when it returns, has written nothing of the hash index. -/
theorem release_page_same {m : Machine} {s s2 : State} {page : Nat}
    (h : release_page m page s = .ok s2) : HashSame s s2 := by
  unfold release_page at h
  split at h
  · exact absurd h (by simp)
  · dsimp only at h
    split at h
    · simp only [Except.ok.injEq] at h
      subst h
      exact ⟨rfl, rfl, rfl, rfl, rfl, rfl, rfl, rfl⟩
    · split at h
      · exact absurd h (by simp)
      · rename_i s3 hl
        have hf := link_before_head_frame hl
        simp only [Except.ok.injEq] at h
        subst h
        refine ⟨?_, ?_, ?_, ?_, ?_, ?_, ?_, ?_⟩
        · show s3.next_hash = _; rw [hf]
        · show s3.prev_hash = _; rw [hf]
        · show s3.page_hash_table = _; rw [hf]
        · show s3.page_hash_table_size = _; rw [hf]
        · show s3.inode = _; rw [hf]
        · show s3.offset = _; rw [hf]
        · show s3.inodes = _; rw [hf]
        · show s3.kstat.cached = _; rw [hf]

theorem search_page_hash_hit_same {s s2 : State} {pg : Nat} {r : Option Nat}
    (h : search_page_hash_hit pg s = .ok (r, s2)) : HashSame s s2 := by
  unfold search_page_hash_hit at h
  by_cases hc : s.count pg = 0
  · simp only [hc, if_true, bind, Except.bind, pure, Except.pure] at h
    split at h
    · exact absurd h (by simp)
    · rename_i s1 h1
      simp only [Except.ok.injEq, Prod.mk.injEq] at h
      obtain ⟨-, rfl⟩ := h
      have := remove_from_free_list_same h1
      exact ⟨this.next_hash, this.prev_hash, this.page_hash_table, this.page_hash_table_size,
        this.inode, this.offset, this.inodes, this.cached⟩
  · simp only [hc, if_false, bind, Except.bind, pure, Except.pure, Except.ok.injEq,
      Prod.mk.injEq] at h
    obtain ⟨-, rfl⟩ := h
    exact ⟨rfl, rfl, rfl, rfl, rfl, rfl, rfl, rfl⟩

theorem search_page_hash_loop_same {s s2 : State} {inode offset fuel : Nat} {c r : Option Nat}
    (h : search_page_hash_loop inode offset fuel c s = .ok (r, s2)) : HashSame s s2 := by
  induction fuel generalizing c with
  | zero =>
    cases c with
    | none =>
      simp only [search_page_hash_loop, Except.ok.injEq, Prod.mk.injEq] at h
      rw [← h.2]; exact HashSame.refl s
    | some pg => simp [search_page_hash_loop] at h
  | succ k ih =>
    cases c with
    | none =>
      simp only [search_page_hash_loop, Except.ok.injEq, Prod.mk.injEq] at h
      rw [← h.2]; exact HashSame.refl s
    | some pg =>
      simp only [search_page_hash_loop] at h
      split at h
      · exact search_page_hash_hit_same h
      · exact ih h

/-- `search_page_hash`, when it returns, has written nothing of the hash
index. -/
theorem search_page_hash_same {s s2 : State} {inode offset fuel : Nat} {r : Option Nat}
    (h : search_page_hash fuel inode offset s = .ok (r, s2)) : HashSame s s2 := by
  unfold search_page_hash at h
  cases hp : PAGE_HASH s (s.inodes inode).inode offset with
  | error e => simp [hp, bind, Except.bind] at h
  | ok i =>
    simp only [hp, bind, Except.bind] at h
    exact search_page_hash_loop_same h

/-- The first loop of `bread_page`, when it returns, has written bytes of
memory only. -/
theorem bread_page_loop_cached_frame {e : Env} {pg i blksize fuel size_read offset : Nat}
    {s : State} {r : Bool × State}
    (h : bread_page_loop_cached e pg i blksize fuel size_read offset s = .ok r) :
    r.2 = { s with mem := r.2.mem } := by
  induction fuel generalizing size_read offset s with
  | zero =>
    unfold bread_page_loop_cached at h
    split at h
    · simp at h
    · simp only [Except.ok.injEq] at h
      subst h; rfl
  | succ k ih =>
    unfold bread_page_loop_cached at h
    split at h
    · dsimp only at h
      split at h
      · simp only [Except.ok.injEq] at h
        subst h; rfl
      · split at h
        · split at h
          · split at h
            · simp only [Except.ok.injEq] at h
              subst h; rfl
            · have := ih h
              rw [this]; rfl
          · have := ih h
            rw [this]; rfl
        · have := ih h
          rw [this]; rfl
    · simp only [Except.ok.injEq] at h
      subst h; rfl

/-- The second loop of `bread_page`, when it returns, has written bytes of
memory only. -/
theorem bread_page_loop_private_frame {e : Env} {pg i blksize fuel size_read offset : Nat}
    {s : State} {r : Bool × State}
    (h : bread_page_loop_private e pg i blksize fuel size_read offset s = .ok r) :
    r.2 = { s with mem := r.2.mem } := by
  induction fuel generalizing size_read offset s with
  | zero =>
    unfold bread_page_loop_private at h
    split at h
    · simp at h
    · simp only [Except.ok.injEq] at h
      subst h; rfl
  | succ k ih =>
    unfold bread_page_loop_private at h
    split at h
    · dsimp only at h
      split at h
      · simp only [Except.ok.injEq] at h
        subst h; rfl
      · split at h
        · split at h
          · simp only [Except.ok.injEq] at h
            subst h; rfl
          · have := ih h
            rw [this]; rfl
        · exact ih h
    · simp only [Except.ok.injEq] at h
      subst h; rfl

theorem HashInv.inv_of_same {s s2 : State} {c : Nat → List Nat} {H : List Nat} (h : HashInv s c H)
    (e : HashSame s s2) : HashInv s2 c H := by
  have hB : NR_PAGE_HASH s2 = NR_PAGE_HASH s := by
    unfold NR_PAGE_HASH; rw [e.page_hash_table_size]
  refine ⟨h.wf.of_same e, h.nodup, fun n => ?_, ?_⟩
  · rw [hB]; exact h.mem_iff n
  · rw [e.cached]; exact h.cached

/-- The frames resident in the hash index are as many as `H` is long. -/
theorem HashInv.resident_ncard {s : State} {c : Nat → List Nat} {H : List Nat} (h : HashInv s c H) :
    Set.ncard {n | Resident s n} = H.length := by
  have : {n | Resident s n} = (↑H.toFinset : Set Nat) := by
    ext n
    simp only [Set.mem_setOf_eq, Finset.mem_coe, List.mem_toFinset, h.mem_iff n, Resident]
    constructor
    · rintro ⟨b, hb, ho⟩
      exact ⟨b, hb, ((h.wf.chain b hb).on_chain_iff n).1 ho⟩
    · rintro ⟨b, hb, hm⟩
      exact ⟨b, hb, ((h.wf.chain b hb).on_chain_iff n).2 hm⟩
  rw [this, Set.ncard_coe_Finset, List.toFinset_card_of_nodup h.nodup]

theorem HashInv.resident_iff {s : State} {c : Nat → List Nat} {H : List Nat} (h : HashInv s c H)
    (n : Nat) : Resident s n ↔ n ∈ H := by
  rw [h.mem_iff n]
  constructor
  · rintro ⟨b, hb, ho⟩
    exact ⟨b, hb, ((h.wf.chain b hb).on_chain_iff n).1 ho⟩
  · rintro ⟨b, hb, hm⟩
    exact ⟨b, hb, ((h.wf.chain b hb).on_chain_iff n).2 hm⟩

/-- `remove_from_hash` keeps the hash index and its counter in step. -/
theorem HashInv.inv_remove {s s2 : State} {c : Nat → List Nat} {H : List Nat} (h : HashInv s c H)
    {pg fuel : Nat} (hr : remove_from_hash fuel pg s = .ok s2) :
    HashInv s2 (fun b => (c b).erase pg) (H.erase pg) ∧
    s2 = { s with prev_hash := s2.prev_hash, next_hash := s2.next_hash,
                  page_hash_table := s2.page_hash_table,
                  kstat := { s.kstat with cached := s2.kstat.cached } } := by
  obtain ⟨hwf, hfr, hin, hout⟩ := h.wf.remove hr
  have hB : NR_PAGE_HASH s2 = NR_PAGE_HASH s := by rw [hfr]; rfl
  refine ⟨⟨hwf, h.nodup.erase pg, fun n => ?_, ?_⟩, hfr⟩
  · rw [hB, h.nodup.mem_erase_iff, h.mem_iff n]
    constructor
    · rintro ⟨hne, b, hb, hm⟩
      exact ⟨b, hb, ((h.wf.chain b hb).1.mem_erase_iff).2 ⟨hne, hm⟩⟩
    · rintro ⟨b, hb, hm⟩
      have := ((h.wf.chain b hb).1.mem_erase_iff).1 hm
      exact ⟨this.1, b, hb, this.2⟩
  · by_cases hm : pg ∈ H
    · rw [hin ((h.mem_iff pg).1 hm), h.cached, List.length_erase_of_mem hm]
      have : 1 ≤ H.length := List.length_pos_of_mem hm
      rw [Nat.cast_sub this]
      ring
    · have hno : ∀ b, b < NR_PAGE_HASH s → pg ∉ c b := by
        intro b hb hmem
        exact hm ((h.mem_iff pg).2 ⟨b, hb, hmem⟩)
      rw [hout hno, List.erase_of_not_mem hm]
      exact h.cached

/-- Taking the head of the free list keeps the hash index and its counter in
step; the frame taken is resident no more. -/
theorem HashInv.take_head {s s2 : State} {c : Nat → List Nat} {H : List Nat}
    (h : HashInv s c H) {fuel : Nat} {r : Option Nat}
    (hg : get_free_page_take fuel s = .ok (r, s2)) :
    ∃ pg, r = some pg ∧ HashInv s2 (fun b => (c b).erase pg) (H.erase pg) := by
  unfold get_free_page_take at hg
  cases hh : s.page_head with
  | none => simp [hh, deref, bind, Except.bind] at hg
  | some pg =>
    simp only [hh, deref, bind, Except.bind] at hg
    split at hg
    · exact absurd hg (by simp)
    · rename_i s1 h1
      split at hg
      · exact absurd hg (by simp)
      · rename_i sB hB
        simp only [pure, Except.pure, Except.ok.injEq, Prod.mk.injEq] at hg
        obtain ⟨rfl, rfl⟩ := hg
        have hi1 := h.inv_of_same (remove_from_free_list_same h1)
        obtain ⟨hiB, hfr⟩ := hi1.inv_remove hB
        refine ⟨pg, rfl, ?_⟩
        have hNB : NR_PAGE_HASH sB = NR_PAGE_HASH s1 := by rw [hfr]; rfl
        have hnot : ∀ b, b < NR_PAGE_HASH sB → pg ∉ (c b).erase pg := by
          intro b hb
          exact List.Nodup.not_mem_erase (hi1.wf.chain b (hNB ▸ hb)).1
        refine ⟨hiB.wf.of_same_but (x := pg) rfl rfl rfl rfl rfl (fun f hf => upd_ne _ _ hf)
          (fun f hf => upd_ne _ _ hf) hnot, hiB.nodup, hiB.mem_iff, hiB.cached⟩

/-- `get_free_page` keeps the hash index and its counter in step, and the
frame it returns is not resident. -/
theorem HashInv.alloc {s s2 : State} {c c1 : Nat → List Nat} {H H1 : List Nat}
    {sleep : State → State} {fuel : Nat} {r : Option Nat}
    (h : HashInv s c H) (h1 : HashInv (sleep s) c1 H1)
    (hg : get_free_page sleep fuel s = .ok (r, s2)) :
    ∃ c2 H2, HashInv s2 c2 H2 ∧ ∀ f, r = some f → f ∉ H2 := by
  unfold get_free_page at hg
  cases he : free_list_empty s with
  | error e => simp [he, bind, Except.bind] at hg
  | ok b =>
    simp only [he, bind, Except.bind] at hg
    cases b with
    | false =>
      simp only [Bool.false_eq_true, if_false] at hg
      obtain ⟨pg, hr, hi⟩ := h.take_head hg
      refine ⟨_, _, hi, ?_⟩
      intro f hf
      rw [hr] at hf
      simp only [Option.some.injEq] at hf
      subst hf
      exact List.Nodup.not_mem_erase h.nodup
    | true =>
      simp only [if_true] at hg
      cases he1 : free_list_empty (sleep s) with
      | error e => simp [he1] at hg
      | ok b1 =>
        simp only [he1] at hg
        cases b1 with
        | false =>
          simp only [Bool.false_eq_true, if_false] at hg
          obtain ⟨pg, hr, hi⟩ := h1.take_head hg
          refine ⟨_, _, hi, ?_⟩
          intro f hf
          rw [hr] at hf
          simp only [Option.some.injEq] at hf
          subst hf
          exact List.Nodup.not_mem_erase h1.nodup
        | true =>
          simp only [if_true, pure, Except.pure, Except.ok.injEq, Prod.mk.injEq] at hg
          obtain ⟨rfl, rfl⟩ := hg
          exact ⟨_, _, h1, fun f hf => absurd hf (by simp)⟩

/-- The hash index and its counter stay in step when only the identity of a
frame that is not resident is rewritten. -/
theorem HashInv.inv_of_same_but {s s2 : State} {c : Nat → List Nat} {H : List Nat}
    (h : HashInv s c H) {x : Nat}
    (hn : s2.next_hash = s.next_hash) (hp : s2.prev_hash = s.prev_hash)
    (ht : s2.page_hash_table = s.page_hash_table)
    (hsz : s2.page_hash_table_size = s.page_hash_table_size) (hin : s2.inodes = s.inodes)
    (hi : ∀ f, f ≠ x → s2.inode f = s.inode f) (ho : ∀ f, f ≠ x → s2.offset f = s.offset f)
    (hc : s2.kstat.cached = s.kstat.cached) (hx : x ∉ H) : HashInv s2 c H := by
  have hB : NR_PAGE_HASH s2 = NR_PAGE_HASH s := by
    unfold NR_PAGE_HASH; rw [hsz]
  have hx2 : ∀ b, b < NR_PAGE_HASH s → x ∉ c b := fun b hb hm =>
    hx ((h.mem_iff x).2 ⟨b, hb, hm⟩)
  refine ⟨h.wf.of_same_but hn hp ht hsz hin hi ho hx2, h.nodup, fun n => ?_, ?_⟩
  · rw [hB]; exact h.mem_iff n
  · rw [hc]; exact h.cached

/-- `insert_to_hash` of a frame that is not resident keeps the hash index and
its counter in step. -/
theorem HashInv.inv_insert {s s2 : State} {c : Nat → List Nat} {H : List Nat} (h : HashInv s c H)
    {pg : Nat} (hpg : pg ∉ H) (hins : insert_to_hash pg s = .ok s2) :
    ∃ c2, HashInv s2 c2 (pg :: H) := by
  have hno : ∀ b, b < NR_PAGE_HASH s → pg ∉ c b := fun b hb hm =>
    hpg ((h.mem_iff pg).2 ⟨b, hb, hm⟩)
  cases hino : s.inode pg with
  | none => simp [insert_to_hash, hino, deref, bind, Except.bind] at hins
  | some ino =>
    cases hp : PAGE_HASH s (s.inodes ino).inode (s.offset pg) with
    | error e => simp [insert_to_hash, hino, hp, deref, bind, Except.bind] at hins
    | ok i =>
      have hi : i < NR_PAGE_HASH s := PAGE_HASH_lt h.wf.size hp
      obtain ⟨s3, h3, hwf, hfr, hcached⟩ := h.wf.insert hino hp hno
      rw [h3] at hins
      simp only [Except.ok.injEq] at hins
      subst hins
      have hB : NR_PAGE_HASH s3 = NR_PAGE_HASH s := by rw [hfr]; rfl
      refine ⟨_, hwf, List.nodup_cons.2 ⟨hpg, h.nodup⟩, fun n => ?_, ?_⟩
      · rw [hB, List.mem_cons, h.mem_iff n]
        constructor
        · rintro (rfl | ⟨b, hb, hm⟩)
          · exact ⟨i, hi, by simp⟩
          · refine ⟨b, hb, ?_⟩
            by_cases e : b = i
            · subst e; simp [hm]
            · simp [e, hm]
        · rintro ⟨b, hb, hm⟩
          by_cases e : b = i
          · subst e
            simp only [if_true, List.mem_cons] at hm
            rcases hm with rfl | hm
            · exact Or.inl rfl
            · exact Or.inr ⟨b, hb, hm⟩
          · simp only [e, if_false] at hm
            exact Or.inr ⟨b, hb, hm⟩
      · rw [hcached, h.cached]
        simp only [List.length_cons]
        push_cast
        ring

/-- `bread_page` on a frame that is not resident keeps the hash index and its
counter in step, whatever it returns. -/
theorem HashInv.bread_page {s s2 : State} {c : Nat → List Nat} {H : List Nat}
    (h : HashInv s c H) {e : Env} {fuel pg i offset prot flags ret : Nat} (hpg : pg ∉ H)
    (hb : bread_page e fuel pg i offset prot flags s = .ok (ret, s2)) :
    ∃ c2 H2, HashInv s2 c2 H2 := by
  unfold Fiwix.bread_page at hb
  dsimp only at hb
  split at hb
  · simp only [Except.ok.injEq, Prod.mk.injEq] at hb
    rw [← hb.2]; exact ⟨_, _, h⟩
  · split at hb
    · simp only [Except.ok.injEq, Prod.mk.injEq] at hb
      rw [← hb.2]; exact ⟨_, _, h⟩
    · have hA : HashInv { s with inode := upd s.inode pg (some i),
                                 offset := upd s.offset pg offset } c H :=
        h.inv_of_same_but (x := pg) rfl rfl rfl rfl rfl (fun f hf => upd_ne _ _ hf)
          (fun f hf => upd_ne _ _ hf) rfl hpg
      split at hb
      · simp only [bind, Except.bind] at hb
        split at hb
        · exact absurd hb (by simp)
        · rename_i r hr
          have hfr := bread_page_loop_cached_frame hr
          have hsame : HashSame { s with inode := upd s.inode pg (some i),
                                         offset := upd s.offset pg offset } r.2 := by
            rw [hfr]; exact ⟨rfl, rfl, rfl, rfl, rfl, rfl, rfl, rfl⟩
          have hL := hA.inv_of_same hsame
          split at hb
          · split at hb
            · exact absurd hb (by simp)
            · rename_i s3 h3
              simp only [pure, Except.pure, Except.ok.injEq, Prod.mk.injEq] at hb
              obtain ⟨c2, hi2⟩ := hL.inv_insert hpg h3
              rw [← hb.2]; exact ⟨_, _, hi2⟩
          · simp only [pure, Except.pure, Except.ok.injEq, Prod.mk.injEq] at hb
            rw [← hb.2]; exact ⟨_, _, hL⟩
      · simp only [bind, Except.bind] at hb
        split at hb
        · exact absurd hb (by simp)
        · rename_i r hr
          have hfr := bread_page_loop_private_frame hr
          have hsame : HashSame { s with inode := upd s.inode pg (some i),
                                         offset := upd s.offset pg offset } r.2 := by
            rw [hfr]; exact ⟨rfl, rfl, rfl, rfl, rfl, rfl, rfl, rfl⟩
          have hL := hA.inv_of_same hsame
          split at hb
          · simp only [pure, Except.pure, Except.ok.injEq, Prod.mk.injEq] at hb
            rw [← hb.2]
            exact ⟨_, _, hL.inv_of_same_but (x := pg) rfl rfl rfl rfl rfl
              (fun f hf => upd_ne _ _ hf) (fun f hf => upd_ne _ _ hf) rfl hpg⟩
          · simp only [pure, Except.pure, Except.ok.injEq, Prod.mk.injEq] at hb
            rw [← hb.2]; exact ⟨_, _, hL⟩

/-- The memory built by `page_init` has an empty hash index and `cached` 0. -/
theorem page_init_hash {m : Machine} {pages : Nat} {s0 s : State} (hh : s0.page_head = none)
    (hk : s0.kstat = Kstat.zero) (hd : sizeof_uint ∣ s0.page_hash_table_size)
    (hinit : page_init m pages s0 = .ok s) : HashInv s (fun _ => []) [] := by
  obtain ⟨s2, h2, hi⟩ := page_init_loop m (page_init_clear m s0) hh pages
  rw [page_init_eq h2] at hinit
  simp only [Except.ok.injEq] at hinit
  subst hinit
  have hsame := hi.same
  have hks := hi.kstat_same
  have hsz : s2.page_hash_table_size = s0.page_hash_table_size := by rw [hsame]; rfl
  refine ⟨⟨?_, fun b hb => ⟨by simp, ?_⟩, fun b _ f hf => absurd hf (by simp)⟩, by simp,
    fun n => ?_, ?_⟩
  · show sizeof_uint ∣ s2.page_hash_table_size
    rw [hsz]; exact hd
  · show s2.page_hash_table b = none
    have hb2 : b < NR_PAGE_HASH s0 := by
      have : NR_PAGE_HASH s0 = s2.page_hash_table_size / sizeof_uint := by rw [hsz]; rfl
      rw [this]; exact hb
    rw [hsame]
    show (if b < NR_PAGE_HASH s0 then none else s0.page_hash_table b) = none
    rw [if_pos hb2]
  · simp
  · show s2.kstat.cached = _
    rw [hks]
    show s0.kstat.cached = _
    rw [hk]
    simp [Kstat.zero]

/-- In every memory of `ReachCached` the hash index and its counter are in
step. -/
theorem ReachCached.hash_inv {m : Machine} {pages : Nat} {s : State} (hr : ReachCached m pages s) :
    ∃ c H, HashInv s c H := by
  induction hr with
  | init hh hk _ hd hinit => exact ⟨_, _, page_init_hash hh hk hd hinit⟩
  | get_free_page _ _ hg ih ih1 =>
    obtain ⟨c, H, hi⟩ := ih
    obtain ⟨c1, H1, hi1⟩ := ih1
    obtain ⟨c2, H2, hi2, -⟩ := hi.alloc hi1 hg
    exact ⟨c2, H2, hi2⟩
  | search_page_hash _ hs ih =>
    obtain ⟨c, H, hi⟩ := ih
    exact ⟨c, H, hi.inv_of_same (search_page_hash_same hs)⟩
  | release_page _ hrel ih =>
    obtain ⟨c, H, hi⟩ := ih
    exact ⟨c, H, hi.inv_of_same (release_page_same hrel)⟩
  | bread_page _ _ hg hb ih ih1 =>
    obtain ⟨c, H, hi⟩ := ih
    obtain ⟨c1, H1, hi1⟩ := ih1
    obtain ⟨c2, H2, hi2, hfresh⟩ := hi.alloc hi1 hg
    exact hi2.bread_page (hfresh _ rfl) hb

/-- C9: in every memory reached from `page_init` through `get_free_page`,
`search_page_hash`, `release_page` and `bread_page` (the latter on a frame just
returned by `get_free_page`, with any outcome), `cached` is the number of
frames resident on some hash chain times `PAGE_SIZE / 1024`; and when
`get_free_page` takes from such a memory a frame that is on no chain (be its
stale identity still set or not), `cached` is left as it was. -/
theorem C9_cached_counts_resident (m : Machine) (pages : Nat) (s : State)
    (hr : ReachCached m pages s) :
    s.kstat.cached =
      ((Set.ncard {n | Resident s n} : Nat) : Int) * ((PAGE_SIZE / 1024 : Nat) : Int) ∧
    (∀ (sleep : State → State) (fuel f : Nat) (s2 : State),
      free_list_empty s = .ok false → get_free_page sleep fuel s = .ok (some f, s2) →
      ¬ Resident s f → s2.kstat.cached = s.kstat.cached) := by
  obtain ⟨c, H, hi⟩ := hr.hash_inv
  constructor
  · rw [hi.resident_ncard, hi.cached]
    ring
  · intro sleep fuel f s2 he hg hres
    unfold get_free_page at hg
    simp only [he, bind, Except.bind, Bool.false_eq_true, if_false] at hg
    obtain ⟨pg, hpg, hi2⟩ := hi.take_head hg
    simp only [Option.some.injEq] at hpg
    subst hpg
    have hf : f ∉ H := fun hm => hres ((hi.resident_iff f).2 hm)
    rw [hi2.cached, hi.cached, List.erase_of_not_mem hf]

theorem stale0_reach : ReachCached plain 3 stale0 :=
  @ReachCached.init plain 3 (blank 132 4096) stale0 rfl rfl (by decide) (by decide) rfl

theorem stale1_reach : ReachCached plain 3 stale1 :=
  @ReachCached.bread_page plain 3 stale0 (returned (get_free_page id 0 stale0) (none, stale0)).2
    stale1 id failing_env 0 1 0 7 0 0 MAP_SHARED 1 stale0_reach stale0_reach rfl rfl

theorem stale2_reach : ReachCached plain 3 stale2 :=
  @ReachCached.release_page plain 3 stale1 stale2 0 stale1_reach rfl

theorem stale3_reach : ReachCached plain 3 stale3 :=
  @ReachCached.bread_page plain 3 stale2 (returned (get_free_page id 0 stale2) (none, stale2)).2
    stale3 id failing_env 0 1 1 7 4096 0 MAP_SHARED 1 stale2_reach stale2_reach rfl rfl

theorem stale4_reach : ReachCached plain 3 stale4 :=
  @ReachCached.release_page plain 3 stale3 stale4 1 stale3_reach rfl

theorem stale5_reach : ReachCached plain 3 stale5 :=
  @ReachCached.get_free_page plain 3 stale4 stale5 id 0 (some 2) stale4_reach stale4_reach rfl

theorem not_on_chain_of_empty {s : State} (h : ∀ b, s.page_hash_table b = none) (b n : Nat) :
    ¬ OnHashChain s b n := by
  intro ho
  induction ho with
  | head hh => rw [h b] at hh; exact absurd hh (by simp)
  | next _ _ ih => exact ih

theorem stale5_not_resident : ¬ Resident stale5 0 := by
  rintro ⟨b, -, ho⟩
  refine not_on_chain_of_empty ?_ b 0 ho
  intro b
  show (if b < NR_PAGE_HASH (blank 132 4096) then none else none) = none
  split <;> rfl

/-- Witness of C9: in `stale5`, reached by two failed fills, `cached` counts
the resident frames; frame 0 heads the free list with the identity left by its
failed fill and is on no chain, and taking it (which gives `stale6`) leaves
`cached` as it was. -/
theorem C9_witness :
    (stale5.kstat.cached =
      ((Set.ncard {n | Resident stale5 n} : Nat) : Int) * ((PAGE_SIZE / 1024 : Nat) : Int)) ∧
    stale5.inode 0 = some 7 ∧
    get_free_page id 0 stale5 = .ok (some 0, stale6) ∧
    stale6.kstat.cached = stale5.kstat.cached :=
  ⟨(C9_cached_counts_resident plain 3 stale5 stale5_reach).1, rfl, rfl,
   (C9_cached_counts_resident plain 3 stale5 stale5_reach).2 id 0 0 stale6 rfl rfl
     stale5_not_resident⟩

theorem lone1_reach : ReachCached plain 2 lone1 :=
  @ReachCached.bread_page plain 2 init_example
    (returned (get_free_page id 0 init_example) (none, init_example)).2 lone1 id hole_env
    0 4 0 7 0 0 MAP_SHARED 0
    (@ReachCached.init plain 2 (blank 88 4096) init_example rfl rfl (by decide) (by decide)
      init_example_eq)
    (@ReachCached.init plain 2 (blank 88 4096) init_example rfl rfl (by decide) (by decide)
      init_example_eq) rfl rfl

theorem lone2_reach : ReachCached plain 2 lone2 :=
  @ReachCached.release_page plain 2 lone1 lone2 0 lone1_reach rfl

theorem lone3_reach : ReachCached plain 2 lone3 :=
  @ReachCached.bread_page plain 2 lone2 (returned (get_free_page id 0 lone2) (none, lone2)).2
    lone3 id hole_env 0 4 1 7 4096 0 MAP_SHARED 0 lone2_reach lone2_reach rfl rfl

theorem lone3_table (b : Nat) : lone3.page_hash_table b = if b = 1 then some 1 else none := by
  show (if b = 1 then some 1 else if b = 1 then some 0 else
    if b < NR_PAGE_HASH (blank 88 4096) then none else none) = _
  split
  · rfl
  · split <;> rfl

theorem lone3_inode (f : Nat) :
    lone3.inode f = if f = 1 then some 7 else if f = 0 then some 7 else none := by
  show (if f = 1 then some 7 else if f = 1 then none else if f = 0 then some 7 else
    if f = 0 then none else if f < NR_PAGES plain (blank 88 4096) then none else none) = _
  split
  · rfl
  · split
    · rfl
    · split <;> rfl

theorem lone3_wf : WellFormed lone3 [0] lone3_chains := by
  refine ⟨⟨rfl, by decide, rfl, rfl⟩, ⟨by decide, ?_, ?_⟩, by decide, ?_⟩
  · intro b _
    by_cases e : b = 1
    · subst e
      exact ⟨by decide, rfl, rfl, rfl, rfl, rfl⟩
    · refine ⟨by simp [lone3_chains, e], ?_⟩
      show Seg _ _ none (lone3.page_hash_table b) (if b = 1 then [1, 0] else [])
      rw [lone3_table, if_neg e, if_neg e]
      rfl
  · intro b _ f hf
    by_cases e : b = 1
    · subst e
      have : f = 1 ∨ f = 0 := by simpa [lone3_chains] using hf
      rcases this with rfl | rfl
      · exact ⟨7, rfl, rfl⟩
      · exact ⟨7, rfl, rfl⟩
    · simp [lone3_chains, e] at hf
  · intro f g i hf hg ho
    rw [lone3_inode] at hf hg
    by_cases f1 : f = 1
    · by_cases g1 : g = 1
      · rw [f1, g1]
      · by_cases g0 : g = 0
        · subst f1 g0
          exact absurd ho (by decide)
        · simp [g1, g0] at hg
    · by_cases f0 : f = 0
      · by_cases g1 : g = 1
        · subst f0 g1
          exact absurd ho (by decide)
        · by_cases g0 : g = 0
          · rw [f0, g0]
          · simp [g1, g0] at hg
      · simp [f1, f0] at hf

/-- C3 (evaluation): `lone3` is reached from `page_init(2)` and well formed;
frame 0 is on the chain of (inode 7, offset 0), unheld, and the only frame of
the free list.  `search_page_hash` returns it with count 1 and `free_pages`
decremented, but `page_head` still points to it: it is still on the free
list.  After the release of the cached frame 1, `get_free_page` returns frame
0 while its holder still has it. -/
theorem C3_hit_on_last_free_frame :
    ReachCached plain 2 lone3 ∧ WellFormed lone3 [0] lone3_chains ∧
    lone3.inode 0 = some 7 ∧ lone3.offset 0 = 0 ∧ lone3.count 0 = 0 ∧
    search_page_hash 2 7 0 lone3 = .ok (some 0, lone4) ∧
    lone4.count 0 = 1 ∧ lone4.kstat.free_pages = lone3.kstat.free_pages - 1 ∧
    lone4.page_head = some 0 ∧ OnFreeList lone4 0 ∧
    release_page plain 1 lone4 = .ok lone5 ∧ lone5.count 0 = 1 ∧
    get_free_page id 2 lone5 = .ok (some 0, lone6) :=
  ⟨lone3_reach, lone3_wf, rfl, rfl, rfl, rfl, rfl, rfl, rfl, OnFreeList.head rfl, rfl, rfl, rfl⟩

/-- Memories with the same buckets and the same `next_hash` links have the same
chains. -/
theorem on_hash_chain_congr {s s2 : State} (ht : s2.page_hash_table = s.page_hash_table)
    (hn : s2.next_hash = s.next_hash) (b n : Nat) : OnHashChain s2 b n ↔ OnHashChain s b n := by
  constructor
  · intro h
    induction h with
    | head hh => exact .head (ht ▸ hh)
    | next _ hx ih => exact .next ih (hn ▸ hx)
  · intro h
    induction h with
    | head hh => exact .head (ht.symm ▸ hh)
    | next _ hx ih => exact .next ih (hn.symm ▸ hx)

/-- What `bread_page` leaves when it returns, way by way: no usable device;
a fill that failed; a cacheable fill that ran to its end and was published; a
private fill that ran to its end. -/
theorem bread_page_cases {e : Env} {fuel pg i offset prot flags ret : Nat} {s s2 : State}
    (hb : bread_page e fuel pg i offset prot flags s = .ok (ret, s2)) :
    (ret = 1 ∧ s2 = s) ∨
    (ret = 1 ∧ s2 = { s with inode := upd s.inode pg (some i),
                             offset := upd s.offset pg offset, mem := s2.mem }) ∨
    (ret = 0 ∧ (prot &&& PROT_WRITE = 0 ∨ flags &&& MAP_SHARED ≠ 0) ∧
      ∃ s1, s1 = { s with inode := upd s.inode pg (some i),
                          offset := upd s.offset pg offset, mem := s1.mem } ∧
        bread_page_loop_cached e pg i (s.inodes i).s_blocksize fuel 0 offset
          { s with inode := upd s.inode pg (some i), offset := upd s.offset pg offset }
          = .ok (true, s1) ∧
        insert_to_hash pg s1 = .ok s2) ∨
    (ret = 0 ∧ ¬ (prot &&& PROT_WRITE = 0 ∨ flags &&& MAP_SHARED ≠ 0) ∧
      ∃ s1, bread_page_loop_private e pg i (s.inodes i).s_blocksize fuel 0 offset
          { s with inode := upd s.inode pg (some i), offset := upd s.offset pg offset }
          = .ok (true, s1) ∧
      s2 = { s with inode := upd (upd s.inode pg (some i)) pg none,
                    offset := upd (upd s.offset pg offset) pg 0, mem := s1.mem }) := by
  unfold Fiwix.bread_page at hb
  dsimp only at hb
  split at hb
  · simp only [Except.ok.injEq, Prod.mk.injEq] at hb
    exact .inl ⟨hb.1.symm, hb.2.symm⟩
  · split at hb
    · simp only [Except.ok.injEq, Prod.mk.injEq] at hb
      exact .inl ⟨hb.1.symm, hb.2.symm⟩
    · split at hb
      · rename_i hc
        simp only [bind, Except.bind] at hb
        split at hb
        · exact absurd hb (by simp)
        · rename_i r hr
          have hfr := bread_page_loop_cached_frame hr
          split at hb
          · rename_i hr1
            split at hb
            · exact absurd hb (by simp)
            · rename_i s3 h3
              simp only [pure, Except.pure, Except.ok.injEq, Prod.mk.injEq] at hb
              refine .inr (.inr (.inl ⟨hb.1.symm, hc, r.2, hfr, ?_, hb.2 ▸ h3⟩))
              rw [hr]
              congr 1
              exact Prod.ext hr1 rfl
          · simp only [pure, Except.pure, Except.ok.injEq, Prod.mk.injEq] at hb
            refine .inr (.inl ⟨hb.1.symm, ?_⟩)
            rw [← hb.2]; exact hfr
      · rename_i hc
        simp only [bind, Except.bind] at hb
        split at hb
        · exact absurd hb (by simp)
        · rename_i r hr
          have hfr := bread_page_loop_private_frame hr
          split at hb
          · rename_i hr1
            simp only [pure, Except.pure, Except.ok.injEq, Prod.mk.injEq] at hb
            refine .inr (.inr (.inr ⟨hb.1.symm, hc, r.2, ?_, ?_⟩))
            · rw [hr]
              congr 1
              exact Prod.ext hr1 rfl
            · rw [← hb.2, hfr]
          · simp only [pure, Except.pure, Except.ok.injEq, Prod.mk.injEq] at hb
            refine .inr (.inl ⟨hb.1.symm, ?_⟩)
            rw [← hb.2]; exact hfr

/-- C12, evaluated where it fails: from the memory built by `page_init(3)`,
`get_free_page` lends frame 0 and `bread_page` on it returns 1 because `bmap`
fails; frame 0 is left with a cache identity (inode field `7`, not `NULL`)
and is on no hash chain. -/
theorem C12_failed_fill_leaves_identity :
    get_free_page id 0 stale0 =
      .ok (some 0, (returned (get_free_page id 0 stale0) (none, stale0)).2) ∧
    bread_page failing_env 1 0 7 0 0 MAP_SHARED
      (returned (get_free_page id 0 stale0) (none, stale0)).2 = .ok (1, stale1) ∧
    stale1.inode 0 = some 7 ∧ (∀ b, ¬ OnHashChain stale1 b 0) ∧ ¬ Resident stale1 0 := by
  have hempty : ∀ b, stale1.page_hash_table b = none := by
    intro b
    show (if b < NR_PAGE_HASH (blank 132 4096) then none else none) = none
    split <;> rfl
  exact ⟨rfl, rfl, rfl, fun b => not_on_chain_of_empty hempty b 0,
    fun ⟨b, _, ho⟩ => not_on_chain_of_empty hempty b 0 ho⟩

/-- C14, evaluated where it fails: frame 0 is freshly allocated and every byte
of RAM holds 0xAA; `bread_page` in private writable mode (`PROT_WRITE`, no
`MAP_SHARED`) over a file that is all holes returns 0 and has written nothing:
every byte of the page still holds 0xAA.  In cacheable mode the same call
leaves the first byte of the page zero. -/
theorem C14_private_fill_keeps_hole_bytes :
    (∀ off, hole_env.bmap 7 off = 0) ∧
    (∃ s2, bread_page hole_env 4 0 7 0 PROT_WRITE 0 dirty_example = .ok (0, s2) ∧
      ∀ k, k < PAGE_SIZE → s2.mem (s2.data 0 + k) = 0xAA) ∧
    (∃ s2, bread_page hole_env 4 0 7 0 0 MAP_SHARED dirty_example = .ok (0, s2) ∧
      s2.mem (s2.data 0) = 0) :=
  ⟨fun _ => rfl, ⟨_, rfl, fun _ _ => rfl⟩, ⟨_, rfl, by decide⟩⟩

/-- The walk of `search_page_hash` over a chain stops at the first frame that
holds the identity looked for. -/
theorem search_page_hash_loop_hit {s : State} {inode offset : Nat} {pv : Nat → Option Nat}
    {l1 l2 : List Nat} {f : Nat} {p c : Option Nat} {fuel : Nat}
    (hs : Seg s.next_hash pv p c (l1 ++ f :: l2))
    (hno : ∀ g ∈ l1, ¬ (s.inode g = some inode ∧ s.offset g = offset))
    (hf : s.inode f = some inode ∧ s.offset f = offset) (hfuel : l1.length < fuel) :
    search_page_hash_loop inode offset fuel c s = search_page_hash_hit f s := by
  induction l1 generalizing p c fuel with
  | nil =>
    obtain ⟨hc, -, -⟩ := hs
    subst hc
    cases fuel with
    | zero => simp at hfuel
    | succ k =>
      unfold search_page_hash_loop
      rw [if_pos hf]
  | cons g t ih =>
    obtain ⟨hc, -, ht⟩ := hs
    subst hc
    cases fuel with
    | zero => simp at hfuel
    | succ k =>
      unfold search_page_hash_loop
      rw [if_neg (hno g (List.mem_cons_self _ _))]
      exact ih ht (fun x hx => hno x (List.mem_cons_of_mem _ hx))
        (by simpa using hfuel)

/-- C13: a successful `bread_page(pg, i, off, prot, flags)` on a freshly
allocated frame (held once, on no chain), `(i, off)` not being cached.  If
`prot` lacks `PROT_WRITE` or `flags` has `MAP_SHARED`, `pg` ends with identity
`(i, off)` on the chain of the bucket of `(i, off)` and `search_page_hash(i,
off)` returns `pg`; otherwise `pg` ends with inode `NULL` and offset 0, the
hash index is as before and `search_page_hash(i, off)` returns `NULL`. -/
theorem C13_bread_page_publication (e : Env) (fuel pg i offset prot flags : Nat)
    (s s2 : State) (chains : Nat → List Nat)
    (hwf : HashWF s chains) (hsz : 0 < s.page_hash_table_size)
    (hcount : s.count pg = 1) (hfresh : ∀ b, b < NR_PAGE_HASH s → pg ∉ chains b)
    (hnew : ∀ b, b < NR_PAGE_HASH s → ∀ f ∈ chains b,
      ¬ (s.inode f = some i ∧ s.offset f = offset))
    (hb : bread_page e fuel pg i offset prot flags s = .ok (0, s2)) :
    ((prot &&& PROT_WRITE = 0 ∨ flags &&& MAP_SHARED ≠ 0) →
      s2.inode pg = some i ∧ s2.offset pg = offset ∧
      (∃ b, PAGE_HASH s2 (s2.inodes i).inode offset = .ok b ∧ b < NR_PAGE_HASH s2 ∧
        OnHashChain s2 b pg) ∧
      ∀ fuel2, 0 < fuel2 → ∃ s3, search_page_hash fuel2 i offset s2 = .ok (some pg, s3)) ∧
    (¬ (prot &&& PROT_WRITE = 0 ∨ flags &&& MAP_SHARED ≠ 0) →
      s2.inode pg = none ∧ s2.offset pg = 0 ∧
      s2.page_hash_table = s.page_hash_table ∧ s2.next_hash = s.next_hash ∧
      s2.prev_hash = s.prev_hash ∧ s2.kstat.cached = s.kstat.cached ∧
      ∀ fuel2, (∀ b, b < NR_PAGE_HASH s → (chains b).length ≤ fuel2) →
        search_page_hash fuel2 i offset s2 = .ok (none, s2)) := by
  obtain ⟨b, hpb⟩ : ∃ b, PAGE_HASH s (s.inodes i).inode offset = .ok b := by
    unfold PAGE_HASH
    rw [if_neg (by omega)]
    exact ⟨_, rfl⟩
  have hblt := PAGE_HASH_lt hwf.size hpb
  rcases bread_page_cases hb with ⟨h, -⟩ | ⟨h, -⟩ | ⟨-, hc, s1, hs1, -, hins⟩ | ⟨-, hc, s1, -, hs2⟩
  · exact absurd h (by decide)
  · exact absurd h (by decide)
  · refine ⟨fun _ => ?_, fun hn => absurd hc hn⟩
    have hwf1 : HashWF s1 chains := by
      refine hwf.of_same_but (x := pg) ?_ ?_ ?_ ?_ ?_ ?_ ?_ hfresh
      all_goals first
        | (rw [hs1]; done)
        | (intro f hf; rw [hs1]; exact upd_ne _ _ hf)
    have hino : s1.inode pg = some i := by rw [hs1]; exact upd_same _ _ _
    have hoff : s1.offset pg = offset := by rw [hs1]; exact upd_same _ _ _
    have hB1 : NR_PAGE_HASH s1 = NR_PAGE_HASH s := by rw [hs1]; rfl
    have hp1 : PAGE_HASH s1 (s1.inodes i).inode (s1.offset pg) = .ok b := by
      rw [hoff, ← hpb, hs1]; rfl
    obtain ⟨s2', hins', hwf2, hfr, -⟩ := hwf1.insert hino hp1 (by rw [hB1]; exact hfresh)
    rw [hins] at hins'
    simp only [Except.ok.injEq] at hins'
    subst hins'
    have hB2 : NR_PAGE_HASH s2 = NR_PAGE_HASH s := by rw [hfr, ← hB1]; rfl
    have hi2 : s2.inode pg = some i := by rw [hfr]; exact hino
    have ho2 : s2.offset pg = offset := by rw [hfr]; exact hoff
    have hp2 : PAGE_HASH s2 (s2.inodes i).inode offset = .ok b := by
      rw [← hp1, hoff, hfr]; rfl
    have hch := hwf2.chain b (by rw [hB2]; exact hblt)
    rw [if_pos rfl] at hch
    have hhead : s2.page_hash_table b = some pg := hch.2.1
    refine ⟨hi2, ho2, ⟨b, hp2, by rw [hB2]; exact hblt, .head hhead⟩, fun fuel2 hf2 => ?_⟩
    have hloop := @search_page_hash_loop_hit _ _ _ _ [] _ _ _ _ fuel2 hch.2
      (fun g hg => absurd hg (List.not_mem_nil g)) ⟨hi2, ho2⟩ hf2
    have hc2 : s2.count pg = 1 := by rw [hfr, hs1]; exact hcount
    refine ⟨{ s2 with count := upd s2.count pg (s2.count pg + 1) }, ?_⟩
    unfold search_page_hash
    rw [hp2]
    show search_page_hash_loop i offset fuel2 (s2.page_hash_table b) s2 = _
    rw [hloop]
    unfold search_page_hash_hit
    rw [if_neg (by rw [hc2]; decide)]
    rfl
  · refine ⟨fun hy => absurd hy hc, fun _ => ?_⟩
    have hi2 : s2.inode pg = none := by rw [hs2]; exact upd_same _ _ _
    have ho2 : s2.offset pg = 0 := by rw [hs2]; exact upd_same _ _ _
    refine ⟨hi2, ho2, by rw [hs2], by rw [hs2], by rw [hs2], by rw [hs2], fun fuel2 hf2 => ?_⟩
    have hwf2 : HashWF s2 chains := by
      refine hwf.of_same_but (x := pg) ?_ ?_ ?_ ?_ ?_ ?_ ?_ hfresh
      all_goals first
        | (rw [hs2]; done)
        | (intro f hf; rw [hs2]; show upd (upd _ _ _) _ _ _ = _
           rw [upd_ne _ _ hf, upd_ne _ _ hf])
    have hB2 : NR_PAGE_HASH s2 = NR_PAGE_HASH s := by rw [hs2]; rfl
    have hp2 : PAGE_HASH s2 (s2.inodes i).inode offset = .ok b := by
      rw [← hpb, hs2]; rfl
    have hch := hwf2.chain b (by rw [hB2]; exact hblt)
    unfold search_page_hash
    rw [hp2]
    show search_page_hash_loop i offset fuel2 (s2.page_hash_table b) s2 = _
    refine search_page_hash_loop_miss hch.2 (fun f hf => ?_) (hf2 b hblt)
    have hne : f ≠ pg := fun h => hfresh b hblt (h ▸ hf)
    have e1 : s2.inode f = s.inode f := by
      rw [hs2]; show upd (upd _ _ _) _ _ _ = _
      rw [upd_ne _ _ hne, upd_ne _ _ hne]
    have e2 : s2.offset f = s.offset f := by
      rw [hs2]; show upd (upd _ _ _) _ _ _ = _
      rw [upd_ne _ _ hne, upd_ne _ _ hne]
    rw [e1, e2]
    exact hnew b hblt f hf

/-- The hash index of `dirty_example` is well formed, with every chain empty. -/
theorem dirty_example_wf : HashWF dirty_example (fun _ => []) := by
  refine ⟨by decide, fun b _ => ⟨List.nodup_nil, ?_⟩, fun b _ f hf => absurd hf (List.not_mem_nil f)⟩
  show (if b < NR_PAGE_HASH (blank 88 4096) then none else none) = none
  split <;> rfl

/-- Witness of C13: the cacheable fill of frame 0 for (inode 7, offset 0) in
`dirty_example` returns 0; frame 0 ends with that identity and the search
returns it. -/
theorem C13_witness :
    bread_page hole_env 4 0 7 0 0 MAP_SHARED dirty_example = .ok (0, published_example) ∧
    published_example.inode 0 = some 7 ∧ published_example.offset 0 = 0 ∧
    ∃ s3, search_page_hash 1 7 0 published_example = .ok (some 0, s3) :=
  have h := (C13_bread_page_publication hole_env 4 0 7 0 0 MAP_SHARED dirty_example
    published_example (fun _ => []) dirty_example_wf (by decide) rfl
    (fun _ _ hm => absurd hm (List.not_mem_nil 0))
    (fun _ _ f hf => absurd hf (List.not_mem_nil f)) rfl).1 (Or.inl rfl)
  ⟨rfl, h.1, h.2.1, h.2.2.2 1 (by decide)⟩

/-- `file_read_fetch` on a hit. -/
theorem file_read_fetch_found {m : Machine} {e : Env} {sleep : State → State}
    {fuel i offset pg : Nat} {s s1 : State}
    (h : search_page_hash fuel i offset s = .ok (some pg, s1)) :
    file_read_fetch m e sleep fuel i offset s = .ok (.found pg, s1) := by
  unfold file_read_fetch
  rw [h]; rfl

/-- `file_read_fetch` on a miss when `kmalloc` returns 0. -/
theorem file_read_fetch_nomem {m : Machine} {e : Env} {sleep : State → State}
    {fuel i offset : Nat} {s s1 s2 : State}
    (h : search_page_hash fuel i offset s = .ok (none, s1))
    (hk : kmalloc sleep fuel s1 = .ok (0, s2)) :
    file_read_fetch m e sleep fuel i offset s = .ok (.nomem, s2) := by
  unfold file_read_fetch
  rw [h]
  simp only [bind, Except.bind]
  rw [hk]; rfl

/-- `file_read_fetch` on a miss when `kmalloc` returns a frame and `bread_page`
returns 0. -/
theorem file_read_fetch_filled {m : Machine} {e : Env} {sleep : State → State}
    {fuel i offset a pg : Nat} {s s1 s2 s3 : State}
    (h : search_page_hash fuel i offset s = .ok (none, s1))
    (hk : kmalloc sleep fuel s1 = .ok (a, s2)) (ha : a ≠ 0)
    (hpg : V2P m a >>> PAGE_SHIFT = pg)
    (hb : bread_page e fuel pg i offset 0 MAP_SHARED s2 = .ok (0, s3)) :
    file_read_fetch m e sleep fuel i offset s = .ok (.filled pg, s3) := by
  subst hpg
  unfold file_read_fetch
  rw [h]
  simp only [bind, Except.bind]
  rw [hk]
  simp only [if_neg ha]
  rw [hb]; rfl

/-- `file_read_fetch` on a miss when `kmalloc` returns a frame and `bread_page`
returns non-zero. -/
theorem file_read_fetch_ioerr {m : Machine} {e : Env} {sleep : State → State}
    {fuel i offset a pg ret : Nat} {s s1 s2 s3 s4 : State}
    (h : search_page_hash fuel i offset s = .ok (none, s1))
    (hk : kmalloc sleep fuel s1 = .ok (a, s2)) (ha : a ≠ 0)
    (hpg : V2P m a >>> PAGE_SHIFT = pg)
    (hb : bread_page e fuel pg i offset 0 MAP_SHARED s2 = .ok (ret, s3))
    (hret : ret ≠ 0)
    (hf : kfree m (s3.data pg) s3 = .ok s4) :
    file_read_fetch m e sleep fuel i offset s = .ok (.ioerr pg, s4) := by
  subst hpg
  unfold file_read_fetch
  rw [h]
  simp only [bind, Except.bind]
  rw [hk]
  simp only [if_neg ha]
  rw [hb]
  simp only [ne_eq, hret, not_false_eq_true, if_true]
  rw [hf]; rfl

/-- `kmalloc` when `get_free_page` lends a frame. -/
theorem kmalloc_some {sleep : State → State} {fuel pg : Nat} {s s1 : State}
    (h : get_free_page sleep fuel s = .ok (some pg, s1)) :
    kmalloc sleep fuel s = .ok (s1.data pg, s1) := by
  unfold kmalloc
  rw [h]; rfl

/-- `kmalloc` when `get_free_page` returns `NULL`. -/
theorem kmalloc_none {sleep : State → State} {fuel : Nat} {s s1 : State}
    (h : get_free_page sleep fuel s = .ok (none, s1)) :
    kmalloc sleep fuel s = .ok (0, s1) := by
  unfold kmalloc
  rw [h]; rfl

/-- `page_lock` on a frame that is not locked. -/
theorem page_lock_free (sleep : State → State) (fuel : Nat) {pg : Nat} {s : State}
    (h : s.locked pg = 0) :
    page_lock sleep fuel pg s = .ok { s with locked := upd s.locked pg 1 } := by
  unfold page_lock
  rw [if_neg (by simp [h])]

/-- The copy block of `file_read` on a frame that is not locked: the bytes are
copied and the frame is released. -/
theorem file_read_copy_eq (m : Machine) (sleep : State → State) (fuel : Nat)
    {pg : Nat} (buffer total_read poffset bytes : Nat) {s : State} (h : s.locked pg = 0) :
    file_read_copy m sleep fuel pg buffer total_read poffset bytes s =
      kfree m (s.data pg)
        (memcpy_b s (buffer + total_read) (fun k => s.mem (s.data pg + poffset + k)) bytes) := by
  unfold file_read_copy
  rw [page_lock_free sleep fuel h]
  simp only [bind, Except.bind]
  congr 1
  apply State.ext <;> try rfl
  funext x
  show upd (upd s.locked pg 1) pg 0 x = s.locked x
  unfold upd
  split
  · rename_i hx; rw [hx, h]
  · rfl

/-- The value of a pattern as an `int` depends on its 32 bits only. -/
theorem s32_congr {x y : Nat} (h : x % 2 ^ 32 = y % 2 ^ 32) : s32 x = s32 y := by
  unfold s32
  rw [h]

/-- A pattern below `2 ^ 31` is its own value as an `int`. -/
theorem s32_small {x : Nat} (h : x < 2 ^ 31) : s32 x = (x : Int) := by
  unfold s32
  rw [Nat.mod_eq_of_lt (by omega), if_pos h]

/-- The clamp of `file_read` when the sum does not exceed the size of the file:
`count` is left as it is. -/
theorem file_read_clamp_keep {i_size fd_offset count : Nat}
    (h : (fd_offset + count) % 2 ^ 32 ≤ i_size) :
    file_read_clamp i_size fd_offset count = count := by
  unfold file_read_clamp
  rw [if_neg (by omega)]

/-- The clamp of `file_read` when the sum exceeds the size of the file, the
position being at most the size: `count` becomes what is left of the file. -/
theorem file_read_clamp_cut {i_size fd_offset count : Nat}
    (h : (fd_offset + count) % 2 ^ 32 > i_size) (hfd : fd_offset ≤ i_size)
    (hsz : i_size < 2 ^ 32) :
    file_read_clamp i_size fd_offset count = i_size - fd_offset := by
  unfold file_read_clamp
  rw [if_pos h, Nat.mod_eq_of_lt (show fd_offset < 2 ^ 32 by omega)]
  have : i_size + (2 ^ 32 - fd_offset) = (i_size - fd_offset) + 2 ^ 32 := by omega
  rw [this, Nat.add_mod_right, Nat.mod_eq_of_lt (by omega)]

/-- The loop of `file_read` when nothing is left to read. -/
theorem file_read_loop_done (m : Machine) (e : Env) (sleep : State → State)
    (inner i buffer fuel : Nat) {fd_offset count : Nat} (total_read : Nat) {s : State}
    (h : file_read_clamp (s.inodes i).i_size fd_offset count = 0) :
    file_read_loop m e sleep inner i buffer fuel fd_offset count total_read s =
      .ok ⟨s32 total_read, fd_offset, s, []⟩ := by
  unfold file_read_loop
  simp only [h, if_true]

/-- One pass of the loop of `file_read` that copies from frame `pg`, `c` being
the value of `count` after the clamp. -/
theorem file_read_loop_pass (m : Machine) (e : Env) (sleep : State → State)
    (inner i buffer fuel : Nat) {fd_offset count c : Nat} (total_read : Nat)
    {s s1 s2 : State} {f : Fetch} {pg : Nat} (hf : f = .found pg ∨ f = .filled pg)
    (hc : file_read_clamp (s.inodes i).i_size fd_offset count = c) (h : c ≠ 0)
    (hfetch : file_read_fetch m e sleep inner i (fd_offset &&& PAGE_MASK) s = .ok (f, s1))
    (hcopy : file_read_copy m sleep inner pg buffer total_read (fd_offset % PAGE_SIZE)
      (min (PAGE_SIZE - fd_offset % PAGE_SIZE) c) s1 = .ok s2) :
    file_read_loop m e sleep inner i buffer (fuel + 1) fd_offset count total_read s =
      (file_read_loop m e sleep inner i buffer fuel
        ((fd_offset + min (PAGE_SIZE - fd_offset % PAGE_SIZE) c) % 2 ^ 32)
        (c - min (PAGE_SIZE - fd_offset % PAGE_SIZE) c)
        ((total_read + min (PAGE_SIZE - fd_offset % PAGE_SIZE) c) % 2 ^ 32) s2).map
        (fun r => { r with passes :=
          ⟨s, fd_offset, f, min (PAGE_SIZE - fd_offset % PAGE_SIZE) c, s1⟩ :: r.passes }) := by
  subst hc
  rw [file_read_loop]
  simp only [h, if_false]
  rw [hfetch]
  rcases hf with rfl | rfl
  · simp only [hcopy]
    cases file_read_loop m e sleep inner i buffer fuel _ _ _ s2 <;> rfl
  · simp only [hcopy]
    cases file_read_loop m e sleep inner i buffer fuel _ _ _ s2 <;> rfl

/-- The pass of the loop of `file_read` in which `kmalloc` returns 0. -/
theorem file_read_loop_nomem (m : Machine) (e : Env) (sleep : State → State)
    (inner i buffer fuel : Nat) {fd_offset count : Nat} (total_read : Nat) {s s1 : State}
    (h : file_read_clamp (s.inodes i).i_size fd_offset count ≠ 0)
    (hfetch : file_read_fetch m e sleep inner i (fd_offset &&& PAGE_MASK) s = .ok (.nomem, s1)) :
    file_read_loop m e sleep inner i buffer (fuel + 1) fd_offset count total_read s =
      .ok ⟨-ENOMEM, fd_offset, s1, [⟨s, fd_offset, .nomem, 0, s1⟩]⟩ := by
  rw [file_read_loop]
  simp only [h, if_false]
  rw [hfetch]

/-- The pass of the loop of `file_read` in which `bread_page` fails. -/
theorem file_read_loop_ioerr (m : Machine) (e : Env) (sleep : State → State)
    (inner i buffer fuel : Nat) {fd_offset count : Nat} (total_read : Nat) {s s1 : State}
    {pg : Nat}
    (h : file_read_clamp (s.inodes i).i_size fd_offset count ≠ 0)
    (hfetch : file_read_fetch m e sleep inner i (fd_offset &&& PAGE_MASK) s =
      .ok (.ioerr pg, s1)) :
    file_read_loop m e sleep inner i buffer (fuel + 1) fd_offset count total_read s =
      .ok ⟨- EIO, fd_offset, s1, [⟨s, fd_offset, .ioerr pg, 0, s1⟩]⟩ := by
  rw [file_read_loop]
  simp only [h, if_false]
  rw [hfetch]

/-- The first read of the example for C11: the fill fails and `file_read`
returns `-EIO`. -/
theorem dup_read_fails :
    file_read plain failing_env id 8 8 7 0 0x10000000 4096 disk4 =
      .ok ⟨- EIO, 0, dup_c, [⟨disk4, 0, .ioerr 0, 0, dup_c⟩]⟩ := by
  have hf1 : file_read_fetch plain failing_env id 8 7 0 disk4 = .ok (.ioerr 0, dup_c) :=
    @file_read_fetch_ioerr plain failing_env id 8 7 0 (dup_a.data 0) 0 1 disk4 disk4 dup_a dup_b
      dup_c (@search_page_hash_none disk4 8 7 0 1 rfl rfl)
      (@kmalloc_some id 8 0 disk4 dup_a rfl)
      (by decide) (by decide) rfl (by decide) rfl
  have e1 : file_read plain failing_env id 8 8 7 0 0x10000000 4096 disk4 =
      file_read_loop plain failing_env id 8 7 0x10000000 (7 + 1) 0 4096 0 disk4 := rfl
  rw [e1]
  exact @file_read_loop_ioerr plain failing_env id 8 7 0x10000000 7 0 4096 0 disk4 dup_c 0
    (by decide) hf1

/-- The second read of the example for C11: the fill succeeds and `file_read`
returns 4096. -/
theorem dup_read_succeeds :
    file_read plain hole_env id 8 8 7 0 0x10000000 4096 dup_c =
      .ok ⟨4096, 4096, dup_f, [⟨dup_c, 0, .filled 1, 4096, dup_e⟩]⟩ := by
  have hf2 : file_read_fetch plain hole_env id 8 7 0 dup_c = .ok (.filled 1, dup_e) :=
    @file_read_fetch_filled plain hole_env id 8 7 0 (dup_d.data 1) 1 dup_c dup_c dup_d dup_e
      (@search_page_hash_none dup_c 8 7 0 1 rfl rfl) (@kmalloc_some id 8 1 dup_c dup_d rfl)
      (by decide) (by decide) rfl
  have hc2 : file_read_copy plain id 8 1 0x10000000 0 0 4096 dup_e = .ok dup_f := by
    rw [@file_read_copy_eq plain id 8 1 0x10000000 0 0 4096 dup_e rfl]
    rfl
  have e2 : file_read plain hole_env id 8 8 7 0 0x10000000 4096 dup_c =
      file_read_loop plain hole_env id 8 7 0x10000000 (7 + 1) 0 4096 0 dup_c := rfl
  rw [e2, @file_read_loop_pass plain hole_env id 8 7 0x10000000 7 0 4096 4096 0 dup_c dup_e
    dup_f (.filled 1) 1 (.inr rfl) (by decide) (by decide) hf2 hc2]
  rw [file_read_loop_done]
  · rfl
  · decide

/-- C11, evaluated where it fails: from the memory built by `page_init(4)`, a
`file_read` of the first page of inode 7 whose fill fails returns `-EIO`, and
the same `file_read` with a fill that succeeds returns 4096; afterwards the
distinct frames 0 and 1 both hold the identity (inode 7, offset 0) in their
inode and offset fields. -/
theorem C11_two_frames_one_identity :
    page_init plain 4 disk0 = .ok disk4 ∧
    file_read plain failing_env id 8 8 7 0 0x10000000 4096 disk4 =
      .ok ⟨- EIO, 0, dup_c, [⟨disk4, 0, .ioerr 0, 0, dup_c⟩]⟩ ∧
    file_read plain hole_env id 8 8 7 0 0x10000000 4096 dup_c =
      .ok ⟨4096, 4096, dup_f, [⟨dup_c, 0, .filled 1, 4096, dup_e⟩]⟩ ∧
    dup_f.inode 0 = some 7 ∧ dup_f.offset 0 = 0 ∧
    dup_f.inode 1 = some 7 ∧ dup_f.offset 1 = 0 ∧ (0 : Nat) ≠ 1 :=
  ⟨rfl, dup_read_fails, dup_read_succeeds, rfl, rfl, rfl, rfl, by decide⟩

/-- The ways in which `file_read_fetch` returns. -/
theorem file_read_fetch_cases {m : Machine} {e : Env} {sleep : State → State}
    {fuel i offset : Nat} {s s2 : State} {t : Fetch}
    (h : file_read_fetch m e sleep fuel i offset s = .ok (t, s2)) :
    (∃ pg, t = .found pg ∧ search_page_hash fuel i offset s = .ok (some pg, s2)) ∨
    (t = .nomem ∧ ∃ s1, search_page_hash fuel i offset s = .ok (none, s1) ∧
      kmalloc sleep fuel s1 = .ok (0, s2)) ∨
    (∃ s1 a sa, search_page_hash fuel i offset s = .ok (none, s1) ∧
      kmalloc sleep fuel s1 = .ok (a, sa) ∧ a ≠ 0 ∧
      bread_page e fuel (V2P m a >>> PAGE_SHIFT) i offset 0 MAP_SHARED sa = .ok (0, s2) ∧
      t = .filled (V2P m a >>> PAGE_SHIFT)) ∨
    (∃ s1 a sa ret sb, search_page_hash fuel i offset s = .ok (none, s1) ∧
      kmalloc sleep fuel s1 = .ok (a, sa) ∧ a ≠ 0 ∧
      bread_page e fuel (V2P m a >>> PAGE_SHIFT) i offset 0 MAP_SHARED sa = .ok (ret, sb) ∧
      ret ≠ 0 ∧ kfree m (sb.data (V2P m a >>> PAGE_SHIFT)) sb = .ok s2 ∧
      t = .ioerr (V2P m a >>> PAGE_SHIFT)) := by
  unfold file_read_fetch at h
  simp only [bind, Except.bind] at h
  split at h
  · exact absurd h (by simp)
  · rename_i r hr
    obtain ⟨r1, r2⟩ := r
    dsimp only at h
    cases r1 with
    | some pg =>
      simp only [pure, Except.pure, Except.ok.injEq, Prod.mk.injEq] at h
      exact .inl ⟨pg, h.1.symm, by rw [hr, h.2]⟩
    | none =>
      dsimp only at h
      split at h
      · exact absurd h (by simp)
      · rename_i a ha
        obtain ⟨a1, a2⟩ := a
        dsimp only at h
        split at h
        · rename_i h0
          simp only [pure, Except.pure, Except.ok.injEq, Prod.mk.injEq] at h
          refine .inr (.inl ⟨h.1.symm, r2, hr, ?_⟩)
          rw [ha, ← h.2, h0]
        · rename_i h0
          split at h
          · exact absurd h (by simp)
          · rename_i b hb
            obtain ⟨b1, b2⟩ := b
            dsimp only at h
            split at h
            · rename_i hb1
              split at h
              · exact absurd h (by simp)
              · rename_i s3 h3
                simp only [pure, Except.pure, Except.ok.injEq, Prod.mk.injEq] at h
                exact .inr (.inr (.inr ⟨r2, a1, a2, b1, b2, hr, ha, h0, hb, hb1,
                  by rw [h3, h.2], h.1.symm⟩))
            · rename_i hb1
              simp only [pure, Except.pure, Except.ok.injEq, Prod.mk.injEq] at h
              have hz : b1 = 0 := by
                by_contra hne
                exact hb1 hne
              refine .inr (.inr (.inl ⟨r2, a1, a2, hr, ha, h0, ?_, h.1.symm⟩))
              rw [hb, hz, h.2]

/-- The ways in which the loop of `file_read` returns: nothing is left to
read, or a pass ends in `-ENOMEM` or `-EIO`, or a pass copies from a frame and
the loop goes on. -/
theorem file_read_loop_cases {m : Machine} {e : Env} {sleep : State → State}
    {inner i buffer fuel fd_offset count total_read : Nat} {s : State} {r : ReadEnd}
    (h : file_read_loop m e sleep inner i buffer fuel fd_offset count total_read s = .ok r) :
    (file_read_clamp (s.inodes i).i_size fd_offset count = 0 ∧
      r = ⟨s32 total_read, fd_offset, s, []⟩) ∨
    (file_read_clamp (s.inodes i).i_size fd_offset count ≠ 0 ∧
      ∃ k, fuel = k + 1 ∧ ∃ t s1,
        file_read_fetch m e sleep inner i (fd_offset &&& PAGE_MASK) s = .ok (t, s1) ∧
        ((t = .nomem ∧ r = ⟨-ENOMEM, fd_offset, s1, [⟨s, fd_offset, .nomem, 0, s1⟩]⟩) ∨
         (∃ pg, t = .ioerr pg ∧ r = ⟨- EIO, fd_offset, s1, [⟨s, fd_offset, .ioerr pg, 0, s1⟩]⟩) ∨
         (∃ pg s2 r2, (t = .found pg ∨ t = .filled pg) ∧
            file_read_copy m sleep inner pg buffer total_read (fd_offset % PAGE_SIZE)
              (min (PAGE_SIZE - fd_offset % PAGE_SIZE)
                (file_read_clamp (s.inodes i).i_size fd_offset count)) s1 = .ok s2 ∧
            file_read_loop m e sleep inner i buffer k
              ((fd_offset + min (PAGE_SIZE - fd_offset % PAGE_SIZE)
                (file_read_clamp (s.inodes i).i_size fd_offset count)) % 2 ^ 32)
              (file_read_clamp (s.inodes i).i_size fd_offset count -
                min (PAGE_SIZE - fd_offset % PAGE_SIZE)
                  (file_read_clamp (s.inodes i).i_size fd_offset count))
              ((total_read + min (PAGE_SIZE - fd_offset % PAGE_SIZE)
                (file_read_clamp (s.inodes i).i_size fd_offset count)) % 2 ^ 32) s2 = .ok r2 ∧
            r = { r2 with passes := ⟨s, fd_offset, t, min (PAGE_SIZE - fd_offset % PAGE_SIZE)
                (file_read_clamp (s.inodes i).i_size fd_offset count), s1⟩ :: r2.passes }))) := by
  rw [file_read_loop.eq_def] at h
  by_cases hc : file_read_clamp (s.inodes i).i_size fd_offset count = 0
  · simp only [hc, if_true, Except.ok.injEq] at h
    exact .inl ⟨hc, h.symm⟩
  · simp only [hc, if_false] at h
    refine .inr ⟨hc, ?_⟩
    cases fuel with
    | zero => exact absurd h (by simp)
    | succ k =>
      refine ⟨k, rfl, ?_⟩
      dsimp only at h
      cases hfe : file_read_fetch m e sleep inner i (fd_offset &&& PAGE_MASK) s with
      | error x => rw [hfe] at h; exact absurd h (by simp)
      | ok ts =>
        obtain ⟨t, s1⟩ := ts
        rw [hfe] at h
        refine ⟨t, s1, rfl, ?_⟩
        cases t with
        | nomem =>
          simp only [Except.ok.injEq] at h
          exact .inl ⟨rfl, h.symm⟩
        | ioerr pg =>
          simp only [Except.ok.injEq] at h
          exact .inr (.inl ⟨pg, rfl, h.symm⟩)
        | found pg =>
          dsimp only at h
          split at h
          · exact absurd h (by simp)
          · rename_i s2 hcp
            split at h
            · exact absurd h (by simp)
            · rename_i r2 hr2
              simp only [Except.ok.injEq] at h
              exact .inr (.inr ⟨pg, s2, r2, .inl rfl, hcp, hr2, h.symm⟩)
        | filled pg =>
          dsimp only at h
          split at h
          · exact absurd h (by simp)
          · rename_i s2 hcp
            split at h
            · exact absurd h (by simp)
            · rename_i r2 hr2
              simp only [Except.ok.injEq] at h
              exact .inr (.inr ⟨pg, s2, r2, .inr rfl, hcp, hr2, h.symm⟩)

/-- What the loop of `file_read` leaves in its record: every pass recorded is
the outcome of `file_read_fetch` at the memory and position recorded, and the
value returned tells how the loop ended: `-ENOMEM` or `-EIO` after a last pass
that failed, or the bytes counted by the passes, in 32 bits, as an `int`. -/
theorem file_read_loop_record {m : Machine} {e : Env} {sleep : State → State}
    {inner i buffer : Nat} (fuel : Nat) {fd_offset count total_read : Nat} {s : State}
    {r : ReadEnd}
    (h : file_read_loop m e sleep inner i buffer fuel fd_offset count total_read s = .ok r) :
    (∀ p ∈ r.passes,
      file_read_fetch m e sleep inner i (p.position &&& PAGE_MASK) p.before
        = .ok (p.fetch, p.fetched)) ∧
    ((r.ret = -ENOMEM ∧ (∃ p ∈ r.passes, p.fetch = .nomem) ∧
        ∀ p ∈ r.passes, ∀ pg, p.fetch ≠ .ioerr pg) ∨
     (r.ret = - EIO ∧ (∃ p ∈ r.passes, ∃ pg, p.fetch = .ioerr pg) ∧
        ∀ p ∈ r.passes, p.fetch ≠ .nomem) ∨
     (r.ret = s32 (total_read + (r.passes.map Pass.bytes).sum) ∧
      ∀ p ∈ r.passes, p.fetch ≠ .nomem ∧ ∀ pg, p.fetch ≠ .ioerr pg)) := by
  induction fuel generalizing fd_offset count total_read s r with
  | zero =>
    rcases file_read_loop_cases h with ⟨-, hr⟩ | ⟨-, k, hk, -⟩
    · subst hr
      exact ⟨fun p hp => absurd hp (List.not_mem_nil p),
        .inr (.inr ⟨by simp, fun p hp => absurd hp (List.not_mem_nil p)⟩)⟩
    · exact absurd hk (by omega)
  | succ n ih =>
    rcases file_read_loop_cases h with ⟨-, hr⟩ | ⟨-, k, hk, t, s1, hfe, hcase⟩
    · subst hr
      exact ⟨fun p hp => absurd hp (List.not_mem_nil p),
        .inr (.inr ⟨by simp, fun p hp => absurd hp (List.not_mem_nil p)⟩)⟩
    · have hkn : k = n := by omega
      subst hkn
      rcases hcase with ⟨ht, hr⟩ | ⟨pg, ht, hr⟩ | ⟨pg, s2, r2, ht, -, hr2, hr⟩
      · subst hr ht
        refine ⟨fun p hp => ?_, .inl ⟨rfl, ⟨_, List.mem_singleton.2 rfl, rfl⟩, fun p hp q => ?_⟩⟩
        · rw [List.mem_singleton.1 hp]; exact hfe
        · rw [List.mem_singleton.1 hp]; simp
      · subst hr ht
        refine ⟨fun p hp => ?_,
          .inr (.inl ⟨rfl, ⟨_, List.mem_singleton.2 rfl, pg, rfl⟩, fun p hp => ?_⟩)⟩
        · rw [List.mem_singleton.1 hp]; exact hfe
        · rw [List.mem_singleton.1 hp]; simp
      · obtain ⟨hrec, hend⟩ := ih hr2
        subst hr
        have htn : t ≠ .nomem ∧ ∀ q, t ≠ .ioerr q := by
          rcases ht with rfl | rfl <;> exact ⟨by simp, by simp⟩
        refine ⟨fun p hp => ?_, ?_⟩
        · rcases List.mem_cons.1 hp with rfl | hp
          · exact hfe
          · exact hrec p hp
        · rcases hend with ⟨hret, ⟨p, hp, hpf⟩, hall⟩ | ⟨hret, ⟨p, hp, hpf⟩, hall⟩ | ⟨hret, hall⟩
          · refine .inl ⟨hret, ⟨p, List.mem_cons_of_mem _ hp, hpf⟩, fun p hp => ?_⟩
            rcases List.mem_cons.1 hp with rfl | hp
            · exact htn.2
            · exact hall p hp
          · refine .inr (.inl ⟨hret, ⟨p, List.mem_cons_of_mem _ hp, hpf⟩, fun p hp => ?_⟩)
            rcases List.mem_cons.1 hp with rfl | hp
            · exact htn.1
            · exact hall p hp
          · refine .inr (.inr ⟨?_, fun p hp => ?_⟩)
            · show r2.ret = _
              rw [hret]
              apply s32_congr
              simp only [List.map_cons, List.sum_cons]
              rw [Nat.mod_add_mod, Nat.add_assoc]
            · rcases List.mem_cons.1 hp with rfl | hp
              · exact htn
              · exact hall p hp

/-- A pass recorded with the outcome of `file_read_fetch` is one in which
`kmalloc` returned 0 exactly when it is recorded as such. -/
theorem pass_nomem_iff {m : Machine} {e : Env} {sleep : State → State} {inner i : Nat}
    {p : Pass}
    (hf : file_read_fetch m e sleep inner i (p.position &&& PAGE_MASK) p.before
      = .ok (p.fetch, p.fetched)) :
    p.fetch = .nomem ↔ AllocFailed sleep inner i p := by
  constructor
  · intro hn
    rcases file_read_fetch_cases hf with ⟨pg, ht, -⟩ | ⟨-, s1, h1, h2⟩ |
      ⟨s1, a, sa, -, -, -, -, ht⟩ | ⟨s1, a, sa, ret, sb, -, -, -, -, -, -, ht⟩
    · rw [hn] at ht; exact absurd ht (by simp)
    · exact ⟨s1, _, h1, h2⟩
    · rw [hn] at ht; exact absurd ht (by simp)
    · rw [hn] at ht; exact absurd ht (by simp)
  · rintro ⟨s1, s2, h1, h2⟩
    have := @file_read_fetch_nomem m e sleep inner i (p.position &&& PAGE_MASK) p.before s1 s2
      h1 h2
    rw [hf] at this
    simp only [Except.ok.injEq, Prod.mk.injEq] at this
    exact this.1

/-- A pass recorded with the outcome of `file_read_fetch` is one in which
`bread_page` returned non-zero exactly when it is recorded as such. -/
theorem pass_ioerr_iff {m : Machine} {e : Env} {sleep : State → State} {inner i : Nat}
    {p : Pass}
    (hf : file_read_fetch m e sleep inner i (p.position &&& PAGE_MASK) p.before
      = .ok (p.fetch, p.fetched)) :
    (∃ pg, p.fetch = .ioerr pg) ↔ FillFailed m e sleep inner i p := by
  constructor
  · rintro ⟨q, hn⟩
    rcases file_read_fetch_cases hf with ⟨pg, ht, -⟩ | ⟨ht, -⟩ |
      ⟨s1, a, sa, -, -, -, -, ht⟩ | ⟨s1, a, sa, ret, sb, h1, h2, h3, h4, h5, -, -⟩
    · rw [hn] at ht; exact absurd ht (by simp)
    · rw [hn] at ht; exact absurd ht (by simp)
    · rw [hn] at ht; exact absurd ht (by simp)
    · exact ⟨s1, a, sa, ret, sb, h1, h2, h3, h4, h5⟩
  · rintro ⟨s1, a, sa, ret, sb, h1, h2, h3, h4, h5⟩
    rcases file_read_fetch_cases hf with ⟨pg, -, hs⟩ | ⟨-, t1, hs, hk⟩ |
      ⟨t1, b, tb, hs, hk, -, hb, -⟩ | ⟨t1, b, tb, ret2, tc, -, -, -, -, -, -, ht⟩
    · rw [h1] at hs; simp at hs
    · rw [h1] at hs
      simp only [Except.ok.injEq, Prod.mk.injEq, true_and] at hs
      subst hs
      rw [h2] at hk
      simp only [Except.ok.injEq, Prod.mk.injEq] at hk
      exact absurd hk.1 h3
    · rw [h1] at hs
      simp only [Except.ok.injEq, Prod.mk.injEq, true_and] at hs
      subst hs
      rw [h2] at hk
      simp only [Except.ok.injEq, Prod.mk.injEq] at hk
      obtain ⟨rfl, rfl⟩ := hk
      rw [h4] at hb
      simp only [Except.ok.injEq, Prod.mk.injEq] at hb
      exact absurd hb.1 h5
    · exact ⟨_, ht⟩

/-- The value `file_read` returns, by how its loop ended: `-ENOMEM` after a
pass in which `kmalloc` returned 0, `-EIO` after a pass in which `bread_page`
returned non-zero, and otherwise the 32-bit count of the bytes of the passes,
as an `int`. -/
theorem file_read_outcome {m : Machine} {e : Env} {sleep : State → State}
    {inner fuel i fd_offset buffer count : Nat} {s : State} {r : ReadEnd}
    (h : file_read m e sleep inner fuel i fd_offset buffer count s = .ok r) :
    ((∃ p ∈ r.passes, AllocFailed sleep inner i p) → r.ret = -ENOMEM) ∧
    ((∃ p ∈ r.passes, FillFailed m e sleep inner i p) → r.ret = - EIO) ∧
    ((∀ p ∈ r.passes, ¬ AllocFailed sleep inner i p ∧ ¬ FillFailed m e sleep inner i p) →
      r.ret = s32 (r.passes.map Pass.bytes).sum) := by
  obtain ⟨hrec, hend⟩ := file_read_loop_record fuel h
  refine ⟨fun ⟨p, hp, ha⟩ => ?_, fun ⟨p, hp, ha⟩ => ?_, fun hall => ?_⟩
  · have hpf := (pass_nomem_iff (hrec p hp)).2 ha
    rcases hend with ⟨hr, -⟩ | ⟨-, -, hno⟩ | ⟨-, hno⟩
    · exact hr
    · exact absurd hpf (hno p hp)
    · exact absurd hpf (hno p hp).1
  · obtain ⟨pg, hpf⟩ := (pass_ioerr_iff (hrec p hp)).2 ha
    rcases hend with ⟨-, -, hno⟩ | ⟨hr, -⟩ | ⟨-, hno⟩
    · exact absurd hpf (hno p hp pg)
    · exact hr
    · exact absurd hpf ((hno p hp).2 pg)
  · rcases hend with ⟨-, ⟨p, hp, hpf⟩, -⟩ | ⟨-, ⟨p, hp, hpf⟩, -⟩ | ⟨hr, -⟩
    · exact absurd ((pass_nomem_iff (hrec p hp)).1 hpf) (hall p hp).1
    · exact absurd ((pass_ioerr_iff (hrec p hp)).1 hpf) (hall p hp).2
    · rw [Nat.zero_add] at hr
      exact hr

/-- Writing the value a map already has changes nothing. -/
theorem upd_eq_self {β : Type} (f : Nat → β) (a : Nat) (v : β) (h : f a = v) : upd f a v = f := by
  funext x
  unfold upd
  split
  · rename_i hx; rw [hx, h]
  · rfl

/-- Unlinking a frame that is not the head of the free list leaves the free
list of the others, with the same head. -/
theorem FreeRing.remove_mid {s : State} {h f : Nat} {t1 t2 : List Nat}
    (hr : FreeRing s (h :: (t1 ++ f :: t2))) :
    ∃ s2, remove_from_free_list f s = .ok s2 ∧ FreeRing s2 (h :: (t1 ++ t2)) ∧
      s2 = { s with next_free := s2.next_free, prev_free := s2.prev_free,
                    kstat := { s.kstat with free_pages := s.kstat.free_pages - 1 } } := by
  obtain ⟨hh, hnd, hp⟩ := hr
  obtain ⟨hp1, hp2⟩ := Path.append.1 hp
  have hl := hp1.last
  have hfh : f ≠ h := by
    intro e
    have := (List.nodup_cons.1 hnd).1
    exact this (by simp [e])
  have hnd1 : (h :: t1).Nodup := by
    refine hnd.sublist ?_
    exact (List.sublist_append_left t1 (f :: t2)).cons₂ h
  have hft1 : f ∉ h :: t1 := by
    intro hm
    rcases List.mem_cons.1 hm with e | hm
    · exact hfh e
    · have := (List.nodup_append.1 (List.nodup_cons.1 hnd).2).2.2
      exact this hm (List.mem_cons_self _ _)
  have hhead : (if s.page_head = some f then (some (0 : Nat)) else s.page_head) = s.page_head := by
    rw [if_neg]
    rw [hh]; intro e; exact hfh (Option.some.inj e).symm
  cases t2 with
  | nil =>
    have hn : s.next_free f = some h := hp2.1
    refine ⟨_, remove_from_free_list_eq hl.2 hn, ?_, ?_⟩
    · refine ⟨?_, by simpa using hnd1, ?_⟩
      · show (if s.page_head = some f then some h else s.page_head) = some h
        rw [if_neg (by rw [hh]; intro e; exact hfh (Option.some.inj e).symm), hh]
      · rw [List.append_nil]
        exact Path.redirect h hp1 (List.nodup_cons.1 hnd1).1 hnd1
    · apply State.ext <;> try rfl
      show (if s.page_head = some f then some h else s.page_head) = s.page_head
      rw [if_neg (by rw [hh]; intro e; exact hfh (Option.some.inj e).symm)]
  | cons n t3 =>
    have hn : s.next_free f = some n := hp2.1.1
    have hnt1 : n ∉ h :: t1 := by
      intro hm
      rcases List.mem_cons.1 hm with e | hm
      · have := (List.nodup_cons.1 hnd).1
        exact this (by simp [← e])
      · have := (List.nodup_append.1 (List.nodup_cons.1 hnd).2).2.2
        exact this hm (by simp)
    have hnd3 : (n :: t3).Nodup := by
      have := (List.nodup_append.1 (List.nodup_cons.1 hnd).2).2.1
      exact (List.nodup_cons.1 this).2
    have hdis : ∀ y ∈ n :: t3, y ∉ h :: t1 := by
      intro y hy hm
      rcases List.mem_cons.1 hm with e | hm
      · have := (List.nodup_cons.1 hnd).1
        subst e
        exact this (by simp [List.mem_append, List.mem_cons] at hy ⊢; tauto)
      · have := (List.nodup_append.1 (List.nodup_cons.1 hnd).2).2.2
        exact this hm (List.mem_cons_of_mem _ hy)
    refine ⟨_, remove_from_free_list_eq hl.2 hn, ?_, ?_⟩
    · refine ⟨?_, ?_, ?_⟩
      · show (if s.page_head = some f then some n else s.page_head) = some h
        rw [if_neg (by rw [hh]; intro e; exact hfh (Option.some.inj e).symm), hh]
      · have hsub : (h :: (t1 ++ n :: t3)).Sublist (h :: (t1 ++ f :: n :: t3)) := by
          refine List.Sublist.cons₂ h ?_
          exact List.Sublist.append (List.Sublist.refl t1) (List.sublist_cons_self f _)
        exact hnd.sublist hsub
      · show Path (upd s.next_free (lastOf h t1) (some n)) (upd s.prev_free n (some (lastOf h t1)))
          h (t1 ++ n :: t3) h
        refine Path.append.2 ⟨Path.redirect n hp1 (fun hm => hnt1 (List.mem_cons_of_mem _ hm)) hnd1,
          hp2.2.path_congr ?_ ?_⟩
        · intro y hy
          have : y ≠ lastOf h t1 := fun e => hdis y hy (e ▸ lastOf_mem h t1)
          exact upd_ne _ _ this
        · intro y hy
          have : y ≠ n := by
            intro e
            subst e
            simp only [List.mem_append, List.mem_singleton] at hy
            rcases hy with hy | hy
            · exact (List.nodup_cons.1 hnd3).1 hy
            · exact hnt1 (by simp [hy])
          exact upd_ne _ _ this
    · apply State.ext <;> try rfl
      show (if s.page_head = some f then some n else s.page_head) = s.page_head
      rw [if_neg (by rw [hh]; intro e; exact hfh (Option.some.inj e).symm)]

/-- Unlinking any frame of a free list of at least two frames leaves the free
list of the others. -/
theorem FreeRing.remove_any {s : State} {free : List Nat} (hr : FreeRing s free) {f : Nat}
    (hf : f ∈ free) (hne : free ≠ [f]) :
    ∃ s2, remove_from_free_list f s = .ok s2 ∧ FreeRing s2 (free.erase f) ∧
      s2 = { s with next_free := s2.next_free, prev_free := s2.prev_free,
                    page_head := s2.page_head,
                    kstat := { s.kstat with free_pages := s.kstat.free_pages - 1 } } := by
  cases free with
  | nil => exact absurd hf (List.not_mem_nil f)
  | cons h t =>
    by_cases hfh : f = h
    · subst hfh
      cases t with
      | nil => exact absurd rfl hne
      | cons x t =>
        obtain ⟨s2, h1, h2, h3⟩ := hr.remove_head
        refine ⟨s2, h1, by simpa using h2, ?_⟩
        rw [h3]
    · have hft : f ∈ t := by
        rcases List.mem_cons.1 hf with e | hm
        · exact absurd e hfh
        · exact hm
      obtain ⟨t1, t2, rfl⟩ := List.append_of_mem hft
      obtain ⟨s2, h1, h2, h3⟩ := hr.remove_mid
      have hnd := hr.nodup
      have hft1 : f ∉ t1 := by
        intro hm
        have := (List.nodup_append.1 (List.nodup_cons.1 hnd).2).2.2
        exact this hm (List.mem_cons_self _ _)
      have he : (h :: (t1 ++ f :: t2)).erase f = h :: (t1 ++ t2) := by
        rw [List.erase_cons_tail (by simpa using fun e => hfh e.symm)]
        rw [List.erase_append_right _ hft1, List.erase_cons_head]
      have hph : s2.page_head = s.page_head := by rw [h3]
      refine ⟨s2, h1, by rw [he]; exact h2, h3.trans ?_⟩
      apply State.ext <;> first | rfl | exact hph.symm

/-- Unlinking the only frame of the free list writes nothing but the counter:
the frame stays linked to itself and `page_head` stays on it. -/
theorem FreeRing.remove_only {s : State} {f : Nat} (hr : FreeRing s [f]) :
    remove_from_free_list f s = .ok
      { s with kstat := { s.kstat with free_pages := s.kstat.free_pages - 1 } } := by
  obtain ⟨hh, -, hp⟩ := hr
  have hl : s.next_free f = some f ∧ s.prev_free f = some f := hp
  rw [remove_from_free_list_eq hl.2 hl.1]
  congr 1
  apply State.ext <;> try rfl
  · exact upd_eq_self _ _ _ hl.2
  · exact upd_eq_self _ _ _ hl.1
  · show (if s.page_head = some f then some f else s.page_head) = s.page_head
    rw [if_pos hh, hh]

/-- Releasing the last hold on a frame that is not on the free list: the frame
joins the list, first when it has no cache identity and last otherwise; only
its count, the free links, `page_head` and the counter are written. -/
theorem FreeRing.release {m : Machine} {s : State} {free : List Nat} (hr : FreeRing s free)
    {pg : Nat} (hpg : pg ∉ free) (hv : valid_page m s pg = true) (hc : s.count pg ≤ 1) :
    ∃ s2, release_page m pg s = .ok s2 ∧
      FreeRing s2 (if s.inode pg = none then pg :: free else free ++ [pg]) ∧
      s2 = { s with count := upd s.count pg (s.count pg - 1),
                    next_free := s2.next_free, prev_free := s2.prev_free,
                    page_head := s2.page_head,
                    kstat := { s.kstat with free_pages := s.kstat.free_pages + 1 } } := by
  have hr1 : FreeRing { s with count := upd s.count pg (s.count pg - 1) } free :=
    hr.of_eq rfl rfl rfl
  obtain ⟨s2, hl, hfr, hring, hring2, -, -⟩ := hr1.link hpg
  have hi : s2.inode pg = s.inode pg := by rw [hfr]
  refine ⟨_, release_page_last hv hc hl, ?_, ?_⟩
  · rw [hi]
    by_cases hn : s.inode pg = none
    · rw [if_pos hn, if_pos hn]
      exact hring2.of_eq rfl rfl rfl
    · rw [if_neg hn, if_neg hn]
      exact hring.of_eq rfl rfl rfl
  · apply State.ext <;> first | rfl | (dsimp only; rw [hfr])

/-- Releasing the last hold on a cached frame that `page_head` still points to
and that is linked to itself (the state in which a hit on the only free frame
leaves it): only its count and the counter are written. -/
theorem release_page_lone {m : Machine} {s : State} {f : Nat} (hh : s.page_head = some f)
    (hn : s.next_free f = some f) (hp : s.prev_free f = some f)
    (hv : valid_page m s f = true) (hc : s.count f ≤ 1) (hi : s.inode f ≠ none) :
    release_page m f s = .ok
      { s with count := upd s.count f (s.count f - 1),
               kstat := { s.kstat with free_pages := s.kstat.free_pages + 1 } } := by
  have hl := @link_before_head_eq { s with count := upd s.count f (s.count f - 1) } f _ _ hh hp
  rw [release_page_last hv hc hl]
  congr 1
  apply State.ext <;> try rfl
  · show upd (upd s.prev_free f (some f)) f (some f) = s.prev_free
    rw [upd_eq_self _ _ _ (upd_same _ _ _), upd_eq_self _ _ _ hp]
  · show upd (upd s.next_free f (some f)) f (some f) = s.next_free
    rw [upd_eq_self _ _ _ (upd_same _ _ _), upd_eq_self _ _ _ hn]
  · show (if s.inode f = none then some f else s.page_head) = s.page_head
    rw [if_neg hi]

/-- On a well-formed index in which no two frames of a chain hold the same
identity, `search_page_hash` for the identity of a frame on the chain of its
bucket comes to that frame. -/
theorem HashWF.search_found {s : State} {c : Nat → List Nat} (h : HashWF s c)
    (hu : ∀ b, b < NR_PAGE_HASH s → ∀ f ∈ c b, ∀ g ∈ c b,
      s.inode f = s.inode g → s.offset f = s.offset g → f = g)
    {i offset b f fuel : Nat} (hb : PAGE_HASH s (s.inodes i).inode offset = .ok b)
    (hf : f ∈ c b) (hid : s.inode f = some i ∧ s.offset f = offset)
    (hfuel : (c b).length ≤ fuel) :
    search_page_hash fuel i offset s = search_page_hash_hit f s := by
  have hblt := PAGE_HASH_lt h.size hb
  obtain ⟨l1, l2, hl⟩ := List.append_of_mem hf
  have hch := h.chain b hblt
  rw [hl] at hch
  have hf1 : f ∉ l1 := by
    intro hm
    exact (List.nodup_append.1 hch.1).2.2 hm (List.mem_cons_self _ _)
  unfold search_page_hash
  rw [hb]
  show search_page_hash_loop i offset fuel (s.page_hash_table b) s = _
  refine search_page_hash_loop_hit hch.2 (fun g hg hgid => ?_) hid ?_
  · have hgc : g ∈ c b := by rw [hl]; exact List.mem_append_left _ hg
    have := hu b hblt g hgc f hf (by rw [hgid.1, hid.1]) (by rw [hgid.2, hid.2])
    exact hf1 (this ▸ hg)
  · have : (c b).length = l1.length + (l2.length + 1) := by rw [hl]; simp
    omega

/-- On a well-formed index, `search_page_hash` for an identity that no frame
on the chain of its bucket holds returns `NULL` and writes nothing. -/
theorem HashWF.search_missed {s : State} {c : Nat → List Nat} (h : HashWF s c)
    {i offset b fuel : Nat} (hb : PAGE_HASH s (s.inodes i).inode offset = .ok b)
    (hno : ∀ f ∈ c b, ¬ (s.inode f = some i ∧ s.offset f = offset))
    (hfuel : (c b).length ≤ fuel) :
    search_page_hash fuel i offset s = .ok (none, s) := by
  have hblt := PAGE_HASH_lt h.size hb
  unfold search_page_hash
  rw [hb]
  exact search_page_hash_loop_miss (h.chain b hblt).2 hno hfuel

/-- `PAGE_HASH` returns on a table that is not of size zero. -/
theorem PAGE_HASH_ok {s : State} (hsz : 0 < s.page_hash_table_size) (a b : Nat) :
    ∃ i, PAGE_HASH s a b = .ok i := by
  unfold PAGE_HASH
  rw [if_neg (by omega)]
  exact ⟨_, rfl⟩

/-- Of two writes at the same place the second one stays. -/
theorem upd_upd {β : Type} (f : Nat → β) (a : Nat) (v w : β) : upd (upd f a v) a w = upd f a w := by
  funext x
  unfold upd
  split <;> rfl

/-- A pool stays well formed when only the free links, `page_head`, the bytes
of memory and the counter of free frames change, provided the free list is
again a proper list of the same frames. -/
theorem PoolWF.of_ring {m : Machine} {s s2 : State} {free free2 : List Nat}
    {chains : Nat → List Nat} (h : PoolWF m s free chains)
    (hs : s2 = { s with mem := s2.mem, next_free := s2.next_free, prev_free := s2.prev_free,
                        page_head := s2.page_head,
                        kstat := { s.kstat with free_pages := s2.kstat.free_pages } })
    (hr : FreeRing s2 free2) (hm : ∀ n, n ∈ free2 ↔ n ∈ free) : PoolWF m s2 free2 chains := by
  have hsame : HashSame s s2 := by
    rw [hs]
    exact ⟨rfl, rfl, rfl, rfl, rfl, rfl, rfl, rfl⟩
  have hB : NR_PAGE_HASH s2 = NR_PAGE_HASH s := by rw [hs]; rfl
  have hcount : s2.count = s.count := by rw [hs]
  refine ⟨hr, h.hash.of_same hsame, by rw [hsame.page_hash_table_size]; exact h.hash_size,
    ?_, ?_, ?_, ?_⟩
  · intro b hb f hf g hg
    rw [hsame.inode, hsame.offset]
    exact h.unique b (hB ▸ hb) f hf g hg
  · intro n hn
    rw [hcount]
    exact h.free_count n ((hm n).1 hn)
  · intro b hb f hf
    rw [hcount, hm f]
    exact h.held b (hB ▸ hb) f hf
  · intro n hn
    have ht : Tracked s free chains n := by
      rcases hn with hn | ⟨b, hb, hn⟩
      · exact .inl ((hm n).1 hn)
      · exact .inr ⟨b, hB ▸ hb, hn⟩
    have hf := h.frame n ht
    have e1 : s2.page = s.page := by rw [hs]
    have e2 : s2.data = s.data := by rw [hs]
    have e3 : s2.locked = s.locked := by rw [hs]
    have e4 : valid_page m s2 n = valid_page m s n := by rw [hs]; rfl
    exact ⟨by rw [e1]; exact hf.page, by rw [e4]; exact hf.valid, by rw [e2]; exact hf.data_ne,
      by rw [e2]; exact hf.addr, by rw [e3]; exact hf.unlocked⟩

/-- On a well-formed pool, a hit on the cached frame `f` followed, after any
writes to the bytes of memory, by the release of `f`: both return, the pool is
well formed again with `f` moved to the end of the free list if it was on it,
and nothing but the free links, `page_head` and the bytes written has
changed. -/
theorem PoolWF.hit_release {m : Machine} {s : State} {free : List Nat}
    {chains : Nat → List Nat} (h : PoolWF m s free chains) {b f : Nat}
    (hb : b < NR_PAGE_HASH s) (hf : f ∈ chains b) :
    ∃ s1, search_page_hash_hit f s = .ok (some f, s1) ∧
      s1 = { s with count := s1.count, next_free := s1.next_free, prev_free := s1.prev_free,
                    page_head := s1.page_head,
                    kstat := { s.kstat with free_pages := s1.kstat.free_pages } } ∧
      ∀ μ : Nat → Nat, ∃ s2, release_page m f { s1 with mem := μ } = .ok s2 ∧
        PoolWF m s2 (if f ∈ free then free.erase f ++ [f] else free) chains ∧
        s2 = { s with mem := μ, next_free := s2.next_free, prev_free := s2.prev_free,
                      page_head := s2.page_head } := by
  have hfok := h.frame f (.inr ⟨b, hb, hf⟩)
  obtain ⟨ino, hino, -⟩ := h.hash.ident b hb f hf
  have hine : s.inode f ≠ none := by rw [hino]; simp
  by_cases hfree : f ∈ free
  · have hc0 := h.free_count f hfree
    by_cases hone : free = [f]
    · -- the only free frame
      have hring : FreeRing s [f] := hone ▸ h.ring
      have hlink : s.next_free f = some f ∧ s.prev_free f = some f := hring.2.2
      refine ⟨{ s with kstat := { s.kstat with free_pages := s.kstat.free_pages - 1 },
                       count := upd s.count f (s.count f + 1) }, ?_, rfl,
              fun μ => ?_⟩
      · unfold search_page_hash_hit
        rw [if_pos hc0, FreeRing.remove_only hring]
        rfl
      · have hrel := release_page_lone (m := m)
          (s := { s with kstat := { s.kstat with free_pages := s.kstat.free_pages - 1 },
                         count := upd s.count f (s.count f + 1), mem := μ })
          (f := f) hring.1 hlink.1 hlink.2 hfok.valid
          (by show upd s.count f (s.count f + 1) f ≤ 1
              rw [upd_same, hc0]; decide) hine
        refine ⟨_, hrel, ?_, ?_⟩
        · rw [if_pos hfree, hone]
          have : [f].erase f ++ [f] = [f] := by simp
          rw [this]
          refine h.of_ring ?_ (hring.of_eq rfl rfl rfl) (fun n => by rw [hone])
          apply State.ext <;> try rfl
          · show upd (upd s.count f (s.count f + 1)) f (upd s.count f (s.count f + 1) f - 1) = s.count
            rw [upd_upd, upd_same]
            exact upd_eq_self _ _ _ (by omega)
        · apply State.ext <;> try rfl
          · show upd (upd s.count f (s.count f + 1)) f (upd s.count f (s.count f + 1) f - 1) = s.count
            rw [upd_upd, upd_same]
            exact upd_eq_self _ _ _ (by omega)
          · show ({ s.kstat with free_pages := s.kstat.free_pages - 1 + 1 } : Kstat) = s.kstat
            rw [sub_add_cancel]
    · -- one of several free frames
      obtain ⟨sA, hA, hringA, hfrA⟩ := h.ring.remove_any hfree hone
      have hcA : sA.count = s.count := by rw [hfrA]
      refine ⟨{ sA with count := upd sA.count f (sA.count f + 1) }, ?_, ?_,
        fun μ => ?_⟩
      · unfold search_page_hash_hit
        rw [if_pos hc0, hA]
        rfl
      · apply State.ext <;> first | rfl | (dsimp only; rw [hfrA])
      · have hnm : f ∉ free.erase f := fun hm => (h.ring.nodup.mem_erase_iff.1 hm).1 rfl
        have hv : valid_page m { sA with count := upd sA.count f (sA.count f + 1), mem := μ } f
            = true := by
          have : valid_page m { sA with count := upd sA.count f (sA.count f + 1), mem := μ } f
              = valid_page m s f := by rw [hfrA]; rfl
          rw [this]; exact hfok.valid
        obtain ⟨s2, hrel, hring2, hfr2⟩ := FreeRing.release (m := m)
          (s := { sA with count := upd sA.count f (sA.count f + 1), mem := μ })
          (hringA.of_eq rfl rfl rfl) hnm hv
          (by show upd sA.count f (sA.count f + 1) f ≤ 1
              rw [upd_same, hcA, hc0]; decide)
        have hi2 : ({ sA with count := upd sA.count f (sA.count f + 1), mem := μ } : State).inode f
            ≠ none := by
          show sA.inode f ≠ none
          rw [hfrA]; exact hine
        rw [if_neg hi2] at hring2
        have hfin : s2 =
            { s with mem := μ, next_free := s2.next_free, prev_free := s2.prev_free,
                     page_head := s2.page_head } := by
          apply State.ext
          case count =>
            rw [hfr2]
            show upd (upd sA.count f (sA.count f + 1)) f
              (upd sA.count f (sA.count f + 1) f - 1) = s.count
            rw [upd_upd, upd_same, hcA]
            exact upd_eq_self _ _ _ (by omega)
          case kstat =>
            rw [hfr2]
            show ({ sA.kstat with free_pages := sA.kstat.free_pages + 1 } : Kstat) = s.kstat
            rw [hfrA]
            show ({ s.kstat with free_pages := s.kstat.free_pages - 1 + 1 } : Kstat) = s.kstat
            rw [sub_add_cancel]
          all_goals first | rfl | (rw [hfr2]; try (dsimp only; rw [hfrA]))
        refine ⟨s2, hrel, ?_, hfin⟩
        rw [if_pos hfree]
        refine h.of_ring ?_ hring2 (fun n => ?_)
        · apply State.ext <;> first | rfl | (rw [hfin])
        · rw [List.mem_append, List.mem_singleton, h.ring.nodup.mem_erase_iff]
          constructor
          · rintro (⟨-, hn⟩ | rfl)
            · exact hn
            · exact hfree
          · intro hn
            by_cases e : n = f
            · exact .inr e
            · exact .inl ⟨e, hn⟩
  · -- held by somebody
    have hc1 : 1 ≤ s.count f := by
      rcases h.held b hb f hf with hx | hx
      · exact absurd hx hfree
      · exact hx
    refine ⟨{ s with count := upd s.count f (s.count f + 1) }, ?_, rfl,
      fun μ => ?_⟩
    · unfold search_page_hash_hit
      rw [if_neg (by omega)]
      rfl
    · have hrel := @release_page_shared m
        { s with count := upd s.count f (s.count f + 1), mem := μ } f
        hfok.valid (by show 1 < upd s.count f (s.count f + 1) f
                       rw [upd_same]; omega)
      have hcnt : upd (upd s.count f (s.count f + 1)) f
          (upd s.count f (s.count f + 1) f - 1) = s.count := by
        rw [upd_upd, upd_same]
        exact upd_eq_self _ _ _ (by omega)
      refine ⟨_, hrel, ?_, ?_⟩
      · rw [if_neg hfree]
        refine h.of_ring ?_ (h.ring.of_eq rfl rfl rfl) (fun n => Iff.rfl)
        apply State.ext <;> first | rfl | exact hcnt
      · apply State.ext <;> first | rfl | exact hcnt

/-- C19: hit idempotence.  In a well-formed pool in which `(i, off)` is cached
in frame `f`, `search_page_hash(i, off)` returns `f`, `release_page` of its
`page` field returns, and `search_page_hash(i, off)` returns `f` again; in each
of the three memories the bytes of RAM, the `data`, `inode` and `offset` fields
of `f` and the frames on every hash chain are as at the start. -/
theorem C19_hit_idempotence (m : Machine) (s : State) (free : List Nat)
    (chains : Nat → List Nat) (i off b f fuel : Nat) (hwf : PoolWF m s free chains)
    (hb : PAGE_HASH s (s.inodes i).inode off = .ok b) (hf : f ∈ chains b)
    (hino : s.inode f = some i) (hoff : s.offset f = off)
    (hfuel : (chains b).length ≤ fuel) :
    ∃ s1 s2 s3, search_page_hash fuel i off s = .ok (some f, s1) ∧
      release_page m (s1.page f) s1 = .ok s2 ∧
      search_page_hash fuel i off s2 = .ok (some f, s3) ∧
      ∀ t, t = s1 ∨ t = s2 ∨ t = s3 →
        t.mem = s.mem ∧ t.data f = s.data f ∧ t.inode f = s.inode f ∧
        t.offset f = s.offset f ∧ ∀ c n, OnHashChain t c n ↔ OnHashChain s c n := by
  have hblt := PAGE_HASH_lt hwf.hash.size hb
  obtain ⟨s1, h1, hfr1, hrel⟩ := hwf.hit_release hblt hf
  obtain ⟨s2, h2, hwf2, hfr2⟩ := hrel s1.mem
  have hB2 : NR_PAGE_HASH s2 = NR_PAGE_HASH s := by rw [hfr2]; rfl
  have hb2 : PAGE_HASH s2 (s2.inodes i).inode off = .ok b := by rw [← hb, hfr2]; rfl
  obtain ⟨s3, h3, hfr3, -⟩ := hwf2.hit_release (hB2 ▸ hblt) hf
  have hp1 : s1.page f = f := by rw [hfr1]; exact (hwf.frame f (.inr ⟨b, hblt, hf⟩)).page
  have hi2 : s2.inode f = some i := by rw [hfr2]; exact hino
  have ho2 : s2.offset f = off := by rw [hfr2]; exact hoff
  refine ⟨s1, s2, s3, ?_, ?_, ?_, ?_⟩
  · rw [hwf.hash.search_found hwf.unique hb hf ⟨hino, hoff⟩ hfuel]
    exact h1
  · rw [hp1]; exact h2
  · rw [hwf2.hash.search_found hwf2.unique hb2 hf ⟨hi2, ho2⟩ hfuel]
    exact h3
  · have e1 : s1.mem = s.mem ∧ s1.data f = s.data f ∧ s1.inode f = s.inode f ∧
        s1.offset f = s.offset f ∧ ∀ c n, OnHashChain s1 c n ↔ OnHashChain s c n := by
      refine ⟨by rw [hfr1], by rw [hfr1], by rw [hfr1], by rw [hfr1], ?_⟩
      exact on_hash_chain_congr (by rw [hfr1]) (by rw [hfr1])
    have e2 : s2.mem = s.mem ∧ s2.data f = s.data f ∧ s2.inode f = s.inode f ∧
        s2.offset f = s.offset f ∧ ∀ c n, OnHashChain s2 c n ↔ OnHashChain s c n := by
      refine ⟨by rw [hfr2]; exact e1.1, by rw [hfr2], by rw [hfr2], by rw [hfr2], ?_⟩
      exact on_hash_chain_congr (by rw [hfr2]) (by rw [hfr2])
    have e3 : s3.mem = s.mem ∧ s3.data f = s.data f ∧ s3.inode f = s.inode f ∧
        s3.offset f = s.offset f ∧ ∀ c n, OnHashChain s3 c n ↔ OnHashChain s c n := by
      refine ⟨by rw [hfr3]; exact e2.1, by rw [hfr3]; exact e2.2.1, by rw [hfr3]; exact e2.2.2.1,
        by rw [hfr3]; exact e2.2.2.2.1, fun c n => ?_⟩
      rw [← e2.2.2.2.2 c n]
      exact on_hash_chain_congr (by rw [hfr3]) (by rw [hfr3]) c n
    rintro t (rfl | rfl | rfl)
    · exact e1
    · exact e2
    · exact e3

/-- On a well-formed pool whose free list holds at least two frames,
`get_free_page` lends the first of them without sleeping: the frame leaves the
free list and its chain, is held once and has no identity, and the pool of the
other frames is well formed. -/
theorem PoolWF.lend {m : Machine} {s : State} {a x : Nat} {t : List Nat}
    {chains : Nat → List Nat} (h : PoolWF m s (a :: x :: t) chains) (sleep : State → State)
    {fuel : Nat} (hfuel : ∀ b, b < NR_PAGE_HASH s → (chains b).length ≤ fuel) :
    ∃ s1, get_free_page sleep fuel s = .ok (some a, s1) ∧
      PoolWF m s1 (x :: t) (fun b => (chains b).erase a) ∧
      s1.count a = 1 ∧ s1.inode a = none ∧ FrameOK m s1 a ∧
      s1 = { s with count := s1.count, inode := s1.inode, offset := s1.offset,
                    next_free := s1.next_free, prev_free := s1.prev_free,
                    page_head := s1.page_head, next_hash := s1.next_hash,
                    prev_hash := s1.prev_hash, page_hash_table := s1.page_hash_table,
                    kstat := s1.kstat } ∧
      ∀ n, n ≠ a → s1.inode n = s.inode n ∧ s1.offset n = s.offset n ∧
        s1.count n = s.count n := by
  have hempty := h.ring.empty_test
  have hdec : decide (x :: t = []) = false := by simp
  rw [hdec] at hempty
  obtain ⟨sA, hA, hringA, heqA⟩ := h.ring.remove_head
  have hwfA : HashWF sA chains := h.hash.of_same (remove_from_free_list_same hA)
  have hBA : NR_PAGE_HASH sA = NR_PAGE_HASH s := by rw [heqA]; rfl
  have hszA : 0 < sA.page_hash_table_size := by rw [heqA]; exact h.hash_size
  obtain ⟨sB, hB⟩ := @HashWF.remove_ok _ _ hwfA a _ hszA (fun b hb => hfuel b (hBA ▸ hb))
  obtain ⟨hwfB, hfrB, -, -⟩ := hwfA.remove hB
  have hBB : NR_PAGE_HASH sB = NR_PAGE_HASH s := by rw [hfrB]; exact hBA
  have hframeB : sB =
      { s with
        next_free := sB.next_free
        prev_free := sB.prev_free
        page_head := sB.page_head
        next_hash := sB.next_hash
        prev_hash := sB.prev_hash
        page_hash_table := sB.page_hash_table
        kstat := sB.kstat } := by
    apply State.ext <;> first | rfl | (rw [hfrB]; dsimp only; rw [heqA])
  have hnd := h.ring.nodup
  have hax : a ∉ x :: t := (List.nodup_cons.1 hnd).1
  have hnot : ∀ b, b < NR_PAGE_HASH s → a ∉ (chains b).erase a := fun b hb =>
    List.Nodup.not_mem_erase (h.hash.chain b hb).1
  have htake := get_free_page_take_eq h.ring.1 hA hB
  have hfa := h.frame a (.inl (List.mem_cons_self _ _))
  have hcnt : ∀ n, n ≠ a → upd sB.count a 1 n = s.count n := by
    intro n hn
    rw [upd_ne _ _ hn, hframeB]
  have hino : ∀ n, n ≠ a → upd sB.inode a none n = s.inode n := by
    intro n hn
    rw [upd_ne _ _ hn, hframeB]
  have hoff : ∀ n, n ≠ a → upd sB.offset a 0 n = s.offset n := by
    intro n hn
    rw [upd_ne _ _ hn, hframeB]
  refine ⟨{ sB with count := upd sB.count a 1, inode := upd sB.inode a none,
                    offset := upd sB.offset a 0 }, ?_, ?_, upd_same _ _ _, upd_same _ _ _, ?_, ?_,
    fun n hn => ⟨hino n hn, hoff n hn, hcnt n hn⟩⟩
  · unfold get_free_page
    simp only [hempty, bind, Except.bind]
    exact htake
  · refine ⟨?_, ?_, ?_, ?_, ?_, ?_, ?_⟩
    · exact hringA.of_eq (by rw [hfrB]) (by rw [hfrB]) (by rw [hfrB])
    · exact hwfB.of_same_but (x := a) rfl rfl rfl rfl rfl (fun f hf => upd_ne _ _ hf)
        (fun f hf => upd_ne _ _ hf) (fun b hb => hnot b (hBB ▸ hb))
    · show 0 < sB.page_hash_table_size
      rw [hframeB]; exact h.hash_size
    · intro b hb f hf g hg
      have hb' : b < NR_PAGE_HASH s := hBB ▸ hb
      have hf' := ((h.hash.chain b hb').1.mem_erase_iff).1 hf
      have hg' := ((h.hash.chain b hb').1.mem_erase_iff).1 hg
      show upd sB.inode a none f = upd sB.inode a none g →
        upd sB.offset a 0 f = upd sB.offset a 0 g → f = g
      rw [hino f hf'.1, hino g hg'.1, hoff f hf'.1, hoff g hg'.1]
      exact h.unique b hb' f hf'.2 g hg'.2
    · intro n hn
      have hna : n ≠ a := fun e => hax (e ▸ hn)
      show upd sB.count a 1 n = 0
      rw [hcnt n hna]
      exact h.free_count n (List.mem_cons_of_mem _ hn)
    · intro b hb f hf
      have hb' : b < NR_PAGE_HASH s := hBB ▸ hb
      have hf' := ((h.hash.chain b hb').1.mem_erase_iff).1 hf
      show f ∈ x :: t ∨ 1 ≤ upd sB.count a 1 f
      rw [hcnt f hf'.1]
      rcases h.held b hb' f hf'.2 with hx | hx
      · rcases List.mem_cons.1 hx with e | hx
        · exact absurd e hf'.1
        · exact .inl hx
      · exact .inr hx
    · intro n hn
      have ht : Tracked s (a :: x :: t) chains n := by
        rcases hn with hn | ⟨b, hb, hn⟩
        · exact .inl (List.mem_cons_of_mem _ hn)
        · have hb' : b < NR_PAGE_HASH s := hBB ▸ hb
          exact .inr ⟨b, hb', (((h.hash.chain b hb').1.mem_erase_iff).1 hn).2⟩
      have hf := h.frame n ht
      have e1 : sB.page = s.page := by rw [hframeB]
      have e2 : sB.data = s.data := by rw [hframeB]
      have e3 : sB.locked = s.locked := by rw [hframeB]
      have e4 : sB.page_table_size = s.page_table_size := by rw [hframeB]
      refine ⟨?_, ?_, ?_, ?_, ?_⟩
      · show sB.page n = n
        rw [e1]; exact hf.page
      · show decide (0 ≤ n ∧ n < sB.page_table_size / m.sizeof_page) = true
        rw [e4]; exact hf.valid
      · show sB.data n ≠ 0
        rw [e2]; exact hf.data_ne
      · show V2P m (sB.data n) >>> PAGE_SHIFT = n
        rw [e2]; exact hf.addr
      · show sB.locked n = 0
        rw [e3]; exact hf.unlocked
  · have e1 : sB.page = s.page := by rw [hframeB]
    have e2 : sB.data = s.data := by rw [hframeB]
    have e3 : sB.locked = s.locked := by rw [hframeB]
    have e4 : sB.page_table_size = s.page_table_size := by rw [hframeB]
    refine ⟨?_, ?_, ?_, ?_, ?_⟩
    · show sB.page a = a
      rw [e1]; exact hfa.page
    · show decide (0 ≤ a ∧ a < sB.page_table_size / m.sizeof_page) = true
      rw [e4]; exact hfa.valid
    · show sB.data a ≠ 0
      rw [e2]; exact hfa.data_ne
    · show V2P m (sB.data a) >>> PAGE_SHIFT = a
      rw [e2]; exact hfa.addr
    · show sB.locked a = 0
      rw [e3]; exact hfa.unlocked
  · apply State.ext <;> first | rfl | (dsimp only; rw [hframeB])

/-- The first loop of `bread_page` writes only between `pg->data + size_read`
and the end of the last slice, which begins before `pg->data + PAGE_SIZE`. -/
theorem bread_page_loop_cached_mem {e : Env} {pg i blksize fuel size_read offset : Nat}
    {s : State} {r : Bool × State}
    (h : bread_page_loop_cached e pg i blksize fuel size_read offset s = .ok r) (a : Nat)
    (ha : a < s.data pg + size_read ∨ s.data pg + PAGE_SIZE + blksize ≤ a) :
    r.2.mem a = s.mem a := by
  induction fuel generalizing size_read offset s with
  | zero =>
    unfold bread_page_loop_cached at h
    split at h
    · simp at h
    · simp only [Except.ok.injEq] at h
      subst h; rfl
  | succ k ih =>
    unfold bread_page_loop_cached at h
    split at h
    · rename_i hlt
      have hout : ¬ (s.data pg + size_read ≤ a ∧ a < s.data pg + size_read + blksize) := by
        omega
      have hw : ∀ (src : Nat → Nat),
          (memcpy_b s (s.data pg + size_read) src blksize).mem a = s.mem a := by
        intro src
        show (if s.data pg + size_read ≤ a ∧ a < s.data pg + size_read + blksize
          then src (a - (s.data pg + size_read)) else s.mem a) = s.mem a
        rw [if_neg hout]
      have hz : (memset_b s (s.data pg + size_read) 0 blksize).mem a = s.mem a := by
        show (if s.data pg + size_read ≤ a ∧ a < s.data pg + size_read + blksize
          then 0 else s.mem a) = s.mem a
        rw [if_neg hout]
      have ha2 : ∀ s1 : State, s1.data = s.data →
          a < s1.data pg + (size_read + blksize) ∨ s1.data pg + PAGE_SIZE + blksize ≤ a := by
        intro s1 hd
        rw [hd]; omega
      dsimp only at h
      split at h
      · simp only [Except.ok.injEq] at h
        subst h; rfl
      · split at h
        · split at h
          · split at h
            · simp only [Except.ok.injEq] at h
              subst h
              exact hw _
            · rw [ih h (ha2 _ rfl)]
              exact hw _
          · rw [ih h (ha2 _ rfl)]
            exact hw _
        · rw [ih h (ha2 _ rfl)]
          exact hz
    · simp only [Except.ok.injEq] at h
      subst h; rfl

/-- The first loop of `bread_page` returns when the block size is not zero and
the bound on its passes is at least the bytes still to produce. -/
theorem bread_page_loop_cached_returns (e : Env) (pg i : Nat) {blksize : Nat}
    (hblk : 0 < blksize) (fuel size_read offset : Nat) (s : State)
    (hfuel : PAGE_SIZE ≤ fuel + size_read) :
    ∃ r, bread_page_loop_cached e pg i blksize fuel size_read offset s = .ok r := by
  induction fuel generalizing size_read offset s with
  | zero =>
    unfold bread_page_loop_cached
    rw [if_neg (by omega)]
    exact ⟨_, rfl⟩
  | succ k ih =>
    unfold bread_page_loop_cached
    split
    · dsimp only
      split
      · exact ⟨_, rfl⟩
      · split
        · split
          · split
            · exact ⟨_, rfl⟩
            · exact ih _ _ _ (by omega)
          · exact ih _ _ _ (by omega)
        · exact ih _ _ _ (by omega)
    · exact ⟨_, rfl⟩

/-- `insert_to_hash` returns for a frame with an identity when the table is not
of size zero. -/
theorem insert_to_hash_returns {s : State} {pg ino : Nat} (hino : s.inode pg = some ino)
    (hsz : 0 < s.page_hash_table_size) : ∃ s2, insert_to_hash pg s = .ok s2 := by
  obtain ⟨b, hb⟩ := PAGE_HASH_ok hsz (s.inodes ino).inode (s.offset pg)
  cases hc : s.page_hash_table b with
  | none => exact ⟨_, insert_to_hash_empty hino hb hc⟩
  | some x => exact ⟨_, insert_to_hash_front hino hb hc⟩

/-- `bread_page` for a read-only shared fill returns when the block size is
not zero, the bound on the passes of the loop is at least `PAGE_SIZE` and the
hash table is not of size zero. -/
theorem bread_page_returns (e : Env) {fuel : Nat} (pg i offset : Nat) {s : State}
    (hblk : 0 < (s.inodes i).s_blocksize) (hfuel : PAGE_SIZE ≤ fuel)
    (hsz : 0 < s.page_hash_table_size) :
    ∃ ret s2, bread_page e fuel pg i offset 0 MAP_SHARED s = .ok (ret, s2) := by
  unfold Fiwix.bread_page
  dsimp only
  split
  · exact ⟨_, _, rfl⟩
  · split
    · exact ⟨_, _, rfl⟩
    · rw [if_pos (Or.inl (by decide))]
      obtain ⟨r, hr⟩ := bread_page_loop_cached_returns e pg i hblk fuel 0 offset
        { s with inode := upd s.inode pg (some i), offset := upd s.offset pg offset }
        (by omega)
      simp only [bind, Except.bind, hr]
      have hfr := bread_page_loop_cached_frame hr
      split
      · have hino : r.2.inode pg = some i := by rw [hfr]; exact upd_same _ _ _
        have hsz2 : 0 < r.2.page_hash_table_size := by rw [hfr]; exact hsz
        obtain ⟨s3, h3⟩ := insert_to_hash_returns hino hsz2
        rw [h3]
        exact ⟨_, _, rfl⟩
      · exact ⟨_, _, rfl⟩

/-- Releasing the only hold on a cached frame of a well-formed pool, after any
writes to the bytes of memory: the frame joins the free list as its last frame
and the pool is well formed. -/
theorem PoolWF.release_held {m : Machine} {s : State} {free : List Nat}
    {chains : Nat → List Nat} (h : PoolWF m s free chains) {b f : Nat}
    (hb : b < NR_PAGE_HASH s) (hf : f ∈ chains b) (hnf : f ∉ free) (hc : s.count f = 1)
    (μ : Nat → Nat) :
    ∃ s2, release_page m f { s with mem := μ } = .ok s2 ∧ PoolWF m s2 (free ++ [f]) chains ∧
      s2 = { s with
             mem := μ
             count := upd s.count f 0
             next_free := s2.next_free
             prev_free := s2.prev_free
             page_head := s2.page_head
             kstat := { s.kstat with free_pages := s.kstat.free_pages + 1 } } := by
  have hfok := h.frame f (.inr ⟨b, hb, hf⟩)
  obtain ⟨ino, hino, -⟩ := h.hash.ident b hb f hf
  obtain ⟨s2, hrel, hring, hfr⟩ := FreeRing.release (m := m) (s := { s with mem := μ })
    (h.ring.of_eq rfl rfl rfl) hnf hfok.valid (by show s.count f ≤ 1; omega)
  have hne : ({ s with mem := μ } : State).inode f ≠ none := by
    show s.inode f ≠ none
    rw [hino]; simp
  rw [if_neg hne] at hring
  have hfin : s2 =
      { s with
        mem := μ
        count := upd s.count f 0
        next_free := s2.next_free
        prev_free := s2.prev_free
        page_head := s2.page_head
        kstat := { s.kstat with free_pages := s.kstat.free_pages + 1 } } := by
    apply State.ext
    case count =>
      rw [hfr]
      show upd s.count f (s.count f - 1) = upd s.count f 0
      rw [hc]; rfl
    all_goals first | rfl | (rw [hfr])
  have hsame : HashSame s s2 := by
    rw [hfin]; exact ⟨rfl, rfl, rfl, rfl, rfl, rfl, rfl, rfl⟩
  have hB : NR_PAGE_HASH s2 = NR_PAGE_HASH s := by rw [hfin]; rfl
  have hcnt : s2.count = upd s.count f 0 := by rw [hfin]
  refine ⟨s2, hrel, ⟨hring, h.hash.of_same hsame, ?_, ?_, ?_, ?_, ?_⟩, hfin⟩
  · rw [hsame.page_hash_table_size]; exact h.hash_size
  · intro c hc' x hx g hg
    rw [hsame.inode, hsame.offset]
    exact h.unique c (hB ▸ hc') x hx g hg
  · intro n hn
    rw [hcnt]
    rcases List.mem_append.1 hn with hn | hn
    · have : n ≠ f := fun e => hnf (e ▸ hn)
      rw [upd_ne _ _ this]
      exact h.free_count n hn
    · rw [List.mem_singleton.1 hn, upd_same]
  · intro c hc' g hg
    by_cases e : g = f
    · exact .inl (List.mem_append_right _ (List.mem_singleton.2 e))
    · rw [hcnt, upd_ne _ _ e]
      rcases h.held c (hB ▸ hc') g hg with hx | hx
      · exact .inl (List.mem_append_left _ hx)
      · exact .inr hx
  · intro n hn
    have ht : Tracked s free chains n := by
      rcases hn with hn | ⟨c, hc', hn⟩
      · rcases List.mem_append.1 hn with hn | hn
        · exact .inl hn
        · exact .inr ⟨b, hb, (List.mem_singleton.1 hn) ▸ hf⟩
      · exact .inr ⟨c, hB ▸ hc', hn⟩
    have hx := h.frame n ht
    have e1 : s2.page = s.page := by rw [hfin]
    have e2 : s2.data = s.data := by rw [hfin]
    have e3 : s2.locked = s.locked := by rw [hfin]
    have e4 : valid_page m s2 n = valid_page m s n := by rw [hfin]; rfl
    exact ⟨by rw [e1]; exact hx.page, by rw [e4]; exact hx.valid, by rw [e2]; exact hx.data_ne,
      by rw [e2]; exact hx.addr, by rw [e3]; exact hx.unlocked⟩

/-- `bread_page` for a read-only shared fill of a frame that is held once and
on no chain, in a well-formed pool in which `(i, off)` is not cached: it
writes only the identity of the frame, the bytes of its page (up to one block
beyond it) and, when it returns 0, the hash index, in which the frame is then
first on the chain of the bucket of `(i, off)`; the pool is well formed. -/
theorem PoolWF.fill {m : Machine} {s s2 : State} {free : List Nat} {chains : Nat → List Nat}
    (h : PoolWF m s free chains) {e : Env} {fuel a i off ret : Nat}
    (hac : ∀ b, b < NR_PAGE_HASH s → a ∉ chains b) (hcount : s.count a = 1)
    (hfa : FrameOK m s a)
    (hno : ∀ b, b < NR_PAGE_HASH s → ∀ f ∈ chains b,
      ¬ (s.inode f = some i ∧ s.offset f = off))
    (hb : bread_page e fuel a i off 0 MAP_SHARED s = .ok (ret, s2)) :
    s2 = { s with
           inode := s2.inode
           offset := s2.offset
           mem := s2.mem
           next_hash := s2.next_hash
           prev_hash := s2.prev_hash
           page_hash_table := s2.page_hash_table
           kstat := s2.kstat } ∧
    (∀ x, (x < s.data a ∨ s.data a + PAGE_SIZE + (s.inodes i).s_blocksize ≤ x) →
      s2.mem x = s.mem x) ∧
    (ret = 0 → ∃ b, b < NR_PAGE_HASH s ∧ PAGE_HASH s (s.inodes i).inode off = .ok b ∧
      PoolWF m s2 free (fun c => if c = b then a :: chains b else chains c) ∧
      s2.inode a = some i ∧ s2.offset a = off) := by
  rcases bread_page_cases hb with ⟨hr, hs⟩ | ⟨hr, hs⟩ | ⟨hr, -, s1, hs1, hloop, hins⟩ |
      ⟨-, hc, -⟩
  · subst hs
    exact ⟨rfl, fun _ _ => rfl, fun h0 => absurd (hr ▸ h0 : (1 : Nat) = 0) (by decide)⟩
  · refine ⟨?_, ?_, fun h0 => absurd (hr ▸ h0 : (1 : Nat) = 0) (by decide)⟩
    · apply State.ext <;> first | rfl | (rw [hs])
    · -- the bytes: from the loop
      unfold Fiwix.bread_page at hb
      dsimp only at hb
      split at hb
      · simp only [Except.ok.injEq, Prod.mk.injEq] at hb
        intro x _; rw [← hb.2]
      · split at hb
        · simp only [Except.ok.injEq, Prod.mk.injEq] at hb
          intro x _; rw [← hb.2]
        · rw [if_pos (Or.inl (by decide))] at hb
          simp only [bind, Except.bind] at hb
          split at hb
          · exact absurd hb (by simp)
          · rename_i r hr2
            have hm := bread_page_loop_cached_mem hr2
            split at hb
            · split at hb
              · exact absurd hb (by simp)
              · simp only [pure, Except.pure, Except.ok.injEq, Prod.mk.injEq] at hb
                rw [hr] at hb
                exact absurd hb.1 (by decide)
            · simp only [pure, Except.pure, Except.ok.injEq, Prod.mk.injEq] at hb
              intro x hx
              rw [← hb.2]
              exact hm x (by show x < s.data a + 0 ∨ _; simpa using hx)
  · have hmem : ∀ x, (x < s.data a ∨ s.data a + PAGE_SIZE + (s.inodes i).s_blocksize ≤ x) →
        s1.mem x = s.mem x := fun x hx =>
      bread_page_loop_cached_mem hloop x (by show x < s.data a + 0 ∨ _; simpa using hx)
    obtain ⟨b, hpb⟩ := PAGE_HASH_ok h.hash_size (s.inodes i).inode off
    have hblt := PAGE_HASH_lt h.hash.size hpb
    have hwf1 : HashWF s1 chains := by
      refine h.hash.of_same_but (x := a) ?_ ?_ ?_ ?_ ?_ ?_ ?_ hac
      all_goals first
        | (rw [hs1]; done)
        | (intro f hf; rw [hs1]; exact upd_ne _ _ hf)
    have hino : s1.inode a = some i := by rw [hs1]; exact upd_same _ _ _
    have hoff : s1.offset a = off := by rw [hs1]; exact upd_same _ _ _
    have hB1 : NR_PAGE_HASH s1 = NR_PAGE_HASH s := by rw [hs1]; rfl
    have hp1 : PAGE_HASH s1 (s1.inodes i).inode (s1.offset a) = .ok b := by
      rw [hoff, ← hpb, hs1]; rfl
    obtain ⟨s2', hins', hwf2, hfr, -⟩ := hwf1.insert hino hp1 (by rw [hB1]; exact hac)
    rw [hins] at hins'
    simp only [Except.ok.injEq] at hins'
    subst hins'
    have hfin : s2 =
        { s with
          inode := s2.inode
          offset := s2.offset
          mem := s2.mem
          next_hash := s2.next_hash
          prev_hash := s2.prev_hash
          page_hash_table := s2.page_hash_table
          kstat := s2.kstat } := by
      apply State.ext <;> first | rfl | (rw [hfr]; try (dsimp only; rw [hs1]))
    have hB2 : NR_PAGE_HASH s2 = NR_PAGE_HASH s := by rw [hfin]; rfl
    have hi2 : ∀ n, s2.inode n = if n = a then some i else s.inode n := by
      intro n
      rw [hfr]
      show s1.inode n = _
      rw [hs1]; rfl
    have ho2 : ∀ n, s2.offset n = if n = a then off else s.offset n := by
      intro n
      rw [hfr]
      show s1.offset n = _
      rw [hs1]; rfl
    refine ⟨hfin, fun x hx => ?_, fun _ => ⟨b, hblt, hpb, ?_, ?_, ?_⟩⟩
    · rw [hfr]; exact hmem x hx
    · refine ⟨h.ring.of_eq (by rw [hfin]) (by rw [hfin]) (by rw [hfin]), hwf2, ?_, ?_, ?_, ?_, ?_⟩
      · rw [hfin]; exact h.hash_size
      · intro c hc f hf g hg
        have hc' : c < NR_PAGE_HASH s := hB2 ▸ hc
        replace hf : f ∈ (if c = b then a :: chains b else chains c) := hf
        replace hg : g ∈ (if c = b then a :: chains b else chains c) := hg
        rw [hi2 f, hi2 g, ho2 f, ho2 g]
        by_cases e : c = b
        · subst e
          rw [if_pos rfl] at hf hg
          by_cases hfa' : f = a
          · by_cases hga : g = a
            · intro _ _; rw [hfa', hga]
            · have hg' : g ∈ chains c := by
                rcases List.mem_cons.1 hg with e | hg
                · exact absurd e hga
                · exact hg
              rw [if_pos hfa', if_pos hfa', if_neg hga, if_neg hga]
              intro e1 e2
              exact absurd ⟨e1.symm, e2.symm⟩ (hno c hc' g hg')
          · have hf' : f ∈ chains c := by
              rcases List.mem_cons.1 hf with e | hf
              · exact absurd e hfa'
              · exact hf
            by_cases hga : g = a
            · rw [if_neg hfa', if_neg hfa', if_pos hga, if_pos hga]
              intro e1 e2
              exact absurd ⟨e1, e2⟩ (hno c hc' f hf')
            · have hg' : g ∈ chains c := by
                rcases List.mem_cons.1 hg with e | hg
                · exact absurd e hga
                · exact hg
              rw [if_neg hfa', if_neg hfa', if_neg hga, if_neg hga]
              exact h.unique c hc' f hf' g hg'
        · rw [if_neg e] at hf hg
          have hfa' : f ≠ a := fun e2 => hac c hc' (e2 ▸ hf)
          have hga : g ≠ a := fun e2 => hac c hc' (e2 ▸ hg)
          rw [if_neg hfa', if_neg hfa', if_neg hga, if_neg hga]
          exact h.unique c hc' f hf g hg
      · intro n hn
        have : s2.count = s.count := by rw [hfin]
        rw [this]; exact h.free_count n hn
      · intro c hc f hf
        have hc' : c < NR_PAGE_HASH s := hB2 ▸ hc
        replace hf : f ∈ (if c = b then a :: chains b else chains c) := hf
        have hcnt : s2.count = s.count := by rw [hfin]
        rw [hcnt]
        by_cases hfa' : f = a
        · rw [hfa', hcount]; exact .inr (le_refl _)
        · have hf' : f ∈ chains c := by
            by_cases e : c = b
            · subst e
              rw [if_pos rfl] at hf
              rcases List.mem_cons.1 hf with e | hf
              · exact absurd e hfa'
              · exact hf
            · rw [if_neg e] at hf; exact hf
          exact h.held c hc' f hf'
      · intro n hn
        have e1 : s2.page = s.page := by rw [hfin]
        have e2 : s2.data = s.data := by rw [hfin]
        have e3 : s2.locked = s.locked := by rw [hfin]
        have e4 : valid_page m s2 n = valid_page m s n := by rw [hfin]; rfl
        have hx : FrameOK m s n := by
          rcases hn with hn | ⟨c, hc, hn⟩
          · exact h.frame n (.inl hn)
          · have hc' : c < NR_PAGE_HASH s := hB2 ▸ hc
            replace hn : n ∈ (if c = b then a :: chains b else chains c) := hn
            by_cases e : c = b
            · subst e
              rw [if_pos rfl] at hn
              rcases List.mem_cons.1 hn with e | hn
              · rw [e]; exact hfa
              · exact h.frame n (.inr ⟨c, hc', hn⟩)
            · rw [if_neg e] at hn
              exact h.frame n (.inr ⟨c, hc', hn⟩)
        exact ⟨by rw [e1]; exact hx.page, by rw [e4]; exact hx.valid,
          by rw [e2]; exact hx.data_ne, by rw [e2]; exact hx.addr, by rw [e3]; exact hx.unlocked⟩
    · rw [hi2, if_pos rfl]
    · rw [ho2, if_pos rfl]
  · exact absurd (Or.inl (by decide)) hc

/-- The mask `PAGE_MASK` keeps the bits 12 to 31. -/
theorem PAGE_MASK_eq : PAGE_MASK = 2 ^ 12 * (2 ^ 20 - 1) := by decide

/-- Masking with `PAGE_MASK` depends on the page number only. -/
theorem and_PAGE_MASK_congr {x y : Nat} (h : x / PAGE_SIZE = y / PAGE_SIZE) :
    x &&& PAGE_MASK = y &&& PAGE_MASK := by
  apply Nat.eq_of_testBit_eq
  intro j
  rw [Nat.testBit_and, Nat.testBit_and, PAGE_MASK_eq, Nat.testBit_mul_pow_two]
  by_cases hj : j ≥ 12
  · have hx : x.testBit j = (x >>> 12).testBit (j - 12) := by
      rw [Nat.testBit_shiftRight]; congr 1; omega
    have hy : y.testBit j = (y >>> 12).testBit (j - 12) := by
      rw [Nat.testBit_shiftRight]; congr 1; omega
    have hxy : x >>> 12 = y >>> 12 := by
      rw [Nat.shiftRight_eq_div_pow, Nat.shiftRight_eq_div_pow]
      exact h
    rw [hx, hy, hxy]
  · simp [hj]

/-- Positions within what is left of a page have the page of the first. -/
theorem and_PAGE_MASK_add {x k : Nat} (h : k < PAGE_SIZE - x % PAGE_SIZE) :
    (x + k) &&& PAGE_MASK = x &&& PAGE_MASK := by
  apply and_PAGE_MASK_congr
  unfold PAGE_SIZE at h ⊢
  omega

/-- The in-page offset of a position that stays in the page of `x`. -/
theorem mod_PAGE_SIZE_add {x k : Nat} (h : k < PAGE_SIZE - x % PAGE_SIZE) :
    (x + k) % PAGE_SIZE = x % PAGE_SIZE + k := by
  unfold PAGE_SIZE at h ⊢
  omega

/-- A page-aligned 32-bit offset is its own page. -/
theorem and_PAGE_MASK_aligned {x : Nat} (h : x % PAGE_SIZE = 0) (hx : x < 2 ^ 32) :
    x &&& PAGE_MASK = x := by
  apply Nat.eq_of_testBit_eq
  intro j
  rw [Nat.testBit_and, PAGE_MASK_eq, Nat.testBit_mul_pow_two]
  by_cases hj : j ≥ 12
  · by_cases hj2 : j < 32
    · have : j - 12 < 20 := by omega
      rw [Nat.testBit_two_pow_sub_one]
      simp [hj, this]
    · have hlt : x < 2 ^ j :=
        lt_of_lt_of_le hx (Nat.pow_le_pow_right (by decide) (by omega))
      rw [Nat.testBit_lt_two_pow hlt]
      simp
  · have hq : x = 2 ^ 12 * (x / 4096) := by
      unfold PAGE_SIZE at h
      omega
    have : x.testBit j = false := by
      rw [hq, Nat.testBit_mul_pow_two]
      simp [hj]
    rw [this]
    simp

/-- A chain of a well-formed pool is no longer than the frame table. -/
theorem PoolWF.chain_le {m : Machine} {s : State} {free : List Nat} {chains : Nat → List Nat}
    (h : PoolWF m s free chains) {b : Nat} (hb : b < NR_PAGE_HASH s) :
    (chains b).length ≤ NR_PAGES m s := by
  have hsub : chains b ⊆ List.range (NR_PAGES m s) := by
    intro x hx
    have := (h.frame x (.inr ⟨b, hb, hx⟩)).valid
    unfold valid_page at this
    simp only [decide_eq_true_eq] at this
    exact List.mem_range.2 this.2
  have := (List.subperm_of_subset (h.hash.chain b hb).1 hsub).length_le
  rwa [List.length_range] at this

/-- One pass of the loop of `file_read` on a well-formed pool: the page is found
or filled and the pass copies from it, leaving the pool well formed and the
buffer changed only where it copied; or the fill fails. -/
theorem ReadInv.pass {m : Machine} {inner i buffer len : Nat} {s : State} {free : List Nat}
    {chains : Nat → List Nat} (h : ReadInv m inner i buffer len s free chains)
    (e : Env) (sleep : State → State) (fd total bytes : Nat) :
    ∃ t s1, file_read_fetch m e sleep inner i (fd &&& PAGE_MASK) s = .ok (t, s1) ∧
      ((∃ pg, t = .ioerr pg) ∨
       (∃ pg, (t = .found pg ∨ t = .filled pg) ∧ ∃ s2 free2 chains2,
          file_read_copy m sleep inner pg buffer total (fd % PAGE_SIZE) bytes s1 = .ok s2 ∧
          ReadInv m inner i buffer len s2 free2 chains2 ∧ s2.inodes = s.inodes ∧
          s2.data = s.data ∧ NR_PAGES m s2 = NR_PAGES m s ∧
          (∀ x, buffer ≤ x → x < buffer + len →
            ¬ (buffer + total ≤ x ∧ x < buffer + total + bytes) → s2.mem x = s.mem x) ∧
          (∀ k, k < bytes →
            s2.mem (buffer + total + k) = s1.mem (s1.data pg + fd % PAGE_SIZE + k)) ∧
          ((t = .found pg ∧ Cached s chains pg i (fd &&& PAGE_MASK) ∧
              (free2 = if pg ∈ free then free.erase pg ++ [pg] else free) ∧
              ∀ f j o, Cached s2 chains2 f j o ↔ Cached s chains f j o) ∨
           (t = .filled pg ∧ (∀ f, ¬ Cached s chains f i (fd &&& PAGE_MASK)) ∧
              (∃ rest, free = pg :: rest ∧ free2 = rest ++ [pg]) ∧
              ∀ f j o, Cached s2 chains2 f j o ↔
                (f = pg ∧ j = i ∧ o = fd &&& PAGE_MASK) ∨ (f ≠ pg ∧ Cached s chains f j o))))) := by
  obtain ⟨b, hpb⟩ := PAGE_HASH_ok h.pool.hash_size (s.inodes i).inode (fd &&& PAGE_MASK)
  have hblt := PAGE_HASH_lt h.pool.hash.size hpb
  have hlen : ∀ c, c < NR_PAGE_HASH s → (chains c).length ≤ inner :=
    fun c hc => le_trans (h.pool.chain_le hc) h.fuel_pages
  by_cases hex : ∃ f ∈ chains b, s.inode f = some i ∧ s.offset f = fd &&& PAGE_MASK
  · -- the page is cached
    obtain ⟨f, hf, hid⟩ := hex
    obtain ⟨s1, h1, hfr1, hrel⟩ := h.pool.hit_release hblt hf
    have hsearch : search_page_hash inner i (fd &&& PAGE_MASK) s = .ok (some f, s1) := by
      rw [h.pool.hash.search_found h.pool.unique hpb hf hid (hlen b hblt)]; exact h1
    have hfok := h.pool.frame f (.inr ⟨b, hblt, hf⟩)
    have hl1 : s1.locked f = 0 := by rw [hfr1]; exact hfok.unlocked
    have hd1 : s1.data f = s.data f := by rw [hfr1]
    have hm1 : s1.mem = s.mem := by rw [hfr1]
    refine ⟨.found f, s1, file_read_fetch_found hsearch, .inr ⟨f, .inl rfl, ?_⟩⟩
    obtain ⟨s2, h2, hwf2, hfr2⟩ := hrel
      (fun a => if buffer + total ≤ a ∧ a < buffer + total + bytes
        then (fun k => s1.mem (s1.data f + fd % PAGE_SIZE + k)) (a - (buffer + total))
        else s1.mem a)
    have hmem2 : s2.mem = fun a => if buffer + total ≤ a ∧ a < buffer + total + bytes
        then (fun k => s1.mem (s1.data f + fd % PAGE_SIZE + k)) (a - (buffer + total))
        else s1.mem a := by rw [hfr2]
    have hmemb : ∀ a, a ∈ (if f ∈ free then free.erase f ++ [f] else free) ↔ a ∈ free := by
      intro a
      by_cases hfree : f ∈ free
      · rw [if_pos hfree, List.mem_append, List.mem_singleton, h.pool.ring.nodup.mem_erase_iff]
        constructor
        · rintro (⟨-, hn⟩ | rfl)
          · exact hn
          · exact hfree
        · intro hn
          by_cases e : a = f
          · exact .inr e
          · exact .inl ⟨e, hn⟩
      · rw [if_neg hfree]
    have hlen2 : (if f ∈ free then free.erase f ++ [f] else free).length = free.length := by
      by_cases hfree : f ∈ free
      · rw [if_pos hfree, List.length_append, List.length_erase_of_mem hfree]
        have : 0 < free.length := List.length_pos_of_mem hfree
        simp only [List.length_singleton]
        omega
      · rw [if_neg hfree]
    have hcached2 : ∀ g j o, Cached s2 chains g j o ↔ Cached s chains g j o := by
      intro g j o
      have e1 : s2.inode = s.inode := by rw [hfr2]
      have e2 : s2.offset = s.offset := by rw [hfr2]
      have e3 : NR_PAGE_HASH s2 = NR_PAGE_HASH s := by rw [hfr2]; rfl
      unfold Cached
      rw [e1, e2, e3]
    refine ⟨s2, _, chains, ?_, ⟨hwf2, by rw [hlen2]; exact h.two, ?_, ?_, ?_, h.fuel_fill⟩,
      by rw [hfr2], by rw [hfr2], by rw [hfr2]; rfl, ?_, ?_,
      .inl ⟨rfl, ⟨⟨b, hblt, hf⟩, hid⟩, rfl, hcached2⟩⟩
    · rw [file_read_copy_eq m sleep inner buffer total (fd % PAGE_SIZE) bytes hl1]
      unfold kfree
      have haddr : V2P m (s1.data f) >>> PAGE_SHIFT = f := by rw [hd1]; exact hfok.addr
      rw [haddr]
      exact h2
    · intro n hn x
      have e1 : s2.data = s.data := by rw [hfr2]
      have e2 : s2.inodes = s.inodes := by rw [hfr2]
      rw [e1, e2]
      exact h.apart n ((hmemb n).1 hn) x
    · have e2 : s2.inodes = s.inodes := by rw [hfr2]
      rw [e2]; exact h.blk
    · have : NR_PAGES m s2 = NR_PAGES m s := by rw [hfr2]; rfl
      rw [this]; exact h.fuel_pages
    · intro x _ _ hx
      rw [hmem2]
      show (if buffer + total ≤ x ∧ x < buffer + total + bytes then _ else s1.mem x) = s.mem x
      rw [if_neg hx, hm1]
    · intro k hk
      rw [hmem2]
      show (if buffer + total ≤ buffer + total + k ∧ buffer + total + k < buffer + total + bytes
        then s1.mem (s1.data f + fd % PAGE_SIZE + (buffer + total + k - (buffer + total)))
        else _) = _
      rw [if_pos ⟨by omega, by omega⟩]
      congr 2
      omega
  · -- the page is not cached
    have hno0 : ∀ f ∈ chains b, ¬ (s.inode f = some i ∧ s.offset f = fd &&& PAGE_MASK) :=
      fun f hf hid => hex ⟨f, hf, hid⟩
    have hsearch := h.pool.hash.search_missed hpb hno0 (hlen b hblt)
    obtain ⟨a, x, t, hfree⟩ : ∃ a x t, free = a :: x :: t := by
      have := h.two
      match free, this with
      | a :: x :: t, _ => exact ⟨a, x, t, rfl⟩
    subst hfree
    have hpool := h.pool
    obtain ⟨sa, hget, hwfa, hca, hia, hfa, hfra, hoth⟩ := hpool.lend sleep hlen
    have hBa : NR_PAGE_HASH sa = NR_PAGE_HASH s := by rw [hfra]; rfl
    have hda : sa.data = s.data := by rw [hfra]
    have hina : sa.inodes = s.inodes := by rw [hfra]
    have hma : sa.mem = s.mem := by rw [hfra]
    have hkm := kmalloc_some hget
    have hblka : 0 < (sa.inodes i).s_blocksize := by rw [hina]; exact h.blk
    obtain ⟨ret, sb, hbread⟩ := bread_page_returns e a i (fd &&& PAGE_MASK) hblka h.fuel_fill
      hwfa.hash_size
    have haax : a ∉ x :: t := (List.nodup_cons.1 hpool.ring.nodup).1
    have hac : ∀ c, c < NR_PAGE_HASH sa → a ∉ (chains c).erase a := fun c hc =>
      List.Nodup.not_mem_erase (hpool.hash.chain c (hBa ▸ hc)).1
    have hnoa : ∀ c, c < NR_PAGE_HASH sa → ∀ f ∈ (chains c).erase a,
        ¬ (sa.inode f = some i ∧ sa.offset f = fd &&& PAGE_MASK) := by
      intro c hc f hf hid
      have hc' : c < NR_PAGE_HASH s := hBa ▸ hc
      have hf' := ((hpool.hash.chain c hc').1.mem_erase_iff).1 hf
      obtain ⟨e1, e2, -⟩ := hoth f hf'.1
      rw [e1, e2] at hid
      obtain ⟨j, hj1, hj2⟩ := hpool.hash.ident c hc' f hf'.2
      rw [hid.1] at hj1
      have hji : j = i := (Option.some.inj hj1).symm
      subst hji
      rw [hid.2, hpb] at hj2
      have hbc : b = c := by
        simp only [Except.ok.injEq] at hj2
        exact hj2
      subst hbc
      exact hno0 f hf'.2 hid
    obtain ⟨hfrb, hmemb, hpub⟩ := hwfa.fill hac hca hfa hnoa hbread
    have hdb : sb.data = s.data := by rw [hfrb]; exact hda
    have hinb : sb.inodes = s.inodes := by rw [hfrb]; exact hina
    by_cases hret : ret = 0
    · subst hret
      obtain ⟨b2, hb2lt, -, hwfb, hib, hob⟩ := hpub rfl
      have hib2 : ∀ g, g ≠ a → sb.inode g = sa.inode g := by
        intro g hg
        rcases bread_page_cases hbread with ⟨hr, -⟩ | ⟨hr, -⟩ | ⟨-, -, s1, hs1, -, hins⟩ |
          ⟨-, hc, -⟩
        · exact absurd hr (by decide)
        · exact absurd hr (by decide)
        · obtain ⟨ino, hino⟩ : ∃ ino, s1.inode a = some ino := ⟨i, by rw [hs1]; exact upd_same _ _ _⟩
          have : sb.inode = s1.inode := by
            unfold insert_to_hash at hins
            simp only [hino, deref, bind, Except.bind] at hins
            split at hins
            · exact absurd hins (by simp)
            · split at hins <;>
              · simp only [pure, Except.pure, Except.ok.injEq] at hins
                rw [← hins]
          rw [this, hs1]
          exact upd_ne _ _ hg
        · exact absurd (Or.inl (by decide)) hc
      have hob2 : ∀ g, g ≠ a → sb.offset g = sa.offset g := by
        intro g hg
        rcases bread_page_cases hbread with ⟨hr, -⟩ | ⟨hr, -⟩ | ⟨-, -, s1, hs1, -, hins⟩ |
          ⟨-, hc, -⟩
        · exact absurd hr (by decide)
        · exact absurd hr (by decide)
        · obtain ⟨ino, hino⟩ : ∃ ino, s1.inode a = some ino := ⟨i, by rw [hs1]; exact upd_same _ _ _⟩
          have : sb.offset = s1.offset := by
            unfold insert_to_hash at hins
            simp only [hino, deref, bind, Except.bind] at hins
            split at hins
            · exact absurd hins (by simp)
            · split at hins <;>
              · simp only [pure, Except.pure, Except.ok.injEq] at hins
                rw [← hins]
          rw [this, hs1]
          exact upd_ne _ _ hg
        · exact absurd (Or.inl (by decide)) hc
      have hBb : NR_PAGE_HASH sb = NR_PAGE_HASH sa := by rw [hfrb]; rfl
      have hab : a ∈ (fun c => if c = b2 then a :: (chains b2).erase a else (chains c).erase a) b2 := by
        show a ∈ (if b2 = b2 then a :: (chains b2).erase a else (chains b2).erase a)
        rw [if_pos rfl]; exact List.mem_cons_self _ _
      have hfokb := hwfb.frame a (.inr ⟨b2, hBb ▸ hb2lt, hab⟩)
      have hcb : sb.count a = 1 := by rw [hfrb]; exact hca
      refine ⟨.filled a, sb, file_read_fetch_filled hsearch hkm hfa.data_ne hfa.addr hbread,
        .inr ⟨a, .inr rfl, ?_⟩⟩
      obtain ⟨s2, h2, hwf2, hfr2⟩ := hwfb.release_held (hBb ▸ hb2lt) hab haax hcb
        (fun y => if buffer + total ≤ y ∧ y < buffer + total + bytes
          then (fun k => sb.mem (sb.data a + fd % PAGE_SIZE + k)) (y - (buffer + total))
          else sb.mem y)
      have hmem2 : s2.mem = fun y => if buffer + total ≤ y ∧ y < buffer + total + bytes
          then (fun k => sb.mem (sb.data a + fd % PAGE_SIZE + k)) (y - (buffer + total))
          else sb.mem y := by rw [hfr2]
      have hd2 : s2.data = s.data := by rw [hfr2]; exact hdb
      have hin2 : s2.inodes = s.inodes := by rw [hfr2]; exact hinb
      have hnc : ∀ g, ¬ Cached s (chains) g i (fd &&& PAGE_MASK) := by
        rintro g ⟨⟨c, hc, hg⟩, hgi, hgo⟩
        obtain ⟨j, hj1, hj2⟩ := hpool.hash.ident c hc g hg
        rw [hgi] at hj1
        have hji : j = i := (Option.some.inj hj1).symm
        subst hji
        rw [hgo, hpb] at hj2
        have hbc : b = c := by
          simp only [Except.ok.injEq] at hj2
          exact hj2
        subst hbc
        exact hno0 g hg ⟨hgi, hgo⟩
      have hB2 : NR_PAGE_HASH s2 = NR_PAGE_HASH s := by
        rw [hfr2]
        show NR_PAGE_HASH sb = _
        rw [hBb, hBa]
      have hcached2 : ∀ g j o,
          Cached s2 (fun c => if c = b2 then a :: (chains b2).erase a else (chains c).erase a)
            g j o ↔
          (g = a ∧ j = i ∧ o = fd &&& PAGE_MASK) ∨ (g ≠ a ∧ Cached s chains g j o) := by
        intro g j o
        have ei : s2.inode = sb.inode := by rw [hfr2]
        have eo : s2.offset = sb.offset := by rw [hfr2]
        unfold Cached
        rw [ei, eo, hB2]
        by_cases hga : g = a
        · subst hga
          rw [hib, hob]
          constructor
          · rintro ⟨-, hj, ho⟩
            exact .inl ⟨rfl, (Option.some.inj hj).symm, ho.symm⟩
          · rintro (⟨-, hj, ho⟩ | ⟨hne, -⟩)
            · exact ⟨⟨b2, hBa ▸ hb2lt, hab⟩, by rw [hj], ho.symm⟩
            · exact absurd rfl hne
        · have e1 : sb.inode g = s.inode g := by
            have : sb.inode g = sa.inode g := hib2 g hga
            rw [this]; exact (hoth g hga).1
          have e2 : sb.offset g = s.offset g := by
            have : sb.offset g = sa.offset g := hob2 g hga
            rw [this]; exact (hoth g hga).2.1
          rw [e1, e2]
          constructor
          · rintro ⟨⟨c, hc, hg⟩, hj, ho⟩
            refine .inr ⟨hga, ⟨c, hc, ?_⟩, hj, ho⟩
            replace hg : g ∈ (if c = b2 then a :: (chains b2).erase a else (chains c).erase a) :=
              hg
            by_cases e : c = b2
            · subst e
              rw [if_pos rfl] at hg
              rcases List.mem_cons.1 hg with e | hg
              · exact absurd e hga
              · exact List.mem_of_mem_erase hg
            · rw [if_neg e] at hg
              exact List.mem_of_mem_erase hg
          · rintro (⟨e, -⟩ | ⟨-, ⟨c, hc, hg⟩, hj, ho⟩)
            · exact absurd e hga
            · refine ⟨⟨c, hc, ?_⟩, hj, ho⟩
              show g ∈ (if c = b2 then a :: (chains b2).erase a else (chains c).erase a)
              have hge : g ∈ (chains c).erase a :=
                ((hpool.hash.chain c hc).1.mem_erase_iff).2 ⟨hga, hg⟩
              by_cases e : c = b2
              · subst e
                rw [if_pos rfl]
                exact List.mem_cons_of_mem _ hge
              · rw [if_neg e]; exact hge
      have hN2 : NR_PAGES m s2 = NR_PAGES m s := by
        rw [hfr2]
        show NR_PAGES m sb = _
        rw [hfrb]
        show NR_PAGES m sa = _
        rw [hfra]; rfl
      refine ⟨s2, _, _, ?_, ⟨hwf2, ?_, ?_, ?_, ?_, h.fuel_fill⟩, hin2, hd2, hN2, ?_, ?_,
        .inr ⟨rfl, hnc, ⟨x :: t, rfl, rfl⟩, hcached2⟩⟩
      · rw [file_read_copy_eq m sleep inner buffer total (fd % PAGE_SIZE) bytes hfokb.unlocked]
        unfold kfree
        rw [hfokb.addr]
        exact h2
      · simp only [List.length_append, List.length_cons, List.length_singleton]
        omega
      · intro n hn y
        rw [hd2, hin2]
        refine h.apart n ?_ y
        rcases List.mem_append.1 hn with hn | hn
        · exact List.mem_cons_of_mem _ hn
        · rw [List.mem_singleton.1 hn]; exact List.mem_cons_self _ _
      · rw [hin2]; exact h.blk
      · have : NR_PAGES m s2 = NR_PAGES m s := by
          rw [hfr2]
          show NR_PAGES m sb = _
          rw [hfrb]
          show NR_PAGES m sa = _
          rw [hfra]; rfl
        rw [this]; exact h.fuel_pages
      · intro y hy1 hy2 hy
        rw [hmem2]
        show (if buffer + total ≤ y ∧ y < buffer + total + bytes then _ else sb.mem y) = s.mem y
        rw [if_neg hy, ← hma]
        refine hmemb y ?_
        have hap := h.apart a (List.mem_cons_self _ _) y
        rw [hda, hina]
        by_contra hcon
        push_neg at hcon
        rcases hap hcon.1 hcon.2 with hz | hz <;> omega
      · intro k hk
        rw [hmem2]
        show (if buffer + total ≤ buffer + total + k ∧
            buffer + total + k < buffer + total + bytes
          then sb.mem (sb.data a + fd % PAGE_SIZE + (buffer + total + k - (buffer + total)))
          else _) = _
        rw [if_pos ⟨by omega, by omega⟩]
        congr 2
        omega
    · have hringb : FreeRing sb (x :: t) :=
        hwfa.ring.of_eq (by rw [hfrb]) (by rw [hfrb]) (by rw [hfrb])
      have hvb : valid_page m sb a = true := by
        have : valid_page m sb a = valid_page m sa a := by rw [hfrb]; rfl
        rw [this]; exact hfa.valid
      have hcb : sb.count a ≤ 1 := by
        have : sb.count a = 1 := by rw [hfrb]; exact hca
        omega
      obtain ⟨s4, hrel4, -, -⟩ := hringb.release haax hvb hcb
      have hk4 : kfree m (sb.data a) sb = .ok s4 := by
        unfold kfree
        have : sb.data a = sa.data a := by rw [hfrb]
        rw [this, hfa.addr]
        exact hrel4
      exact ⟨.ioerr a, s4,
        file_read_fetch_ioerr hsearch hkm hfa.data_ne hfa.addr hbread hret hk4, .inl ⟨a, rfl⟩⟩

/-- The loop of `file_read` on a well-formed pool with at least two free
frames, when the 32-bit sum of position and count does not exceed the size of
the file, so that the clamp leaves `count` alone in every pass: the loop
returns, no allocation fails, and unless a fill fails it copies `count` bytes,
the position wrapping at `2 ^ 32`. -/
theorem ReadInv.run {m : Machine} {inner i buffer len : Nat} (e : Env)
    (sleep : State → State) (fuel : Nat) {fd count total : Nat} {s : State}
    {free : List Nat} {chains : Nat → List Nat}
    (h : ReadInv m inner i buffer len s free chains)
    (hS : (fd + count) % 2 ^ 32 ≤ (s.inodes i).i_size) (hfd : fd < 2 ^ 32)
    (hfuel : count ≤ fuel) (hlen : total + count ≤ len) (htot : total + count < 2 ^ 32) :
    ∃ r, file_read_loop m e sleep inner i buffer fuel fd count total s = .ok r ∧
      (∀ p ∈ r.passes, p.fetch ≠ .nomem) ∧
      ((∃ p ∈ r.passes, ∃ pg, p.fetch = .ioerr pg) ∨
       ((∀ p ∈ r.passes, ∀ pg, p.fetch ≠ .ioerr pg) ∧
        r.ret = s32 (total + count) ∧ r.fd_offset = (fd + count) % 2 ^ 32 ∧
        (r.passes.map Pass.bytes).sum = count ∧
        (∀ x, buffer ≤ x → x < buffer + total → r.mem.mem x = s.mem x) ∧
        (∀ k, k < count → ∃ p ∈ r.passes, ∃ pg, (p.fetch = .found pg ∨ p.fetch = .filled pg) ∧
          p.position &&& PAGE_MASK = ((fd + k) % 2 ^ 32) &&& PAGE_MASK ∧
          r.mem.mem (buffer + total + k)
            = p.fetched.mem (p.fetched.data pg + (fd + k) % PAGE_SIZE)))) := by
  induction fuel generalizing fd count total s free chains with
  | zero =>
    have hc0 : count = 0 := by omega
    subst hc0
    refine ⟨_, file_read_loop_done m e sleep inner i buffer 0 total (file_read_clamp_keep hS),
      fun p hp => absurd hp (List.not_mem_nil p),
      .inr ⟨fun p hp => absurd hp (List.not_mem_nil p), rfl, ?_, rfl, fun _ _ _ => rfl,
        fun k hk => absurd hk (by omega)⟩⟩
    show fd = (fd + 0) % 2 ^ 32
    rw [Nat.add_zero, Nat.mod_eq_of_lt hfd]
  | succ n ih =>
    by_cases hc0 : count = 0
    · subst hc0
      refine ⟨_, file_read_loop_done m e sleep inner i buffer (n + 1) total
        (file_read_clamp_keep hS), fun p hp => absurd hp (List.not_mem_nil p),
        .inr ⟨fun p hp => absurd hp (List.not_mem_nil p), rfl, ?_, rfl, fun _ _ _ => rfl,
          fun k hk => absurd hk (by omega)⟩⟩
      show fd = (fd + 0) % 2 ^ 32
      rw [Nat.add_zero, Nat.mod_eq_of_lt hfd]
    · have hcl : file_read_clamp (s.inodes i).i_size fd count = count := file_read_clamp_keep hS
      obtain ⟨t, s1, hfetch, hcase⟩ :=
        h.pass e sleep fd total (min (PAGE_SIZE - fd % PAGE_SIZE) count)
      have hpos : 0 < PAGE_SIZE - fd % PAGE_SIZE := by
        have := Nat.mod_lt fd (show 0 < PAGE_SIZE by decide)
        omega
      have hb1 : 1 ≤ min (PAGE_SIZE - fd % PAGE_SIZE) count := by
        rw [Nat.le_min]; omega
      have hb2 : min (PAGE_SIZE - fd % PAGE_SIZE) count ≤ count := Nat.min_le_right _ _
      have hb3 : min (PAGE_SIZE - fd % PAGE_SIZE) count ≤ PAGE_SIZE - fd % PAGE_SIZE :=
        Nat.min_le_left _ _
      rcases hcase with ⟨pg, ht⟩ |
        ⟨pg, ht, s2, free2, chains2, hcopy, hinv2, hin2, -, -, hfr, hby, -⟩
      · subst ht
        refine ⟨_, file_read_loop_ioerr m e sleep inner i buffer n total (by rw [hcl]; exact hc0)
          hfetch,
          fun p hp => ?_, .inl ⟨_, List.mem_singleton.2 rfl, pg, rfl⟩⟩
        rw [List.mem_singleton.1 hp]
        simp
      · have hpass := file_read_loop_pass m e sleep inner i buffer n total ht hcl hc0 hfetch
          hcopy
        generalize min (PAGE_SIZE - fd % PAGE_SIZE) count = bt at hb1 hb2 hb3 hcopy hfr hby hpass
        have hb4 : bt ≤ 4096 - fd % 4096 := hb3
        have htt : (total + bt) % 2 ^ 32 = total + bt := Nat.mod_eq_of_lt (by omega)
        rw [htt] at hpass
        have hsum : ((fd + bt) % 2 ^ 32 + (count - bt)) % 2 ^ 32 = (fd + count) % 2 ^ 32 := by
          rw [Nat.mod_add_mod]
          congr 1
          omega
        have hS2 : ((fd + bt) % 2 ^ 32 + (count - bt)) % 2 ^ 32 ≤ (s2.inodes i).i_size := by
          rw [hsum, hin2]; exact hS
        obtain ⟨r2, hr2, hno2, hres⟩ := @ih ((fd + bt) % 2 ^ 32) (count - bt) (total + bt) s2
          free2 chains2 hinv2 hS2 (Nat.mod_lt _ (by decide)) (by omega) (by omega) (by omega)
        rw [hr2] at hpass
        have htn : t ≠ .nomem ∧ ∀ q, t ≠ .ioerr q := by
          rcases ht with rfl | rfl <;> exact ⟨by simp, by simp⟩
        refine ⟨_, hpass, fun p hp => ?_, ?_⟩
        · rcases List.mem_cons.1 hp with rfl | hp
          · exact htn.1
          · exact hno2 p hp
        rcases hres with ⟨p, hp, hio⟩ | ⟨hall, hret, hoff, hsm, hkeep, hbytes⟩
        · exact .inl ⟨p, List.mem_cons_of_mem _ hp, hio⟩
        · refine .inr ⟨fun p hp => ?_, ?_, ?_, ?_, ?_, ?_⟩
          · rcases List.mem_cons.1 hp with rfl | hp
            · exact htn.2
            · exact hall p hp
          · show r2.ret = _
            rw [hret]
            congr 1
            omega
          · show r2.fd_offset = _
            rw [hoff, hsum]
          · show ((⟨s, fd, t, bt, s1⟩ : Pass) :: r2.passes |>.map Pass.bytes).sum = count
            simp only [List.map_cons, List.sum_cons]
            rw [hsm]
            omega
          · intro x hx1 hx2
            show r2.mem.mem x = _
            rw [hkeep x hx1 (by omega)]
            exact hfr x hx1 (by omega) (by omega)
          · intro k hk
            by_cases hkb : k < bt
            · refine ⟨_, List.mem_cons_self _ _, pg, ht, ?_, ?_⟩
              · show fd &&& PAGE_MASK = ((fd + k) % 2 ^ 32) &&& PAGE_MASK
                rw [Nat.mod_eq_of_lt (by omega)]
                exact (and_PAGE_MASK_add (by omega)).symm
              · show r2.mem.mem (buffer + total + k) = s1.mem (s1.data pg + (fd + k) % PAGE_SIZE)
                rw [hkeep _ (by omega) (by omega), hby k hkb, mod_PAGE_SIZE_add (by omega)]
                congr 1
                omega
            · obtain ⟨p, hp, q, hq, hmask, hval⟩ := hbytes (k - bt) (by omega)
              have e1 : ((fd + bt) % 2 ^ 32 + (k - bt)) % 2 ^ 32 = (fd + k) % 2 ^ 32 := by
                rw [Nat.mod_add_mod]
                congr 1
                omega
              have e2 : buffer + (total + bt) + (k - bt) = buffer + total + k := by omega
              have e3 : ((fd + bt) % 2 ^ 32 + (k - bt)) % PAGE_SIZE = (fd + k) % PAGE_SIZE := by
                show ((fd + bt) % 2 ^ 32 + (k - bt)) % 4096 = (fd + k) % 4096
                omega
              rw [e1] at hmask
              rw [e2, e3] at hval
              exact ⟨p, List.mem_cons_of_mem _ hp, q, hq, hmask, hval⟩

/-- The memory built by `page_init` is a well-formed pool with the usable
frames, in ascending order, as free list and an empty hash index, provided
the hash table is not of size zero and the frames lie where the kernel maps
them without wrapping (`PAGE_OFFSET` is not 0 and the last frame ends at or
below 4 GiB of kernel-virtual space). -/
theorem page_init_pool {m : Machine} {pages : Nat} {s0 s : State} (hh : s0.page_head = none)
    (hp : pages ≤ NR_PAGES m s0) (hd : sizeof_uint ∣ s0.page_hash_table_size)
    (hsz : 0 < s0.page_hash_table_size) (hoff : 0 < m.PAGE_OFFSET)
    (hmap : pages * PAGE_SIZE + m.PAGE_OFFSET ≤ 2 ^ 32)
    (hinit : page_init m pages s0 = .ok s) :
    PoolWF m s ((List.range pages).filter (usable m)) (fun _ => []) ∧
    s.inodes = s0.inodes ∧ s.mem = s0.mem ∧ s.page_table_size = s0.page_table_size ∧
    s.page_hash_table_size = s0.page_hash_table_size := by
  obtain ⟨s2, h2, hi⟩ := page_init_loop m (page_init_clear m s0) hh pages
  rw [page_init_eq h2] at hinit
  simp only [Except.ok.injEq] at hinit
  subst hinit
  have hsame := hi.same
  have hmemf : ∀ n, n ∈ (List.range pages).filter (usable m) → n < pages ∧ usable m n = true := by
    intro n hn
    have := List.mem_filter.1 hn
    exact ⟨List.mem_range.1 this.1, this.2⟩
  have hsize : s2.page_hash_table_size = s0.page_hash_table_size := by rw [hsame]; rfl
  have hpts : s2.page_table_size = s0.page_table_size := by rw [hsame]; rfl
  refine ⟨⟨hi.ring, ⟨?_, ?_, ?_⟩, ?_, ?_, ?_, ?_, ?_⟩, ?_, ?_, hpts, hsize⟩
  · show sizeof_uint ∣ s2.page_hash_table_size
    rw [hsize]; exact hd
  · intro b hb
    refine ⟨List.nodup_nil, ?_⟩
    show s2.page_hash_table b = none
    rw [hsame]
    show (if b < NR_PAGE_HASH s0 then none else s0.page_hash_table b) = none
    have : b < NR_PAGE_HASH s0 := by
      have e : NR_PAGE_HASH s0 = s2.page_hash_table_size / sizeof_uint := by
        unfold NR_PAGE_HASH; rw [hsize]
      rw [e]; exact hb
    rw [if_pos this]
  · intro b _ f hf
    exact absurd hf (List.not_mem_nil f)
  · show 0 < s2.page_hash_table_size
    rw [hsize]; exact hsz
  · intro b _ f hf
    exact absurd hf (List.not_mem_nil f)
  · intro n hn
    obtain ⟨hlt, -⟩ := hmemf n hn
    show s2.count n = 0
    rw [hsame]
    show (if n < NR_PAGES m s0 then (0 : Int) else s0.count n) = 0
    rw [if_pos (by omega)]
  · intro b _ f hf
    exact absurd hf (List.not_mem_nil f)
  · intro n hn
    have hn' : n ∈ (List.range pages).filter (usable m) := by
      rcases hn with hn | ⟨b, -, hn⟩
      · exact hn
      · exact absurd hn (List.not_mem_nil n)
    obtain ⟨hlt, hus⟩ := hmemf n hn'
    have hdata : s2.data n = n * 4096 + m.PAGE_OFFSET := by
      rw [hi.data n, if_pos ⟨hlt, hus⟩]
      unfold frame_addr PAGE_SHIFT
      rw [Nat.shiftLeft_eq]
      unfold PAGE_SIZE at hmap
      have h1 : n * 2 ^ 12 < 2 ^ 32 := by omega
      rw [Nat.mod_eq_of_lt h1, Nat.mod_eq_of_lt (by omega)]
      norm_num
    refine ⟨?_, ?_, ?_, ?_, ?_⟩
    · show s2.page n = n
      rw [hi.page n, if_pos hlt]
    · show decide (0 ≤ n ∧ n < s2.page_table_size / m.sizeof_page) = true
      rw [hpts]
      simp only [decide_eq_true_eq]
      exact ⟨Nat.zero_le _, lt_of_lt_of_le hlt hp⟩
    · show s2.data n ≠ 0
      rw [hdata]; omega
    · show V2P m (s2.data n) >>> PAGE_SHIFT = n
      rw [hdata]
      unfold V2P PAGE_SHIFT
      unfold PAGE_SIZE at hmap
      have hpo : m.PAGE_OFFSET < 2 ^ 32 := by omega
      rw [Nat.mod_eq_of_lt hpo, Nat.shiftRight_eq_div_pow]
      have : n * 4096 + m.PAGE_OFFSET + (2 ^ 32 - m.PAGE_OFFSET) = n * 4096 + 2 ^ 32 := by omega
      rw [this, Nat.add_mod_right, Nat.mod_eq_of_lt (by omega)]
      norm_num
    · show s2.locked n = 0
      rw [hsame]
      show (if n < NR_PAGES m s0 then 0 else s0.locked n) = 0
      rw [if_pos (by omega)]
  · show s2.inodes = s0.inodes
    rw [hsame]; rfl
  · show s2.mem = s0.mem
    rw [hsame]; rfl

/-- The pool of `disk4`: frames 0, 1, 2, 3 free and nothing cached. -/
theorem disk4_pool : PoolWF plain disk4 [0, 1, 2, 3] (fun _ => []) :=
  (@page_init_pool plain 4 disk0 disk4 rfl (by decide) (by decide)
    (by decide) (by decide) (by decide) rfl).1

/-- The pool of `warm`: frames 1, 2, 3, 0 free and frame 0 cached in bucket 1. -/
theorem warm_pool : PoolWF plain warm [1, 2, 3, 0] warm_chains := by
  obtain ⟨s1, hget, hwf1, hc1, -, hf1, -, -⟩ :=
    @PoolWF.lend plain disk4 0 1 [2, 3] (fun _ => []) disk4_pool id 8 (by simp)
  have e1 : get_free_page id 8 disk4 = .ok (some 0, dup_a) := rfl
  rw [e1] at hget
  simp only [Except.ok.injEq, Prod.mk.injEq, true_and] at hget
  subst hget
  have hb : bread_page hole_env 8 0 7 0 0 MAP_SHARED dup_a = .ok (0, warm_b) := rfl
  obtain ⟨-, -, hpub⟩ := @PoolWF.fill plain dup_a warm_b [1, 2, 3] _ hwf1 hole_env 8 0 7 0 0
    (fun b _ => by simp) hc1 hf1 (fun b _ f hf => by simp at hf) hb
  obtain ⟨b2, hb2, hpb, hwf2, -, -⟩ := hpub rfl
  have e2 : PAGE_HASH dup_a (dup_a.inodes 7).inode 0 = .ok 1 := rfl
  rw [e2] at hpb
  simp only [Except.ok.injEq] at hpb
  subst hpb
  obtain ⟨s3, hrel, hwf3, -⟩ := hwf2.release_held (b := 1) (f := 0) hb2 (by simp) (by simp) rfl
    warm_b.mem
  have e3 : release_page plain 0 warm_b = .ok warm := rfl
  have e4 : ({ warm_b with mem := warm_b.mem } : State) = warm_b := rfl
  rw [e4, e3] at hrel
  simp only [Except.ok.injEq] at hrel
  subst hrel
  have e5 : (fun c => if c = 1 then 0 :: ((fun b => ((fun _ => ([] : List Nat)) b).erase 0) 1)
      else (fun b => ((fun _ => ([] : List Nat)) b).erase 0) c) = warm_chains := by
    funext c
    unfold warm_chains
    simp
  rw [← e5]
  exact hwf3

/-- Witness of C19: in `warm`, frame 0 is cached under (inode 7, offset 0);
the search, the release and the second search all come to frame 0. -/
theorem C19_witness :
    ∃ s1 s2 s3, search_page_hash 8 7 0 warm = .ok (some 0, s1) ∧
      release_page plain (s1.page 0) s1 = .ok s2 ∧
      search_page_hash 8 7 0 s2 = .ok (some 0, s3) ∧ s3.mem = warm.mem :=
  let ⟨s1, s2, s3, h1, h2, h3, h4⟩ := C19_hit_idempotence plain warm [1, 2, 3, 0] warm_chains
    7 0 1 0 8 warm_pool rfl (by decide) rfl rfl (by decide)
  ⟨s1, s2, s3, h1, h2, h3, (h4 s3 (.inr (.inr rfl))).1⟩

/-- `update_page_cache` when the page is cached in a frame that is not locked:
the bytes are copied up to the end of the page and the frame is released. -/
theorem update_page_cache_hit (m : Machine) (sleep : State → State) {fuel i offset : Nat}
    (buf : Nat → Nat) {count pg : Nat} {s s1 : State} (hc : count ≠ 0)
    (h : search_page_hash fuel i (offset &&& PAGE_MASK) s = .ok (some pg, s1))
    (hl : s1.locked pg = 0) :
    update_page_cache m sleep fuel i offset buf count s =
      release_page m (s1.page pg)
        (memcpy_b s1 (s1.data pg + offset % PAGE_SIZE) buf
          (min (PAGE_SIZE - offset % PAGE_SIZE) count)) := by
  unfold update_page_cache
  simp only [hc, ne_eq, not_false_eq_true, if_true, h, bind, Except.bind]
  rw [page_lock_free sleep fuel hl]
  dsimp only
  congr 1
  apply State.ext <;> try rfl
  funext x
  show upd (upd s1.locked pg 1) pg 0 x = s1.locked x
  rw [upd_upd]
  exact congrFun (upd_eq_self _ _ _ hl) x

/-- `update_page_cache` when the page is not cached: nothing is written. -/
theorem update_page_cache_miss (m : Machine) (sleep : State → State) {fuel i offset : Nat}
    (buf : Nat → Nat) (count : Nat) {s : State}
    (h : search_page_hash fuel i (offset &&& PAGE_MASK) s = .ok (none, s)) :
    update_page_cache m sleep fuel i offset buf count s = .ok s := by
  unfold update_page_cache
  by_cases hc : count = 0
  · simp [hc]; rfl
  · simp only [hc, ne_eq, not_false_eq_true, if_true, h, bind, Except.bind]
    rfl

/-- C16 as the code has it.  In a well-formed pool, for `n > 0`: when
`(i, off & PAGE_MASK)` is cached in frame `f`, `update_page_cache(i, off, b,
n)` returns and afterwards `search_page_hash(i, off & PAGE_MASK)` returns `f`,
whose data bytes from `off % PAGE_SIZE` on equal `b[0..m)` for `m = min(n,
PAGE_SIZE - off % PAGE_SIZE)`, the part of the range that lies in the page;
when `(i, off & PAGE_MASK)` is not cached, `update_page_cache` returns and
writes nothing. -/
theorem C16_update_page_cache_in_page (m : Machine) (sleep : State → State)
    (fuel i off : Nat) (buf : Nat → Nat) (n : Nat) (s : State) (free : List Nat)
    (chains : Nat → List Nat) (hwf : PoolWF m s free chains) (hn : 0 < n)
    (hfuel : NR_PAGES m s ≤ fuel) :
    (∀ f, Cached s chains f i (off &&& PAGE_MASK) →
      ∃ s2, update_page_cache m sleep fuel i off buf n s = .ok s2 ∧
        ∃ s3, search_page_hash fuel i (off &&& PAGE_MASK) s2 = .ok (some f, s3) ∧
          ∀ k, k < min n (PAGE_SIZE - off % PAGE_SIZE) →
            s3.mem (s3.data f + off % PAGE_SIZE + k) = buf k) ∧
    ((∀ f, ¬ Cached s chains f i (off &&& PAGE_MASK)) →
      update_page_cache m sleep fuel i off buf n s = .ok s) := by
  obtain ⟨b, hpb⟩ := PAGE_HASH_ok hwf.hash_size (s.inodes i).inode (off &&& PAGE_MASK)
  have hblt := PAGE_HASH_lt hwf.hash.size hpb
  have hlen : ∀ {s' : State} {free' : List Nat}, PoolWF m s' free' chains →
      NR_PAGES m s' = NR_PAGES m s → NR_PAGE_HASH s' = NR_PAGE_HASH s →
      (chains b).length ≤ fuel := fun h' e1 e2 =>
    le_trans (h'.chain_le (e2 ▸ hblt)) (e1 ▸ hfuel)
  constructor
  · rintro f ⟨⟨c, hc, hfc⟩, hino, hoff⟩
    have hcb : c = b := by
      obtain ⟨j, hj1, hj2⟩ := hwf.hash.ident c hc f hfc
      rw [hino] at hj1
      have hji : j = i := (Option.some.inj hj1).symm
      subst hji
      rw [hoff, hpb] at hj2
      simp only [Except.ok.injEq] at hj2
      exact hj2.symm
    subst hcb
    obtain ⟨s1, h1, hfr1, hrel⟩ := hwf.hit_release hc hfc
    have hsearch : search_page_hash fuel i (off &&& PAGE_MASK) s = .ok (some f, s1) := by
      rw [hwf.hash.search_found hwf.unique hpb hfc ⟨hino, hoff⟩ (hlen hwf rfl rfl)]
      exact h1
    have hfok := hwf.frame f (.inr ⟨c, hc, hfc⟩)
    have hl1 : s1.locked f = 0 := by rw [hfr1]; exact hfok.unlocked
    have hp1 : s1.page f = f := by rw [hfr1]; exact hfok.page
    have hd1 : s1.data f = s.data f := by rw [hfr1]
    obtain ⟨s2, h2, hwf2, hfr2⟩ := hrel
      (fun a => if s1.data f + off % PAGE_SIZE ≤ a ∧
          a < s1.data f + off % PAGE_SIZE + min (PAGE_SIZE - off % PAGE_SIZE) n
        then buf (a - (s1.data f + off % PAGE_SIZE)) else s1.mem a)
    have hupd : update_page_cache m sleep fuel i off buf n s = .ok s2 := by
      rw [update_page_cache_hit m sleep buf (by omega) hsearch hl1, hp1]
      exact h2
    have hB2 : NR_PAGE_HASH s2 = NR_PAGE_HASH s := by rw [hfr2]; rfl
    have hN2 : NR_PAGES m s2 = NR_PAGES m s := by rw [hfr2]; rfl
    have hpb2 : PAGE_HASH s2 (s2.inodes i).inode (off &&& PAGE_MASK) = .ok c := by
      rw [← hpb, hfr2]; rfl
    have hi2 : s2.inode f = some i := by rw [hfr2]; exact hino
    have ho2 : s2.offset f = off &&& PAGE_MASK := by rw [hfr2]; exact hoff
    obtain ⟨s3, h3, hfr3, -⟩ := hwf2.hit_release (hB2 ▸ hc) hfc
    refine ⟨s2, hupd, s3, ?_, fun k hk => ?_⟩
    · rw [hwf2.hash.search_found hwf2.unique hpb2 hfc ⟨hi2, ho2⟩ (hlen hwf2 hN2 hB2)]
      exact h3
    · have e1 : s3.mem = s2.mem := by rw [hfr3]
      have e2 : s3.data f = s1.data f := by rw [hfr3, hfr2, hd1]
      rw [e1, e2, hfr2]
      show (if s1.data f + off % PAGE_SIZE ≤ s1.data f + off % PAGE_SIZE + k ∧
          s1.data f + off % PAGE_SIZE + k <
            s1.data f + off % PAGE_SIZE + min (PAGE_SIZE - off % PAGE_SIZE) n
        then buf (s1.data f + off % PAGE_SIZE + k - (s1.data f + off % PAGE_SIZE))
        else s1.mem (s1.data f + off % PAGE_SIZE + k)) = buf k
      rw [if_pos ⟨by omega, by omega⟩]
      congr 1
      omega
  · intro hnc
    refine update_page_cache_miss m sleep buf n ?_
    refine hwf.hash.search_missed hpb (fun f hf hid => ?_) (hlen hwf rfl rfl)
    exact hnc f ⟨⟨b, hblt, hf⟩, hid⟩

/-- C16 as stated fails in two ways.  On a miss nothing is cached afterwards:
in the memory built by `page_init(4)`, `update_page_cache(7, 0, b, 1)` writes
nothing and `search_page_hash(7, 0)` returns `NULL`.  On a hit the copy stops
at the end of the page: in `warm`, where frame 0 caches (inode 7, offset 0),
after `update_page_cache(7, 4095, b, 2)` with every byte of `b` 0x55,
`search_page_hash(7, 0)` returns frame 0 and the byte at `4095 % PAGE_SIZE + 1`
of its data is not `b[1]`. -/
theorem C16_counterexample :
    (update_page_cache plain id 8 7 0 (fun _ => 0x55) 1 disk4 = .ok disk4 ∧
      search_page_hash 8 7 (0 &&& PAGE_MASK) disk4 = .ok (none, disk4)) ∧
    (update_page_cache plain id 8 7 4095 (fun _ => 0x55) 2 warm = .ok cross_b ∧
      search_page_hash 8 7 (4095 &&& PAGE_MASK) cross_b = .ok (some 0, cross_c) ∧
      cross_c.mem (cross_c.data 0 + 4095 % PAGE_SIZE + 1) ≠ (fun _ => 0x55) 1) := by
  have hs0 : search_page_hash 8 7 (0 &&& PAGE_MASK) disk4 = .ok (none, disk4) :=
    search_page_hash_none (i := 1) rfl rfl
  have hs1 : search_page_hash 8 7 (4095 &&& PAGE_MASK) warm = .ok (some 0, cross_a) := rfl
  have hu := @update_page_cache_hit plain id 8 7 4095 (fun _ => 0x55) 2 0 warm cross_a
    (by decide) hs1 rfl
  have hr : release_page plain (cross_a.page 0)
      (memcpy_b cross_a (cross_a.data 0 + 4095 % PAGE_SIZE) (fun _ => 0x55)
        (min (PAGE_SIZE - 4095 % PAGE_SIZE) 2)) = .ok cross_b := rfl
  refine ⟨⟨update_page_cache_miss plain id _ 1 hs0, hs0⟩, hu.trans hr, rfl, ?_⟩
  decide

/-- Witness of C16: in `warm`, `update_page_cache(7, 100, b, 10)` finds frame 0
and afterwards `search_page_hash(7, 0)` returns frame 0 with `b[0..10)` at
in-page offset 100. -/
theorem C16_witness :
    ∃ s2, update_page_cache plain id 8 7 100 (fun _ => 0x55) 10 warm = .ok s2 ∧
      ∃ s3, search_page_hash 8 7 (100 &&& PAGE_MASK) s2 = .ok (some 0, s3) ∧
        ∀ k, k < min 10 (PAGE_SIZE - 100 % PAGE_SIZE) →
          s3.mem (s3.data 0 + 100 % PAGE_SIZE + k) = (fun _ => 0x55) k :=
  (C16_update_page_cache_in_page plain id 8 7 100 (fun _ => 0x55) 10 warm [1, 2, 3, 0]
    warm_chains warm_pool (by decide) (by decide)).1 0
    ⟨⟨1, by decide, by decide⟩, rfl, by decide⟩

/-- In a well-formed pool, `search_page_hash` for an identity that a frame is
cached under returns that frame. -/
theorem PoolWF.search_cached {m : Machine} {s : State} {free : List Nat}
    {chains : Nat → List Nat} (h : PoolWF m s free chains) {f i o fuel : Nat}
    (hc : Cached s chains f i o) (hfuel : NR_PAGES m s ≤ fuel) :
    ∃ s2, search_page_hash fuel i o s = .ok (some f, s2) := by
  obtain ⟨⟨c, hc1, hfc⟩, hino, hoff⟩ := hc
  obtain ⟨j, hj1, hj2⟩ := h.hash.ident c hc1 f hfc
  rw [hino] at hj1
  have hji : j = i := (Option.some.inj hj1).symm
  subst hji
  rw [hoff] at hj2
  obtain ⟨s1, h1, -, -⟩ := h.hit_release hc1 hfc
  refine ⟨s1, ?_⟩
  rw [h.hash.search_found h.unique hj2 hfc ⟨hino, hoff⟩ (le_trans (h.chain_le hc1) hfuel)]
  exact h1

/-- In a well-formed pool, `search_page_hash` for an identity that no frame is
cached under returns `NULL` and writes nothing. -/
theorem PoolWF.search_uncached {m : Machine} {s : State} {free : List Nat}
    {chains : Nat → List Nat} (h : PoolWF m s free chains) {i o fuel : Nat}
    (hc : ∀ f, ¬ Cached s chains f i o) (hfuel : NR_PAGES m s ≤ fuel) :
    search_page_hash fuel i o s = .ok (none, s) := by
  obtain ⟨b, hpb⟩ := PAGE_HASH_ok h.hash_size (s.inodes i).inode o
  have hblt := PAGE_HASH_lt h.hash.size hpb
  exact h.hash.search_missed hpb (fun f hf hid => hc f ⟨⟨b, hblt, hf⟩, hid⟩)
    (le_trans (h.chain_le hblt) hfuel)

/-- A `file_read` of one whole page that is not cached, when it returns
`PAGE_SIZE`: the first frame of the free list was taken for the page and is
now the last of the list, cached under the identity of the page; the other
frames are cached as they were. -/
theorem ReadInv.read_page {m : Machine} {inner i buffer : Nat} {s : State} {free : List Nat}
    {chains : Nat → List Nat} (h : ReadInv m inner i buffer PAGE_SIZE s free chains)
    (e : Env) (sleep : State → State) {fuel o : Nat} {r : ReadEnd}
    (ho : o % PAGE_SIZE = 0) (ho32 : o < 2 ^ 32) (hsize : o + PAGE_SIZE ≤ (s.inodes i).i_size)
    (hnc : ∀ f, ¬ Cached s chains f i (o &&& PAGE_MASK))
    (hr : file_read m e sleep inner fuel i o buffer PAGE_SIZE s = .ok r)
    (hret : r.ret = ((PAGE_SIZE : Nat) : Int)) :
    ∃ f0 rest chains2, free = f0 :: rest ∧ PoolWF m r.mem (rest ++ [f0]) chains2 ∧
      r.mem.inodes = s.inodes ∧ r.mem.data = s.data ∧ NR_PAGES m r.mem = NR_PAGES m s ∧
      ∀ f j o2, Cached r.mem chains2 f j o2 ↔
        (f = f0 ∧ j = i ∧ o2 = o &&& PAGE_MASK) ∨ (f ≠ f0 ∧ Cached s chains f j o2) := by
  have hfd : (if o > (s.inodes i).i_size then (s.inodes i).i_size else o) = o := by
    rw [if_neg (by omega)]
  unfold file_read at hr
  simp only [hfd] at hr
  have ho4 : o % 4096 = 0 := ho
  have hsize4 : o + 4096 ≤ (s.inodes i).i_size := hsize
  have hcl : file_read_clamp (s.inodes i).i_size o PAGE_SIZE = PAGE_SIZE := by
    apply file_read_clamp_keep
    show (o + 4096) % 2 ^ 32 ≤ _
    omega
  have hbt : min (PAGE_SIZE - o % PAGE_SIZE) PAGE_SIZE = PAGE_SIZE := by
    rw [ho]; simp
  rcases file_read_loop_cases hr with ⟨h0, -⟩ | ⟨-, k, -, t, s1, hfetch, hcase⟩
  · rw [hcl] at h0
    exact absurd h0 (by decide)
  · rw [hcl, hbt] at hcase
    rcases hcase with ⟨-, hr1⟩ | ⟨pg, -, hr1⟩ | ⟨pg, s2, r2, ht, hcopy, hrest, hr1⟩
    · have : (-ENOMEM : Int) = ((PAGE_SIZE : Nat) : Int) := by rw [hr1] at hret; exact hret
      exact absurd this (by decide)
    · have : (- EIO : Int) = ((PAGE_SIZE : Nat) : Int) := by rw [hr1] at hret; exact hret
      exact absurd this (by decide)
    · obtain ⟨t', s1', hfetch', hcase'⟩ := h.pass e sleep o 0 PAGE_SIZE
      rw [hfetch] at hfetch'
      simp only [Except.ok.injEq, Prod.mk.injEq] at hfetch'
      obtain ⟨rfl, rfl⟩ := hfetch'
      rcases hcase' with ⟨q, hq⟩ |
        ⟨q, hq, s2', free2, chains2, hcopy', hinv2, hin2, hd2, hN2, -, -, hdet⟩
      · rcases ht with ht | ht <;> rw [ht] at hq <;> exact absurd hq (by simp)
      · have hpq : pg = q := by
          rcases ht with ht | ht <;> rcases hq with hq | hq <;> rw [ht] at hq <;>
            first
              | exact Fetch.found.inj hq
              | exact Fetch.filled.inj hq
              | exact absurd hq (by simp)
        subst hpq
        rw [hcopy] at hcopy'
        simp only [Except.ok.injEq] at hcopy'
        subst hcopy'
        have hr2 : r2.mem = s2 := by
          rcases file_read_loop_cases hrest with ⟨-, hq⟩ | ⟨hne, -⟩
          · rw [hq]
          · exfalso
            apply hne
            rw [Nat.sub_self]
            apply file_read_clamp_keep
            rw [hin2]
            show ((o + 4096) % 2 ^ 32 + 0) % 2 ^ 32 ≤ _
            omega
        have hmem : r.mem = s2 := by rw [hr1]; exact hr2
        rcases hdet with ⟨-, hcached, -, -⟩ | ⟨-, -, ⟨rest, hfree, hfree2⟩, hC⟩
        · exact absurd hcached (hnc pg)
        · subst hfree2
          rw [hmem]
          exact ⟨pg, rest, chains2, hfree, hinv2.pool, hin2, hd2, hN2, hC⟩

/-- One read of the eviction scenario: a `file_read` of a whole page that is
not cached and that returns `PAGE_SIZE` takes the first free frame for it and
puts it last. -/
theorem Holds.read {m : Machine} {s0 s : State} {f0 f1 : Nat} {rest frames : List Nat}
    {C : Nat → Nat → Nat → Prop} (h : Holds m s0 s (f0 :: f1 :: rest) C)
    {inner fuel buffer i o : Nat} (e : Env) (sleep : State → State) {r : ReadEnd}
    (hk : PageKey s0 frames buffer i o) (hsub : ∀ n ∈ f0 :: f1 :: rest, n ∈ frames)
    (hpages : NR_PAGES m s0 ≤ inner) (hpage : PAGE_SIZE ≤ inner)
    (hnew : ∀ f, ¬ C f i o)
    (hr : file_read m e sleep inner fuel i o buffer PAGE_SIZE s = .ok r)
    (hret : r.ret = ((PAGE_SIZE : Nat) : Int)) :
    Holds m s0 r.mem (f1 :: rest ++ [f0])
      (fun f j o2 => (f = f0 ∧ j = i ∧ o2 = o) ∨ (f ≠ f0 ∧ C f j o2)) := by
  obtain ⟨chains, hpool, hin, hda, hN, hC⟩ := h
  obtain ⟨ho, ho32, hsize, hblk, hap⟩ := hk
  have hmask : o &&& PAGE_MASK = o := and_PAGE_MASK_aligned ho ho32
  have hinv : ReadInv m inner i buffer PAGE_SIZE s (f0 :: f1 :: rest) chains := by
    refine ⟨hpool, by simp, ?_, by rw [hin]; exact hblk, by rw [hN]; exact hpages, hpage⟩
    intro n hn x
    rw [hda, hin]
    exact hap n (hsub n hn) x
  obtain ⟨g0, rest2, chains2, hfree, hpool2, hin2, hda2, hN2, hC2⟩ :=
    hinv.read_page e sleep ho ho32 (by rw [hin]; exact hsize)
      (fun f hf => hnew f ((hC f i o).1 (hmask ▸ hf))) hr hret
  obtain ⟨rfl, rfl⟩ := List.cons.inj hfree
  refine ⟨chains2, hpool2, hin2.trans hin, hda2.trans hda, hN2.trans hN, fun f j o2 => ?_⟩
  rw [hC2 f j o2, hmask, hC f j o2]

/-- C20: eviction under pressure.  From the memory built by `page_init` with
exactly four usable frames `a, b, c, d` (in ascending order) and an empty hash
index, five `file_read` calls read one whole page each at five distinct keys
`k1 .. k5`, each call returning `PAGE_SIZE`.  Afterwards `search_page_hash`
finds `k2`, `k3`, `k4` and `k5` (in the frames `b`, `c`, `d` and `a`), returns
`NULL` for `k1`, and returns `NULL` for every key other than `k2 .. k5`. -/
theorem C20_eviction_under_pressure (m : Machine) (e1 e2 e3 e4 e5 : Env)
    (sleep : State → State) (inner fuel pages buffer : Nat) (s0 s : State) (a b c d : Nat)
    (i1 o1 i2 o2 i3 o3 i4 o4 i5 o5 : Nat) (r1 r2 r3 r4 r5 : ReadEnd)
    (hh : s0.page_head = none) (hp : pages ≤ NR_PAGES m s0)
    (hd : sizeof_uint ∣ s0.page_hash_table_size) (hsz : 0 < s0.page_hash_table_size)
    (hoff : 0 < m.PAGE_OFFSET) (hmap : pages * PAGE_SIZE + m.PAGE_OFFSET ≤ 2 ^ 32)
    (hinit : page_init m pages s0 = .ok s)
    (hfour : (List.range pages).filter (usable m) = [a, b, c, d])
    (hkeys : [(i1, o1), (i2, o2), (i3, o3), (i4, o4), (i5, o5)].Nodup)
    (hk1 : PageKey s [a, b, c, d] buffer i1 o1) (hk2 : PageKey s [a, b, c, d] buffer i2 o2)
    (hk3 : PageKey s [a, b, c, d] buffer i3 o3) (hk4 : PageKey s [a, b, c, d] buffer i4 o4)
    (hk5 : PageKey s [a, b, c, d] buffer i5 o5)
    (hpages : NR_PAGES m s ≤ inner) (hpage : PAGE_SIZE ≤ inner)
    (h1 : file_read m e1 sleep inner fuel i1 o1 buffer PAGE_SIZE s = .ok r1)
    (hr1 : r1.ret = ((PAGE_SIZE : Nat) : Int))
    (h2 : file_read m e2 sleep inner fuel i2 o2 buffer PAGE_SIZE r1.mem = .ok r2)
    (hr2 : r2.ret = ((PAGE_SIZE : Nat) : Int))
    (h3 : file_read m e3 sleep inner fuel i3 o3 buffer PAGE_SIZE r2.mem = .ok r3)
    (hr3 : r3.ret = ((PAGE_SIZE : Nat) : Int))
    (h4 : file_read m e4 sleep inner fuel i4 o4 buffer PAGE_SIZE r3.mem = .ok r4)
    (hr4 : r4.ret = ((PAGE_SIZE : Nat) : Int))
    (h5 : file_read m e5 sleep inner fuel i5 o5 buffer PAGE_SIZE r4.mem = .ok r5)
    (hr5 : r5.ret = ((PAGE_SIZE : Nat) : Int)) :
    (∃ t, search_page_hash inner i2 o2 r5.mem = .ok (some b, t)) ∧
    (∃ t, search_page_hash inner i3 o3 r5.mem = .ok (some c, t)) ∧
    (∃ t, search_page_hash inner i4 o4 r5.mem = .ok (some d, t)) ∧
    (∃ t, search_page_hash inner i5 o5 r5.mem = .ok (some a, t)) ∧
    search_page_hash inner i1 o1 r5.mem = .ok (none, r5.mem) ∧
    ∀ j o, (j, o) ∉ [(i2, o2), (i3, o3), (i4, o4), (i5, o5)] →
      search_page_hash inner j o r5.mem = .ok (none, r5.mem) := by
  obtain ⟨hpool, -, -, -, -⟩ := page_init_pool hh hp hd hsz hoff hmap hinit
  rw [hfour] at hpool
  have hnd : [a, b, c, d].Nodup := hpool.ring.nodup
  simp only [List.nodup_cons, List.mem_cons, List.mem_singleton, List.not_mem_nil, or_false,
    not_or, List.nodup_nil, and_true, not_false_eq_true] at hnd
  obtain ⟨⟨hab, hac, had⟩, ⟨hbc, hbd⟩, hcd⟩ := hnd
  simp only [List.nodup_cons, List.mem_cons, List.mem_singleton, List.not_mem_nil, or_false,
    not_or, List.nodup_nil, and_true, not_false_eq_true, Prod.mk.injEq, not_and] at hkeys
  obtain ⟨⟨k12, k13, k14, k15⟩, ⟨k23, k24, k25⟩, ⟨k34, k35⟩, k45⟩ := hkeys
  have H0 : Holds m s s [a, b, c, d] (fun _ _ _ => False) :=
    ⟨_, hpool, rfl, rfl, rfl, fun f j o => by
      constructor
      · rintro ⟨⟨_, _, hm⟩, -⟩
        exact absurd hm (List.not_mem_nil f)
      · exact False.elim⟩
  have H1 : Holds m s r1.mem [b, c, d, a] (fun f j o => (f = a ∧ j = i1 ∧ o = o1) ∨ (f ≠ a ∧ False)) :=
    H0.read e1 sleep hk1 (fun n hn => hn) hpages hpage (fun f hf => hf) h1 hr1
  have H2 : Holds m s r2.mem [c, d, a, b] (fun f j o => (f = b ∧ j = i2 ∧ o = o2) ∨ (f ≠ b ∧
      ((f = a ∧ j = i1 ∧ o = o1) ∨ (f ≠ a ∧ False)))) :=
    H1.read e2 sleep hk2 (fun n hn => by
        simp only [List.mem_cons, List.mem_singleton, List.not_mem_nil, or_false] at hn ⊢
        rcases hn with h | h | h | h <;> simp only [h, true_or, or_true]) hpages hpage
      (by
        rintro f (⟨-, e1, e2⟩ | ⟨-, hf⟩)
        · exact k12 e1.symm e2.symm
        · exact hf) h2 hr2
  have H3 : Holds m s r3.mem [d, a, b, c] (fun f j o => (f = c ∧ j = i3 ∧ o = o3) ∨ (f ≠ c ∧
      ((f = b ∧ j = i2 ∧ o = o2) ∨ (f ≠ b ∧ ((f = a ∧ j = i1 ∧ o = o1) ∨ (f ≠ a ∧ False)))))) :=
    H2.read e3 sleep hk3 (fun n hn => by
        simp only [List.mem_cons, List.mem_singleton, List.not_mem_nil, or_false] at hn ⊢
        rcases hn with h | h | h | h <;> simp only [h, true_or, or_true]) hpages hpage
      (by
        rintro f (⟨-, e1, e2⟩ | ⟨-, ⟨-, e1, e2⟩ | ⟨-, hf⟩⟩)
        · exact k23 e1.symm e2.symm
        · exact k13 e1.symm e2.symm
        · exact hf) h3 hr3
  have H4 : Holds m s r4.mem [a, b, c, d] (fun f j o => (f = d ∧ j = i4 ∧ o = o4) ∨ (f ≠ d ∧
      ((f = c ∧ j = i3 ∧ o = o3) ∨ (f ≠ c ∧ ((f = b ∧ j = i2 ∧ o = o2) ∨
        (f ≠ b ∧ ((f = a ∧ j = i1 ∧ o = o1) ∨ (f ≠ a ∧ False)))))))) :=
    H3.read e4 sleep hk4 (fun n hn => by
        simp only [List.mem_cons, List.mem_singleton, List.not_mem_nil, or_false] at hn ⊢
        rcases hn with h | h | h | h <;> simp only [h, true_or, or_true]) hpages hpage
      (by
        rintro f (⟨-, e1, e2⟩ | ⟨-, ⟨-, e1, e2⟩ | ⟨-, ⟨-, e1, e2⟩ | ⟨-, hf⟩⟩⟩)
        · exact k34 e1.symm e2.symm
        · exact k24 e1.symm e2.symm
        · exact k14 e1.symm e2.symm
        · exact hf) h4 hr4
  have H5 : Holds m s r5.mem [b, c, d, a] (fun f j o => (f = a ∧ j = i5 ∧ o = o5) ∨ (f ≠ a ∧
      ((f = d ∧ j = i4 ∧ o = o4) ∨ (f ≠ d ∧
      ((f = c ∧ j = i3 ∧ o = o3) ∨ (f ≠ c ∧ ((f = b ∧ j = i2 ∧ o = o2) ∨
        (f ≠ b ∧ ((f = a ∧ j = i1 ∧ o = o1) ∨ (f ≠ a ∧ False)))))))))) :=
    H4.read e5 sleep hk5 (fun n hn => hn) hpages hpage
      (by
        rintro f (⟨-, e1, e2⟩ | ⟨-, ⟨-, e1, e2⟩ | ⟨-, ⟨-, e1, e2⟩ | ⟨-, ⟨-, e1, e2⟩ | ⟨-, hf⟩⟩⟩⟩)
        · exact k45 e1.symm e2.symm
        · exact k35 e1.symm e2.symm
        · exact k25 e1.symm e2.symm
        · exact k15 e1.symm e2.symm
        · exact hf) h5 hr5
  obtain ⟨chains, hp5, -, -, hN5, hC5⟩ := H5
  have hfuel : NR_PAGES m r5.mem ≤ inner := by rw [hN5]; exact hpages
  refine ⟨?_, ?_, ?_, ?_, ?_, ?_⟩
  · exact hp5.search_cached ((hC5 b i2 o2).2
      (.inr ⟨fun e => hab e.symm, .inr ⟨hbd, .inr ⟨hbc, .inl ⟨rfl, rfl, rfl⟩⟩⟩⟩)) hfuel
  · exact hp5.search_cached ((hC5 c i3 o3).2
      (.inr ⟨fun e => hac e.symm, .inr ⟨hcd, .inl ⟨rfl, rfl, rfl⟩⟩⟩)) hfuel
  · exact hp5.search_cached ((hC5 d i4 o4).2
      (.inr ⟨fun e => had e.symm, .inl ⟨rfl, rfl, rfl⟩⟩)) hfuel
  · exact hp5.search_cached ((hC5 a i5 o5).2 (.inl ⟨rfl, rfl, rfl⟩)) hfuel
  · refine hp5.search_uncached (fun f hf => ?_) hfuel
    rcases (hC5 f i1 o1).1 hf with ⟨-, e1, e2⟩ |
      ⟨hfa, ⟨-, e1, e2⟩ | ⟨-, ⟨-, e1, e2⟩ | ⟨-, ⟨-, e1, e2⟩ | ⟨-, ⟨hfa2, -⟩ | ⟨-, hf⟩⟩⟩⟩⟩
    · exact k15 e1 e2
    · exact k14 e1 e2
    · exact k13 e1 e2
    · exact k12 e1 e2
    · exact hfa hfa2
    · exact hf
  · intro j o hj
    simp only [List.mem_cons, List.mem_singleton, List.not_mem_nil, or_false, not_or,
      Prod.mk.injEq, not_and] at hj
    obtain ⟨n2, n3, n4, n5⟩ := hj
    refine hp5.search_uncached (fun f hf => ?_) hfuel
    rcases (hC5 f j o).1 hf with ⟨-, e1, e2⟩ |
      ⟨hfa, ⟨-, e1, e2⟩ | ⟨-, ⟨-, e1, e2⟩ | ⟨-, ⟨-, e1, e2⟩ | ⟨-, ⟨hfa2, -⟩ | ⟨-, hf⟩⟩⟩⟩⟩
    · exact n5 e1 e2
    · exact n4 e1 e2
    · exact n3 e1 e2
    · exact n2 e1 e2
    · exact hfa hfa2
    · exact hf

/-- A `file_read` of one whole page from the start of a file whose first page
is not cached: a frame is lent, filled, copied out and released. -/
theorem file_read_whole_page (m : Machine) (e : Env) (sleep : State → State)
    (inner fuel i buffer pg : Nat) (s s1 s2 s3 : State)
    (hsz : PAGE_SIZE ≤ (s.inodes i).i_size) (hsz3 : PAGE_SIZE ≤ (s3.inodes i).i_size)
    (hsearch : search_page_hash inner i 0 s = .ok (none, s))
    (hget : get_free_page sleep inner s = .ok (some pg, s1))
    (ha : s1.data pg ≠ 0) (hpg : V2P m (s1.data pg) >>> PAGE_SHIFT = pg)
    (hb : bread_page e inner pg i 0 0 MAP_SHARED s1 = .ok (0, s2))
    (hl : s2.locked pg = 0) (hpg2 : V2P m (s2.data pg) >>> PAGE_SHIFT = pg)
    (hrel : release_page m pg
      (memcpy_b s2 buffer (fun k => s2.mem (s2.data pg + 0 + k)) PAGE_SIZE) = .ok s3) :
    file_read m e sleep inner (fuel + 1) i 0 buffer PAGE_SIZE s =
      .ok ⟨((PAGE_SIZE : Nat) : Int), PAGE_SIZE, s3, [⟨s, 0, .filled pg, PAGE_SIZE, s2⟩]⟩ := by
  have hfetch : file_read_fetch m e sleep inner i (0 &&& PAGE_MASK) s = .ok (.filled pg, s2) :=
    file_read_fetch_filled hsearch (kmalloc_some hget) ha hpg hb
  have hcnt : file_read_clamp (s.inodes i).i_size 0 PAGE_SIZE = PAGE_SIZE :=
    file_read_clamp_keep (by show (0 + 4096) % 2 ^ 32 ≤ _; have h4 : 4096 ≤ _ := hsz; omega)
  have hbytes : min (PAGE_SIZE - 0 % PAGE_SIZE) PAGE_SIZE = PAGE_SIZE := rfl
  have hcopy : file_read_copy m sleep inner pg buffer 0 (0 % PAGE_SIZE)
      (min (PAGE_SIZE - 0 % PAGE_SIZE) PAGE_SIZE) s2 = .ok s3 := by
    rw [hbytes, file_read_copy_eq m sleep inner buffer 0 (0 % PAGE_SIZE) PAGE_SIZE hl]
    unfold kfree
    rw [hpg2]
    exact hrel
  have e0 : file_read m e sleep inner (fuel + 1) i 0 buffer PAGE_SIZE s =
      file_read_loop m e sleep inner i buffer (fuel + 1) 0 PAGE_SIZE 0 s := by
    unfold file_read
    rw [if_neg (by omega)]
  have hdone : file_read_clamp (s3.inodes i).i_size ((0 + PAGE_SIZE) % 2 ^ 32)
      (PAGE_SIZE - PAGE_SIZE) = 0 := by
    rw [Nat.sub_self]
    exact file_read_clamp_keep
      (by show ((0 + 4096) % 2 ^ 32 + 0) % 2 ^ 32 ≤ _; have h4 : 4096 ≤ _ := hsz3; omega)
  rw [e0, file_read_loop_pass m e sleep inner i buffer fuel 0 (.inr rfl) hcnt (by decide)
    hfetch hcopy, hbytes, file_read_loop_done m e sleep inner i buffer fuel _ hdone]
  rfl

/-- Example for C20, first read: inode 4 through frame 0. -/
theorem evict_read1 :
    file_read plain hole_env id 4096 8 4 0 0x10000000 PAGE_SIZE disk4 =
      .ok ⟨((PAGE_SIZE : Nat) : Int), PAGE_SIZE, evict1,
        [⟨disk4, 0, .filled 0, PAGE_SIZE, evict_fill 0 4 (evict_lend disk4)⟩]⟩ :=
  file_read_whole_page plain hole_env id 4096 7 4 0x10000000 0 disk4 (evict_lend disk4)
    (evict_fill 0 4 (evict_lend disk4)) evict1 (by decide) (by decide)
    (@search_page_hash_none disk4 4096 4 0 1 rfl rfl) rfl (by decide) (by decide) rfl rfl
    (by decide) rfl

/-- Example for C20, second read: inode 8 through frame 1. -/
theorem evict_read2 :
    file_read plain hole_env id 4096 8 8 0 0x10000000 PAGE_SIZE evict1 =
      .ok ⟨((PAGE_SIZE : Nat) : Int), PAGE_SIZE, evict2,
        [⟨evict1, 0, .filled 1, PAGE_SIZE, evict_fill 1 8 (evict_lend evict1)⟩]⟩ :=
  file_read_whole_page plain hole_env id 4096 7 8 0x10000000 1 evict1 (evict_lend evict1)
    (evict_fill 1 8 (evict_lend evict1)) evict2 (by decide) (by decide)
    (@search_page_hash_none evict1 4096 8 0 2 rfl rfl) rfl (by decide) (by decide) rfl rfl
    (by decide) rfl

/-- Example for C20, third read: inode 12 through frame 2. -/
theorem evict_read3 :
    file_read plain hole_env id 4096 8 12 0 0x10000000 PAGE_SIZE evict2 =
      .ok ⟨((PAGE_SIZE : Nat) : Int), PAGE_SIZE, evict3,
        [⟨evict2, 0, .filled 2, PAGE_SIZE, evict_fill 2 12 (evict_lend evict2)⟩]⟩ :=
  file_read_whole_page plain hole_env id 4096 7 12 0x10000000 2 evict2 (evict_lend evict2)
    (evict_fill 2 12 (evict_lend evict2)) evict3 (by decide) (by decide)
    (@search_page_hash_none evict2 4096 12 0 3 rfl rfl) rfl (by decide) (by decide) rfl rfl
    (by decide) rfl

/-- Example for C20, fourth read: inode 16 through frame 3. -/
theorem evict_read4 :
    file_read plain hole_env id 4096 8 16 0 0x10000000 PAGE_SIZE evict3 =
      .ok ⟨((PAGE_SIZE : Nat) : Int), PAGE_SIZE, evict4,
        [⟨evict3, 0, .filled 3, PAGE_SIZE, evict_fill 3 16 (evict_lend evict3)⟩]⟩ :=
  file_read_whole_page plain hole_env id 4096 7 16 0x10000000 3 evict3 (evict_lend evict3)
    (evict_fill 3 16 (evict_lend evict3)) evict4 (by decide) (by decide)
    (@search_page_hash_none evict3 4096 16 0 4 rfl rfl) rfl (by decide) (by decide) rfl rfl
    (by decide) rfl

/-- Example for C20, fifth read: inode 20 through frame 0, taken from inode 4. -/
theorem evict_read5 :
    file_read plain hole_env id 4096 8 20 0 0x10000000 PAGE_SIZE evict4 =
      .ok ⟨((PAGE_SIZE : Nat) : Int), PAGE_SIZE, evict5,
        [⟨evict4, 0, .filled 0, PAGE_SIZE, evict_fill 0 20 (evict_lend evict4)⟩]⟩ :=
  file_read_whole_page plain hole_env id 4096 7 20 0x10000000 0 evict4 (evict_lend evict4)
    (evict_fill 0 20 (evict_lend evict4)) evict5 (by decide) (by decide)
    (@search_page_hash_none evict4 4096 20 0 5 rfl rfl) rfl (by decide) (by decide) rfl rfl
    (by decide) rfl

/-- In `disk4`, the first page of every file is a key that can be read into a
buffer at 0x10000000. -/
theorem disk4_key (i : Nat) : PageKey disk4 [0, 1, 2, 3] 0x10000000 i 0 := by
  have hsize : (disk4.inodes i).i_size = 0x100000 := rfl
  have hblk : (disk4.inodes i).s_blocksize = 1024 := rfl
  have hps : PAGE_SIZE = 4096 := rfl
  refine ⟨rfl, by decide, ?_, ?_, ?_⟩
  · rw [hsize]; decide
  · rw [hblk]; decide
  intro n hn x h1 _
  have h0 : disk4.data 0 = 0xC0000000 := rfl
  have h1' : disk4.data 1 = 0xC0001000 := rfl
  have h2' : disk4.data 2 = 0xC0002000 := rfl
  have h3' : disk4.data 3 = 0xC0003000 := rfl
  simp only [List.mem_cons, List.mem_singleton, List.not_mem_nil, or_false] at hn
  rcases hn with rfl | rfl | rfl | rfl <;> omega

set_option maxRecDepth 8000 in
/-- Witness of C20: on the machine `plain`, `page_init(4)` builds `disk4` with
the usable frames 0, 1, 2, 3; the first pages of inodes 4, 8, 12, 16 and 20
are read in turn into a buffer at 0x10000000, each read returning 4096.  In
the memory left, `evict5`, the pages of inodes 8, 12, 16 and 20 are found in
frames 1, 2, 3 and 0, and no other key is found, the page of inode 4
included. -/
theorem C20_witness :
    page_init plain 4 disk0 = .ok disk4 ∧
    (∃ t, search_page_hash 4096 8 0 evict5 = .ok (some 1, t)) ∧
    (∃ t, search_page_hash 4096 12 0 evict5 = .ok (some 2, t)) ∧
    (∃ t, search_page_hash 4096 16 0 evict5 = .ok (some 3, t)) ∧
    (∃ t, search_page_hash 4096 20 0 evict5 = .ok (some 0, t)) ∧
    search_page_hash 4096 4 0 evict5 = .ok (none, evict5) ∧
    ∀ j o, (j, o) ∉ [(8, 0), (12, 0), (16, 0), (20, 0)] →
      search_page_hash 4096 j o evict5 = .ok (none, evict5) :=
  have hinit : page_init plain 4 disk0 = .ok disk4 := rfl
  have hp : 4 ≤ NR_PAGES plain disk0 := by decide
  have hd : sizeof_uint ∣ disk0.page_hash_table_size := by decide
  have hsz : 0 < disk0.page_hash_table_size := by decide
  have hoff : 0 < plain.PAGE_OFFSET := by decide
  have hmap : 4 * PAGE_SIZE + plain.PAGE_OFFSET ≤ 2 ^ 32 := by decide
  have hfour : (List.range 4).filter (usable plain) = [0, 1, 2, 3] := by decide
  have hkeys : [(4, 0), (8, 0), (12, 0), (16, 0), (20, 0)].Nodup := by decide
  have hpages : NR_PAGES plain disk4 ≤ 4096 := by decide
  have hpage : PAGE_SIZE ≤ 4096 := by decide
  ⟨hinit, C20_eviction_under_pressure plain hole_env hole_env hole_env hole_env hole_env id
    4096 8 4 0x10000000 disk0 disk4 0 1 2 3 4 0 8 0 12 0 16 0 20 0
    ⟨((PAGE_SIZE : Nat) : Int), PAGE_SIZE, evict1,
      [⟨disk4, 0, .filled 0, PAGE_SIZE, evict_fill 0 4 (evict_lend disk4)⟩]⟩
    ⟨((PAGE_SIZE : Nat) : Int), PAGE_SIZE, evict2,
      [⟨evict1, 0, .filled 1, PAGE_SIZE, evict_fill 1 8 (evict_lend evict1)⟩]⟩
    ⟨((PAGE_SIZE : Nat) : Int), PAGE_SIZE, evict3,
      [⟨evict2, 0, .filled 2, PAGE_SIZE, evict_fill 2 12 (evict_lend evict2)⟩]⟩
    ⟨((PAGE_SIZE : Nat) : Int), PAGE_SIZE, evict4,
      [⟨evict3, 0, .filled 3, PAGE_SIZE, evict_fill 3 16 (evict_lend evict3)⟩]⟩
    ⟨((PAGE_SIZE : Nat) : Int), PAGE_SIZE, evict5,
      [⟨evict4, 0, .filled 0, PAGE_SIZE, evict_fill 0 20 (evict_lend evict4)⟩]⟩
    rfl hp hd hsz hoff hmap hinit hfour hkeys
    (disk4_key 4) (disk4_key 8) (disk4_key 12) (disk4_key 16) (disk4_key 20)
    hpages hpage
    evict_read1 rfl evict_read2 rfl evict_read3 rfl evict_read4 rfl evict_read5 rfl⟩

/-- Every frame below `k` is usable, or in the kernel image span, or outside
the span and not listed by the BIOS map: the three counts add up to `k`. -/
theorem filter_range_three (m : Machine) (k : Nat) :
    ((List.range k).filter (usable m)).length + ((List.range k).filter (in_kernel m)).length +
      ((List.range k).filter
        (fun n => !in_kernel m n && !m.addr_in_bios_map (frame_addr n))).length = k := by
  induction k with
  | zero => rfl
  | succ k ih =>
    rw [filter_range_succ, filter_range_succ, filter_range_succ]
    simp only [List.length_append]
    unfold usable
    cases hk : in_kernel m k <;> cases hb : m.addr_in_bios_map (frame_addr k) <;>
      simp only [Bool.not_true, Bool.not_false, Bool.and_true, Bool.and_false, Bool.false_and,
        Bool.true_and, if_true, Bool.false_eq_true, if_false, List.length_singleton,
        List.length_nil] <;>
      (unfold usable at ih; omega)

/-- C22: `page_init(pages)`, entered with `page_head` `NULL`, the counters of
`kstat` zero and a frame table that holds `pages` descriptors, returns, and in
the memory it leaves: a frame `n < pages` is marked `PAGE_RESERVED` iff its
address `n << PAGE_SHIFT` lies in `[KERNEL_ENTRY_ADDR, V2P(_last_data_addr))`
or is not in the BIOS map; the free list is the circular list of the frames
below `pages` that are not reserved, in ascending order, `page_head` being the
first of them; `free_pages` and `total_mem_pages` both equal their number; and
`free_pages + kernel_reserved / 4 + physical_reserved / 4 == pages`. -/
theorem C22_page_init_builds_free_list (m : Machine) (pages : Nat) (s0 : State)
    (hh : s0.page_head = none) (hk : s0.kstat = Kstat.zero) (hp : pages ≤ NR_PAGES m s0) :
    ∃ s, page_init m pages s0 = .ok s ∧
      (∀ n < pages, reserved s n ↔
        (m.KERNEL_ENTRY_ADDR ≤ frame_addr n ∧ frame_addr n < m.last_data_addr) ∨
          m.addr_in_bios_map (frame_addr n) = false) ∧
      FreeRing s ((List.range pages).filter (fun n => decide (¬ reserved s n))) ∧
      (∀ n, OnFreeList s n ↔ n < pages ∧ ¬ reserved s n) ∧
      ((List.range pages).filter (fun n => decide (¬ reserved s n))).Pairwise (· < ·) ∧
      s.page_head = ((List.range pages).filter (fun n => decide (¬ reserved s n))).head? ∧
      s.kstat.free_pages =
        (((List.range pages).filter (fun n => decide (¬ reserved s n))).length : Int) ∧
      s.kstat.total_mem_pages =
        (((List.range pages).filter (fun n => decide (¬ reserved s n))).length : Int) ∧
      s.kstat.free_pages + s.kstat.kernel_reserved / 4 + s.kstat.physical_reserved / 4 =
        (pages : Int) := by
  obtain ⟨s2, h2, hi⟩ := page_init_loop m (page_init_clear m s0) hh pages
  refine ⟨_, page_init_eq h2, ?_⟩
  generalize hs : ({ s2 with kstat := { s2.kstat with
    total_mem_pages := s2.kstat.free_pages
    kernel_reserved := s2.kstat.kernel_reserved * 4
    physical_reserved := s2.kstat.physical_reserved * 4 } } : State) = s
  have hflags : ∀ n < pages, s2.flags n = if usable m n = false then PAGE_RESERVED else 0 := by
    intro n hn
    rw [hi.flags n]
    have : (if n < NR_PAGES m s0 then 0 else s0.flags n) = 0 := if_pos (by omega)
    by_cases hu : usable m n = false
    · simp [hn, hu]
    · rw [if_neg (fun h => hu h.2), if_neg hu]
      exact this
  have hres : ∀ n < pages, reserved s n ↔ usable m n = false := by
    intro n hn
    have hf := hflags n hn
    have e : reserved s n ↔ reserved s2 n := by rw [← hs]; rfl
    rw [e]
    by_cases hu : usable m n = false
    · rw [if_pos hu] at hf
      rw [reserved_iff_flags (Or.inr hf)]
      simp [hf, hu]
    · rw [if_neg hu] at hf
      rw [reserved_iff_flags (Or.inl hf), hf]
      simp only [hu, iff_false]
      decide
  have hL : (List.range pages).filter (fun n => decide (¬ reserved s n)) =
      (List.range pages).filter (usable m) := by
    apply List.filter_congr
    intro n hn
    have := hres n (List.mem_range.1 hn)
    by_cases hu : usable m n = true
    · have : ¬ reserved s n := fun h => by rw [this.1 h] at hu; exact absurd hu (by decide)
      simp [this, hu]
    · have hu2 : usable m n = false := by simpa using hu
      simp [this.2 hu2, hu2]
  have hring : FreeRing s ((List.range pages).filter (usable m)) := by
    have := hi.ring
    rw [← hs]
    revert this
    cases (List.range pages).filter (usable m) <;> exact id
  have hfree : s.kstat.free_pages = (((List.range pages).filter (usable m)).length : Int) := by
    rw [← hs]
    show s2.kstat.free_pages = _
    rw [hi.free_pages]
    show s0.kstat.free_pages + _ = _
    rw [hk]
    simp [Kstat.zero]
  have hker : s.kstat.kernel_reserved =
      (((List.range pages).filter (in_kernel m)).length : Int) * 4 := by
    rw [← hs]
    show s2.kstat.kernel_reserved * 4 = _
    rw [hi.kernel_reserved]
    show (s0.kstat.kernel_reserved + _) * 4 = _
    rw [hk]
    simp [Kstat.zero]
  have hphy : s.kstat.physical_reserved = (((List.range pages).filter
      (fun n => !in_kernel m n && !m.addr_in_bios_map (frame_addr n))).length : Int) * 4 := by
    rw [← hs]
    show s2.kstat.physical_reserved * 4 = _
    rw [hi.physical_reserved]
    show (s0.kstat.physical_reserved + _) * 4 = _
    rw [hk]
    simp [Kstat.zero]
  rw [hL]
  refine ⟨?_, hring, ?_, ?_, ?_, hfree, ?_, ?_⟩
  · intro n hn
    rw [hres n hn]
    unfold usable in_kernel
    by_cases h1 : m.KERNEL_ENTRY_ADDR ≤ frame_addr n ∧ frame_addr n < m.last_data_addr
    · simp [h1]
    · cases hb : m.addr_in_bios_map (frame_addr n) <;> simp [h1]
  · intro n
    rw [hring.on_free_iff n]
    simp only [List.mem_filter, List.mem_range]
    constructor
    · rintro ⟨hn, hu⟩
      exact ⟨hn, fun h => by rw [(hres n hn).1 h] at hu; exact absurd hu (by decide)⟩
    · rintro ⟨hn, hr⟩
      refine ⟨hn, ?_⟩
      by_contra hu
      exact hr ((hres n hn).2 (by simpa using hu))
  · exact List.Pairwise.sublist (List.filter_sublist _) (List.pairwise_lt_range pages)
  · have := hring
    revert this
    cases (List.range pages).filter (usable m) with
    | nil => exact id
    | cons a t => exact fun h => h.1
  · rw [← hfree, ← hs]
  · rw [hfree, hker, hphy, Int.mul_ediv_cancel _ (by decide), Int.mul_ediv_cancel _ (by decide)]
    have := filter_range_three m pages
    omega

/-- Witness of C22: `page_init(4)` on the machine `boot`, whose kernel image
is frame 1, from an all-zero memory with room for four descriptors. -/
theorem C22_witness :
    ∃ s, page_init boot 4 (blank 176 4096) = .ok s ∧
      (∀ n < 4, reserved s n ↔
        (boot.KERNEL_ENTRY_ADDR ≤ frame_addr n ∧ frame_addr n < boot.last_data_addr) ∨
          boot.addr_in_bios_map (frame_addr n) = false) ∧
      FreeRing s ((List.range 4).filter (fun n => decide (¬ reserved s n))) ∧
      s.kstat.free_pages + s.kstat.kernel_reserved / 4 + s.kstat.physical_reserved / 4 =
        ((4 : Nat) : Int) :=
  let ⟨s, h, h1, h2, _, _, _, _, _, h8⟩ :=
    C22_page_init_builds_free_list boot 4 (blank 176 4096) rfl rfl (by decide)
  ⟨s, h, h1, h2, h8⟩

/-- C21, evaluated where it fails: `page_init(2)` on the machine `plain` builds
a pool whose usable frames are 0 and 1; the first `get_free_page` returns
frame 0; the second, with the memory unchanged while it sleeps, returns `NULL`
although frame 1 is on the free list, unheld, and `free_pages` is 1.  No two
consecutive calls return two frames. -/
theorem C21_last_frame_never_lent :
    page_init plain 2 (blank 88 4096) = .ok init_example ∧
    (List.range 2).filter (usable plain) = [0, 1] ∧
    get_free_page id 0 init_example = .ok (some 0, pair_lent) ∧
    get_free_page id 0 pair_lent = .ok (none, pair_lent) ∧
    OnFreeList pair_lent 1 ∧ pair_lent.count 1 = 0 ∧ pair_lent.kstat.free_pages = 1 ∧
    ¬ ∃ f g s1 s2, get_free_page id 0 init_example = .ok (some f, s1) ∧
      get_free_page id 0 s1 = .ok (some g, s2) := by
  have h1 : get_free_page id 0 init_example = .ok (some 0, pair_lent) := rfl
  have h2 : get_free_page id 0 pair_lent = .ok (none, pair_lent) := rfl
  refine ⟨rfl, by decide, h1, h2, .head rfl, rfl, rfl, ?_⟩
  rintro ⟨f, g, s1, s2, e1, e2⟩
  rw [h1] at e1
  simp only [Except.ok.injEq, Prod.mk.injEq, Option.some.injEq] at e1
  obtain ⟨-, rfl⟩ := e1
  rw [h2] at e2
  simp at e2

/-- On every path of `unix_connect` that comes to its sleep, the value returned
is 0 whatever the sleep returned. -/
theorem unix_connect_after_sleep (e : NetEnv) (fuel sc : Nat) (su : sockaddr_un)
    (addrlen : Int) (n : Net) (up : Nat) (hfam : su.sun_family = AF_UNIX)
    (hlen : 0 ≤ addrlen ∧ addrlen ≤ sizeof_sockaddr_un)
    (hname : 0 ≤ (e.malloc_name su.sun_path).1)
    (hnamei : e.namei (e.malloc_name su.sun_path).2 = 0)
    (hlook : lookup_unix_socket fuel (e.malloc_name su.sun_path).2 n = .ok (some up))
    (hq : (e.insert_socket_to_queue (n.socket up) sc n).1 = 0) :
    unix_connect e fuel sc su addrlen n =
      .ok (0, (e.sleep sc (e.insert_socket_to_queue (n.socket up) sc n).2).2) := by
  unfold unix_connect
  rw [if_neg (by simp [hfam]), if_neg (by omega), if_neg (by omega)]
  simp only [hnamei, ne_eq, not_true_eq_false, if_false, hlook, bind, Except.bind, hq, pure,
    Except.pure]

/-- A pass of the loop of `unix_read` that comes to its sleep, the sleep
returning non-zero: `unix_read` returns `-EINTR`. -/
theorem unix_read_interrupted (e : NetEnv) (s fd_flags : Nat) (buffer : Int) (count fuel : Nat)
    (n : Net) (hc : count ≠ 0)
    (hnone : n.size s = 0 ∨
      min (if n.writeoff s ≠ 0 then
            if n.readoff s ≥ n.writeoff s then PIPE_BUF - n.readoff s
            else n.writeoff s - n.readoff s
          else PIPE_BUF - n.readoff s) (count : Int) = 0)
    (hst : n.state s = SS_CONNECTED) (hblock : fd_flags &&& O_NONBLOCK = 0)
    (hint : (e.sleep s n).1 ≠ 0) :
    unix_read_loop e s fd_flags buffer count (fuel + 1) n = .ok (- EINTR, (e.sleep s n).2) := by
  unfold unix_read_loop
  rw [if_neg hc]
  have h1 : ¬ (n.size s ≠ 0 ∧
      min (if n.writeoff s ≠ 0 then
            if n.readoff s ≥ n.writeoff s then PIPE_BUF - n.readoff s
            else n.writeoff s - n.readoff s
          else PIPE_BUF - n.readoff s) (count : Int) ≠ 0) := by
    rintro ⟨a, b⟩
    rcases hnone with h | h
    · exact a h
    · exact b h
  simp only [h1, if_false, hst, ne_eq, not_true_eq_false, hblock, hint, not_false_eq_true,
    if_true]

/-- A pass of the loop of `unix_write` that comes to its sleep, the sleep
returning non-zero: `unix_write` returns `-EINTR`. -/
theorem unix_write_interrupted (e : NetEnv) (s fd_flags : Nat) (buffer : Int)
    (count fuel p : Nat) (bytes_written : Int) (n : Net) (hc : bytes_written < (count : Int))
    (hst : n.state s = SS_CONNECTED)
    (hfull : ¬ (min ((count : Int) - bytes_written)
        ((if n.readoff p ≠ 0 then
            if n.writeoff p ≤ n.readoff p then n.readoff p else PIPE_BUF
          else PIPE_BUF) - n.writeoff p) ≠ 0 ∧
      min ((count : Int) - bytes_written)
        ((if n.readoff p ≠ 0 then
            if n.writeoff p ≤ n.readoff p then n.readoff p else PIPE_BUF
          else PIPE_BUF) - n.writeoff p) ≤ PIPE_BUF))
    (hblock : fd_flags &&& O_NONBLOCK = 0) (hint : (e.sleep s n).1 ≠ 0) :
    unix_write_loop e s fd_flags buffer count (some p) (fuel + 1) bytes_written n =
      .ok (- EINTR, (e.sleep s n).2) := by
  unfold unix_write_loop
  rw [if_neg (not_not.2 hc)]
  simp only [hst, ne_eq, not_true_eq_false, if_false]
  rw [if_neg hfull]
  simp only [hblock, if_true, hint, not_false_eq_true]

/-- C23, evaluated where it fails.  Socket 1 listens on the path `/s`; socket 0
connects to it and the interruptible sleep of `unix_connect` returns 2 (it was
interrupted): `unix_connect` returns 0, which is not `-EINTR`.  The sibling
operations do return `-EINTR` when their sleep returns 2: `unix_read` on a
connected socket with nothing to read, and `unix_write` to a peer whose buffer
is full. -/
theorem C23_unix_connect_returns_success :
    (intr_env 2).sleep 0 listen_example = (2, listen_example) ∧
    unix_connect (intr_env 2) 8 0 { sun_family := AF_UNIX, sun_path := [47, 115] } 4
      listen_example = .ok (0, listen_example) ∧
    (0 : Int) ≠ - EINTR ∧
    unix_read (intr_env 2) 8 0 0 0x2000 16 pair_example = .ok (- EINTR, pair_example) ∧
    unix_write (intr_env 2) 8 0 0 0x2000 16 full_example = .ok (- EINTR, full_example) :=
  ⟨rfl, rfl, by decide, rfl, rfl⟩

/-- In every pool that `page_init` builds with exactly two usable frames `a`
and `b`, the first `get_free_page` returns `a` and leaves `b` alone on the
free list; a second `get_free_page` that finds the memory unchanged on waking
returns `NULL`. -/
theorem get_free_page_pair {m : Machine} {pages : Nat} {s0 s : State} {a b : Nat}
    (hh : s0.page_head = none) (hk : s0.kstat = Kstat.zero) (hp : pages ≤ NR_PAGES m s0)
    (hd : sizeof_uint ∣ s0.page_hash_table_size) (hinit : page_init m pages s0 = .ok s)
    (hpair : (List.range pages).filter (usable m) = [a, b]) (sleep : State → State)
    (fuel : Nat) :
    ∃ s1, get_free_page sleep fuel s = .ok (some a, s1) ∧ FreeRing s1 [b] ∧
      s1.kstat.free_pages = 1 ∧
      ∀ (sleep2 : State → State) (fuel2 : Nat), sleep2 s1 = s1 →
        get_free_page sleep2 fuel2 s1 = .ok (none, s1) := by
  obtain ⟨s', hs', hinv⟩ := page_init_inv hh hk hp hd
  rw [hinit] at hs'
  simp only [Except.ok.injEq] at hs'
  subst hs'
  rw [hpair] at hinv
  obtain ⟨s1, h1, hinv1, -, -⟩ := hinv.take fuel
  refine ⟨s1, ?_, hinv1.ring, by simpa using hinv1.free_pages, ?_⟩
  · unfold Fiwix.get_free_page
    rw [hinv.ring.empty_test]
    simp only [List.cons_ne_nil, decide_False, bind, Except.bind, pure, Except.pure,
      Bool.false_eq_true, if_false, h1]
  · intro sleep2 fuel2 hq
    unfold Fiwix.get_free_page
    have he := hinv1.ring.empty_test
    simp only [decide_True] at he
    simp only [he, hq, bind, Except.bind, pure, Except.pure, if_true]

/-- The first loop of `bread_page`, when it runs to its end from the start of
block `j`, leaves every byte of the page from that block on as `fill_byte`
gives it. -/
theorem bread_page_loop_cached_bytes {e : Env} {pg i blksize offset : Nat} {fuel : Nat}
    {j size_read off : Nat} {s s1 : State}
    (hsr : size_read = j * blksize) (hoff : off = offset + size_read)
    (h : bread_page_loop_cached e pg i blksize fuel size_read off s = .ok (true, s1))
    (k : Nat) (hk1 : size_read ≤ k) (hk2 : k < PAGE_SIZE) :
    s1.mem (s.data pg + k) = fill_byte e (s.inodes i).dev i blksize offset k := by
  induction fuel generalizing j size_read off s with
  | zero =>
    unfold bread_page_loop_cached at h
    split at h
    · simp at h
    · omega
  | succ n ih =>
    unfold bread_page_loop_cached at h
    split at h
    · dsimp only at h
      have hstep : ∀ (src : Nat → Nat) (s' : State),
          s' = memcpy_b s (s.data pg + size_read) src blksize ∨
            (s' = memset_b s (s.data pg + size_read) 0 blksize ∧ src = fun _ => 0) →
          bread_page_loop_cached e pg i blksize n (size_read + blksize) (off + blksize) s'
            = .ok (true, s1) →
          (∀ t, t < blksize → fill_byte e (s.inodes i).dev i blksize offset (size_read + t)
            = src t) →
          s1.mem (s.data pg + k) = fill_byte e (s.inodes i).dev i blksize offset k := by
        intro src s' hs' hrest hsrc
        have hd : s'.data = s.data := by rcases hs' with e1 | ⟨e1, -⟩ <;> rw [e1] <;> rfl
        have hi : s'.inodes = s.inodes := by rcases hs' with e1 | ⟨e1, -⟩ <;> rw [e1] <;> rfl
        by_cases hlt : k < size_read + blksize
        · have hm := bread_page_loop_cached_mem hrest (s.data pg + k)
            (.inl (by rw [hd]; omega))
          rw [show s1.mem (s.data pg + k) = s'.mem (s.data pg + k) from hm]
          have hkt : k = size_read + (k - size_read) := by omega
          rw [hkt, hsrc (k - size_read) (by omega)]
          rcases hs' with e1 | ⟨e1, e2⟩
          · rw [e1]
            show (if s.data pg + size_read ≤ s.data pg + (size_read + (k - size_read)) ∧
              s.data pg + (size_read + (k - size_read)) < s.data pg + size_read + blksize
              then src (s.data pg + (size_read + (k - size_read)) - (s.data pg + size_read))
              else _) = _
            rw [if_pos (by omega)]
            congr 1
            omega
          · rw [e1, e2]
            show (if s.data pg + size_read ≤ s.data pg + (size_read + (k - size_read)) ∧
              s.data pg + (size_read + (k - size_read)) < s.data pg + size_read + blksize
              then 0 else _) = _
            rw [if_pos (by omega)]
        · have := @ih (j + 1) (size_read + blksize) (off + blksize) s'
            (by rw [hsr, Nat.add_mul, Nat.one_mul]) (by omega) hrest (by omega)
          rw [hd, hi] at this
          exact this
      have hblock : ∀ t, t < blksize → offset + (size_read + t) / blksize * blksize = off := by
        intro t ht
        have : (size_read + t) / blksize = j := by
          rw [hsr]
          apply Nat.div_eq_of_lt_le
          · omega
          · rw [Nat.add_mul, Nat.one_mul]; omega
        rw [this, hoff, hsr]
      have hmod : ∀ t, t < blksize → (size_read + t) % blksize = t := by
        intro t ht
        rw [hsr, Nat.add_comm, Nat.add_mul_mod_self_right, Nat.mod_eq_of_lt ht]
      split at h
      · simp at h
      · rename_i hneg
        split at h
        · rename_i hnz
          split at h
          · rename_i hdirty
            split at h
            · simp at h
            · refine hstep _ _ (.inl rfl) h (fun t ht => ?_)
              unfold fill_byte
              simp only [hblock t ht, hmod t ht, hnz, ne_eq, not_false_eq_true, if_true, hdirty]
          · rename_i buf hdirty
            refine hstep buf _ (.inl rfl) h (fun t ht => ?_)
            unfold fill_byte
            simp only [hblock t ht, hmod t ht, hnz, ne_eq, not_false_eq_true, if_true, hdirty]
        · rename_i hz
          refine hstep (fun _ => 0) _ (.inr ⟨rfl, rfl⟩) h (fun t ht => ?_)
          unfold fill_byte
          simp only [hblock t ht]
          rw [if_neg hz]
    · omega

/-- A frame that is on a chain after `insert_to_hash(pg)` is `pg` or was on a
chain before. -/
theorem insert_to_hash_chain {pg : Nat} {s s2 : State} (h : insert_to_hash pg s = .ok s2)
    {b f : Nat} (hc : OnHashChain s2 b f) : f = pg ∨ ∃ b2, OnHashChain s b2 f := by
  cases hino : s.inode pg with
  | none => simp [insert_to_hash, hino, deref, bind, Except.bind] at h
  | some ino =>
    cases hp : PAGE_HASH s (s.inodes ino).inode (s.offset pg) with
    | error x => simp [insert_to_hash, hino, hp, deref, bind, Except.bind] at h
    | ok i =>
      cases hb : s.page_hash_table i with
      | none =>
        rw [insert_to_hash_empty hino hp hb] at h
        simp only [Except.ok.injEq] at h
        subst h
        induction hc with
        | @head x hh =>
          by_cases hbi : b = i
          · left
            have : upd s.page_hash_table i (some pg) b = some x := hh
            rw [hbi] at this
            simp only [upd, if_true, Option.some.injEq] at this
            exact this.symm
          · right
            have : upd s.page_hash_table i (some pg) b = some x := hh
            simp only [upd, if_neg hbi] at this
            exact ⟨b, .head this⟩
        | @next x y _ hx ih =>
          by_cases hxp : x = pg
          · have : upd s.next_hash pg none x = some y := hx
            simp [upd, hxp] at this
          · have hx2 : upd s.next_hash pg none x = some y := hx
            simp only [upd, if_neg hxp] at hx2
            rcases ih with e1 | ⟨b2, h2⟩
            · exact absurd e1 hxp
            · exact .inr ⟨b2, .next h2 hx2⟩
      | some h0 =>
        rw [insert_to_hash_front hino hp hb] at h
        simp only [Except.ok.injEq] at h
        subst h
        induction hc with
        | @head x hh =>
          by_cases hbi : b = i
          · left
            have : upd s.page_hash_table i (some pg) b = some x := hh
            rw [hbi] at this
            simp only [upd, if_true, Option.some.injEq] at this
            exact this.symm
          · right
            have : upd s.page_hash_table i (some pg) b = some x := hh
            simp only [upd, if_neg hbi] at this
            exact ⟨b, .head this⟩
        | @next x y _ hx ih =>
          by_cases hxp : x = pg
          · have : upd s.next_hash pg (some h0) x = some y := hx
            simp only [upd, hxp, if_true, Option.some.injEq] at this
            exact .inr ⟨i, .head (this ▸ hb)⟩
          · have hx2 : upd s.next_hash pg (some h0) x = some y := hx
            simp only [upd, if_neg hxp] at hx2
            rcases ih with e1 | ⟨b2, h2⟩
            · exact absurd e1 hxp
            · exact .inr ⟨b2, .next h2 hx2⟩

/-- `insert_to_hash` writes neither the bytes of memory nor the `data` fields
nor the inodes. -/
theorem insert_to_hash_mem {pg : Nat} {s s2 : State} (h : insert_to_hash pg s = .ok s2) :
    s2.mem = s.mem ∧ s2.data = s.data ∧ s2.inodes = s.inodes := by
  cases hino : s.inode pg with
  | none => simp [insert_to_hash, hino, deref, bind, Except.bind] at h
  | some ino =>
    cases hp : PAGE_HASH s (s.inodes ino).inode (s.offset pg) with
    | error x => simp [insert_to_hash, hino, hp, deref, bind, Except.bind] at h
    | ok i =>
      cases hb : s.page_hash_table i with
      | none =>
        rw [insert_to_hash_empty hino hp hb] at h
        simp only [Except.ok.injEq] at h
        subst h
        exact ⟨rfl, rfl, rfl⟩
      | some h0 =>
        rw [insert_to_hash_front hino hp hb] at h
        simp only [Except.ok.injEq] at h
        subst h
        exact ⟨rfl, rfl, rfl⟩

/-- The frame that the walk of `search_page_hash` returns is reached from where
the walk began. -/
theorem search_page_hash_loop_on_chain {s s3 : State} {inode offset b f : Nat} {fuel : Nat}
    {c : Option Nat} (hc : ∀ x, c = some x → OnHashChain s b x)
    (h : search_page_hash_loop inode offset fuel c s = .ok (some f, s3)) :
    OnHashChain s b f := by
  induction fuel generalizing c with
  | zero =>
    cases c with
    | none => simp [search_page_hash_loop] at h
    | some x => simp [search_page_hash_loop] at h
  | succ n ih =>
    cases c with
    | none => simp [search_page_hash_loop] at h
    | some x =>
      unfold search_page_hash_loop at h
      split at h
      · unfold search_page_hash_hit at h
        by_cases h0 : s.count x = 0
        · simp only [h0, if_true, bind, Except.bind, pure, Except.pure] at h
          cases hq : remove_from_free_list x s with
          | error z => rw [hq] at h; cases h
          | ok s1 =>
            rw [hq] at h
            simp only [Except.ok.injEq, Prod.mk.injEq, Option.some.injEq] at h
            rw [← h.1]
            exact hc x rfl
        · simp only [h0, if_false, bind, Except.bind, pure, Except.pure, Except.ok.injEq,
            Prod.mk.injEq, Option.some.injEq] at h
          rw [← h.1]
          exact hc x rfl
      · exact ih (fun y hy => .next (hc x rfl) hy) h

/-- The frame that `search_page_hash` returns is on a hash chain. -/
theorem search_page_hash_on_chain {s s3 : State} {fuel inode offset f : Nat}
    (h : search_page_hash fuel inode offset s = .ok (some f, s3)) :
    ∃ b, OnHashChain s b f := by
  unfold search_page_hash at h
  cases hp : PAGE_HASH s (s.inodes inode).inode offset with
  | error x => rw [hp] at h; cases h
  | ok b =>
    rw [hp] at h
    exact ⟨b, search_page_hash_loop_on_chain (fun x hx => .head hx) h⟩

/-- C15: `bread_page` publishes a frame only after it has produced all of its
bytes.  Whenever `bread_page(pg, i, offset, prot, flags)` returns non-zero, the
hash index is as before the call: the bucket heads, the chain links in both
directions, the table size and the `cached` counter are unchanged, so every
chain holds exactly the frames it held, and a frame that was not resident is
not resident afterwards.  And whatever it returns, a frame that is on a hash
chain afterwards, or that `search_page_hash` returns afterwards, either was on
a hash chain before the call, or is `pg`, and then `bread_page` returned 0
and each of the `PAGE_SIZE` bytes of the page of `pg` is the byte that the
fill is to produce there (`fill_byte`). -/
theorem C15_publication_only_after_fill (e : Env) (fuel pg i offset prot flags ret : Nat)
    (s s2 : State) (hb : bread_page e fuel pg i offset prot flags s = .ok (ret, s2)) :
    (ret ≠ 0 →
      s2.page_hash_table = s.page_hash_table ∧ s2.next_hash = s.next_hash ∧
      s2.prev_hash = s.prev_hash ∧ s2.page_hash_table_size = s.page_hash_table_size ∧
      s2.kstat.cached = s.kstat.cached ∧
      (∀ b n, OnHashChain s2 b n ↔ OnHashChain s b n) ∧
      (∀ n, Resident s2 n ↔ Resident s n)) ∧
    (∀ b f, OnHashChain s2 b f →
      (∃ b2, OnHashChain s b2 f) ∨
      (f = pg ∧ ret = 0 ∧ ∀ k, k < PAGE_SIZE →
        s2.mem (s2.data pg + k) =
          fill_byte e (s.inodes i).dev i (s.inodes i).s_blocksize offset k)) ∧
    (∀ fuel2 j o f s3, search_page_hash fuel2 j o s2 = .ok (some f, s3) →
      (∃ b2, OnHashChain s b2 f) ∨
      (f = pg ∧ ret = 0 ∧ ∀ k, k < PAGE_SIZE →
        s2.mem (s2.data pg + k) =
          fill_byte e (s.inodes i).dev i (s.inodes i).s_blocksize offset k)) := by
  have hchain : ∀ b f, OnHashChain s2 b f →
      (∃ b2, OnHashChain s b2 f) ∨
      (f = pg ∧ ret = 0 ∧ ∀ k, k < PAGE_SIZE →
        s2.mem (s2.data pg + k) =
          fill_byte e (s.inodes i).dev i (s.inodes i).s_blocksize offset k) := by
    intro b f hf
    rcases bread_page_cases hb with ⟨-, h⟩ | ⟨-, h⟩ | ⟨hr, -, s1, hs1, hloop, hins⟩ |
      ⟨-, -, s1, -, h⟩
    · rw [h] at hf; exact .inl ⟨b, hf⟩
    · exact .inl ⟨b, (on_hash_chain_congr (by rw [h]) (by rw [h]) b f).1 hf⟩
    · rcases insert_to_hash_chain hins hf with e1 | ⟨b2, h2⟩
      · refine .inr ⟨e1, hr, fun k hk => ?_⟩
        obtain ⟨hm, hd, -⟩ := insert_to_hash_mem hins
        have hd1 : s1.data = s.data := by rw [hs1]
        rw [hm, hd, hd1]
        exact @bread_page_loop_cached_bytes e pg i (s.inodes i).s_blocksize offset fuel 0 0
          offset _ s1 (by rw [Nat.zero_mul]) rfl hloop k (Nat.zero_le _) hk
      · exact .inl ⟨b2, (on_hash_chain_congr (by rw [hs1]) (by rw [hs1]) b2 f).1 h2⟩
    · exact .inl ⟨b, (on_hash_chain_congr (by rw [h]) (by rw [h]) b f).1 hf⟩
  refine ⟨fun hret => ?_, hchain, fun fuel2 j o f s3 hs => ?_⟩
  · have key : s2.page_hash_table = s.page_hash_table ∧ s2.next_hash = s.next_hash ∧
        s2.prev_hash = s.prev_hash ∧ s2.page_hash_table_size = s.page_hash_table_size ∧
        s2.kstat.cached = s.kstat.cached := by
      rcases bread_page_cases hb with ⟨-, h⟩ | ⟨-, h⟩ | ⟨h, -⟩ | ⟨h, -⟩
      · rw [h]; exact ⟨rfl, rfl, rfl, rfl, rfl⟩
      · rw [h]; exact ⟨rfl, rfl, rfl, rfl, rfl⟩
      · exact absurd h hret
      · exact absurd h hret
    obtain ⟨ht, hn, hp, hz, hc⟩ := key
    refine ⟨ht, hn, hp, hz, hc, on_hash_chain_congr ht hn, fun n => ?_⟩
    have hB : NR_PAGE_HASH s2 = NR_PAGE_HASH s := by unfold NR_PAGE_HASH; rw [hz]
    unfold Resident
    rw [hB]
    exact exists_congr fun b => and_congr_right fun _ => on_hash_chain_congr ht hn b n
  · obtain ⟨b, hbf⟩ := search_page_hash_on_chain hs
    exact hchain b f hbf

/-- Witness of C15.  The fill of frame 0 in the memory after `page_init(3)` and
one allocation fails on `bmap` and returns 1, leaving `cached` and the resident
frames as they were.  The fill of frame 0 in `dirty_example`, whose memory is
all 0xAA and whose hash index is empty, over a file of holes returns 0;
`search_page_hash(7, 0)` then returns frame 0, and every byte of its page is
the 0 that the fill is to produce. -/
theorem C15_witness :
    bread_page failing_env 1 0 7 0 0 MAP_SHARED
      (returned (get_free_page id 0 stale0) (none, stale0)).2 = .ok (1, stale1) ∧
    stale1.kstat.cached = (returned (get_free_page id 0 stale0) (none, stale0)).2.kstat.cached ∧
    (∀ n, Resident stale1 n ↔
      Resident (returned (get_free_page id 0 stale0) (none, stale0)).2 n) ∧
    bread_page hole_env 4 0 7 0 0 MAP_SHARED dirty_example = .ok (0, published_example) ∧
    (∃ t, search_page_hash 1 7 0 published_example = .ok (some 0, t)) ∧
    (∀ k, k < PAGE_SIZE → dirty_example.mem (dirty_example.data 0 + k) = 0xAA) ∧
    (∀ k, k < PAGE_SIZE → published_example.mem (published_example.data 0 + k) = 0) := by
  have h1 := (C15_publication_only_after_fill failing_env 1 0 7 0 0 MAP_SHARED 1
    (returned (get_free_page id 0 stale0) (none, stale0)).2 stale1 rfl).1 (by decide)
  have h2 := (C15_publication_only_after_fill hole_env 4 0 7 0 0 MAP_SHARED 0
    dirty_example published_example rfl).2.2 1 7 0 0
    (returned (search_page_hash 1 7 0 published_example) (none, published_example)).2 rfl
  refine ⟨rfl, h1.2.2.2.2.1, h1.2.2.2.2.2.2, rfl, ⟨_, rfl⟩, fun _ _ => rfl, fun k hk => ?_⟩
  rcases h2 with ⟨b, hb⟩ | ⟨-, -, hbytes⟩
  · refine absurd hb (not_on_chain_of_empty (fun c => ?_) b 0)
    show (if c < NR_PAGE_HASH (blank 88 4096) then none else none) = none
    split <;> rfl
  · rw [hbytes k hk]
    simp [fill_byte, hole_env]

/-- With the collaborators `hole_env` the first loop of `bread_page`, when it
returns, has run to its end. -/
theorem bread_page_loop_cached_hole {pg i blksize fuel size_read offset : Nat}
    {s : State} {r : Bool × State}
    (h : bread_page_loop_cached hole_env pg i blksize fuel size_read offset s = .ok r) :
    r.1 = true := by
  induction fuel generalizing size_read offset s with
  | zero =>
    unfold bread_page_loop_cached at h
    split at h
    · simp at h
    · simp only [Except.ok.injEq] at h
      subst h; rfl
  | succ k ih =>
    unfold bread_page_loop_cached at h
    split at h
    · exact ih h
    · simp only [Except.ok.injEq] at h
      subst h; rfl

/-- With the collaborators `hole_env` a shared fill, when it returns, returns 0. -/
theorem bread_page_hole {fuel pg i offset ret : Nat} {s s2 : State}
    (hb : bread_page hole_env fuel pg i offset 0 MAP_SHARED s = .ok (ret, s2)) : ret = 0 := by
  unfold Fiwix.bread_page at hb
  simp only [hole_env, Bool.not_true, Bool.or_self, Bool.false_eq_true, if_false] at hb
  rw [if_pos (.inl (by decide))] at hb
  simp only [bind, Except.bind] at hb
  split at hb
  · exact absurd hb (by simp)
  · rename_i r hr
    have h1 := bread_page_loop_cached_hole hr
    rw [h1] at hb
    simp only [if_true] at hb
    split at hb
    · exact absurd hb (by simp)
    · simp only [pure, Except.pure, Except.ok.injEq, Prod.mk.injEq] at hb
      exact hb.1.symm

/-- The pool of `long_disk`: frames 0, 1, 2, 3 free and nothing cached. -/
theorem long_disk_pool : PoolWF plain long_disk [0, 1, 2, 3] (fun _ => []) :=
  (@page_init_pool plain 4 long_disk0 long_disk rfl (by decide) (by decide)
    (by decide) (by decide) (by decide) rfl).1

/-- What the loop of `file_read` relies on holds in `long_disk` for inode 7 and
a buffer of 0x90000000 bytes at 0x10000000. -/
theorem long_disk_inv :
    ReadInv plain 4096 7 0x10000000 0x90000000 long_disk [0, 1, 2, 3] (fun _ => []) := by
  have hblk : (long_disk.inodes 7).s_blocksize = 1024 := rfl
  have hps : PAGE_SIZE = 4096 := rfl
  refine ⟨long_disk_pool, by decide, ?_, by rw [hblk]; decide, by decide, by decide⟩
  intro n hn x h1 h2
  have h0 : long_disk.data 0 = 0xC0000000 := rfl
  have h1' : long_disk.data 1 = 0xC0001000 := rfl
  have h2' : long_disk.data 2 = 0xC0002000 := rfl
  have h3' : long_disk.data 3 = 0xC0003000 := rfl
  simp only [List.mem_cons, List.mem_singleton, List.not_mem_nil, or_false] at hn
  rcases hn with rfl | rfl | rfl | rfl <;> omega

/-- The call `file_read(7, fd, 0x10000000, 0x90000000)` with `fd->offset` at
0x70001000, 4096 bytes before the end of the file, in `long_disk`: the sum
`fd->offset + count` wraps to 0x1000, so `count` is not cut, and the call
copies all 0x90000000 bytes without a failed allocation or fill. -/
theorem long_read :
    ∃ r, file_read plain hole_env id 4096 0x90000000 7 0x70001000 0x10000000 0x90000000
        long_disk = .ok r ∧
      (∀ p ∈ r.passes, ¬ AllocFailed id 4096 7 p ∧ ¬ FillFailed plain hole_env id 4096 7 p) ∧
      r.ret = s32 0x90000000 ∧ r.fd_offset = 0x1000 ∧
      (r.passes.map Pass.bytes).sum = 0x90000000 ∧
      ∀ k, k < 0x90000000 → ∃ p ∈ r.passes, ∃ pg,
        (p.fetch = .found pg ∨ p.fetch = .filled pg) ∧
        p.position &&& PAGE_MASK = ((0x70001000 + k) % 2 ^ 32) &&& PAGE_MASK ∧
        r.mem.mem (0x10000000 + k) =
          p.fetched.mem (p.fetched.data pg + (0x70001000 + k) % PAGE_SIZE) := by
  have hsize : (long_disk.inodes 7).i_size = 0x70002000 := rfl
  have hunf : file_read plain hole_env id 4096 0x90000000 7 0x70001000 0x10000000 0x90000000
      long_disk = file_read_loop plain hole_env id 4096 7 0x10000000 0x90000000 0x70001000
        0x90000000 0 long_disk := by
    unfold file_read
    rw [hsize, if_neg (by decide)]
  obtain ⟨r, hr, hnomem, hres⟩ := long_disk_inv.run hole_env id 0x90000000
    (show (0x70001000 + 0x90000000) % 2 ^ 32 ≤ (long_disk.inodes 7).i_size by
      rw [hsize]; decide)
    (show 0x70001000 < 2 ^ 32 by decide) (le_refl _)
    (show 0 + 0x90000000 ≤ 0x90000000 by decide) (show 0 + 0x90000000 < 2 ^ 32 by decide)
  have hrec := (file_read_loop_record _ hr).1
  have hio : ∀ p ∈ r.passes, ∀ pg, p.fetch ≠ .ioerr pg := by
    intro p hp pg hpg
    obtain ⟨s1, a, s2, ret, s3, -, -, -, hb, hret⟩ := (pass_ioerr_iff (hrec p hp)).1 ⟨pg, hpg⟩
    exact hret (bread_page_hole hb)
  refine ⟨r, hunf ▸ hr, fun p hp => ⟨fun ha => hnomem p hp ((pass_nomem_iff (hrec p hp)).2 ha),
    fun hf => ?_⟩, ?_⟩
  · obtain ⟨pg, hpg⟩ := (pass_ioerr_iff (hrec p hp)).2 hf
    exact hio p hp pg hpg
  rcases hres with ⟨p, hp, pg, hpg⟩ | ⟨-, hret, hoff, hsum, -, hbytes⟩
  · exact absurd hpg (hio p hp pg)
  · refine ⟨by rw [hret], hoff.trans (by decide), hsum, fun k hk => ?_⟩
    obtain ⟨p, hp, pg, hq, hmask, hval⟩ := hbytes k hk
    refine ⟨p, hp, pg, hq, hmask, ?_⟩
    rw [Nat.add_zero] at hval
    exact hval

/-- The loop of `file_read` entered with `count` runs as entered with the value
the clamp gives `count`, when the clamp leaves that value as it is. -/
theorem file_read_loop_clamped (m : Machine) (e : Env) (sleep : State → State)
    (inner i buffer fuel : Nat) {fd_offset count c : Nat} (total_read : Nat) {s : State}
    (hc : file_read_clamp (s.inodes i).i_size fd_offset count = c)
    (hc2 : file_read_clamp (s.inodes i).i_size fd_offset c = c) :
    file_read_loop m e sleep inner i buffer fuel fd_offset count total_read s =
      file_read_loop m e sleep inner i buffer fuel fd_offset c total_read s := by
  conv_lhs => unfold file_read_loop
  conv_rhs => unfold file_read_loop
  simp only [hc, hc2]

/-- Where the sum `fd->offset + count` does not wrap, `file_read(i, fd, buf,
count)` reads what is asked for up to the end of the file: on a well-formed
pool whose free list holds at least two frames, with the pages of the free
frames outside the buffer, a block size that is not zero, bounds that cover
the loops, a file shorter than `2 ^ 31` bytes and `min(fd->offset, i_size) +
count` below `2 ^ 32`.  The call
returns and no allocation fails in it; when no fill fails either, with
`o = min(fd->offset, i_size)` it returns `r = min(count, i_size - o)`, leaves
`fd->offset = o + r`, and for every `k < r` byte `k` of the buffer is the byte
at in-page offset `(o + k) % PAGE_SIZE` of the frame that a pass of the loop
found or filled for the page `(o + k) & PAGE_MASK`, as that frame was when the
pass had it. -/
theorem file_read_copies_unwrapped (m : Machine) (e : Env) (sleep : State → State)
    (inner fuel i fd_offset buffer count : Nat) (s : State) (free : List Nat)
    (chains : Nat → List Nat)
    (hpool : PoolWF m s free chains) (htwo : 2 ≤ free.length)
    (hblk : 0 < (s.inodes i).s_blocksize)
    (hapart : ∀ n ∈ free, ∀ x, s.data n ≤ x →
      x < s.data n + PAGE_SIZE + (s.inodes i).s_blocksize → x < buffer ∨ buffer + count ≤ x)
    (hpages : NR_PAGES m s ≤ inner) (hpage : PAGE_SIZE ≤ inner) (hfuel : count ≤ fuel)
    (hsize : (s.inodes i).i_size < 2 ^ 31)
    (hsum : min fd_offset (s.inodes i).i_size + count < 2 ^ 32) :
    ∃ r, file_read m e sleep inner fuel i fd_offset buffer count s = .ok r ∧
      (∀ p ∈ r.passes, ¬ AllocFailed sleep inner i p) ∧
      ((∀ p ∈ r.passes, ¬ FillFailed m e sleep inner i p) →
        r.ret = ((min count ((s.inodes i).i_size - min fd_offset (s.inodes i).i_size) : Nat)
          : Int) ∧
        r.fd_offset = min fd_offset (s.inodes i).i_size +
          min count ((s.inodes i).i_size - min fd_offset (s.inodes i).i_size) ∧
        ∀ k, k < min count ((s.inodes i).i_size - min fd_offset (s.inodes i).i_size) →
          ∃ p ∈ r.passes, ∃ pg, (p.fetch = .found pg ∨ p.fetch = .filled pg) ∧
            file_read_fetch m e sleep inner i
              ((min fd_offset (s.inodes i).i_size + k) &&& PAGE_MASK) p.before
              = .ok (p.fetch, p.fetched) ∧
            r.mem.mem (buffer + k) = p.fetched.mem
              (p.fetched.data pg + (min fd_offset (s.inodes i).i_size + k) % PAGE_SIZE)) := by
  have hinv : ReadInv m inner i buffer count s free chains :=
    ⟨hpool, htwo, hapart, hblk, hpages, hpage⟩
  have ho : (if fd_offset > (s.inodes i).i_size then (s.inodes i).i_size else fd_offset)
      = min fd_offset (s.inodes i).i_size := by
    split <;> omega
  generalize hoe : min fd_offset (s.inodes i).i_size = o at *
  have hole : o ≤ (s.inodes i).i_size := by omega
  generalize hce : min count ((s.inodes i).i_size - o) = c at *
  have hc : file_read_clamp (s.inodes i).i_size o count = c := by
    by_cases hgt : (o + count) % 2 ^ 32 > (s.inodes i).i_size
    · rw [file_read_clamp_cut hgt hole (by omega)]
      rw [Nat.mod_eq_of_lt hsum] at hgt
      omega
    · rw [file_read_clamp_keep (by omega)]
      rw [Nat.mod_eq_of_lt hsum] at hgt
      omega
  have hS : (o + c) % 2 ^ 32 ≤ (s.inodes i).i_size := by
    rw [Nat.mod_eq_of_lt (by omega)]
    omega
  have hunf : file_read m e sleep inner fuel i fd_offset buffer count s =
      file_read_loop m e sleep inner i buffer fuel o c 0 s := by
    unfold file_read
    simp only [ho]
    exact file_read_loop_clamped m e sleep inner i buffer fuel 0 hc (file_read_clamp_keep hS)
  obtain ⟨r, hr, hnomem, hres⟩ := hinv.run e sleep fuel hS (by omega) (by omega)
    (show 0 + c ≤ count by omega) (show 0 + c < 2 ^ 32 by omega)
  have hrec := (file_read_loop_record fuel hr).1
  refine ⟨r, hunf ▸ hr,
    fun p hp ha => hnomem p hp ((pass_nomem_iff (hrec p hp)).2 ha), fun hfill => ?_⟩
  rcases hres with ⟨p, hp, pg, hpg⟩ | ⟨-, hret, hoff, -, -, hbytes⟩
  · exact absurd ((pass_ioerr_iff (hrec p hp)).1 ⟨pg, hpg⟩) (hfill p hp)
  · refine ⟨?_, ?_, fun k hk => ?_⟩
    · rw [hret, Nat.zero_add, s32_small (by omega)]
    · rw [hoff, Nat.mod_eq_of_lt (by omega)]
    · obtain ⟨p, hp, pg, hq, hmask, hval⟩ := hbytes k hk
      rw [Nat.add_zero] at hval
      rw [Nat.mod_eq_of_lt (show o + k < 2 ^ 32 by omega)] at hmask
      refine ⟨p, hp, pg, hq, ?_, hval⟩
      rw [← hmask]
      exact hrec p hp

/-- C17 fails on the code.  `file_read(7, fd, 0x10000000, 0x90000000)` with
`fd->offset = 0x70001000` on a file of 0x70002000 bytes, in the memory built by
`page_init(4)`: every allocation and every fill succeeds and the call returns,
but the 32-bit sum `fd->offset + count` wraps to 0x1000, which is not above
`i_size`, so `count` is never cut.  The value returned is not `min(count,
i_size - o) = 4096` but the pattern 0x90000000 read as an `int`, `fd->offset`
is left at 0x1000 and not at `o + 4096`, and byte 4096 of the buffer was copied
from a page found or filled at position 0x70002000, the end of the file. -/
theorem C17_file_read_sum_wraps :
    (long_disk.inodes 7).i_size = 0x70002000 ∧
    ∃ r, file_read plain hole_env id 4096 0x90000000 7 0x70001000 0x10000000 0x90000000
        long_disk = .ok r ∧
      (∀ p ∈ r.passes, ¬ AllocFailed id 4096 7 p ∧ ¬ FillFailed plain hole_env id 4096 7 p) ∧
      r.ret ≠ ((min 0x90000000 (0x70002000 - min 0x70001000 0x70002000) : Nat) : Int) ∧
      r.ret = -1879048192 ∧
      r.fd_offset ≠ min 0x70001000 0x70002000 +
        min 0x90000000 (0x70002000 - min 0x70001000 0x70002000) ∧
      r.fd_offset = 0x1000 ∧
      ∃ p ∈ r.passes, ∃ pg, (p.fetch = .found pg ∨ p.fetch = .filled pg) ∧
        p.position &&& PAGE_MASK = 0x70002000 ∧
        r.mem.mem (0x10000000 + 4096) = p.fetched.mem (p.fetched.data pg + 0) := by
  obtain ⟨r, hr, hok, hret, hoff, -, hbytes⟩ := long_read
  have hv : s32 0x90000000 = -1879048192 := by decide
  obtain ⟨p, hp, pg, hq, hmask, hval⟩ := hbytes 4096 (by decide)
  refine ⟨rfl, r, hr, hok, ?_, hret.trans hv, ?_, hoff, p, hp, pg, hq, hmask.trans (by decide),
    hval⟩
  · rw [hret, hv]; decide
  · rw [hoff]; decide

/-- C18 fails on the code, at the input of C17.  `file_read(7, fd, 0x10000000,
0x90000000)` with `fd->offset = 0x70001000` on a file of 0x70002000 bytes, in
the memory built by `page_init(4)`: the call returns, no allocation and no
fill fails in it, and every one of the 0x90000000 bytes of the buffer is copied
from a page found or filled for its position; yet the value returned is
negative, -1879048192, the pattern 0x90000000 of `total_read` as an `int`. -/
theorem C18_file_read_negative_result :
    ∃ r, file_read plain hole_env id 4096 0x90000000 7 0x70001000 0x10000000 0x90000000
        long_disk = .ok r ∧
      (∀ p ∈ r.passes, ¬ AllocFailed id 4096 7 p ∧ ¬ FillFailed plain hole_env id 4096 7 p) ∧
      r.ret = -1879048192 ∧ r.ret < 0 ∧ r.ret ≠ -ENOMEM ∧ r.ret ≠ - EIO ∧
      ∀ k, k < 0x90000000 → ∃ p ∈ r.passes, ∃ pg,
        (p.fetch = .found pg ∨ p.fetch = .filled pg) ∧
        p.position &&& PAGE_MASK = ((0x70001000 + k) % 2 ^ 32) &&& PAGE_MASK ∧
        r.mem.mem (0x10000000 + k) =
          p.fetched.mem (p.fetched.data pg + (0x70001000 + k) % PAGE_SIZE) := by
  obtain ⟨r, hr, hok, hret, -, -, hbytes⟩ := long_read
  have hv : r.ret = -1879048192 := hret.trans (by decide)
  refine ⟨r, hr, hok, hv, ?_, ?_, ?_, hbytes⟩
  · rw [hv]; decide
  · rw [hv]; decide
  · rw [hv]; decide

end Fiwix
